import Mathlib

/-! # AudioEngine FFT core (NE10 float32 r2c/c2r) : shallow embedding

The development follows `Src/NE10_fft_float32.cpp` and `Src/do_fft.cpp`.

Conventions of the embedding

* `ne10_int32_t` values are mathematical integers (`Int`); the factor routine only
  ever divides a positive length, so `/` and `%` on `Int` agree with the C operators
  on every value the loop sees; where a quotient of a possibly negative `int` is an
  index (`fft_len / 2` in `Do_ifftr`) it is `Int.tdiv`, the quotient of C.
* `ne10_float32_t` is an arbitrary field `R` ("arithmetic read over the reals"), and
  an arbitrary commutative ring for the butterflies of one group, which do not divide;
  the definitions are polymorphic so that they evaluate on `ℚ`, and the theorems
  instantiate them at `ℝ`.  The libm functions `cos`, `sin` and the constant
  `NE10_PI` are parameters of the allocator; the literal `TW_81` (a rounding of
  `√2/2`) is a parameter of the butterflies.
* A C array is a total map `Nat → α`; a store is `Function.update`.
* A heap block is the contents of its arrays together with its size in bytes; an access
  is inside the block when its byte offset is below that size.  The allocator requests
  a `ne10_uint32_t` number of bytes, so the size is taken modulo `2 ^ 32`; theorems about
  calls that use the scratch buffer of a plan say how far the block reaches.
-/

namespace NE10

/-! ## Constants of `Include/NE10_fft.h` -/

def NE10_OK : Int := 0
def NE10_ERR : Int := -1
def NE10_FFT_ALG_DEFAULT : Int := 0
def NE10_FFT_ALG_ANY : Int := 1
def NE10_FACTOR_DEFAULT : Int := 0
def NE10_FACTOR_EIGHT_FIRST_STAGE : Int := 1
def NE10_FACTOR_EIGHT : Int := 2
def NE10_MAXFACTORS : Nat := 32

/-! ## `ne10_factor` -/

/-- The if / else-if chain of the loop body of `ne10_factor` (source lines 104-148):
the radix `p` chosen for the remaining length `n`, and the algorithm flag after it. -/
def ne10_factor_radix (n flags alg_flag : Int) : Int × Int :=
  if Int.land flags NE10_FACTOR_EIGHT_FIRST_STAGE ≠ 0 ∧ (n = 8 ∨ n = 40 ∨ n = 24) then
    if n = 8 then (8, alg_flag)
    else if n = 24 then (3, NE10_FFT_ALG_ANY)
    else (5, NE10_FFT_ALG_ANY)
  else if Int.land flags NE10_FACTOR_EIGHT ≠ 0 ∧ n % 8 = 0 then (8, alg_flag)
  else if n % 4 = 0 then (4, alg_flag)
  else if n % 2 = 0 then (2, alg_flag)
  else if n % 5 = 0 then (5, NE10_FFT_ALG_ANY)
  else if n % 3 = 0 then (3, NE10_FFT_ALG_ANY)
  else (n, NE10_FFT_ALG_ANY)

/-- The local variables of `ne10_factor` that the do-while loop reads and writes,
together with the factor buffer. -/
structure FactorState where
  n : Int
  facbuf : Nat → Int
  p : Int
  i : Nat
  stage_num : Nat
  alg_flag : Int

/-- One pass through the body of the do-while loop (source lines 100-154). -/
def ne10_factor_step (flags : Int) (s : FactorState) : FactorState :=
  { n := s.n / (ne10_factor_radix s.n flags s.alg_flag).1
    facbuf := Function.update
      (Function.update s.facbuf (2 * s.i) (ne10_factor_radix s.n flags s.alg_flag).1)
      (2 * s.i + 1) (s.n / (ne10_factor_radix s.n flags s.alg_flag).1)
    p := (ne10_factor_radix s.n flags s.alg_flag).1
    i := s.i + 1
    stage_num := s.stage_num + 1
    alg_flag := (ne10_factor_radix s.n flags s.alg_flag).2 }

/-- The do-while loop of `ne10_factor` (source lines 99-155): the body runs once, and
again while the remaining length exceeds 1. -/
def ne10_factor_loop (flags : Int) (s : FactorState) : FactorState :=
  if 1 < (ne10_factor_step flags s).n then
    ne10_factor_loop flags (ne10_factor_step flags s)
  else ne10_factor_step flags s
termination_by s.n.toNat
decreasing_by
  rename_i h
  have hself : s.n / s.n ≤ 1 := by
    by_cases h0 : s.n = 0
    · simp [h0]
    · rw [Int.ediv_self h0]
  simp only [ne10_factor_step, ne10_factor_radix] at h ⊢
  split_ifs at h ⊢ <;> dsimp only at h ⊢ <;> omega

/-- The locals of `ne10_factor` at loop entry (source lines 88-94); `p` is not yet
assigned and is given the value 0, which the first pass overwrites. -/
def ne10_factor_init (n : Int) (facbuf : Nat → Int) : FactorState :=
  { n := n, facbuf := facbuf, p := 0, i := 1, stage_num := 0,
    alg_flag := NE10_FFT_ALG_DEFAULT }

/-- The part of `ne10_factor` after the null / non-positive guard, on a non-null
buffer: the result code and the buffer as it is left. -/
def ne10_factor_body (n : Int) (facbuf : Nat → Int) (flags : Int) : Int × (Nat → Int) :=
  let s := ne10_factor_loop flags (ne10_factor_init n facbuf)
  let buf1 := Function.update (Function.update s.facbuf 0 (s.stage_num : Int)) 1 (n / s.p)
  if s.stage_num > 21 then (NE10_ERR, buf1)
  else (NE10_OK, Function.update buf1 (2 * s.i) s.alg_flag)

/-- The function `ne10_factor (n, facbuf, ne10_factor_flags)`; a null `facbuf` is `none`.  The
result is the return code and the factor buffer as the call leaves it. -/
def ne10_factor (n : Int) (facbuf : Option (Nat → Int)) (flags : Int) :
    Int × Option (Nat → Int) :=
  match facbuf with
  | none => (NE10_ERR, none)
  | some buf =>
    if n ≤ 0 then (NE10_ERR, some buf)
    else ((ne10_factor_body n buf flags).1, some (ne10_factor_body n buf flags).2)

/-! ## Complex samples and buffers -/

/-- The type `ne10_fft_cpx_float32_t`: a complex sample as a pair of scalars. -/
@[ext]
structure ne10_fft_cpx_float32_t (R : Type) where
  r : R
  i : R

/-- The three sample arrays a butterfly call works on: the array behind its parameter
`in`, the one behind `out` and the one behind `buffer`. -/
inductive Buf where
  | input
  | out
  | buffer
  deriving DecidableEq

/-- The contents of the three arrays of a butterfly call. -/
abbrev Mem (R : Type) := Buf → Nat → ne10_fft_cpx_float32_t R

/-- The store `b[k] = v`. -/
def Mem.write {R : Type} (m : Mem R) (b : Buf) (k : Nat) (v : ne10_fft_cpx_float32_t R) :
    Mem R :=
  Function.update m b (Function.update (m b) k v)

section Kernels

variable {R : Type} [CommRing R]

/-! ## The butterflies (one group of inputs to one group of outputs) -/

/-- The forward radix-8 butterfly of the first stage (source lines 216-295): from
`src[0], src[fstride], ..., src[7*fstride]` to `scratch_out[0..7]`. -/
def radix8_butterfly_forward (TW_81 : R) (x0 x1 x2 x3 x4 x5 x6 x7 : ne10_fft_cpx_float32_t R) :
    Nat → ne10_fft_cpx_float32_t R :=
  let scratch_in0 : ne10_fft_cpx_float32_t R := ⟨x0.r + x4.r, x0.i + x4.i⟩
  let scratch_in1 : ne10_fft_cpx_float32_t R := ⟨x0.r - x4.r, x0.i - x4.i⟩
  let scratch_in2 : ne10_fft_cpx_float32_t R := ⟨x1.r + x5.r, x1.i + x5.i⟩
  let scratch_in3 : ne10_fft_cpx_float32_t R := ⟨x1.r - x5.r, x1.i - x5.i⟩
  let scratch_in4 : ne10_fft_cpx_float32_t R := ⟨x2.r + x6.r, x2.i + x6.i⟩
  let scratch_in5 : ne10_fft_cpx_float32_t R := ⟨x2.r - x6.r, x2.i - x6.i⟩
  let scratch_in6 : ne10_fft_cpx_float32_t R := ⟨x3.r + x7.r, x3.i + x7.i⟩
  let scratch_in7 : ne10_fft_cpx_float32_t R := ⟨x3.r - x7.r, x3.i - x7.i⟩
  let scratch0 := scratch_in0
  let scratch1 := scratch_in1
  let scratch2 := scratch_in2
  let scratch4 := scratch_in4
  let scratch6 := scratch_in6
  let scratch5 : ne10_fft_cpx_float32_t R := ⟨scratch_in5.i, -scratch_in5.r⟩
  let scratch3 : ne10_fft_cpx_float32_t R :=
    ⟨(scratch_in3.r + scratch_in3.i) * TW_81, (scratch_in3.i - scratch_in3.r) * TW_81⟩
  let scratch7 : ne10_fft_cpx_float32_t R :=
    ⟨(scratch_in7.r - scratch_in7.i) * TW_81, (scratch_in7.i + scratch_in7.r) * TW_81⟩
  let scratch8 : ne10_fft_cpx_float32_t R := ⟨scratch0.r + scratch4.r, scratch0.i + scratch4.i⟩
  let scratch9 : ne10_fft_cpx_float32_t R := ⟨scratch1.r + scratch5.r, scratch1.i + scratch5.i⟩
  let scratch10 : ne10_fft_cpx_float32_t R := ⟨scratch0.r - scratch4.r, scratch0.i - scratch4.i⟩
  let scratch11 : ne10_fft_cpx_float32_t R := ⟨scratch1.r - scratch5.r, scratch1.i - scratch5.i⟩
  let scratch12 : ne10_fft_cpx_float32_t R := ⟨scratch2.r + scratch6.r, scratch2.i + scratch6.i⟩
  let scratch13 : ne10_fft_cpx_float32_t R := ⟨scratch3.r - scratch7.r, scratch3.i - scratch7.i⟩
  let scratch14 : ne10_fft_cpx_float32_t R := ⟨scratch2.r - scratch6.r, scratch2.i - scratch6.i⟩
  let scratch15 : ne10_fft_cpx_float32_t R := ⟨scratch3.r + scratch7.r, scratch3.i + scratch7.i⟩
  fun q => match q with
    | 0 => ⟨scratch8.r + scratch12.r, scratch8.i + scratch12.i⟩
    | 1 => ⟨scratch9.r + scratch13.r, scratch9.i + scratch13.i⟩
    | 2 => ⟨scratch10.r + scratch14.i, scratch10.i - scratch14.r⟩
    | 3 => ⟨scratch11.r + scratch15.i, scratch11.i - scratch15.r⟩
    | 4 => ⟨scratch8.r - scratch12.r, scratch8.i - scratch12.i⟩
    | 5 => ⟨scratch9.r - scratch13.r, scratch9.i - scratch13.i⟩
    | 6 => ⟨scratch10.r - scratch14.i, scratch10.i + scratch14.r⟩
    | _ => ⟨scratch11.r - scratch15.i, scratch11.i + scratch15.r⟩

/-- The inverse radix-8 butterfly of the first stage (source lines 557-625). -/
def radix8_butterfly_inverse (TW_81 : R) (x0 x1 x2 x3 x4 x5 x6 x7 : ne10_fft_cpx_float32_t R) :
    Nat → ne10_fft_cpx_float32_t R :=
  let scratch_in0 : ne10_fft_cpx_float32_t R := ⟨x0.r + x4.r, x0.i + x4.i⟩
  let scratch_in1 : ne10_fft_cpx_float32_t R := ⟨x0.r - x4.r, x0.i - x4.i⟩
  let scratch_in2 : ne10_fft_cpx_float32_t R := ⟨x1.r + x5.r, x1.i + x5.i⟩
  let scratch_in3 : ne10_fft_cpx_float32_t R := ⟨x1.r - x5.r, x1.i - x5.i⟩
  let scratch_in4 : ne10_fft_cpx_float32_t R := ⟨x2.r + x6.r, x2.i + x6.i⟩
  let scratch_in5 : ne10_fft_cpx_float32_t R := ⟨x2.r - x6.r, x2.i - x6.i⟩
  let scratch_in6 : ne10_fft_cpx_float32_t R := ⟨x3.r + x7.r, x3.i + x7.i⟩
  let scratch_in7 : ne10_fft_cpx_float32_t R := ⟨x3.r - x7.r, x3.i - x7.i⟩
  let scratch0 := scratch_in0
  let scratch1 := scratch_in1
  let scratch2 := scratch_in2
  let scratch3 : ne10_fft_cpx_float32_t R :=
    ⟨(scratch_in3.r - scratch_in3.i) * TW_81, (scratch_in3.i + scratch_in3.r) * TW_81⟩
  let scratch4 := scratch_in4
  let scratch5 : ne10_fft_cpx_float32_t R := ⟨-scratch_in5.i, scratch_in5.r⟩
  let scratch6 : ne10_fft_cpx_float32_t R := ⟨scratch_in6.r, scratch_in6.i⟩
  let scratch7 : ne10_fft_cpx_float32_t R :=
    ⟨(scratch_in7.r + scratch_in7.i) * TW_81, (scratch_in7.i - scratch_in7.r) * TW_81⟩
  let scratch8 : ne10_fft_cpx_float32_t R := ⟨scratch0.r + scratch4.r, scratch0.i + scratch4.i⟩
  let scratch9 : ne10_fft_cpx_float32_t R := ⟨scratch1.r + scratch5.r, scratch1.i + scratch5.i⟩
  let scratch10 : ne10_fft_cpx_float32_t R := ⟨scratch0.r - scratch4.r, scratch0.i - scratch4.i⟩
  let scratch11 : ne10_fft_cpx_float32_t R := ⟨scratch1.r - scratch5.r, scratch1.i - scratch5.i⟩
  let scratch12 : ne10_fft_cpx_float32_t R := ⟨scratch2.r + scratch6.r, scratch2.i + scratch6.i⟩
  let scratch13 : ne10_fft_cpx_float32_t R := ⟨scratch3.r - scratch7.r, scratch3.i - scratch7.i⟩
  let scratch14 : ne10_fft_cpx_float32_t R := ⟨scratch2.r - scratch6.r, scratch2.i - scratch6.i⟩
  let scratch15 : ne10_fft_cpx_float32_t R := ⟨scratch3.r + scratch7.r, scratch3.i + scratch7.i⟩
  fun q => match q with
    | 0 => ⟨scratch8.r + scratch12.r, scratch8.i + scratch12.i⟩
    | 1 => ⟨scratch9.r + scratch13.r, scratch9.i + scratch13.i⟩
    | 2 => ⟨scratch10.r - scratch14.i, scratch10.i + scratch14.r⟩
    | 3 => ⟨scratch11.r - scratch15.i, scratch11.i + scratch15.r⟩
    | 4 => ⟨scratch8.r - scratch12.r, scratch8.i - scratch12.i⟩
    | 5 => ⟨scratch9.r - scratch13.r, scratch9.i - scratch13.i⟩
    | 6 => ⟨scratch10.r + scratch14.i, scratch10.i - scratch14.r⟩
    | _ => ⟨scratch11.r + scratch15.i, scratch11.i - scratch15.r⟩

/-- The forward radix-4 butterfly of the first stage (source lines 320-346). -/
def radix4_butterfly_forward (scratch_in0 scratch_in1 scratch_in2 scratch_in3 :
    ne10_fft_cpx_float32_t R) : Nat → ne10_fft_cpx_float32_t R :=
  let scratch0 : ne10_fft_cpx_float32_t R :=
    ⟨scratch_in0.r + scratch_in2.r, scratch_in0.i + scratch_in2.i⟩
  let scratch1 : ne10_fft_cpx_float32_t R :=
    ⟨scratch_in0.r - scratch_in2.r, scratch_in0.i - scratch_in2.i⟩
  let scratch2 : ne10_fft_cpx_float32_t R :=
    ⟨scratch_in1.r + scratch_in3.r, scratch_in1.i + scratch_in3.i⟩
  let scratch3 : ne10_fft_cpx_float32_t R :=
    ⟨scratch_in1.r - scratch_in3.r, scratch_in1.i - scratch_in3.i⟩
  fun q => match q with
    | 0 => ⟨scratch0.r + scratch2.r, scratch0.i + scratch2.i⟩
    | 1 => ⟨scratch1.r + scratch3.i, scratch1.i - scratch3.r⟩
    | 2 => ⟨scratch0.r - scratch2.r, scratch0.i - scratch2.i⟩
    | _ => ⟨scratch1.r - scratch3.i, scratch1.i + scratch3.r⟩

/-- The inverse radix-4 butterfly of the first stage (source lines 660-685). -/
def radix4_butterfly_inverse (scratch_in0 scratch_in1 scratch_in2 scratch_in3 :
    ne10_fft_cpx_float32_t R) : Nat → ne10_fft_cpx_float32_t R :=
  let scratch0 : ne10_fft_cpx_float32_t R :=
    ⟨scratch_in0.r + scratch_in2.r, scratch_in0.i + scratch_in2.i⟩
  let scratch1 : ne10_fft_cpx_float32_t R :=
    ⟨scratch_in0.r - scratch_in2.r, scratch_in0.i - scratch_in2.i⟩
  let scratch2 : ne10_fft_cpx_float32_t R :=
    ⟨scratch_in1.r + scratch_in3.r, scratch_in1.i + scratch_in3.i⟩
  let scratch3 : ne10_fft_cpx_float32_t R :=
    ⟨scratch_in1.r - scratch_in3.r, scratch_in1.i - scratch_in3.i⟩
  fun q => match q with
    | 0 => ⟨scratch0.r + scratch2.r, scratch0.i + scratch2.i⟩
    | 1 => ⟨scratch1.r - scratch3.i, scratch1.i + scratch3.r⟩
    | 2 => ⟨scratch0.r - scratch2.r, scratch0.i - scratch2.i⟩
    | _ => ⟨scratch1.r + scratch3.i, scratch1.i - scratch3.r⟩

/-- The forward radix-4 butterfly with twiddles of the middle and last stages (source
lines 391-429 and, identically, 469-507). -/
def radix4_twiddle_butterfly_forward
    (scratch_tw0 scratch_tw1 scratch_tw2 : ne10_fft_cpx_float32_t R)
    (scratch_in0 scratch_in1 scratch_in2 scratch_in3 : ne10_fft_cpx_float32_t R) :
    Nat → ne10_fft_cpx_float32_t R :=
  let scratch0 := scratch_in0
  let scratch1 : ne10_fft_cpx_float32_t R :=
    ⟨scratch_in1.r * scratch_tw0.r - scratch_in1.i * scratch_tw0.i,
     scratch_in1.i * scratch_tw0.r + scratch_in1.r * scratch_tw0.i⟩
  let scratch2 : ne10_fft_cpx_float32_t R :=
    ⟨scratch_in2.r * scratch_tw1.r - scratch_in2.i * scratch_tw1.i,
     scratch_in2.i * scratch_tw1.r + scratch_in2.r * scratch_tw1.i⟩
  let scratch3 : ne10_fft_cpx_float32_t R :=
    ⟨scratch_in3.r * scratch_tw2.r - scratch_in3.i * scratch_tw2.i,
     scratch_in3.i * scratch_tw2.r + scratch_in3.r * scratch_tw2.i⟩
  let scratch4 : ne10_fft_cpx_float32_t R := ⟨scratch0.r + scratch2.r, scratch0.i + scratch2.i⟩
  let scratch5 : ne10_fft_cpx_float32_t R := ⟨scratch0.r - scratch2.r, scratch0.i - scratch2.i⟩
  let scratch6 : ne10_fft_cpx_float32_t R := ⟨scratch1.r + scratch3.r, scratch1.i + scratch3.i⟩
  let scratch7 : ne10_fft_cpx_float32_t R := ⟨scratch1.r - scratch3.r, scratch1.i - scratch3.i⟩
  fun q => match q with
    | 0 => ⟨scratch4.r + scratch6.r, scratch4.i + scratch6.i⟩
    | 1 => ⟨scratch5.r + scratch7.i, scratch5.i - scratch7.r⟩
    | 2 => ⟨scratch4.r - scratch6.r, scratch4.i - scratch6.i⟩
    | _ => ⟨scratch5.r - scratch7.i, scratch5.i + scratch7.r⟩

/-- The inverse radix-4 butterfly with twiddles of the middle stages (source lines
740-777). -/
def radix4_twiddle_butterfly_inverse
    (scratch_tw0 scratch_tw1 scratch_tw2 : ne10_fft_cpx_float32_t R)
    (scratch_in0 scratch_in1 scratch_in2 scratch_in3 : ne10_fft_cpx_float32_t R) :
    Nat → ne10_fft_cpx_float32_t R :=
  let scratch0 := scratch_in0
  let scratch1 : ne10_fft_cpx_float32_t R :=
    ⟨scratch_in1.r * scratch_tw0.r + scratch_in1.i * scratch_tw0.i,
     scratch_in1.i * scratch_tw0.r - scratch_in1.r * scratch_tw0.i⟩
  let scratch2 : ne10_fft_cpx_float32_t R :=
    ⟨scratch_in2.r * scratch_tw1.r + scratch_in2.i * scratch_tw1.i,
     scratch_in2.i * scratch_tw1.r - scratch_in2.r * scratch_tw1.i⟩
  let scratch3 : ne10_fft_cpx_float32_t R :=
    ⟨scratch_in3.r * scratch_tw2.r + scratch_in3.i * scratch_tw2.i,
     scratch_in3.i * scratch_tw2.r - scratch_in3.r * scratch_tw2.i⟩
  let scratch4 : ne10_fft_cpx_float32_t R := ⟨scratch0.r + scratch2.r, scratch0.i + scratch2.i⟩
  let scratch5 : ne10_fft_cpx_float32_t R := ⟨scratch0.r - scratch2.r, scratch0.i - scratch2.i⟩
  let scratch6 : ne10_fft_cpx_float32_t R := ⟨scratch1.r + scratch3.r, scratch1.i + scratch3.i⟩
  let scratch7 : ne10_fft_cpx_float32_t R := ⟨scratch1.r - scratch3.r, scratch1.i - scratch3.i⟩
  fun q => match q with
    | 0 => ⟨scratch4.r + scratch6.r, scratch4.i + scratch6.i⟩
    | 1 => ⟨scratch5.r - scratch7.i, scratch5.i + scratch7.r⟩
    | 2 => ⟨scratch4.r - scratch6.r, scratch4.i - scratch6.i⟩
    | _ => ⟨scratch5.r + scratch7.i, scratch5.i - scratch7.r⟩

/-- The inverse radix-4 butterfly with twiddles of the last stage (source lines 817-855):
as in the middle stages, and every output is multiplied by `one_by_nfft`. -/
def radix4_twiddle_butterfly_inverse_scaled (one_by_nfft : R)
    (scratch_tw0 scratch_tw1 scratch_tw2 : ne10_fft_cpx_float32_t R)
    (scratch_in0 scratch_in1 scratch_in2 scratch_in3 : ne10_fft_cpx_float32_t R) :
    Nat → ne10_fft_cpx_float32_t R :=
  let scratch0 := scratch_in0
  let scratch1 : ne10_fft_cpx_float32_t R :=
    ⟨scratch_in1.r * scratch_tw0.r + scratch_in1.i * scratch_tw0.i,
     scratch_in1.i * scratch_tw0.r - scratch_in1.r * scratch_tw0.i⟩
  let scratch2 : ne10_fft_cpx_float32_t R :=
    ⟨scratch_in2.r * scratch_tw1.r + scratch_in2.i * scratch_tw1.i,
     scratch_in2.i * scratch_tw1.r - scratch_in2.r * scratch_tw1.i⟩
  let scratch3 : ne10_fft_cpx_float32_t R :=
    ⟨scratch_in3.r * scratch_tw2.r + scratch_in3.i * scratch_tw2.i,
     scratch_in3.i * scratch_tw2.r - scratch_in3.r * scratch_tw2.i⟩
  let scratch4 : ne10_fft_cpx_float32_t R := ⟨scratch0.r + scratch2.r, scratch0.i + scratch2.i⟩
  let scratch5 : ne10_fft_cpx_float32_t R := ⟨scratch0.r - scratch2.r, scratch0.i - scratch2.i⟩
  let scratch6 : ne10_fft_cpx_float32_t R := ⟨scratch1.r + scratch3.r, scratch1.i + scratch3.i⟩
  let scratch7 : ne10_fft_cpx_float32_t R := ⟨scratch1.r - scratch3.r, scratch1.i - scratch3.i⟩
  fun q => match q with
    | 0 => ⟨(scratch4.r + scratch6.r) * one_by_nfft, (scratch4.i + scratch6.i) * one_by_nfft⟩
    | 1 => ⟨(scratch5.r - scratch7.i) * one_by_nfft, (scratch5.i + scratch7.r) * one_by_nfft⟩
    | 2 => ⟨(scratch4.r - scratch6.r) * one_by_nfft, (scratch4.i - scratch6.i) * one_by_nfft⟩
    | _ => ⟨(scratch5.r + scratch7.i) * one_by_nfft, (scratch5.i - scratch7.r) * one_by_nfft⟩

end Kernels

section Stages

variable {R : Type} [Field R]

/-! ## The stage loops

The loops of the forward and of the inverse butterfly have the same text apart from the
butterfly they apply, so each loop is written once, with the butterfly as a parameter.
Pointers into an array are an array name (`Buf`) and an offset. -/

/-- The variables of the first-stage loops: the arrays, `src` (an offset into the input
array) and `dst` (an offset into the array behind `out`). -/
structure FirstStageState (R : Type) where
  mem : Mem R
  src : Nat
  dst : Nat

/-- The first-stage loop for `first_radix == 8` (source lines 212-308, 553-638):
`for (f_count = 0; f_count < fstride; f_count++)` with `dst = &out[f_count * 8]`, the
eight loads at `src[0], src[fstride], ..., src[fstride * 7]`, the eight stores
`dst[0..7]`, and `src++`. -/
def first_stage_radix8
    (bf : ne10_fft_cpx_float32_t R → ne10_fft_cpx_float32_t R → ne10_fft_cpx_float32_t R →
      ne10_fft_cpx_float32_t R → ne10_fft_cpx_float32_t R → ne10_fft_cpx_float32_t R →
      ne10_fft_cpx_float32_t R → ne10_fft_cpx_float32_t R → Nat → ne10_fft_cpx_float32_t R)
    (fstride : Nat) (mem : Mem R) : Mem R :=
  ((List.range fstride).foldl
    (fun (s : FirstStageState R) (f_count : Nat) =>
      let dst := f_count * 8
      let scratch_out := bf (s.mem Buf.input s.src) (s.mem Buf.input (s.src + fstride))
        (s.mem Buf.input (s.src + fstride * 2)) (s.mem Buf.input (s.src + fstride * 3))
        (s.mem Buf.input (s.src + fstride * 4)) (s.mem Buf.input (s.src + fstride * 5))
        (s.mem Buf.input (s.src + fstride * 6)) (s.mem Buf.input (s.src + fstride * 7))
      { mem := ((((((((s.mem.write Buf.out dst (scratch_out 0)).write Buf.out (dst + 1)
            (scratch_out 1)).write Buf.out (dst + 2) (scratch_out 2)).write Buf.out (dst + 3)
            (scratch_out 3)).write Buf.out (dst + 4) (scratch_out 4)).write Buf.out (dst + 5)
            (scratch_out 5)).write Buf.out (dst + 6) (scratch_out 6)).write Buf.out (dst + 7)
            (scratch_out 7))
        src := s.src + 1
        dst := dst })
    { mem := mem, src := 0, dst := 0 }).mem

/-- The first-stage loop for `first_radix == 4` (source lines 317-355, 657-694):
`for (f_count = fstride; f_count; f_count--)` with the four loads at
`src[0], src[fstride * 1], src[fstride * 2], src[fstride * 3]`, the four stores
`*dst++`, and `src++`. -/
def first_stage_radix4
    (bf : ne10_fft_cpx_float32_t R → ne10_fft_cpx_float32_t R → ne10_fft_cpx_float32_t R →
      ne10_fft_cpx_float32_t R → Nat → ne10_fft_cpx_float32_t R)
    (fstride : Nat) (mem : Mem R) : Mem R :=
  ((fun (s : FirstStageState R) =>
      let scratch_out := bf (s.mem Buf.input s.src) (s.mem Buf.input (s.src + fstride * 1))
        (s.mem Buf.input (s.src + fstride * 2)) (s.mem Buf.input (s.src + fstride * 3))
      { mem := ((((s.mem.write Buf.out s.dst (scratch_out 0)).write Buf.out (s.dst + 1)
            (scratch_out 1)).write Buf.out (s.dst + 2) (scratch_out 2)).write Buf.out
            (s.dst + 3) (scratch_out 3))
        src := s.src + 1
        dst := s.dst + 4 })^[fstride]
    { mem := mem, src := 0, dst := 0 }).mem

/-- The variables of the inner loop of a radix-4 stage with twiddles: the arrays and the
pointers `src`, `dst` and `tw` as offsets (`tw` into the twiddle table). -/
structure StageState (R : Type) where
  mem : Mem R
  src : Nat
  dst : Nat
  tw : Nat

/-- One pass of the inner (`m_count`) loop of a middle or last stage (source lines
390-439 and 468-517; 739-787 and 816-865): three twiddle loads, four sample loads at
stride `step` from the array `in_ptr`, the butterfly, four stores at stride `dstride` into
the array `out_ptr`, then `tw++, src++, dst++`.  In a middle stage `dstride` is `mstride`,
in the last stage it is `step`. -/
def radix4_stage_body
    (bf : ne10_fft_cpx_float32_t R → ne10_fft_cpx_float32_t R → ne10_fft_cpx_float32_t R →
      ne10_fft_cpx_float32_t R → ne10_fft_cpx_float32_t R → ne10_fft_cpx_float32_t R →
      ne10_fft_cpx_float32_t R → Nat → ne10_fft_cpx_float32_t R)
    (tw_table : Nat → ne10_fft_cpx_float32_t R) (in_ptr out_ptr : Buf)
    (mstride step dstride : Nat) (s : StageState R) : StageState R :=
  let scratch_out := bf (tw_table s.tw) (tw_table (s.tw + mstride * 1))
    (tw_table (s.tw + mstride * 2))
    (s.mem in_ptr s.src) (s.mem in_ptr (s.src + step * 1))
    (s.mem in_ptr (s.src + step * 2)) (s.mem in_ptr (s.src + step * 3))
  { mem := ((((s.mem.write out_ptr s.dst (scratch_out 0)).write out_ptr (s.dst + dstride * 1)
        (scratch_out 1)).write out_ptr (s.dst + dstride * 2) (scratch_out 2)).write out_ptr
        (s.dst + dstride * 3) (scratch_out 3))
    src := s.src + 1
    dst := s.dst + 1
    tw := s.tw + 1 }

/-- One middle stage (source lines 383-441, 732-789): `src = in`, then for each
`f_count < fstride`: `dst = &out[f_count * (mstride * 4)]`, `tw = twiddles`, and `mstride`
passes of the inner loop. -/
def middle_stage
    (bf : ne10_fft_cpx_float32_t R → ne10_fft_cpx_float32_t R → ne10_fft_cpx_float32_t R →
      ne10_fft_cpx_float32_t R → ne10_fft_cpx_float32_t R → ne10_fft_cpx_float32_t R →
      ne10_fft_cpx_float32_t R → Nat → ne10_fft_cpx_float32_t R)
    (tw_table : Nat → ne10_fft_cpx_float32_t R) (twiddles : Nat) (in_ptr out_ptr : Buf)
    (fstride mstride step : Nat) (mem : Mem R) : Mem R :=
  ((List.range fstride).foldl
    (fun (s : StageState R) (f_count : Nat) =>
      (radix4_stage_body bf tw_table in_ptr out_ptr mstride step mstride)^[mstride]
        { s with dst := f_count * (mstride * 4), tw := twiddles })
    { mem := mem, src := 0, dst := 0, tw := twiddles }).mem

/-- The last stage (source lines 457-519, 805-867): `src = in`, `dst = out_final`, then
`fstride` times: `tw = twiddles` and `mstride` passes of the inner loop, storing at stride
`step`. -/
def last_stage
    (bf : ne10_fft_cpx_float32_t R → ne10_fft_cpx_float32_t R → ne10_fft_cpx_float32_t R →
      ne10_fft_cpx_float32_t R → ne10_fft_cpx_float32_t R → ne10_fft_cpx_float32_t R →
      ne10_fft_cpx_float32_t R → Nat → ne10_fft_cpx_float32_t R)
    (tw_table : Nat → ne10_fft_cpx_float32_t R) (twiddles : Nat) (in_ptr : Buf)
    (fstride mstride step : Nat) (mem : Mem R) : Mem R :=
  ((fun (s : StageState R) =>
      (radix4_stage_body bf tw_table in_ptr Buf.out mstride step step)^[mstride]
        { s with tw := twiddles })^[fstride]
    { mem := mem, src := 0, dst := 0, tw := twiddles }).mem

/-- The variables that the loop over the middle stages updates. -/
structure ButterflyState (R : Type) where
  mem : Mem R
  in_ptr : Buf
  out_ptr : Buf
  twiddles : Nat
  mstride : Nat
  fstride : Nat
  stage_count : Int

/-- The loop over the middle stages, `for (; stage_count > 1; stage_count--)` (source
lines 381-452, 730-800), run for the given number of passes: a middle stage, then
`twiddles += mstride * 3; mstride *= 4; fstride /= 4` and the swap of `in` and `out`. -/
def middle_stages
    (bf : ne10_fft_cpx_float32_t R → ne10_fft_cpx_float32_t R → ne10_fft_cpx_float32_t R →
      ne10_fft_cpx_float32_t R → ne10_fft_cpx_float32_t R → ne10_fft_cpx_float32_t R →
      ne10_fft_cpx_float32_t R → Nat → ne10_fft_cpx_float32_t R)
    (tw_table : Nat → ne10_fft_cpx_float32_t R) (step : Nat) :
    Nat → ButterflyState R → ButterflyState R
  | 0, s => s
  | passes + 1, s =>
    middle_stages bf tw_table step passes
      { mem := middle_stage bf tw_table s.twiddles s.in_ptr s.out_ptr s.fstride s.mstride
          step s.mem
        in_ptr := s.out_ptr
        out_ptr := s.in_ptr
        twiddles := s.twiddles + s.mstride * 3
        mstride := s.mstride * 4
        fstride := s.fstride / 4
        stage_count := s.stage_count - 1 }

/-- Everything after the first stage (source lines 376-520, 725-868): `in = out;
out = buffer`, the middle stages while `stage_count > 1`, and the last stage if
`stage_count` is not 0.  `bf_mid` and `bf_last` are the butterflies of the middle stages
and of the last stage. -/
def butterfly_stages
    (bf_mid bf_last : ne10_fft_cpx_float32_t R → ne10_fft_cpx_float32_t R →
      ne10_fft_cpx_float32_t R → ne10_fft_cpx_float32_t R → ne10_fft_cpx_float32_t R →
      ne10_fft_cpx_float32_t R → ne10_fft_cpx_float32_t R → Nat → ne10_fft_cpx_float32_t R)
    (tw_table : Nat → ne10_fft_cpx_float32_t R) (mem : Mem R)
    (stage_count : Int) (fstride mstride step : Nat) : Mem R :=
  let s := middle_stages bf_mid tw_table step (stage_count - 1).toNat
    { mem := mem, in_ptr := Buf.out, out_ptr := Buf.buffer, twiddles := 0,
      mstride := mstride, fstride := fstride, stage_count := stage_count }
  if s.stage_count ≠ 0 then
    last_stage bf_last tw_table s.twiddles s.in_ptr s.fstride s.mstride step s.mem
  else s.mem

/-- The scaling loop of the inverse butterfly when the first stage is the only one
(source lines 645-653, 701-709): `dst[f_count] *= one_by_nfft` for `f_count < count`. -/
def scale_first_stage (one_by_nfft : R) (count : Nat) (mem : Mem R) : Mem R :=
  (List.range count).foldl
    (fun (m : Mem R) (f_count : Nat) =>
      m.write Buf.out f_count
        ⟨(m Buf.out f_count).r * one_by_nfft, (m Buf.out f_count).i * one_by_nfft⟩)
    mem

/-! ## The two butterflies -/

/-- The function `ne10_mixed_radix_butterfly_float32_c (out, in, factors, twiddles, buffer)`: the three
arrays are `mem`, the result is their final contents.  `stage_count << 1` is written
`2 * stage_count`. -/
def ne10_mixed_radix_butterfly_float32_c (TW_81 : R) (mem : Mem R) (factors : Nat → Int)
    (twiddles : Nat → ne10_fft_cpx_float32_t R) : Mem R :=
  let stage_count : Int := factors 0
  let fstride : Nat := (factors 1).toNat
  let mstride : Nat := (factors (2 * stage_count - 1).toNat).toNat
  let first_radix : Int := factors (2 * stage_count).toNat
  if first_radix = 8 then
    butterfly_stages radix4_twiddle_butterfly_forward radix4_twiddle_butterfly_forward twiddles
      (first_stage_radix8 (radix8_butterfly_forward TW_81) fstride mem)
      (stage_count - 1) (fstride / 4) mstride (fstride * 2)
  else if first_radix = 4 then
    butterfly_stages radix4_twiddle_butterfly_forward radix4_twiddle_butterfly_forward twiddles
      (first_stage_radix4 radix4_butterfly_forward fstride mem)
      (stage_count - 1) (fstride / 4) mstride fstride
  else if first_radix = 2 then
    (mem.write Buf.out 0
        ⟨(mem Buf.input 0).r + (mem Buf.input 1).r, (mem Buf.input 0).i + (mem Buf.input 1).i⟩
      ).write Buf.out 1
        ⟨(mem Buf.input 0).r - (mem Buf.input 1).r, (mem Buf.input 0).i - (mem Buf.input 1).i⟩
  else
    mem.write Buf.out 0 (mem Buf.input 0)

/-- The function `ne10_mixed_radix_butterfly_inverse_float32_c (out, in, factors, twiddles, buffer)`. -/
def ne10_mixed_radix_butterfly_inverse_float32_c (TW_81 : R) (mem : Mem R)
    (factors : Nat → Int) (twiddles : Nat → ne10_fft_cpx_float32_t R) : Mem R :=
  let stage_count : Int := factors 0
  let fstride : Nat := (factors 1).toNat
  let mstride : Nat := (factors (2 * stage_count - 1).toNat).toNat
  let first_radix : Int := factors (2 * stage_count).toNat
  let one_by_nfft : R := 1 / (((fstride : Int) * first_radix : Int) : R)
  if first_radix = 8 then
    let mem1 := first_stage_radix8 (radix8_butterfly_inverse TW_81) fstride mem
    let mem2 := if stage_count - 1 = 0 then scale_first_stage one_by_nfft 8 mem1 else mem1
    butterfly_stages radix4_twiddle_butterfly_inverse
      (radix4_twiddle_butterfly_inverse_scaled one_by_nfft) twiddles mem2
      (stage_count - 1) (fstride / 4) mstride (fstride * 2)
  else if first_radix = 4 then
    let mem1 := first_stage_radix4 radix4_butterfly_inverse fstride mem
    let mem2 := if stage_count - 1 = 0 then scale_first_stage one_by_nfft 4 mem1 else mem1
    butterfly_stages radix4_twiddle_butterfly_inverse
      (radix4_twiddle_butterfly_inverse_scaled one_by_nfft) twiddles mem2
      (stage_count - 1) (fstride / 4) mstride fstride
  else if first_radix = 2 then
    (mem.write Buf.out 0
        ⟨((mem Buf.input 0).r + (mem Buf.input 1).r) * one_by_nfft,
         ((mem Buf.input 0).i + (mem Buf.input 1).i) * one_by_nfft⟩
      ).write Buf.out 1
        ⟨((mem Buf.input 0).r - (mem Buf.input 1).r) * one_by_nfft,
         ((mem Buf.input 0).i - (mem Buf.input 1).i) * one_by_nfft⟩
  else
    mem.write Buf.out 0 (mem Buf.input 0)

end Stages

section Plan

variable {R : Type} [Field R]

/-! ## The real / complex split -/

/-- The function `ne10_fft_split_r2c_1d_float32`, the stores before the loop (source lines 879-884):
`dst[0].r = tdc.r + tdc.i; dst[ncfft].r = tdc.r - tdc.i; dst[ncfft].i = dst[0].i = 0`. -/
def split_r2c_boundary (dst src : Nat → ne10_fft_cpx_float32_t R) (ncfft : Nat) :
    Nat → ne10_fft_cpx_float32_t R :=
  let tdc : ne10_fft_cpx_float32_t R := ⟨(src 0).r, (src 0).i⟩
  let d1 := Function.update dst 0 ⟨tdc.r + tdc.i, (dst 0).i⟩
  let d2 := Function.update d1 ncfft ⟨tdc.r - tdc.i, (d1 ncfft).i⟩
  let d3 := Function.update d2 0 ⟨(d2 0).r, 0⟩
  Function.update d3 ncfft ⟨(d3 ncfft).r, 0⟩

/-- The value that pass `k` of the loop of `ne10_fft_split_r2c_1d_float32` stores at
`dst[k]` (source lines 888-902). -/
def split_r2c_store_k (src twiddles : Nat → ne10_fft_cpx_float32_t R) (ncfft k : Nat) :
    ne10_fft_cpx_float32_t R :=
  let fpk := src k
  let fpnk : ne10_fft_cpx_float32_t R := ⟨(src (ncfft - k)).r, -(src (ncfft - k)).i⟩
  let f1k : ne10_fft_cpx_float32_t R := ⟨fpk.r + fpnk.r, fpk.i + fpnk.i⟩
  let f2k : ne10_fft_cpx_float32_t R := ⟨fpk.r - fpnk.r, fpk.i - fpnk.i⟩
  let tw : ne10_fft_cpx_float32_t R :=
    ⟨f2k.r * (twiddles (k - 1)).r - f2k.i * (twiddles (k - 1)).i,
     f2k.r * (twiddles (k - 1)).i + f2k.i * (twiddles (k - 1)).r⟩
  ⟨(f1k.r + tw.r) * (1 / 2), (f1k.i + tw.i) * (1 / 2)⟩

/-- The value that pass `k` of the loop of `ne10_fft_split_r2c_1d_float32` stores at
`dst[ncfft - k]` (source lines 888-899, 903-904). -/
def split_r2c_store_nk (src twiddles : Nat → ne10_fft_cpx_float32_t R) (ncfft k : Nat) :
    ne10_fft_cpx_float32_t R :=
  let fpk := src k
  let fpnk : ne10_fft_cpx_float32_t R := ⟨(src (ncfft - k)).r, -(src (ncfft - k)).i⟩
  let f1k : ne10_fft_cpx_float32_t R := ⟨fpk.r + fpnk.r, fpk.i + fpnk.i⟩
  let f2k : ne10_fft_cpx_float32_t R := ⟨fpk.r - fpnk.r, fpk.i - fpnk.i⟩
  let tw : ne10_fft_cpx_float32_t R :=
    ⟨f2k.r * (twiddles (k - 1)).r - f2k.i * (twiddles (k - 1)).i,
     f2k.r * (twiddles (k - 1)).i + f2k.i * (twiddles (k - 1)).r⟩
  ⟨(f1k.r - tw.r) * (1 / 2), (tw.i - f1k.i) * (1 / 2)⟩

/-- One pass of the loop of `ne10_fft_split_r2c_1d_float32` (source lines 888-904): the
store at `dst[k]`, then the store at `dst[ncfft - k]`. -/
def split_r2c_body (src twiddles : Nat → ne10_fft_cpx_float32_t R) (ncfft : Nat)
    (dst : Nat → ne10_fft_cpx_float32_t R) (k : Nat) : Nat → ne10_fft_cpx_float32_t R :=
  Function.update (Function.update dst k (split_r2c_store_k src twiddles ncfft k))
    (ncfft - k) (split_r2c_store_nk src twiddles ncfft k)

/-- The loop of `ne10_fft_split_r2c_1d_float32`: `for (k = 1; k <= ncfft / 2; ++k)`. -/
def split_r2c_loop (src twiddles : Nat → ne10_fft_cpx_float32_t R) (ncfft : Nat)
    (dst : Nat → ne10_fft_cpx_float32_t R) : Nat → ne10_fft_cpx_float32_t R :=
  (List.range' 1 (ncfft / 2)).foldl (split_r2c_body src twiddles ncfft) dst

/-- The function `ne10_fft_split_r2c_1d_float32 (dst, src, twiddles, ncfft)`: the contents of `dst`
after the call (`src` is a different array). -/
def ne10_fft_split_r2c_1d_float32 (dst src twiddles : Nat → ne10_fft_cpx_float32_t R)
    (ncfft : Nat) : Nat → ne10_fft_cpx_float32_t R :=
  split_r2c_loop src twiddles ncfft (split_r2c_boundary dst src ncfft)

/-- The value that pass `k` of the loop of `ne10_fft_split_c2r_1d_float32` stores at
`dst[k]` (source lines 923-937). -/
def split_c2r_store_k (src twiddles : Nat → ne10_fft_cpx_float32_t R) (ncfft k : Nat) :
    ne10_fft_cpx_float32_t R :=
  let fk := src k
  let fnkc : ne10_fft_cpx_float32_t R := ⟨(src (ncfft - k)).r, -(src (ncfft - k)).i⟩
  let fek : ne10_fft_cpx_float32_t R := ⟨fk.r + fnkc.r, fk.i + fnkc.i⟩
  let tmp : ne10_fft_cpx_float32_t R := ⟨fk.r - fnkc.r, fk.i - fnkc.i⟩
  let fok : ne10_fft_cpx_float32_t R :=
    ⟨tmp.r * (twiddles (k - 1)).r + tmp.i * (twiddles (k - 1)).i,
     tmp.i * (twiddles (k - 1)).r - tmp.r * (twiddles (k - 1)).i⟩
  ⟨(fek.r + fok.r) * (1 / 2), (fek.i + fok.i) * (1 / 2)⟩

/-- The value that pass `k` of the loop of `ne10_fft_split_c2r_1d_float32` stores at
`dst[ncfft - k]` (source lines 923-934, 939-940). -/
def split_c2r_store_nk (src twiddles : Nat → ne10_fft_cpx_float32_t R) (ncfft k : Nat) :
    ne10_fft_cpx_float32_t R :=
  let fk := src k
  let fnkc : ne10_fft_cpx_float32_t R := ⟨(src (ncfft - k)).r, -(src (ncfft - k)).i⟩
  let fek : ne10_fft_cpx_float32_t R := ⟨fk.r + fnkc.r, fk.i + fnkc.i⟩
  let tmp : ne10_fft_cpx_float32_t R := ⟨fk.r - fnkc.r, fk.i - fnkc.i⟩
  let fok : ne10_fft_cpx_float32_t R :=
    ⟨tmp.r * (twiddles (k - 1)).r + tmp.i * (twiddles (k - 1)).i,
     tmp.i * (twiddles (k - 1)).r - tmp.r * (twiddles (k - 1)).i⟩
  ⟨(fek.r - fok.r) * (1 / 2), (fok.i - fek.i) * (1 / 2)⟩

/-- One pass of the loop of `ne10_fft_split_c2r_1d_float32` (source lines 923-940): the
store at `dst[k]`, then the store at `dst[ncfft - k]`. -/
def split_c2r_body (src twiddles : Nat → ne10_fft_cpx_float32_t R) (ncfft : Nat)
    (dst : Nat → ne10_fft_cpx_float32_t R) (k : Nat) : Nat → ne10_fft_cpx_float32_t R :=
  Function.update (Function.update dst k (split_c2r_store_k src twiddles ncfft k))
    (ncfft - k) (split_c2r_store_nk src twiddles ncfft k)

/-- The function `ne10_fft_split_c2r_1d_float32 (dst, src, twiddles, ncfft)`: the contents of `dst`
after the call (`src` is a different array). -/
def ne10_fft_split_c2r_1d_float32 (dst src twiddles : Nat → ne10_fft_cpx_float32_t R)
    (ncfft : Nat) : Nat → ne10_fft_cpx_float32_t R :=
  (List.range' 1 (ncfft / 2)).foldl (split_c2r_body src twiddles ncfft)
    (Function.update dst 0
      ⟨((src 0).r + (src ncfft).r) * (1 / 2), ((src 0).r - (src ncfft).r) * (1 / 2)⟩)

/-! ## The plan -/

/-- The type `ne10_fft_r2c_state_float32_t` (for `NE10_UNROLL_LEVEL == 0`): the arrays behind the
four pointers, and `ncfft`; and, with them, the size in bytes of the heap block that holds
the struct and the four arrays (the argument `memneeded` that the allocator passes to
`NE10_MALLOC`), which C keeps with the block and not in the struct.  A block whose size
is not stated is written with size 0. -/
structure ne10_fft_r2c_state_float32_t (R : Type) where
  buffer : Nat → ne10_fft_cpx_float32_t R
  ncfft : Int
  factors : Nat → Int
  twiddles : Nat → ne10_fft_cpx_float32_t R
  super_twiddles : Nat → ne10_fft_cpx_float32_t R
  memneeded : Nat := 0

/-- The variables of the twiddle generation loop of the allocator: the table, the
pointer `twiddles` as an offset into it, and `fstride`. -/
structure TwiddleGenState (R : Type) where
  table : Nat → ne10_fft_cpx_float32_t R
  twiddles : Nat
  fstride : Nat

/-- The body of the loop over the stages of the twiddle generation (source lines
1008-1020) for the stage `stage_count`: the two nested loops over `j < mstride` and
`1 <= k < cur_radix`, and `twiddles += mstride * (cur_radix - 1)`. -/
def twiddle_gen_stage (pi : R) (cos sin : R → R) (ncfft : Int) (factors : Nat → Int)
    (stage_count : Nat) (s : TwiddleGenState R) : TwiddleGenState R :=
  let cur_radix : Nat := (factors (2 * stage_count)).toNat
  let fstride : Nat := s.fstride / cur_radix
  let mstride : Nat := (factors (2 * stage_count + 1)).toNat
  { table := (List.range mstride).foldl
      (fun (t : Nat → ne10_fft_cpx_float32_t R) (j : Nat) =>
        (List.range' 1 (cur_radix - 1)).foldl
          (fun (t : Nat → ne10_fft_cpx_float32_t R) (k : Nat) =>
            let phase : R := -2 * pi * (fstride : R) * (k : R) * (j : R) / (ncfft : R)
            Function.update t (s.twiddles + (mstride * (k - 1) + j)) ⟨cos phase, sin phase⟩)
          t)
      s.table
    twiddles := s.twiddles + mstride * (cur_radix - 1)
    fstride := fstride }

/-- The loop over the stages of the twiddle generation,
`for (; stage_count > 0; stage_count--)` (source lines 1006-1021). -/
def twiddle_gen (pi : R) (cos sin : R → R) (ncfft : Int) (factors : Nat → Int) :
    Nat → TwiddleGenState R → TwiddleGenState R
  | 0, s => s
  | stage_count + 1, s =>
    twiddle_gen pi cos sin ncfft factors stage_count
      (twiddle_gen_stage pi cos sin ncfft factors (stage_count + 1) s)

/-- The super-twiddle loop of the allocator (source lines 1023-1030). -/
def super_twiddle_gen (pi : R) (cos sin : R → R) (ncfft : Int)
    (table : Nat → ne10_fft_cpx_float32_t R) : Nat → ne10_fft_cpx_float32_t R :=
  (List.range (ncfft / 2).toNat).foldl
    (fun (t : Nat → ne10_fft_cpx_float32_t R) (j : Nat) =>
      let phase : R := -pi * (((j : R) + 1) / (ncfft : R) + 1 / 2)
      Function.update t j ⟨cos phase, sin phase⟩)
    table

/-- The constant `NE10_FFT_BYTE_ALIGNMENT` of `Include/NE10_fft.h`. -/
def NE10_FFT_BYTE_ALIGNMENT : Int := 8

/-- The value of `sizeof (ne10_fft_r2c_state_float32_t)` on a target with 8-byte pointers:
four pointers and one `ne10_int32_t`, padded to 40 bytes. -/
def sizeof_r2c_state : Int := 40

/-- The sum assigned to `memneeded` in the allocator (source lines 966-971), as a
mathematical integer: the struct, `NE10_MAXFACTORS * 2` integers of 4 bytes, `ncfft`,
`ncfft / 2` and `nfft` samples of 8 bytes, and the alignment slack.  `ncfft / 2` is the
quotient of C. -/
def ne10_fft_r2c_bytes (nfft : Int) : Int :=
  sizeof_r2c_state + 4 * ((NE10_MAXFACTORS : Int) * 2) + 8 * Int.shiftRight nfft 1
    + 8 * Int.tdiv (Int.shiftRight nfft 1) 2 + 8 * nfft + NE10_FFT_BYTE_ALIGNMENT

/-- The function `ne10_fft_alloc_r2c_float32 (nfft)`.  `st` is what `NE10_MALLOC` returns: `none` for a
null pointer, otherwise the block with whatever it holds.  `pi`, `cos`, `sin` stand for
`NE10_PI` and the libm functions.  `memneeded` is a `ne10_uint32_t`, so the size requested
for the block is the sum reduced modulo `2 ^ 32`; the plan carries it, and the arrays of
the plan lie inside the block only as far as this size reaches (the scratch buffer starts
at byte `sizeof_r2c_state + 4 * 64 + 8 * ncfft + 8 * (ncfft / 2)` of the block). -/
def ne10_fft_alloc_r2c_float32 (pi : R) (cos sin : R → R)
    (st : Option (ne10_fft_r2c_state_float32_t R)) (nfft : Int) :
    Option (ne10_fft_r2c_state_float32_t R) :=
  let ncfft : Int := Int.shiftRight nfft 1
  let memneeded : Nat := (ne10_fft_r2c_bytes nfft % 2 ^ 32).toNat
  match st with
  | none => none
  | some st =>
    match ne10_factor ncfft (some st.factors) NE10_FACTOR_EIGHT_FIRST_STAGE with
    | (_, none) => none
    | (result, some factors) =>
      if result = NE10_ERR then none
      else
        let stage_count : Int := factors 0
        let fstride : Int := factors 1
        let tw := twiddle_gen pi cos sin ncfft factors (stage_count - 1).toNat
          { table := st.twiddles, twiddles := 0, fstride := fstride.toNat }
        some
          { buffer := st.buffer
            ncfft := ncfft
            factors := factors
            twiddles := tw.table
            super_twiddles := super_twiddle_gen pi cos sin ncfft st.super_twiddles
            memneeded := memneeded }

/-! ## The two transforms -/

/-- The function `ne10_fft_r2c_1d_float32_c (fout, fin, cfg)`: the contents of `fout` after the call,
and the plan with its scratch buffer as the call leaves it.  The real array `fin` is read
as complex pairs, `((ne10_fft_cpx_float32_t*) fin)[j] = (fin[2j], fin[2j+1])`. -/
def ne10_fft_r2c_1d_float32_c (TW_81 : R) (fout : Nat → ne10_fft_cpx_float32_t R)
    (fin : Nat → R) (cfg : ne10_fft_r2c_state_float32_t R) :
    (Nat → ne10_fft_cpx_float32_t R) × ne10_fft_r2c_state_float32_t R :=
  let mem : Mem R := fun b =>
    match b with
    | Buf.input => fun j => ⟨fin (2 * j), fin (2 * j + 1)⟩
    | Buf.out => cfg.buffer
    | Buf.buffer => fout
  let mem1 := ne10_mixed_radix_butterfly_float32_c TW_81 mem cfg.factors cfg.twiddles
  (ne10_fft_split_r2c_1d_float32 (mem1 Buf.buffer) (mem1 Buf.out) cfg.super_twiddles
      cfg.ncfft.toNat,
    { cfg with buffer := mem1 Buf.out })

/-- The function `ne10_fft_c2r_1d_float32_c (fout, fin, cfg)`: the contents of the real array `fout`
after the call, and the plan with its scratch buffer as the call leaves it.  `tmpbuf1` is
`cfg->buffer` and `tmpbuf2` is `cfg->buffer + cfg->ncfft`; the inverse butterfly reads
`tmpbuf1` only in its first stage, before anything is stored through `tmpbuf2`. -/
def ne10_fft_c2r_1d_float32_c (TW_81 : R) (fout : Nat → R)
    (fin : Nat → ne10_fft_cpx_float32_t R) (cfg : ne10_fft_r2c_state_float32_t R) :
    (Nat → R) × ne10_fft_r2c_state_float32_t R :=
  let ncfft : Nat := cfg.ncfft.toNat
  let buffer1 := ne10_fft_split_c2r_1d_float32 cfg.buffer fin cfg.super_twiddles ncfft
  let mem : Mem R := fun b =>
    match b with
    | Buf.input => buffer1
    | Buf.out => fun j => ⟨fout (2 * j), fout (2 * j + 1)⟩
    | Buf.buffer => fun j => buffer1 (ncfft + j)
  let mem1 := ne10_mixed_radix_butterfly_inverse_float32_c TW_81 mem cfg.factors cfg.twiddles
  (fun t => if t % 2 = 0 then (mem1 Buf.out (t / 2)).r else (mem1 Buf.out (t / 2)).i,
    { cfg with buffer := fun j => if j < ncfft then buffer1 j else mem1 Buf.buffer (j - ncfft) })

end Plan

/-! ## The format adapter of `Src/do_fft.cpp` -/

section Adapter

variable {R : Type} [Field R]

/-- The value of the enumerator `kHalfComplexInPlace` of `TFFTFormat`. -/
def kHalfComplexInPlace : Int := 0
/-- The value of the enumerator `kIntelPerm` of `TFFTFormat`. -/
def kIntelPerm : Int := 1
/-- The value of the enumerator `kIntelCCS` of `TFFTFormat`. -/
def kIntelCCS : Int := 2

/-- The `kHalfComplexInPlace` case of `Do_fftr` (source lines 18-24): the stores at 0 and
at `fft_len / 2`, then the loop `for (idx = 1; idx < fft_len / 2; idx++)` with its two
stores at `idx` and at `fft_len / 2 - idx`. -/
def Do_fftr_half_complex (data_out : Nat → R) (cx_out : Nat → ne10_fft_cpx_float32_t R)
    (fft_len : Int) : Nat → R :=
  let d1 := Function.update data_out 0 (cx_out 0).r
  let d2 := Function.update d1 (fft_len / 2).toNat (cx_out (fft_len / 2).toNat).r
  (List.range' 1 ((fft_len / 2).toNat - 1)).foldl
    (fun (d : Nat → R) (idx : Nat) =>
      Function.update (Function.update d idx (cx_out idx).r)
        ((fft_len / 2).toNat - idx) (cx_out idx).i)
    d2

/-- The `kIntelPerm` case of `Do_fftr` (source lines 27-34).  The state of the loop is the
array and the moving pointer `data_out`, as an offset from the start of the array. -/
def Do_fftr_perm (data_out : Nat → R) (cx_out : Nat → ne10_fft_cpx_float32_t R)
    (fft_len : Int) : Nat → R :=
  let d1 := Function.update data_out 0 (cx_out 0).r
  let d2 := Function.update d1 1 (cx_out (fft_len / 2).toNat).r
  ((List.range' 1 ((fft_len / 2).toNat - 1)).foldl
    (fun (s : (Nat → R) × Nat) (idx : Nat) =>
      (Function.update (Function.update s.1 s.2 (cx_out idx).r) (s.2 + 1) (cx_out idx).i,
        s.2 + 2))
    (d2, 2)).1

/-- The `kIntelCCS` case of `Do_fftr` (source lines 37-41): the loop
`for (idx = 0; idx < fft_len / 2 + 1; idx++)` storing through the moving pointer. -/
def Do_fftr_ccs (data_out : Nat → R) (cx_out : Nat → ne10_fft_cpx_float32_t R)
    (fft_len : Int) : Nat → R :=
  ((List.range ((fft_len / 2).toNat + 1)).foldl
    (fun (s : (Nat → R) × Nat) (idx : Nat) =>
      (Function.update (Function.update s.1 s.2 (cx_out idx).r) (s.2 + 1) (cx_out idx).i,
        s.2 + 2))
    (data_out, 0)).1

/-- The function `Do_fftr (data_out, data_in, fft_len, format)`.  A null pointer argument
is `none`; `st` is what `NE10_MALLOC` returns inside the allocator and `cx_out` is what
the local array holds on entry.  The outer `Option` of the result is `none` when the
call has no defined behaviour: the allocator returned a null plan, which
`ne10_fft_r2c_1d_float32_c` dereferences, or `fft_len / 2` is not an index of the local
array of `4096 / 2 + 1` bins, through which the core stores.  Otherwise the result is
`data_out` as the call leaves it. -/
def Do_fftr (TW_81 pi : R) (cos sin : R → R) (st : Option (ne10_fft_r2c_state_float32_t R))
    (cx_out : Nat → ne10_fft_cpx_float32_t R) (data_out data_in : Option (Nat → R))
    (fft_len format : Int) : Option (Option (Nat → R)) :=
  match data_out, data_in with
  | none, _ => some none
  | some d, none => some (some d)
  | some d, some x =>
    match ne10_fft_alloc_r2c_float32 pi cos sin st fft_len with
    | none => none
    | some cfg =>
      if 4096 / 2 + 1 ≤ fft_len / 2 then none
      else
        let cx := (ne10_fft_r2c_1d_float32_c TW_81 cx_out x cfg).1
        some (some
          (if format = kHalfComplexInPlace then Do_fftr_half_complex d cx fft_len
           else if format = kIntelPerm then Do_fftr_perm d cx fft_len
           else if format = kIntelCCS then Do_fftr_ccs d cx fft_len
           else d))

/-- The `kHalfComplexInPlace` case of `Do_ifftr` (do_fft.cpp lines 62-72): the local array
`cx_in` after `cx_in[0] = (data_in[0], 0)`, `cx_in[fft_len / 2] = (data_in[fft_len / 2], 0)`
and the loop `cx_in[idx] = (data_in[idx], data_in[fft_len / 2 - idx])` for
`1 <= idx < fft_len / 2`. -/
def Do_ifftr_half_complex (cx_in : Nat → ne10_fft_cpx_float32_t R) (data_in : Nat → R)
    (fft_len : Int) : Nat → ne10_fft_cpx_float32_t R :=
  let c1 := Function.update cx_in 0 ⟨data_in 0, 0⟩
  let c2 := Function.update c1 (Int.tdiv fft_len 2).toNat ⟨data_in (Int.tdiv fft_len 2).toNat, 0⟩
  (List.range' 1 ((Int.tdiv fft_len 2).toNat - 1)).foldl
    (fun (c : Nat → ne10_fft_cpx_float32_t R) (idx : Nat) =>
      Function.update c idx ⟨data_in idx, data_in ((Int.tdiv fft_len 2).toNat - idx)⟩)
    c2

/-- The `kIntelPerm` case of `Do_ifftr` (do_fft.cpp lines 75-84): `cx_in[0] = (data_in[0], 0)`,
`cx_in[fft_len / 2] = (data_in[1], 0)`, then the pointer `data_in_p = data_in + 2` and the
loop over `1 <= idx < fft_len / 2` that loads a real and an imaginary part through it.
The state of the loop is the array and the offset of the pointer. -/
def Do_ifftr_perm (cx_in : Nat → ne10_fft_cpx_float32_t R) (data_in : Nat → R)
    (fft_len : Int) : Nat → ne10_fft_cpx_float32_t R :=
  let c1 := Function.update cx_in 0 ⟨data_in 0, 0⟩
  let c2 := Function.update c1 (Int.tdiv fft_len 2).toNat ⟨data_in 1, 0⟩
  ((List.range' 1 ((Int.tdiv fft_len 2).toNat - 1)).foldl
    (fun (s : (Nat → ne10_fft_cpx_float32_t R) × Nat) (idx : Nat) =>
      (Function.update s.1 idx ⟨data_in s.2, data_in (s.2 + 1)⟩, s.2 + 2))
    (c2, 2)).1

/-- The `kIntelCCS` case of `Do_ifftr` (do_fft.cpp lines 87-94): the loop over
`0 <= idx < fft_len / 2 + 1` that loads a real and an imaginary part through
`data_in_p`, then `cx_in[0].i = 0; cx_in[fft_len / 2].i = 0`. -/
def Do_ifftr_ccs (cx_in : Nat → ne10_fft_cpx_float32_t R) (data_in : Nat → R)
    (fft_len : Int) : Nat → ne10_fft_cpx_float32_t R :=
  let c := ((List.range ((Int.tdiv fft_len 2).toNat + 1)).foldl
    (fun (s : (Nat → ne10_fft_cpx_float32_t R) × Nat) (idx : Nat) =>
      (Function.update s.1 idx ⟨data_in s.2, data_in (s.2 + 1)⟩, s.2 + 2))
    (cx_in, 0)).1
  let c1 := Function.update c 0 ⟨(c 0).r, 0⟩
  Function.update c1 (Int.tdiv fft_len 2).toNat ⟨(c1 (Int.tdiv fft_len 2).toNat).r, 0⟩

/-- The function `Do_ifftr (data_out, data_in, fft_len, format)` (do_fft.cpp lines 49-105).
`cx_in` is what the local array of `4096 / 2 + 1` bins holds at entry, `st` is what the
allocator's `malloc` returns; a null `data_out` or `data_in` is `none`.  The outer result
is `none` when the call has no defined behaviour: one of the three formats with
`fft_len / 2` (the quotient of C, rounded toward zero) outside the local array, or a plan
whose `ncfft` bins the core cannot read from it.  Otherwise it is the state of `data_out`
after the call; without a plan (`cfg == NULL`) the core is not called. -/
def Do_ifftr (TW_81 pi : R) (cos sin : R → R) (st : Option (ne10_fft_r2c_state_float32_t R))
    (cx_in : Nat → ne10_fft_cpx_float32_t R) (data_out data_in : Option (Nat → R))
    (fft_len format : Int) : Option (Option (Nat → R)) :=
  match data_out, data_in with
  | none, _ => some none
  | some d, none => some (some d)
  | some d, some x =>
    if (format = kHalfComplexInPlace ∨ format = kIntelPerm ∨ format = kIntelCCS)
        ∧ (Int.tdiv fft_len 2 < 0 ∨ 4096 / 2 + 1 ≤ Int.tdiv fft_len 2) then none
    else
      let cx :=
        if format = kHalfComplexInPlace then Do_ifftr_half_complex cx_in x fft_len
        else if format = kIntelPerm then Do_ifftr_perm cx_in x fft_len
        else if format = kIntelCCS then Do_ifftr_ccs cx_in x fft_len
        else cx_in
      match ne10_fft_alloc_r2c_float32 pi cos sin st fft_len with
      | none => some (some d)
      | some cfg =>
        if 4096 / 2 + 1 ≤ cfg.ncfft then none
        else some (some (ne10_fft_c2r_1d_float32_c TW_81 d cx cfg).1)

end Adapter
/-! ## Specification-side definitions -/

/-- What the factor loop keeps true of its state once the body has run at least once,
for the input length `n0`: the pairs recorded so far multiply up as they should. -/
def FactorInv (n0 : Int) (s : FactorState) : Prop :=
  0 < s.n ∧ s.i = s.stage_num + 1 ∧ 1 ≤ s.stage_num ∧
  (∏ j in Finset.range s.stage_num, s.facbuf (2 * (j + 1))) * s.n = n0 ∧
  (∀ j, j < s.stage_num →
    s.facbuf (2 * (j + 1)) * s.facbuf (2 * (j + 1) + 1)
      = if j = 0 then n0 else s.facbuf (2 * j + 1)) ∧
  s.facbuf (2 * s.stage_num + 1) = s.n ∧ s.p = s.facbuf (2 * s.stage_num)

/-- The potential that bounds the stage count: every radix is at least 3, except for at
most one radix 2, which leaves an odd remaining length. -/
def FactorBound (n0 : Int) (s : FactorState) : Prop :=
  0 < s.n ∧
  (2 * 3 ^ s.stage_num * s.n ≤ 3 * n0 ∨ (s.n % 2 = 1 ∧ 3 ^ s.stage_num * s.n ≤ 3 * n0))

/-- A sample over the reals as a complex number. -/
def toC (z : ne10_fft_cpx_float32_t ℝ) : ℂ := ⟨z.r, z.i⟩

/-- The sum `∑ m < n, x m * ζ ^ (m * k)`: the unnormalised `n`-point DFT of `x` at `k`
when `ζ` is `exp (-2 π i / n)`. -/
def gdft {K : Type} [CommRing K] (ζ : K) (n : ℕ) (x : ℕ → K) (k : ℕ) : K :=
  ∑ m in Finset.range n, x m * ζ ^ (m * k)

/-- What a buffer holds between two stages of the decimation-in-time butterfly: `G`
transforms of length `M`, one after the other, the `g`-th being the transform (with the
root `W M`) of the input samples `x g, x (g + G), x (g + 2 G), ...`. -/
def StageInv (W : ℕ → ℂ) (x : ℕ → ℂ) (G M : ℕ) (buf : ℕ → ne10_fft_cpx_float32_t ℝ) : Prop :=
  ∀ g m, g < G → m < M → toC (buf (g * M + m)) = gdft (W M) M (fun j => x (g + j * G)) m

/-- A block as `malloc` may return it, here holding zeros everywhere: the concrete block
of the examples. -/
def zero_block (R : Type) [Field R] : ne10_fft_r2c_state_float32_t R :=
  { buffer := fun _ => ⟨0, 0⟩, ncfft := 0, factors := fun _ => 0,
    twiddles := fun _ => ⟨0, 0⟩, super_twiddles := fun _ => ⟨0, 0⟩ }


/-- What the factor loop keeps true of the radices recorded so far and of the algorithm
flag: every recorded radix is one of 8, 4, 2, 5, 3, except that the last one may be the
residual (the whole remaining length, positive, odd and divisible by neither 3 nor 5), after which
nothing remains; the flag is `NE10_FFT_ALG_ANY` exactly when a recorded radix is outside
`{2, 4, 8}`, and `NE10_FFT_ALG_DEFAULT` otherwise. -/
def RadixInv (s : FactorState) : Prop :=
  s.i = s.stage_num + 1 ∧ 0 < s.n ∧
  (∀ j, j < s.stage_num →
    (s.facbuf (2 * (j + 1)) = 8 ∨ s.facbuf (2 * (j + 1)) = 4 ∨ s.facbuf (2 * (j + 1)) = 2 ∨
      s.facbuf (2 * (j + 1)) = 5 ∨ s.facbuf (2 * (j + 1)) = 3) ∨
    (j + 1 = s.stage_num ∧ s.n = 1 ∧ 0 < s.facbuf (2 * (j + 1)) ∧
      s.facbuf (2 * (j + 1)) % 2 = 1 ∧ s.facbuf (2 * (j + 1)) % 3 ≠ 0 ∧
      s.facbuf (2 * (j + 1)) % 5 ≠ 0)) ∧
  (s.alg_flag = NE10_FFT_ALG_ANY ∨ s.alg_flag = NE10_FFT_ALG_DEFAULT) ∧
  (s.alg_flag = NE10_FFT_ALG_ANY ↔
    ∃ j, j < s.stage_num ∧
      ¬ (s.facbuf (2 * (j + 1)) = 2 ∨ s.facbuf (2 * (j + 1)) = 4 ∨
        s.facbuf (2 * (j + 1)) = 8))

/-- Where the sub-table of stage `u` starts in the twiddle table, relative to the start
of the generation, when the generation begins with stage `sc` and works down to stage 1:
the total size `mstride * (radix - 1)` of the sub-tables of the stages `u + 1 .. sc`,
which are generated before it.  With `u = 0` it is the size of the whole table. -/
def twiddle_offset (factors : Nat → Int) : Nat → Nat → Nat
  | 0, _ => 0
  | sc + 1, u =>
    if u = sc + 1 then 0
    else (factors (2 * (sc + 1) + 1)).toNat * ((factors (2 * (sc + 1))).toNat - 1)
      + twiddle_offset factors sc u

/-- The value of the running variable `fstride` of the twiddle generation while it
generates stage `u`, when the generation begins with stage `sc` and `fstride = f`: `f`
divided by the radices of the stages `sc, sc - 1, ..., u` in turn. -/
def twiddle_fstride (factors : Nat → Int) : Nat → Nat → Nat → Nat
  | 0, f, _ => f
  | sc + 1, f, u =>
    if u = sc + 1 then f / (factors (2 * (sc + 1))).toNat
    else twiddle_fstride factors sc (f / (factors (2 * (sc + 1))).toNat) u

/-- Two samples are conjugate: `c = conj a`. -/
def ConjRel {R : Type} [Neg R] (a c : ne10_fft_cpx_float32_t R) : Prop :=
  c.r = a.r ∧ c.i = -a.i

/-- The sample `a` is the conjugate of `c` scaled by `s`: `a = s * conj c`. -/
def ScaledConjRel {R : Type} [Neg R] [Mul R] (s : R) (a c : ne10_fft_cpx_float32_t R) : Prop :=
  a.r = c.r * s ∧ a.i = -c.i * s

/-- Two radix-4 butterflies with twiddles, `bf` under the table `tw` and `bf'` under the
table `tw'`, carry a relation from the inputs to the outputs: on twiddle indices below `n`
and on inputs related by `ρ` pairwise, every output of `bf` is related to the same output
of `bf'` by `ρout`. -/
def KernelRel {R : Type} (n : Nat)
    (ρ ρout : ne10_fft_cpx_float32_t R → ne10_fft_cpx_float32_t R → Prop)
    (bf bf' : ne10_fft_cpx_float32_t R → ne10_fft_cpx_float32_t R → ne10_fft_cpx_float32_t R →
      ne10_fft_cpx_float32_t R → ne10_fft_cpx_float32_t R → ne10_fft_cpx_float32_t R →
      ne10_fft_cpx_float32_t R → Nat → ne10_fft_cpx_float32_t R)
    (tw tw' : Nat → ne10_fft_cpx_float32_t R) : Prop :=
  ∀ i0 i1 i2, i0 < n → i1 < n → i2 < n →
    ∀ a0 a1 a2 a3 c0 c1 c2 c3, ρ a0 c0 → ρ a1 c1 → ρ a2 c2 → ρ a3 c3 →
      ∀ q, q < 4 →
        ρout (bf (tw i0) (tw i1) (tw i2) a0 a1 a2 a3 q)
          (bf' (tw' i0) (tw' i1) (tw' i2) c0 c1 c2 c3 q)

/-- The scratch buffer of the plan `cfg`, taken with `count` complex entries, lies inside
the plan's block when the alignment step of the allocator moves the factor table by `pad`
bytes: the buffer starts after the struct, the padding, the factor table, the `ncfft`
twiddles and the `ncfft / 2` super twiddles, and `count` entries of 8 bytes from there end
at or before the size of the block.  The padding is 0 for a block that starts at a
multiple of 8 and never more than `NE10_FFT_BYTE_ALIGNMENT`. -/
def buffer_in_block {R : Type} (cfg : ne10_fft_r2c_state_float32_t R) (pad count : Int) :
    Prop :=
  sizeof_r2c_state + pad + 4 * ((NE10_MAXFACTORS : Int) * 2) + 8 * cfg.ncfft
    + 8 * Int.tdiv cfg.ncfft 2 + 8 * count ≤ (cfg.memneeded : Int)
/-! ## Theorems about `ne10_factor` -/

theorem ne10_factor_some (n : Int) (buf : Nat → Int) (flags : Int) (hn : 0 < n) :
    ne10_factor n (some buf) flags
      = ((ne10_factor_body n buf flags).1, some (ne10_factor_body n buf flags).2) := by
  simp [ne10_factor, not_le.mpr hn]

/-- The radix chosen for a positive length divides it; it is at least 3, or it is 2 and
the quotient is odd, or the length is 1. -/
theorem ne10_factor_radix_cases (n flags a : Int) (hn : 0 < n) :
    (ne10_factor_radix n flags a).1 * (n / (ne10_factor_radix n flags a).1) = n ∧
    (3 ≤ (ne10_factor_radix n flags a).1 ∨
      ((ne10_factor_radix n flags a).1 = 2 ∧ (n / 2) % 2 = 1) ∨
      ((ne10_factor_radix n flags a).1 = 1 ∧ n = 1)) := by
  have hself : n / n = 1 := Int.ediv_self (by omega)
  simp only [ne10_factor_radix]
  split_ifs <;> dsimp only <;> first
    | omega
    | (rw [hself]; omega)

/-- Loop rule: a property that holds after the first pass and is kept by every pass
that starts from a remaining length above 1 holds when the loop exits, and the loop
exits with a remaining length of at most 1. -/
theorem ne10_factor_loop_rule (flags : Int) (I : FactorState → Prop)
    (hstep : ∀ t, I t → 1 < t.n → I (ne10_factor_step flags t)) :
    ∀ s, I (ne10_factor_step flags s) →
      I (ne10_factor_loop flags s) ∧ ¬ 1 < (ne10_factor_loop flags s).n := by
  intro s
  induction s using ne10_factor_loop.induct flags with
  | case1 s h ih =>
    intro h1
    rw [ne10_factor_loop, if_pos h]
    exact ih (hstep _ h1 h)
  | case2 s h =>
    intro h1
    rw [ne10_factor_loop, if_neg h]
    exact ⟨h1, h⟩

theorem ne10_factor_step_facbuf_lt (flags : Int) (t : FactorState) (k : Nat)
    (hk : k < 2 * t.i) : (ne10_factor_step flags t).facbuf k = t.facbuf k := by
  simp only [ne10_factor_step]
  rw [Function.update_noteq (by omega), Function.update_noteq (by omega)]

theorem ne10_factor_step_facbuf_radix (flags : Int) (t : FactorState) :
    (ne10_factor_step flags t).facbuf (2 * t.i) = (ne10_factor_radix t.n flags t.alg_flag).1 := by
  simp only [ne10_factor_step]
  rw [Function.update_noteq (by omega), Function.update_same]

theorem ne10_factor_step_facbuf_size (flags : Int) (t : FactorState) :
    (ne10_factor_step flags t).facbuf (2 * t.i + 1)
      = t.n / (ne10_factor_radix t.n flags t.alg_flag).1 := by
  simp only [ne10_factor_step]
  rw [Function.update_same]

theorem ne10_factor_step_pos (flags : Int) (t : FactorState) (hn : 0 < t.n) :
    0 < (ne10_factor_step flags t).n := by
  have h := ne10_factor_radix_cases t.n flags t.alg_flag hn
  show 0 < t.n / (ne10_factor_radix t.n flags t.alg_flag).1
  have hp : 0 < (ne10_factor_radix t.n flags t.alg_flag).1 := by omega
  by_contra hc
  have : (ne10_factor_radix t.n flags t.alg_flag).1
      * (t.n / (ne10_factor_radix t.n flags t.alg_flag).1) ≤ 0 :=
    Int.mul_nonpos_of_nonneg_of_nonpos hp.le (by omega)
  omega

/-- The first pass of the loop establishes the invariant. -/
theorem FactorInv_init (n : Int) (buf : Nat → Int) (flags : Int) (hn : 0 < n) :
    FactorInv n (ne10_factor_step flags (ne10_factor_init n buf)) := by
  have h := ne10_factor_radix_cases n flags NE10_FFT_ALG_DEFAULT hn
  have hpos := ne10_factor_step_pos flags (ne10_factor_init n buf) hn
  have hr := ne10_factor_step_facbuf_radix flags (ne10_factor_init n buf)
  have hs := ne10_factor_step_facbuf_size flags (ne10_factor_init n buf)
  refine ⟨hpos, rfl, le_refl _, ?_, ?_, ?_, ?_⟩
  · show (∏ j in Finset.range 1, _) * _ = n
    rw [Finset.prod_range_one]
    exact hr ▸ h.1
  · intro j hj
    have hj0 : j = 0 := by
      have : j < 1 := hj
      omega
    subst hj0
    rw [if_pos rfl]
    show (ne10_factor_step flags (ne10_factor_init n buf)).facbuf (2 * 1)
      * (ne10_factor_step flags (ne10_factor_init n buf)).facbuf (2 * 1 + 1) = n
    have hr1 : (ne10_factor_step flags (ne10_factor_init n buf)).facbuf (2 * 1) = _ := hr
    have hs1 : (ne10_factor_step flags (ne10_factor_init n buf)).facbuf (2 * 1 + 1) = _ := hs
    rw [hr1, hs1]
    exact h.1
  · exact hs
  · exact hr.symm

/-- Every pass of the loop keeps the invariant. -/
theorem FactorInv_step (n0 flags : Int) (t : FactorState) (ht : FactorInv n0 t) :
    FactorInv n0 (ne10_factor_step flags t) := by
  obtain ⟨hn, hi, h1, hprod, hpair, hlast, hp⟩ := ht
  have h := ne10_factor_radix_cases t.n flags t.alg_flag hn
  have hpos := ne10_factor_step_pos flags t hn
  have hr := ne10_factor_step_facbuf_radix flags t
  have hs := ne10_factor_step_facbuf_size flags t
  have hlt := ne10_factor_step_facbuf_lt flags t
  have hS : (ne10_factor_step flags t).stage_num = t.stage_num + 1 := rfl
  have hN : (ne10_factor_step flags t).n = t.n / (ne10_factor_radix t.n flags t.alg_flag).1 :=
    rfl
  have hI : 2 * t.i = 2 * (t.stage_num + 1) := by rw [hi]
  refine ⟨hpos, ?_, ?_, ?_, ?_, ?_, ?_⟩
  · show t.i + 1 = t.stage_num + 1 + 1
    rw [hi]
  · rw [hS]; omega
  · rw [hS, Finset.prod_range_succ, hN]
    have e1 : ∏ j in Finset.range t.stage_num, (ne10_factor_step flags t).facbuf (2 * (j + 1))
        = ∏ j in Finset.range t.stage_num, t.facbuf (2 * (j + 1)) := by
      apply Finset.prod_congr rfl
      intro j hj
      have := Finset.mem_range.mp hj
      exact hlt _ (by omega)
    rw [e1, ← hI, hr, mul_assoc, h.1]
    exact hprod
  · intro j hj
    rw [hS] at hj
    by_cases hjS : j < t.stage_num
    · rw [hlt _ (by omega), hlt _ (by omega)]
      rw [hpair j hjS]
      by_cases hj0 : j = 0
      · simp [hj0]
      · rw [if_neg hj0, if_neg hj0, hlt _ (by omega)]
    · have hjeq : j = t.stage_num := by omega
      subst hjeq
      have hne : ¬ t.stage_num = 0 := by omega
      rw [if_neg hne, hlt (2 * t.stage_num + 1) (by omega), hlast]
      have e2 : 2 * (t.stage_num + 1) = 2 * t.i := hI.symm
      rw [e2, hr, hs]
      exact h.1
  · rw [hS, hN]
    have e2 : 2 * (t.stage_num + 1) + 1 = 2 * t.i + 1 := by rw [hI]
    rw [e2, hs]
  · rw [hS, ← hI, hr]
    rfl

/-- The loop started on a positive length exits with the invariant and with the
remaining length equal to 1. -/
theorem ne10_factor_loop_inv (n : Int) (buf : Nat → Int) (flags : Int) (hn : 0 < n) :
    FactorInv n (ne10_factor_loop flags (ne10_factor_init n buf)) ∧
      (ne10_factor_loop flags (ne10_factor_init n buf)).n = 1 := by
  have h := ne10_factor_loop_rule flags (FactorInv n)
    (fun t ht _ => FactorInv_step n flags t ht) (ne10_factor_init n buf)
    (FactorInv_init n buf flags hn)
  refine ⟨h.1, ?_⟩
  have := h.1.1
  omega

theorem FactorBound_init (n : Int) (buf : Nat → Int) (flags : Int) (hn : 0 < n) :
    FactorBound n (ne10_factor_step flags (ne10_factor_init n buf)) := by
  have h := ne10_factor_radix_cases n flags NE10_FFT_ALG_DEFAULT hn
  have hpos := ne10_factor_step_pos flags (ne10_factor_init n buf) hn
  refine ⟨hpos, ?_⟩
  show 2 * 3 ^ 1 * (n / (ne10_factor_radix n flags NE10_FFT_ALG_DEFAULT).1) ≤ 3 * n ∨
    ((n / (ne10_factor_radix n flags NE10_FFT_ALG_DEFAULT).1) % 2 = 1 ∧
      3 ^ 1 * (n / (ne10_factor_radix n flags NE10_FFT_ALG_DEFAULT).1) ≤ 3 * n)
  have hm : 0 < n / (ne10_factor_radix n flags NE10_FFT_ALG_DEFAULT).1 := hpos
  generalize (ne10_factor_radix n flags NE10_FFT_ALG_DEFAULT).1 = p at h hm
  generalize n / p = m at h hm
  obtain ⟨hpm, h3 | ⟨h2, hodd⟩ | ⟨h1, hn1⟩⟩ := h
  · left
    nlinarith
  · left
    subst h2
    omega
  · right
    subst h1
    omega

theorem FactorBound_step (n0 flags : Int) (t : FactorState) (ht : FactorBound n0 t)
    (h1 : 1 < t.n) : FactorBound n0 (ne10_factor_step flags t) := by
  obtain ⟨hn, hK⟩ := ht
  have h := ne10_factor_radix_cases t.n flags t.alg_flag hn
  have hpos := ne10_factor_step_pos flags t hn
  refine ⟨hpos, ?_⟩
  show 2 * 3 ^ (t.stage_num + 1) * (t.n / (ne10_factor_radix t.n flags t.alg_flag).1) ≤ 3 * n0 ∨
    ((t.n / (ne10_factor_radix t.n flags t.alg_flag).1) % 2 = 1 ∧
      3 ^ (t.stage_num + 1) * (t.n / (ne10_factor_radix t.n flags t.alg_flag).1) ≤ 3 * n0)
  have hm : 0 < t.n / (ne10_factor_radix t.n flags t.alg_flag).1 := hpos
  have hA : (0 : Int) < 3 ^ t.stage_num := by positivity
  rw [pow_succ]
  generalize (3 : Int) ^ t.stage_num = A at hK hA
  generalize (ne10_factor_radix t.n flags t.alg_flag).1 = p at h hm
  have hdiv2 : t.n / 2 = t.n / 2 := rfl
  generalize hq : t.n / p = m at h hm
  obtain ⟨hpm, h3 | ⟨h2, hodd⟩ | ⟨hp1, hn1⟩⟩ := h
  · have hAm : 0 < A * m := mul_pos hA hm
    rcases hK with hK | ⟨hodd, hK⟩
    · left
      nlinarith
    · right
      constructor
      · by_contra hc
        have h2m : (2 : Int) ∣ m := by omega
        have h2n : (2 : Int) ∣ p * m := Dvd.dvd.mul_left h2m p
        rw [hpm] at h2n
        omega
      · nlinarith
  · subst h2
    have hAm : 0 < A * m := mul_pos hA hm
    rcases hK with hK | ⟨hodd', hK⟩
    · right
      constructor
      · omega
      · nlinarith
    · omega
  · omega

/-- The stage count of a positive length below `2^31` is at most 20. -/
theorem ne10_factor_loop_stage_le (n : Int) (buf : Nat → Int) (flags : Int) (hn : 0 < n)
    (h31 : n < 2 ^ 31) : (ne10_factor_loop flags (ne10_factor_init n buf)).stage_num ≤ 20 := by
  have h := ne10_factor_loop_rule flags (FactorBound n)
    (fun t ht h1 => FactorBound_step n flags t ht h1) (ne10_factor_init n buf)
    (FactorBound_init n buf flags hn)
  obtain ⟨⟨hpos, hK⟩, hle⟩ := h
  have hn1 : (ne10_factor_loop flags (ne10_factor_init n buf)).n = 1 := by omega
  rw [hn1] at hK
  by_contra hc
  have hS : 21 ≤ (ne10_factor_loop flags (ne10_factor_init n buf)).stage_num := by omega
  have hpow : (3 : Int) ^ 21 ≤ 3 ^ (ne10_factor_loop flags (ne10_factor_init n buf)).stage_num :=
    pow_le_pow_right₀ (by norm_num) hS
  have h321 : (3 : Int) ^ 21 = 10460353203 := by norm_num
  have h231 : (2 : Int) ^ 31 = 2147483648 := by norm_num
  rw [h321] at hpow
  rw [h231] at h31
  rcases hK with hK | ⟨_, hK⟩ <;> omega

theorem ne10_factor_body_fst (n : Int) (buf : Nat → Int) (flags : Int) :
    (ne10_factor_body n buf flags).1
      = if (ne10_factor_loop flags (ne10_factor_init n buf)).stage_num > 21 then NE10_ERR
        else NE10_OK := by
  simp only [ne10_factor_body]
  split_ifs <;> rfl

theorem ne10_factor_body_snd (n : Int) (buf : Nat → Int) (flags : Int)
    (h : ¬ (ne10_factor_loop flags (ne10_factor_init n buf)).stage_num > 21) :
    (ne10_factor_body n buf flags).2
      = Function.update (Function.update (Function.update
          (ne10_factor_loop flags (ne10_factor_init n buf)).facbuf 0
          ((ne10_factor_loop flags (ne10_factor_init n buf)).stage_num : Int)) 1
          (n / (ne10_factor_loop flags (ne10_factor_init n buf)).p))
          (2 * (ne10_factor_loop flags (ne10_factor_init n buf)).i)
          (ne10_factor_loop flags (ne10_factor_init n buf)).alg_flag := by
  simp only [ne10_factor_body]
  rw [if_neg h]

theorem NE10_ERR_ne_OK : NE10_ERR ≠ NE10_OK := by decide

/-- A successful call was made on a positive length and returns the buffer of
`ne10_factor_body`, with at most 21 stages. -/
theorem ne10_factor_ok_inv (n : Int) (buf fb : Nat → Int) (flags : Int)
    (hok : ne10_factor n (some buf) flags = (NE10_OK, some fb)) :
    0 < n ∧ ¬ (ne10_factor_loop flags (ne10_factor_init n buf)).stage_num > 21 ∧
      fb = (ne10_factor_body n buf flags).2 := by
  by_cases hn : n ≤ 0
  · simp only [ne10_factor, if_pos hn, Prod.mk.injEq] at hok
    exact absurd hok.1 NE10_ERR_ne_OK
  · have hn' : 0 < n := by omega
    rw [ne10_factor_some n buf flags hn'] at hok
    simp only [Prod.mk.injEq, Option.some.injEq] at hok
    refine ⟨hn', ?_, hok.2.symm⟩
    intro hgt
    have h1 := hok.1
    rw [ne10_factor_body_fst, if_pos hgt] at h1
    exact NE10_ERR_ne_OK h1

/-- The entries of the returned buffer in terms of the loop's final state. -/
theorem ne10_factor_body_entries (n : Int) (buf : Nat → Int) (flags : Int)
    (hn : 0 < n)
    (h : ¬ (ne10_factor_loop flags (ne10_factor_init n buf)).stage_num > 21) :
    (ne10_factor_body n buf flags).2 0
        = ((ne10_factor_loop flags (ne10_factor_init n buf)).stage_num : Int) ∧
    (ne10_factor_body n buf flags).2 1
        = n / (ne10_factor_loop flags (ne10_factor_init n buf)).p ∧
    (∀ k, 2 ≤ k → k ≤ 2 * (ne10_factor_loop flags (ne10_factor_init n buf)).stage_num + 1 →
      (ne10_factor_body n buf flags).2 k
        = (ne10_factor_loop flags (ne10_factor_init n buf)).facbuf k) ∧
    (ne10_factor_body n buf flags).2
        (2 * (ne10_factor_loop flags (ne10_factor_init n buf)).stage_num + 2)
        = (ne10_factor_loop flags (ne10_factor_init n buf)).alg_flag := by
  have hinv := (ne10_factor_loop_inv n buf flags hn).1
  obtain ⟨_, hi, h1, _⟩ := hinv
  rw [ne10_factor_body_snd n buf flags h, hi]
  refine ⟨?_, ?_, ?_, ?_⟩
  · rw [Function.update_noteq (by omega), Function.update_noteq (by omega),
      Function.update_same]
  · rw [Function.update_noteq (by omega), Function.update_same]
  · intro k hk2 hk
    rw [Function.update_noteq (by omega), Function.update_noteq (by omega),
      Function.update_noteq (by omega)]
  · have e : 2 * (ne10_factor_loop flags (ne10_factor_init n buf)).stage_num + 2
        = 2 * ((ne10_factor_loop flags (ne10_factor_init n buf)).stage_num + 1) := by ring
    rw [e, Function.update_same]

/-- C4 (factorization validity): when `ne10_factor` returns `NE10_OK`, the product of the
recorded radices `facbuf[2], facbuf[4], ..., facbuf[2*stage_count]` is `n`; each recorded
pair satisfies `radix * size = ` the previous pair's size (`n` for the first pair); there
is at least one pair and the last pair's size is 1. -/
theorem ne10_factor_validity (n : Int) (buf fb : Nat → Int) (flags : Int)
    (hok : ne10_factor n (some buf) flags = (NE10_OK, some fb)) :
    (∏ j in Finset.range (fb 0).toNat, fb (2 * (j + 1))) = n ∧
    (∀ j, j < (fb 0).toNat →
      fb (2 * (j + 1)) * fb (2 * (j + 1) + 1) = if j = 0 then n else fb (2 * j + 1)) ∧
    1 ≤ (fb 0).toNat ∧ fb (2 * (fb 0).toNat + 1) = 1 := by
  obtain ⟨hn, hS, hfb⟩ := ne10_factor_ok_inv n buf fb flags hok
  obtain ⟨hinv, hn1⟩ := ne10_factor_loop_inv n buf flags hn
  obtain ⟨e0, _, ek, _⟩ := ne10_factor_body_entries n buf flags hn hS
  obtain ⟨_, _, h1, hprod, hpair, hlast, _⟩ := hinv
  rw [← hfb] at e0 ek
  have hS0 : (fb 0).toNat = (ne10_factor_loop flags (ne10_factor_init n buf)).stage_num := by
    rw [e0]; exact Int.toNat_natCast _
  rw [hS0]
  refine ⟨?_, ?_, h1, ?_⟩
  · rw [hn1, mul_one] at hprod
    refine Eq.trans (Finset.prod_congr rfl ?_) hprod
    intro j hj
    have := Finset.mem_range.mp hj
    exact ek _ (by omega) (by omega)
  · intro j hj
    rw [ek _ (by omega) (by omega), ek _ (by omega) (by omega), hpair j hj]
    by_cases hj0 : j = 0
    · simp [hj0]
    · rw [if_neg hj0, if_neg hj0, ek _ (by omega) (by omega)]
  · rw [ek _ (by omega) (by omega), hlast, hn1]

/-- C5 (stage bound): for `0 < n < 2^31` and every flag value the stage count computed by
the loop of `ne10_factor` is at most 21, so the `stage_num > 21` branch is not taken and
`ne10_factor` returns `NE10_OK`, storing that stage count at `facbuf[0]`. -/
theorem ne10_factor_stage_bound (n : Int) (buf : Nat → Int) (flags : Int)
    (hn : 0 < n) (h31 : n < 2 ^ 31) :
    (ne10_factor_loop flags (ne10_factor_init n buf)).stage_num ≤ 21 ∧
    (ne10_factor n (some buf) flags).1 = NE10_OK ∧
    ∃ fb, (ne10_factor n (some buf) flags).2 = some fb ∧
      fb 0 = ((ne10_factor_loop flags (ne10_factor_init n buf)).stage_num : Int) ∧
      fb 0 ≤ 21 := by
  have h20 := ne10_factor_loop_stage_le n buf flags hn h31
  have hS : ¬ (ne10_factor_loop flags (ne10_factor_init n buf)).stage_num > 21 := by omega
  obtain ⟨e0, _⟩ := ne10_factor_body_entries n buf flags hn hS
  rw [ne10_factor_some n buf flags hn]
  refine ⟨by omega, ?_, _, rfl, e0, ?_⟩
  · show (ne10_factor_body n buf flags).1 = NE10_OK
    rw [ne10_factor_body_fst, if_neg hS]
  · rw [e0]
    exact_mod_cast (by omega : (ne10_factor_loop flags (ne10_factor_init n buf)).stage_num ≤ 21)

/-- C6 (factorizer failure): on a non-null buffer `ne10_factor` returns `NE10_ERR` exactly
when `n <= 0` or the loop has counted more than 21 stages; when `n <= 0` the buffer is
returned as it was passed (nothing is written). -/
theorem ne10_factor_err_iff (n : Int) (buf : Nat → Int) (flags : Int) :
    ((ne10_factor n (some buf) flags).1 = NE10_ERR ↔
      (n ≤ 0 ∨ 21 < (ne10_factor_loop flags (ne10_factor_init n buf)).stage_num)) ∧
    (n ≤ 0 → (ne10_factor n (some buf) flags).2 = some buf) := by
  constructor
  · by_cases hn : n ≤ 0
    · simp [ne10_factor, hn]
    · rw [ne10_factor_some n buf flags (by omega)]
      show (ne10_factor_body n buf flags).1 = NE10_ERR ↔ _
      rw [ne10_factor_body_fst]
      by_cases hS : (ne10_factor_loop flags (ne10_factor_init n buf)).stage_num > 21
      · rw [if_pos hS]
        exact ⟨fun _ => Or.inr hS, fun _ => rfl⟩
      · rw [if_neg hS]
        constructor
        · intro h
          exact absurd h.symm NE10_ERR_ne_OK
        · rintro (h | h)
          · exact absurd h hn
          · exact absurd h hS
  · intro hn
    simp [ne10_factor, hn]

/-- Witness for C4: the length 12 with the radix-8-first-stage flag. -/
theorem ne10_factor_validity_witness :
    ne10_factor 12 (some (fun _ => 0)) NE10_FACTOR_EIGHT_FIRST_STAGE
      = (NE10_OK, some (ne10_factor_body 12 (fun _ => 0) NE10_FACTOR_EIGHT_FIRST_STAGE).2) ∧
    (∏ j in Finset.range
        ((ne10_factor_body 12 (fun _ => 0) NE10_FACTOR_EIGHT_FIRST_STAGE).2 0).toNat,
      (ne10_factor_body 12 (fun _ => 0) NE10_FACTOR_EIGHT_FIRST_STAGE).2 (2 * (j + 1))) = 12 :=
  have h : ne10_factor 12 (some (fun _ => 0)) NE10_FACTOR_EIGHT_FIRST_STAGE
      = (NE10_OK, some (ne10_factor_body 12 (fun _ => 0) NE10_FACTOR_EIGHT_FIRST_STAGE).2) := by
    simp [ne10_factor, ne10_factor_body, ne10_factor_init, ne10_factor_loop, ne10_factor_step,
      ne10_factor_radix, NE10_OK, NE10_FACTOR_EIGHT_FIRST_STAGE, NE10_FACTOR_EIGHT]
  ⟨h, (ne10_factor_validity 12 _ _ _ h).1⟩

/-- Witness for C5: the length 1024 with the radix-8-first-stage flag. -/
theorem ne10_factor_stage_bound_witness :
    (ne10_factor_loop NE10_FACTOR_EIGHT_FIRST_STAGE
        (ne10_factor_init 1024 (fun _ => 0))).stage_num ≤ 21 ∧
    (ne10_factor 1024 (some (fun _ => 0)) NE10_FACTOR_EIGHT_FIRST_STAGE).1 = NE10_OK :=
  have h := ne10_factor_stage_bound 1024 (fun _ => 0) NE10_FACTOR_EIGHT_FIRST_STAGE
    (by decide) (by norm_num)
  ⟨h.1, h.2.1⟩


/-! ## Theorems about the allocator's error path and the split boundary -/

/-- A fold of stores leaves an index alone when no pass of its body stores there. -/
theorem foldl_frame {α β ι : Type} (body : (α → β) → ι → (α → β)) (l : List ι) (j : α)
    (h : ∀ d k, k ∈ l → body d k j = d j) : ∀ d, l.foldl body d j = d j := by
  induction l with
  | nil => intro d; rfl
  | cons a l ih =>
    intro d
    rw [List.foldl_cons, ih (fun d k hk => h d k (List.mem_cons_of_mem a hk)),
      h d a (List.mem_cons_self a l)]

theorem alloc_shift (nfft : Int) : Int.shiftRight nfft 1 = nfft / 2 := by
  have h := Int.shiftRight_eq_div_pow nfft 1
  simpa using h

/-- The allocator on a non-null block, in terms of `ne10_factor_body`. -/
theorem alloc_some_eq {R : Type} [Field R] (pi : R) (cos sin : R → R)
    (st : ne10_fft_r2c_state_float32_t R) (nfft : Int) (h : 2 ≤ nfft)
    (hS : ¬ (ne10_factor_loop NE10_FACTOR_EIGHT_FIRST_STAGE
      (ne10_factor_init (nfft / 2) st.factors)).stage_num > 21) :
    ne10_fft_alloc_r2c_float32 pi cos sin (some st) nfft = some
      { buffer := st.buffer
        ncfft := nfft / 2
        factors := (ne10_factor_body (nfft / 2) st.factors NE10_FACTOR_EIGHT_FIRST_STAGE).2
        twiddles := (twiddle_gen pi cos sin (nfft / 2)
          (ne10_factor_body (nfft / 2) st.factors NE10_FACTOR_EIGHT_FIRST_STAGE).2
          ((ne10_factor_body (nfft / 2) st.factors NE10_FACTOR_EIGHT_FIRST_STAGE).2 0 - 1).toNat
          { table := st.twiddles, twiddles := 0,
            fstride := ((ne10_factor_body (nfft / 2) st.factors
              NE10_FACTOR_EIGHT_FIRST_STAGE).2 1).toNat }).table
        super_twiddles := super_twiddle_gen pi cos sin (nfft / 2) st.super_twiddles
        memneeded := (ne10_fft_r2c_bytes nfft % 2 ^ 32).toNat } := by
  have hpos : 0 < nfft / 2 := by omega
  have hfst : (ne10_factor_body (nfft / 2) st.factors NE10_FACTOR_EIGHT_FIRST_STAGE).1
      = NE10_OK := by
    rw [ne10_factor_body_fst, if_neg hS]
  simp only [ne10_fft_alloc_r2c_float32, alloc_shift, ne10_factor_some _ _ _ hpos, hfst]
  rw [if_neg (fun h => NE10_ERR_ne_OK h.symm)]

theorem alloc_none_of_le_one {R : Type} [Field R] (pi : R) (cos sin : R → R)
    (st : ne10_fft_r2c_state_float32_t R) (nfft : Int) (h : nfft ≤ 1) :
    ne10_fft_alloc_r2c_float32 pi cos sin (some st) nfft = none := by
  have hle : nfft / 2 ≤ 0 := by omega
  simp [ne10_fft_alloc_r2c_float32, alloc_shift, ne10_factor, hle]

theorem alloc_none_of_stages {R : Type} [Field R] (pi : R) (cos sin : R → R)
    (st : ne10_fft_r2c_state_float32_t R) (nfft : Int) (h : 2 ≤ nfft)
    (hS : (ne10_factor_loop NE10_FACTOR_EIGHT_FIRST_STAGE
      (ne10_factor_init (nfft / 2) st.factors)).stage_num > 21) :
    ne10_fft_alloc_r2c_float32 pi cos sin (some st) nfft = none := by
  have hpos : 0 < nfft / 2 := by omega
  have hfst : (ne10_factor_body (nfft / 2) st.factors NE10_FACTOR_EIGHT_FIRST_STAGE).1
      = NE10_ERR := by
    rw [ne10_factor_body_fst, if_pos hS]
  simp only [ne10_fft_alloc_r2c_float32, alloc_shift, ne10_factor_some _ _ _ hpos, hfst]
  simp

/-- A plan that the allocator returns: the length is at least 2, the factoring of
`nfft / 2` counted at most 21 stages, and the plan holds the factor buffer, the twiddle
table and the super-twiddle table computed from `nfft / 2`. -/
theorem alloc_eq_some {R : Type} [Field R] (pi : R) (cos sin : R → R)
    (st cfg : ne10_fft_r2c_state_float32_t R) (nfft : Int)
    (h : ne10_fft_alloc_r2c_float32 pi cos sin (some st) nfft = some cfg) :
    2 ≤ nfft ∧
    ¬ (ne10_factor_loop NE10_FACTOR_EIGHT_FIRST_STAGE
      (ne10_factor_init (nfft / 2) st.factors)).stage_num > 21 ∧
    cfg =
      { buffer := st.buffer
        ncfft := nfft / 2
        factors := (ne10_factor_body (nfft / 2) st.factors NE10_FACTOR_EIGHT_FIRST_STAGE).2
        twiddles := (twiddle_gen pi cos sin (nfft / 2)
          (ne10_factor_body (nfft / 2) st.factors NE10_FACTOR_EIGHT_FIRST_STAGE).2
          ((ne10_factor_body (nfft / 2) st.factors NE10_FACTOR_EIGHT_FIRST_STAGE).2 0 - 1).toNat
          { table := st.twiddles, twiddles := 0,
            fstride := ((ne10_factor_body (nfft / 2) st.factors
              NE10_FACTOR_EIGHT_FIRST_STAGE).2 1).toNat }).table
        super_twiddles := super_twiddle_gen pi cos sin (nfft / 2) st.super_twiddles
        memneeded := (ne10_fft_r2c_bytes nfft % 2 ^ 32).toNat } := by
  by_cases h1 : nfft ≤ 1
  · rw [alloc_none_of_le_one pi cos sin st nfft h1] at h
    exact absurd h (by simp)
  · by_cases hS : (ne10_factor_loop NE10_FACTOR_EIGHT_FIRST_STAGE
        (ne10_factor_init (nfft / 2) st.factors)).stage_num > 21
    · rw [alloc_none_of_stages pi cos sin st nfft (by omega) hS] at h
      exact absurd h (by simp)
    · rw [alloc_some_eq pi cos sin st nfft (by omega) hS] at h
      exact ⟨by omega, hS, (Option.some.inj h).symm⟩

/-- The size of the block of a plan is the allocator's `memneeded`: the byte count of
the layout reduced modulo `2 ^ 32`. -/
theorem alloc_memneeded {R : Type} [Field R] (pi : R) (cos sin : R → R)
    (st : Option (ne10_fft_r2c_state_float32_t R)) (cfg : ne10_fft_r2c_state_float32_t R)
    (nfft : Int) (h : ne10_fft_alloc_r2c_float32 pi cos sin st nfft = some cfg) :
    cfg.ncfft = nfft / 2 ∧ cfg.memneeded = (ne10_fft_r2c_bytes nfft % 2 ^ 32).toNat := by
  cases st with
  | none => simp [ne10_fft_alloc_r2c_float32] at h
  | some s =>
    obtain ⟨_, _, hcfg⟩ := alloc_eq_some pi cos sin s cfg nfft h
    rw [hcfg]
    exact ⟨rfl, rfl⟩

/-- The byte count of the layout for a length from 2 on: `304 + 8 (nfft / 2)
+ 8 (nfft / 4) + 8 nfft`. -/
theorem ne10_fft_r2c_bytes_eq (nfft : Int) (h : 2 ≤ nfft) :
    ne10_fft_r2c_bytes nfft = 304 + 8 * (nfft / 2) + 8 * (nfft / 2 / 2) + 8 * nfft := by
  have ht : Int.tdiv (nfft / 2) 2 = nfft / 2 / 2 := Int.tdiv_eq_ediv (by omega) (by norm_num)
  simp only [ne10_fft_r2c_bytes, alloc_shift, ht, sizeof_r2c_state, NE10_MAXFACTORS,
    NE10_FFT_BYTE_ALIGNMENT]
  push_cast
  ring

/-- For a power of two `nfft = 2 * 2 ^ k <= 2 ^ 28` the byte count of the layout is below
`2 ^ 32`, so the block has the size of the whole layout and the scratch buffer of `nfft`
complex entries lies inside it, whatever the alignment step adds. -/
theorem alloc_pow2_block {R : Type} [Field R] (pi : R) (cos sin : R → R) (k : ℕ)
    (hk : k ≤ 27) (st : Option (ne10_fft_r2c_state_float32_t R))
    (cfg : ne10_fft_r2c_state_float32_t R)
    (h : ne10_fft_alloc_r2c_float32 pi cos sin st (2 * 2 ^ k) = some cfg) :
    buffer_in_block cfg NE10_FFT_BYTE_ALIGNMENT (2 * 2 ^ k) := by
  obtain ⟨hn, hm⟩ := alloc_memneeded pi cos sin st cfg _ h
  have hpow : (2 : ℤ) ^ k ≤ 2 ^ 27 := pow_le_pow_right₀ (by norm_num) hk
  have hpos : (1 : ℤ) ≤ 2 ^ k := one_le_pow₀ (by norm_num)
  have hhalf : (2 * 2 ^ k : ℤ) / 2 = 2 ^ k := Int.mul_ediv_cancel_left _ (by norm_num)
  rw [ne10_fft_r2c_bytes_eq _ (by omega), hhalf] at hm
  rw [hhalf] at hn
  have ht : Int.tdiv ((2 : ℤ) ^ k) 2 = 2 ^ k / 2 := Int.tdiv_eq_ediv (by omega) (by norm_num)
  have h27 : (2 : ℤ) ^ 27 = 134217728 := by norm_num
  have hmod : (304 + 8 * (2 : ℤ) ^ k + 8 * (2 ^ k / 2) + 8 * (2 * 2 ^ k)) % 2 ^ 32
      = 304 + 8 * (2 : ℤ) ^ k + 8 * (2 ^ k / 2) + 8 * (2 * 2 ^ k) :=
    Int.emod_eq_of_lt (by omega) (by omega)
  rw [hmod] at hm
  simp only [buffer_in_block, hn, ht, sizeof_r2c_state, NE10_MAXFACTORS,
    NE10_FFT_BYTE_ALIGNMENT, hm]
  omega

/-- The same for the length written `2 ^ (k + 1)`. -/
theorem alloc_pow2_block_succ {R : Type} [Field R] (pi : R) (cos sin : R → R) (k : ℕ)
    (hk : k ≤ 27) (st : Option (ne10_fft_r2c_state_float32_t R))
    (cfg : ne10_fft_r2c_state_float32_t R)
    (h : ne10_fft_alloc_r2c_float32 pi cos sin st (2 ^ (k + 1)) = some cfg) :
    buffer_in_block cfg NE10_FFT_BYTE_ALIGNMENT (2 ^ (k + 1)) := by
  have e : (2 : ℤ) ^ (k + 1) = 2 * 2 ^ k := by rw [pow_succ]; ring
  rw [e] at h ⊢
  exact alloc_pow2_block pi cos sin k hk st cfg h

/-- C7, as the code has it: on a block that `malloc` returned, the allocator returns a
null plan exactly when `length <= 1` (in particular when it is non-positive) or factoring
`length >> 1` counts more than 21 stages; when `malloc` returns null so does the
allocator.  Oddness of `length` is not tested. -/
theorem ne10_fft_alloc_null_iff {R : Type} [Field R] (pi : R) (cos sin : R → R)
    (st : ne10_fft_r2c_state_float32_t R) (nfft : Int) :
    (ne10_fft_alloc_r2c_float32 pi cos sin (some st) nfft = none ↔
      (nfft ≤ 1 ∨ 21 < (ne10_factor_loop NE10_FACTOR_EIGHT_FIRST_STAGE
        (ne10_factor_init (Int.shiftRight nfft 1) st.factors)).stage_num)) ∧
    ne10_fft_alloc_r2c_float32 pi cos sin none nfft = none := by
  refine ⟨?_, rfl⟩
  rw [alloc_shift]
  by_cases h : nfft ≤ 1
  · exact ⟨fun _ => Or.inl h, fun _ => alloc_none_of_le_one pi cos sin st nfft h⟩
  · by_cases hS : (ne10_factor_loop NE10_FACTOR_EIGHT_FIRST_STAGE
        (ne10_factor_init (nfft / 2) st.factors)).stage_num > 21
    · exact ⟨fun _ => Or.inr hS, fun _ => alloc_none_of_stages pi cos sin st nfft (by omega) hS⟩
    · rw [alloc_some_eq pi cos sin st nfft (by omega) hS]
      simp only [reduceCtorEq, false_iff, not_or]
      exact ⟨h, by omega⟩

/-- C7, counterexample: the odd length 3 is given a plan (for `ncfft = 1`). -/
theorem ne10_fft_alloc_odd_counterexample :
    ne10_fft_alloc_r2c_float32 Real.pi Real.cos Real.sin
      (some { buffer := fun _ => ⟨0, 0⟩, ncfft := 0, factors := fun _ => 0,
              twiddles := fun _ => ⟨0, 0⟩, super_twiddles := fun _ => ⟨0, 0⟩ }) 3 ≠ none := by
  rw [alloc_some_eq Real.pi Real.cos Real.sin _ 3 (by decide)
    (by
      have hb := ne10_factor_loop_stage_le (3 / 2) (fun _ => 0)
        NE10_FACTOR_EIGHT_FIRST_STAGE (by decide) (by decide)
      simp only at hb ⊢
      omega)]
  exact Option.some_ne_none _

/-- The loop of the r2c split stores only at indices `1 .. ncfft - 1`. -/
theorem split_r2c_loop_frame {R : Type} [Field R] (src twiddles : Nat → ne10_fft_cpx_float32_t R)
    (ncfft : Nat) (dst : Nat → ne10_fft_cpx_float32_t R) (j : Nat)
    (hj : j = 0 ∨ ncfft ≤ j) : split_r2c_loop src twiddles ncfft dst j = dst j := by
  unfold split_r2c_loop
  apply foldl_frame
  intro d k hk
  rw [List.mem_range'_1] at hk
  simp only [split_r2c_body]
  rw [Function.update_noteq (by omega), Function.update_noteq (by omega)]

theorem split_r2c_boundary_zero {R : Type} [Field R] (dst src : Nat → ne10_fft_cpx_float32_t R)
    (ncfft : Nat) (h : 1 ≤ ncfft) :
    split_r2c_boundary dst src ncfft 0 = ⟨(src 0).r + (src 0).i, 0⟩ := by
  have hne : (0 : Nat) ≠ ncfft := by omega
  simp [split_r2c_boundary, Function.update_apply, hne, hne.symm]

theorem split_r2c_boundary_ncfft {R : Type} [Field R]
    (dst src : Nat → ne10_fft_cpx_float32_t R) (ncfft : Nat) (h : 1 ≤ ncfft) :
    split_r2c_boundary dst src ncfft ncfft = ⟨(src 0).r - (src 0).i, 0⟩ := by
  have hne : (0 : Nat) ≠ ncfft := by omega
  simp [split_r2c_boundary, Function.update_apply, hne, hne.symm]

/-- C10 (conjugate-symmetry boundary): for `ncfft >= 1` and every input,
`ne10_fft_split_r2c_1d_float32` leaves `dst[0] = (src[0].r + src[0].i, 0)` and
`dst[ncfft] = (src[0].r - src[0].i, 0)`, and its loop over `k` changes neither index 0 nor
index `ncfft` of whatever array it is run on. -/
theorem ne10_fft_split_r2c_boundary {R : Type} [Field R]
    (dst src twiddles : Nat → ne10_fft_cpx_float32_t R) (ncfft : Nat) (h : 1 ≤ ncfft) :
    ne10_fft_split_r2c_1d_float32 dst src twiddles ncfft 0 = ⟨(src 0).r + (src 0).i, 0⟩ ∧
    ne10_fft_split_r2c_1d_float32 dst src twiddles ncfft ncfft = ⟨(src 0).r - (src 0).i, 0⟩ ∧
    (∀ d : Nat → ne10_fft_cpx_float32_t R,
      split_r2c_loop src twiddles ncfft d 0 = d 0 ∧
      split_r2c_loop src twiddles ncfft d ncfft = d ncfft) := by
  refine ⟨?_, ?_, fun d => ⟨?_, ?_⟩⟩
  · unfold ne10_fft_split_r2c_1d_float32
    rw [split_r2c_loop_frame _ _ _ _ _ (Or.inl rfl), split_r2c_boundary_zero dst src ncfft h]
  · unfold ne10_fft_split_r2c_1d_float32
    rw [split_r2c_loop_frame _ _ _ _ _ (Or.inr (le_refl _)),
      split_r2c_boundary_ncfft dst src ncfft h]
  · exact split_r2c_loop_frame _ _ _ _ _ (Or.inl rfl)
  · exact split_r2c_loop_frame _ _ _ _ _ (Or.inr (le_refl _))

/-- Witness for C10: `ncfft = 4` over the rationals, with a sample input. -/
theorem ne10_fft_split_r2c_boundary_witness :
    (1 : Nat) ≤ 4 ∧
    ne10_fft_split_r2c_1d_float32 (fun _ => (⟨7, 7⟩ : ne10_fft_cpx_float32_t ℚ))
      (fun k => ⟨(k : ℚ) + 1, 2 * (k : ℚ)⟩) (fun _ => ⟨0, 1⟩) 4 4 = ⟨(0 + 1) - 2 * 0, 0⟩ :=
  ⟨by decide, by
    have h := (ne10_fft_split_r2c_boundary (fun _ => (⟨7, 7⟩ : ne10_fft_cpx_float32_t ℚ))
      (fun k => ⟨(k : ℚ) + 1, 2 * (k : ℚ)⟩) (fun _ => ⟨0, 1⟩) 4 (by decide)).2.1
    simpa using h⟩

/-! ## The algebra of one decimation-in-time step -/

theorem sum_range_four_mul {K : Type} [CommRing K] (f : ℕ → K) (M : ℕ) :
    ∑ t in Finset.range (4 * M), f t
      = ∑ j in Finset.range M, (f (4 * j) + f (4 * j + 1) + f (4 * j + 2) + f (4 * j + 3)) := by
  induction M with
  | zero => simp
  | succ M ih =>
    rw [Finset.sum_range_succ, ← ih, show 4 * (M + 1) = 4 * M + 1 + 1 + 1 + 1 by ring,
      Finset.sum_range_succ, Finset.sum_range_succ, Finset.sum_range_succ,
      Finset.sum_range_succ]
    ring

theorem sum_range_two_mul {K : Type} [CommRing K] (f : ℕ → K) (M : ℕ) :
    ∑ t in Finset.range (2 * M), f t
      = ∑ j in Finset.range M, (f (2 * j) + f (2 * j + 1)) := by
  induction M with
  | zero => simp
  | succ M ih =>
    rw [Finset.sum_range_succ, ← ih, show 2 * (M + 1) = 2 * M + 1 + 1 by ring,
      Finset.sum_range_succ, Finset.sum_range_succ]
    ring

/-- The exponent bookkeeping of a radix-4 step. -/
theorem radix4_pow_split {K : Type} [CommRing K] (ζ ζ' J : K) (M : ℕ) (h4 : ζ ^ 4 = ζ')
    (hM : ζ ^ M = J) (hJ : J ^ 4 = 1) (j q m q' : ℕ) :
    ζ ^ ((4 * j + q) * (m + q' * M)) = ζ' ^ (j * m) * (ζ ^ (q * m) * J ^ (q * q')) := by
  have e : (4 * j + q) * (m + q' * M) = 4 * (j * m) + M * (4 * (j * q')) + q * m + M * (q * q') := by
    ring
  rw [e, pow_add, pow_add, pow_add, pow_mul, pow_mul ζ M, pow_mul ζ M, h4, hM, pow_mul J 4, hJ,
    one_pow]
  ring

/-- One radix-4 decimation-in-time step: the `4 M`-point transform of `y` from the four
`M`-point transforms of its decimated subsequences. -/
theorem gdft_radix4 {K : Type} [CommRing K] (ζ ζ' J : K) (M : ℕ) (h4 : ζ ^ 4 = ζ')
    (hM : ζ ^ M = J) (hJ : J ^ 4 = 1) (y : ℕ → K) (m q' : ℕ) :
    gdft ζ (4 * M) y (m + q' * M)
      = gdft ζ' M (fun j => y (4 * j)) m
        + ζ ^ m * J ^ q' * gdft ζ' M (fun j => y (4 * j + 1)) m
        + ζ ^ (2 * m) * J ^ (2 * q') * gdft ζ' M (fun j => y (4 * j + 2)) m
        + ζ ^ (3 * m) * J ^ (3 * q') * gdft ζ' M (fun j => y (4 * j + 3)) m := by
  unfold gdft
  rw [sum_range_four_mul, Finset.mul_sum, Finset.mul_sum, Finset.mul_sum,
    ← Finset.sum_add_distrib, ← Finset.sum_add_distrib, ← Finset.sum_add_distrib]
  apply Finset.sum_congr rfl
  intro j _
  have h0 := radix4_pow_split ζ ζ' J M h4 hM hJ j 0 m q'
  have h1 := radix4_pow_split ζ ζ' J M h4 hM hJ j 1 m q'
  have h2 := radix4_pow_split ζ ζ' J M h4 hM hJ j 2 m q'
  have h3 := radix4_pow_split ζ ζ' J M h4 hM hJ j 3 m q'
  simp only [add_zero, zero_mul, pow_zero, one_mul, mul_one] at h0 h1 h2 h3
  rw [h0, h1, h2, h3]
  ring

/-! ## The stage loops in closed form -/

theorem Mem.write_apply {R : Type} (m : Mem R) (b b' : Buf) (k k' : Nat)
    (v : ne10_fft_cpx_float32_t R) :
    (m.write b k v) b' k' = if b' = b ∧ k' = k then v else m b' k' := by
  unfold Mem.write
  by_cases hb : b' = b
  · subst hb
    by_cases hk : k' = k
    · subst hk; simp
    · simp [Function.update_noteq hk, hk]
  · simp [Function.update_noteq hb, hb]

section LoopLemmas

variable {R : Type}

/-- Two stores of a strided loop at different passes hit different indices. -/
theorem stride_index_ne (D m t q q' : ℕ) (hm : m < t) (ht : t < D) :
    m + D * q ≠ t + D * q' := by
  intro h
  rcases lt_trichotomy q q' with hq | hq | hq
  · have : D * (q + 1) ≤ D * q' := Nat.mul_le_mul_left D hq
    rw [Nat.mul_add, Nat.mul_one] at this
    omega
  · subst hq; omega
  · have : D * (q' + 1) ≤ D * q := Nat.mul_le_mul_left D hq
    rw [Nat.mul_add, Nat.mul_one] at this
    omega

/-- The arrays after one pass of the inner loop of a radix-4 stage. -/
theorem radix4_stage_body_mem
    (bf : ne10_fft_cpx_float32_t R → ne10_fft_cpx_float32_t R → ne10_fft_cpx_float32_t R →
      ne10_fft_cpx_float32_t R → ne10_fft_cpx_float32_t R → ne10_fft_cpx_float32_t R →
      ne10_fft_cpx_float32_t R → Nat → ne10_fft_cpx_float32_t R)
    (tw_table : Nat → ne10_fft_cpx_float32_t R) (in_ptr out_ptr : Buf)
    (mstride step D : Nat) (s : StageState R) (b : Buf) (idx : Nat) :
    (radix4_stage_body bf tw_table in_ptr out_ptr mstride step D s).mem b idx =
      if b = out_ptr ∧ idx = s.dst + D * 3 then
        bf (tw_table s.tw) (tw_table (s.tw + mstride * 1)) (tw_table (s.tw + mstride * 2))
          (s.mem in_ptr s.src) (s.mem in_ptr (s.src + step * 1))
          (s.mem in_ptr (s.src + step * 2)) (s.mem in_ptr (s.src + step * 3)) 3
      else if b = out_ptr ∧ idx = s.dst + D * 2 then
        bf (tw_table s.tw) (tw_table (s.tw + mstride * 1)) (tw_table (s.tw + mstride * 2))
          (s.mem in_ptr s.src) (s.mem in_ptr (s.src + step * 1))
          (s.mem in_ptr (s.src + step * 2)) (s.mem in_ptr (s.src + step * 3)) 2
      else if b = out_ptr ∧ idx = s.dst + D * 1 then
        bf (tw_table s.tw) (tw_table (s.tw + mstride * 1)) (tw_table (s.tw + mstride * 2))
          (s.mem in_ptr s.src) (s.mem in_ptr (s.src + step * 1))
          (s.mem in_ptr (s.src + step * 2)) (s.mem in_ptr (s.src + step * 3)) 1
      else if b = out_ptr ∧ idx = s.dst then
        bf (tw_table s.tw) (tw_table (s.tw + mstride * 1)) (tw_table (s.tw + mstride * 2))
          (s.mem in_ptr s.src) (s.mem in_ptr (s.src + step * 1))
          (s.mem in_ptr (s.src + step * 2)) (s.mem in_ptr (s.src + step * 3)) 0
      else s.mem b idx := by
  simp only [radix4_stage_body, Mem.write_apply]

/-- The state after `t` passes of the inner loop of a radix-4 stage, when the loop makes
at most `D` passes (`D` the store stride) and, if it works in place, loads and stores at
the same offsets. -/
theorem radix4_stage_iterate
    (bf : ne10_fft_cpx_float32_t R → ne10_fft_cpx_float32_t R → ne10_fft_cpx_float32_t R →
      ne10_fft_cpx_float32_t R → ne10_fft_cpx_float32_t R → ne10_fft_cpx_float32_t R →
      ne10_fft_cpx_float32_t R → Nat → ne10_fft_cpx_float32_t R)
    (tw_table : Nat → ne10_fft_cpx_float32_t R) (in_ptr out_ptr : Buf)
    (mstride step D : Nat) (s0 : StageState R)
    (hread : in_ptr = out_ptr → step = D ∧ s0.src = s0.dst) (t : ℕ) (ht : t ≤ D) :
    ((radix4_stage_body bf tw_table in_ptr out_ptr mstride step D)^[t] s0).src = s0.src + t ∧
    ((radix4_stage_body bf tw_table in_ptr out_ptr mstride step D)^[t] s0).dst = s0.dst + t ∧
    ((radix4_stage_body bf tw_table in_ptr out_ptr mstride step D)^[t] s0).tw = s0.tw + t ∧
    (∀ b, b ≠ out_ptr →
      ((radix4_stage_body bf tw_table in_ptr out_ptr mstride step D)^[t] s0).mem b
        = s0.mem b) ∧
    (∀ m q, m < t → q < 4 →
      ((radix4_stage_body bf tw_table in_ptr out_ptr mstride step D)^[t] s0).mem out_ptr
          (s0.dst + m + D * q)
        = bf (tw_table (s0.tw + m)) (tw_table (s0.tw + m + mstride * 1))
            (tw_table (s0.tw + m + mstride * 2))
            (s0.mem in_ptr (s0.src + m)) (s0.mem in_ptr (s0.src + m + step * 1))
            (s0.mem in_ptr (s0.src + m + step * 2)) (s0.mem in_ptr (s0.src + m + step * 3))
            q) ∧
    (∀ idx, (∀ m q, m < t → q < 4 → idx ≠ s0.dst + m + D * q) →
      ((radix4_stage_body bf tw_table in_ptr out_ptr mstride step D)^[t] s0).mem out_ptr idx
        = s0.mem out_ptr idx) := by
  induction t with
  | zero =>
    refine ⟨rfl, rfl, rfl, fun _ _ => rfl, ?_, fun _ _ => rfl⟩
    intro m q hm
    omega
  | succ t ih =>
    obtain ⟨hsrc, hdst, htw, hother, hval, hframe⟩ := ih (by omega)
    have htD : t < D := by omega
    rw [Function.iterate_succ_apply']
    generalize (radix4_stage_body bf tw_table in_ptr out_ptr mstride step D)^[t] s0 = st
      at hsrc hdst htw hother hval hframe ⊢
    -- the loads of this pass see the original contents
    have hload : ∀ k, st.mem in_ptr (s0.src + t + step * k)
        = s0.mem in_ptr (s0.src + t + step * k) := by
      intro k
      by_cases hio : in_ptr = out_ptr
      · obtain ⟨hsD, hsd⟩ := hread hio
        rw [hio]
        apply hframe
        intro m q hm _
        rw [hsD, hsd]
        have := stride_index_ne D m t q k hm htD
        omega
      · rw [hother in_ptr hio]
    have hload0 : st.mem in_ptr (s0.src + t) = s0.mem in_ptr (s0.src + t) := by
      have := hload 0
      simpa using this
    refine ⟨?_, ?_, ?_, ?_, ?_, ?_⟩
    · show st.src + 1 = _
      rw [hsrc]; ring
    · show st.dst + 1 = _
      rw [hdst]; ring
    · show st.tw + 1 = _
      rw [htw]; ring
    · intro b hb
      funext idx
      rw [radix4_stage_body_mem]
      simp only [hb, false_and, if_false]
      rw [hother b hb]
    · intro m q hm hq
      rw [radix4_stage_body_mem, hdst, hsrc, htw]
      by_cases hmt : m < t
      · have h3 := stride_index_ne D m t q 3 hmt htD
        have h2 := stride_index_ne D m t q 2 hmt htD
        have h1 := stride_index_ne D m t q 1 hmt htD
        have h0 := stride_index_ne D m t q 0 hmt htD
        rw [if_neg (by omega), if_neg (by omega), if_neg (by omega), if_neg (by omega)]
        exact hval m q hmt hq
      · have hmeq : m = t := by omega
        subst hmeq
        rw [hload0, hload 1, hload 2, hload 3]
        interval_cases q
        · rw [if_neg (by omega), if_neg (by omega), if_neg (by omega), if_pos ⟨rfl, by omega⟩]
        · rw [if_neg (by omega), if_neg (by omega), if_pos ⟨rfl, by omega⟩]
        · rw [if_neg (by omega), if_pos ⟨rfl, by omega⟩]
        · rw [if_pos ⟨rfl, by omega⟩]
    · intro idx hidx
      rw [radix4_stage_body_mem, hdst]
      have h3 := hidx t 3 (by omega) (by omega)
      have h2 := hidx t 2 (by omega) (by omega)
      have h1 := hidx t 1 (by omega) (by omega)
      have h0 := hidx t 0 (by omega) (by omega)
      rw [if_neg (by omega), if_neg (by omega), if_neg (by omega), if_neg (by omega)]
      exact hframe idx (fun m q hm hq => hidx m q (by omega) hq)

/-- A middle stage in closed form (the source and destination arrays differ): the other
arrays are unchanged, and butterfly `m` of section `f` stores its output `q` at
`f * (mstride * 4) + m + mstride * q`. -/
theorem middle_stage_closed
    (bf : ne10_fft_cpx_float32_t R → ne10_fft_cpx_float32_t R → ne10_fft_cpx_float32_t R →
      ne10_fft_cpx_float32_t R → ne10_fft_cpx_float32_t R → ne10_fft_cpx_float32_t R →
      ne10_fft_cpx_float32_t R → Nat → ne10_fft_cpx_float32_t R)
    (tw_table : Nat → ne10_fft_cpx_float32_t R) (twiddles : Nat) (in_ptr out_ptr : Buf)
    (hne : in_ptr ≠ out_ptr) (fstride M step : Nat) (mem : Mem R) :
    (∀ b, b ≠ out_ptr →
      middle_stage bf tw_table twiddles in_ptr out_ptr fstride M step mem b = mem b) ∧
    (∀ f m q, f < fstride → m < M → q < 4 →
      middle_stage bf tw_table twiddles in_ptr out_ptr fstride M step mem out_ptr
          (f * (M * 4) + m + M * q)
        = bf (tw_table (twiddles + m)) (tw_table (twiddles + m + M * 1))
            (tw_table (twiddles + m + M * 2))
            (mem in_ptr (f * M + m)) (mem in_ptr (f * M + m + step * 1))
            (mem in_ptr (f * M + m + step * 2)) (mem in_ptr (f * M + m + step * 3)) q) := by
  unfold middle_stage
  generalize hg : (fun (s : StageState R) (f_count : Nat) =>
      (radix4_stage_body bf tw_table in_ptr out_ptr M step M)^[M]
        { s with dst := f_count * (M * 4), tw := twiddles }) = g
  have key : ∀ F : ℕ,
      ((List.range F).foldl g { mem := mem, src := 0, dst := 0, tw := twiddles }).src = F * M ∧
      (∀ b, b ≠ out_ptr →
        ((List.range F).foldl g { mem := mem, src := 0, dst := 0, tw := twiddles }).mem b
          = mem b) ∧
      (∀ f m q, f < F → m < M → q < 4 →
        ((List.range F).foldl g { mem := mem, src := 0, dst := 0, tw := twiddles }).mem out_ptr
            (f * (M * 4) + m + M * q)
          = bf (tw_table (twiddles + m)) (tw_table (twiddles + m + M * 1))
              (tw_table (twiddles + m + M * 2))
              (mem in_ptr (f * M + m)) (mem in_ptr (f * M + m + step * 1))
              (mem in_ptr (f * M + m + step * 2)) (mem in_ptr (f * M + m + step * 3)) q) := by
    intro F
    induction F with
    | zero =>
      refine ⟨by simp, fun _ _ => rfl, ?_⟩
      intro f m q hf
      omega
    | succ F ih =>
      obtain ⟨hsrc, hother, hval⟩ := ih
      rw [List.range_succ, List.foldl_append, List.foldl_cons, List.foldl_nil]
      generalize (List.range F).foldl g { mem := mem, src := 0, dst := 0, tw := twiddles } = st
        at hsrc hother hval ⊢
      rw [← hg]
      obtain ⟨isrc, _, _, iother, ival, iframe⟩ :=
        radix4_stage_iterate bf tw_table in_ptr out_ptr M step M
          { st with dst := F * (M * 4), tw := twiddles }
          (fun h => absurd h hne) M (le_refl M)
      refine ⟨?_, ?_, ?_⟩
      · rw [isrc]
        show st.src + M = (F + 1) * M
        rw [hsrc]; ring
      · intro b hb
        rw [iother b hb]
        exact hother b hb
      · intro f m q hf hm hq
        by_cases hfF : f < F
        · rw [iframe]
          · exact hval f m q hfF hm hq
          · intro m' q' _ _
            show f * (M * 4) + m + M * q ≠ F * (M * 4) + m' + M * q'
            have h1 : (f + 1) * (M * 4) ≤ F * (M * 4) := Nat.mul_le_mul_right _ hfF
            have h2 : M * q ≤ M * 3 := Nat.mul_le_mul_left M (by omega)
            rw [Nat.add_mul] at h1
            omega
        · have hfeq : f = F := by omega
          subst hfeq
          have := ival m q hm hq
          simp only at this
          rw [this, hother in_ptr hne, hsrc]
  exact ⟨(key fstride).2.1, (key fstride).2.2⟩

/-- The last stage in closed form when it has one section (`fstride = 1`) of at most
`step` butterflies: butterfly `m` loads and stores at `m, m + step, m + 2 step,
m + 3 step`, also when the source array is the destination array. -/
theorem last_stage_closed
    (bf : ne10_fft_cpx_float32_t R → ne10_fft_cpx_float32_t R → ne10_fft_cpx_float32_t R →
      ne10_fft_cpx_float32_t R → ne10_fft_cpx_float32_t R → ne10_fft_cpx_float32_t R →
      ne10_fft_cpx_float32_t R → Nat → ne10_fft_cpx_float32_t R)
    (tw_table : Nat → ne10_fft_cpx_float32_t R) (twiddles : Nat) (in_ptr : Buf)
    (M step : Nat) (hM : M ≤ step) (mem : Mem R) :
    (∀ b, b ≠ Buf.out → last_stage bf tw_table twiddles in_ptr 1 M step mem b = mem b) ∧
    (∀ m q, m < M → q < 4 →
      last_stage bf tw_table twiddles in_ptr 1 M step mem Buf.out (m + step * q)
        = bf (tw_table (twiddles + m)) (tw_table (twiddles + m + M * 1))
            (tw_table (twiddles + m + M * 2))
            (mem in_ptr m) (mem in_ptr (m + step * 1))
            (mem in_ptr (m + step * 2)) (mem in_ptr (m + step * 3)) q) := by
  unfold last_stage
  rw [Function.iterate_one]
  obtain ⟨_, _, _, iother, ival, _⟩ :=
    radix4_stage_iterate bf tw_table in_ptr Buf.out M step step
      { mem := mem, src := 0, dst := 0, tw := twiddles }
      (fun _ => ⟨rfl, rfl⟩) M hM
  refine ⟨iother, ?_⟩
  intro m q hm hq
  have := ival m q hm hq
  simp only [zero_add] at this
  exact this

/-- The radix-8 first stage in closed form: group `f` loads `in[f + j * fstride]` and
stores its output `q` at `out[f * 8 + q]`; the other arrays are unchanged. -/
theorem first_stage_radix8_closed
    (bf : ne10_fft_cpx_float32_t R → ne10_fft_cpx_float32_t R → ne10_fft_cpx_float32_t R →
      ne10_fft_cpx_float32_t R → ne10_fft_cpx_float32_t R → ne10_fft_cpx_float32_t R →
      ne10_fft_cpx_float32_t R → ne10_fft_cpx_float32_t R → Nat → ne10_fft_cpx_float32_t R)
    (fstride : Nat) (mem : Mem R) :
    (∀ b, b ≠ Buf.out → first_stage_radix8 bf fstride mem b = mem b) ∧
    (∀ f q, f < fstride → q < 8 →
      first_stage_radix8 bf fstride mem Buf.out (f * 8 + q)
        = bf (mem Buf.input f) (mem Buf.input (f + fstride))
            (mem Buf.input (f + fstride * 2)) (mem Buf.input (f + fstride * 3))
            (mem Buf.input (f + fstride * 4)) (mem Buf.input (f + fstride * 5))
            (mem Buf.input (f + fstride * 6)) (mem Buf.input (f + fstride * 7)) q) := by
  unfold first_stage_radix8
  generalize hg : (fun (s : FirstStageState R) (f_count : Nat) =>
      ({ mem := ((((((((s.mem.write Buf.out (f_count * 8)
            ((bf (s.mem Buf.input s.src) (s.mem Buf.input (s.src + fstride))
              (s.mem Buf.input (s.src + fstride * 2)) (s.mem Buf.input (s.src + fstride * 3))
              (s.mem Buf.input (s.src + fstride * 4)) (s.mem Buf.input (s.src + fstride * 5))
              (s.mem Buf.input (s.src + fstride * 6)) (s.mem Buf.input (s.src + fstride * 7)))
              0)).write Buf.out (f_count * 8 + 1)
            ((bf (s.mem Buf.input s.src) (s.mem Buf.input (s.src + fstride))
              (s.mem Buf.input (s.src + fstride * 2)) (s.mem Buf.input (s.src + fstride * 3))
              (s.mem Buf.input (s.src + fstride * 4)) (s.mem Buf.input (s.src + fstride * 5))
              (s.mem Buf.input (s.src + fstride * 6)) (s.mem Buf.input (s.src + fstride * 7)))
              1)).write Buf.out (f_count * 8 + 2)
            ((bf (s.mem Buf.input s.src) (s.mem Buf.input (s.src + fstride))
              (s.mem Buf.input (s.src + fstride * 2)) (s.mem Buf.input (s.src + fstride * 3))
              (s.mem Buf.input (s.src + fstride * 4)) (s.mem Buf.input (s.src + fstride * 5))
              (s.mem Buf.input (s.src + fstride * 6)) (s.mem Buf.input (s.src + fstride * 7)))
              2)).write Buf.out (f_count * 8 + 3)
            ((bf (s.mem Buf.input s.src) (s.mem Buf.input (s.src + fstride))
              (s.mem Buf.input (s.src + fstride * 2)) (s.mem Buf.input (s.src + fstride * 3))
              (s.mem Buf.input (s.src + fstride * 4)) (s.mem Buf.input (s.src + fstride * 5))
              (s.mem Buf.input (s.src + fstride * 6)) (s.mem Buf.input (s.src + fstride * 7)))
              3)).write Buf.out (f_count * 8 + 4)
            ((bf (s.mem Buf.input s.src) (s.mem Buf.input (s.src + fstride))
              (s.mem Buf.input (s.src + fstride * 2)) (s.mem Buf.input (s.src + fstride * 3))
              (s.mem Buf.input (s.src + fstride * 4)) (s.mem Buf.input (s.src + fstride * 5))
              (s.mem Buf.input (s.src + fstride * 6)) (s.mem Buf.input (s.src + fstride * 7)))
              4)).write Buf.out (f_count * 8 + 5)
            ((bf (s.mem Buf.input s.src) (s.mem Buf.input (s.src + fstride))
              (s.mem Buf.input (s.src + fstride * 2)) (s.mem Buf.input (s.src + fstride * 3))
              (s.mem Buf.input (s.src + fstride * 4)) (s.mem Buf.input (s.src + fstride * 5))
              (s.mem Buf.input (s.src + fstride * 6)) (s.mem Buf.input (s.src + fstride * 7)))
              5)).write Buf.out (f_count * 8 + 6)
            ((bf (s.mem Buf.input s.src) (s.mem Buf.input (s.src + fstride))
              (s.mem Buf.input (s.src + fstride * 2)) (s.mem Buf.input (s.src + fstride * 3))
              (s.mem Buf.input (s.src + fstride * 4)) (s.mem Buf.input (s.src + fstride * 5))
              (s.mem Buf.input (s.src + fstride * 6)) (s.mem Buf.input (s.src + fstride * 7)))
              6)).write Buf.out (f_count * 8 + 7)
            ((bf (s.mem Buf.input s.src) (s.mem Buf.input (s.src + fstride))
              (s.mem Buf.input (s.src + fstride * 2)) (s.mem Buf.input (s.src + fstride * 3))
              (s.mem Buf.input (s.src + fstride * 4)) (s.mem Buf.input (s.src + fstride * 5))
              (s.mem Buf.input (s.src + fstride * 6)) (s.mem Buf.input (s.src + fstride * 7)))
              7))
         src := s.src + 1
         dst := f_count * 8 } : FirstStageState R)) = g
  have key : ∀ F : ℕ,
      ((List.range F).foldl g { mem := mem, src := 0, dst := 0 }).src = F ∧
      (∀ b, b ≠ Buf.out →
        ((List.range F).foldl g { mem := mem, src := 0, dst := 0 }).mem b = mem b) ∧
      (∀ f q, f < F → q < 8 →
        ((List.range F).foldl g { mem := mem, src := 0, dst := 0 }).mem Buf.out (f * 8 + q)
          = bf (mem Buf.input f) (mem Buf.input (f + fstride))
            (mem Buf.input (f + fstride * 2)) (mem Buf.input (f + fstride * 3))
            (mem Buf.input (f + fstride * 4)) (mem Buf.input (f + fstride * 5))
            (mem Buf.input (f + fstride * 6)) (mem Buf.input (f + fstride * 7)) q) := by
    intro F
    induction F with
    | zero =>
      refine ⟨by simp, fun _ _ => rfl, ?_⟩
      intro f q hf
      omega
    | succ F ih =>
      obtain ⟨hsrc, hother, hval⟩ := ih
      rw [List.range_succ, List.foldl_append, List.foldl_cons, List.foldl_nil]
      generalize (List.range F).foldl g { mem := mem, src := 0, dst := 0 } = st
        at hsrc hother hval ⊢
      rw [← hg]
      refine ⟨?_, ?_, ?_⟩
      · show st.src + 1 = F + 1
        rw [hsrc]
      · intro b hb
        funext idx
        simp only [Mem.write_apply, hb, false_and, if_false]
        rw [hother b hb]
      · intro f q hf hq
        simp only [Mem.write_apply, true_and]
        by_cases hfF : f < F
        · have hlt : f * 8 + q < F * 8 := by omega
          rw [if_neg (by omega), if_neg (by omega), if_neg (by omega), if_neg (by omega)]
          rw [if_neg (by omega), if_neg (by omega), if_neg (by omega), if_neg (by omega)]
          exact hval f q hfF hq
        · have hfeq : f = F := by omega
          subst hfeq
          rw [hother Buf.input (by decide), hsrc]
          interval_cases q <;> simp
  exact ⟨(key fstride).2.1, (key fstride).2.2⟩

/-- The radix-4 first stage in closed form: group `f` loads `in[f + j * fstride]` and
stores its output `q` at `out[f * 4 + q]`; the other arrays are unchanged. -/
theorem first_stage_radix4_closed
    (bf : ne10_fft_cpx_float32_t R → ne10_fft_cpx_float32_t R → ne10_fft_cpx_float32_t R →
      ne10_fft_cpx_float32_t R → Nat → ne10_fft_cpx_float32_t R)
    (fstride : Nat) (mem : Mem R) :
    (∀ b, b ≠ Buf.out → first_stage_radix4 bf fstride mem b = mem b) ∧
    (∀ f q, f < fstride → q < 4 →
      first_stage_radix4 bf fstride mem Buf.out (f * 4 + q)
        = bf (mem Buf.input f) (mem Buf.input (f + fstride * 1))
            (mem Buf.input (f + fstride * 2)) (mem Buf.input (f + fstride * 3)) q) := by
  unfold first_stage_radix4
  generalize hg : (fun (s : FirstStageState R) =>
      ({ mem := ((((s.mem.write Buf.out s.dst
            ((bf (s.mem Buf.input s.src) (s.mem Buf.input (s.src + fstride * 1))
              (s.mem Buf.input (s.src + fstride * 2)) (s.mem Buf.input (s.src + fstride * 3)))
              0)).write Buf.out (s.dst + 1)
            ((bf (s.mem Buf.input s.src) (s.mem Buf.input (s.src + fstride * 1))
              (s.mem Buf.input (s.src + fstride * 2)) (s.mem Buf.input (s.src + fstride * 3)))
              1)).write Buf.out (s.dst + 2)
            ((bf (s.mem Buf.input s.src) (s.mem Buf.input (s.src + fstride * 1))
              (s.mem Buf.input (s.src + fstride * 2)) (s.mem Buf.input (s.src + fstride * 3)))
              2)).write Buf.out (s.dst + 3)
            ((bf (s.mem Buf.input s.src) (s.mem Buf.input (s.src + fstride * 1))
              (s.mem Buf.input (s.src + fstride * 2)) (s.mem Buf.input (s.src + fstride * 3)))
              3))
         src := s.src + 1
         dst := s.dst + 4 } : FirstStageState R)) = g
  have key : ∀ F : ℕ,
      (g^[F] { mem := mem, src := 0, dst := 0 }).src = F ∧
      (g^[F] { mem := mem, src := 0, dst := 0 }).dst = F * 4 ∧
      (∀ b, b ≠ Buf.out → (g^[F] { mem := mem, src := 0, dst := 0 }).mem b = mem b) ∧
      (∀ f q, f < F → q < 4 →
        (g^[F] { mem := mem, src := 0, dst := 0 }).mem Buf.out (f * 4 + q)
          = bf (mem Buf.input f) (mem Buf.input (f + fstride * 1))
            (mem Buf.input (f + fstride * 2)) (mem Buf.input (f + fstride * 3)) q) := by
    intro F
    induction F with
    | zero =>
      refine ⟨rfl, by simp, fun _ _ => rfl, ?_⟩
      intro f q hf
      omega
    | succ F ih =>
      obtain ⟨hsrc, hdst, hother, hval⟩ := ih
      rw [Function.iterate_succ_apply']
      generalize g^[F] { mem := mem, src := 0, dst := 0 } = st at hsrc hdst hother hval ⊢
      rw [← hg]
      refine ⟨?_, ?_, ?_, ?_⟩
      · show st.src + 1 = F + 1
        rw [hsrc]
      · show st.dst + 4 = (F + 1) * 4
        rw [hdst]; ring
      · intro b hb
        funext idx
        simp only [Mem.write_apply, hb, false_and, if_false]
        rw [hother b hb]
      · intro f q hf hq
        simp only [Mem.write_apply, true_and]
        rw [hdst]
        by_cases hfF : f < F
        · rw [if_neg (by omega), if_neg (by omega), if_neg (by omega), if_neg (by omega)]
          exact hval f q hfF hq
        · have hfeq : f = F := by omega
          subst hfeq
          rw [hother Buf.input (by decide), hsrc]
          interval_cases q <;> simp
  exact ⟨(key fstride).2.2.1, (key fstride).2.2.2⟩

/-- The scaling loop after a lone first stage in closed form. -/
theorem scale_first_stage_closed [Field R] (one_by_nfft : R) (count : Nat) (mem : Mem R) :
    (∀ b, b ≠ Buf.out → scale_first_stage one_by_nfft count mem b = mem b) ∧
    (∀ q, q < count →
      scale_first_stage one_by_nfft count mem Buf.out q
        = ⟨(mem Buf.out q).r * one_by_nfft, (mem Buf.out q).i * one_by_nfft⟩) ∧
    (∀ q, count ≤ q → scale_first_stage one_by_nfft count mem Buf.out q = mem Buf.out q) := by
  unfold scale_first_stage
  induction count with
  | zero =>
    refine ⟨fun _ _ => rfl, ?_, fun _ _ => rfl⟩
    intro q hq
    omega
  | succ c ih =>
    obtain ⟨hother, hval, hframe⟩ := ih
    rw [List.range_succ, List.foldl_append, List.foldl_cons, List.foldl_nil]
    refine ⟨?_, ?_, ?_⟩
    · intro b hb
      funext idx
      simp only [Mem.write_apply, hb, false_and, if_false]
      rw [hother b hb]
    · intro q hq
      simp only [Mem.write_apply, true_and]
      by_cases hqc : q < c
      · rw [if_neg (by omega)]
        exact hval q hqc
      · have hqeq : q = c := by omega
        subst hqeq
        rw [if_pos rfl, hframe q (le_refl q)]
    · intro q hq
      simp only [Mem.write_apply, true_and]
      rw [if_neg (by omega)]
      exact hframe q (by omega)

end LoopLemmas

/-! ## The butterflies over the complex numbers -/

theorem toC_radix4_twiddle_forward (t0 t1 t2 a0 a1 a2 a3 : ne10_fft_cpx_float32_t ℝ)
    (q : ℕ) (hq : q < 4) :
    toC (radix4_twiddle_butterfly_forward t0 t1 t2 a0 a1 a2 a3 q)
      = toC a0 + (-Complex.I) ^ q * (toC t0 * toC a1)
        + (-Complex.I) ^ (2 * q) * (toC t1 * toC a2)
        + (-Complex.I) ^ (3 * q) * (toC t2 * toC a3) := by
  interval_cases q <;>
    apply Complex.ext <;>
    simp [radix4_twiddle_butterfly_forward, toC, pow_succ] <;> ring

theorem toC_radix4_forward (a0 a1 a2 a3 : ne10_fft_cpx_float32_t ℝ) (q : ℕ) (hq : q < 4) :
    toC (radix4_butterfly_forward a0 a1 a2 a3 q)
      = toC a0 + (-Complex.I) ^ q * toC a1 + (-Complex.I) ^ (2 * q) * toC a2
        + (-Complex.I) ^ (3 * q) * toC a3 := by
  interval_cases q <;>
    apply Complex.ext <;>
    simp [radix4_butterfly_forward, toC, pow_succ] <;> ring

theorem toC_radix8_forward (TW_81 : ℝ) (hTW : 2 * TW_81 ^ 2 = 1)
    (X : ℕ → ne10_fft_cpx_float32_t ℝ) (q : ℕ) (hq : q < 8) :
    toC (radix8_butterfly_forward TW_81 (X 0) (X 1) (X 2) (X 3) (X 4) (X 5) (X 6) (X 7) q)
      = gdft ((TW_81 : ℂ) * (1 - Complex.I)) 8 (fun p => toC (X p)) q := by
  have hT : (TW_81 : ℂ) ^ 2 = 1 / 2 := by
    have : ((2 * TW_81 ^ 2 : ℝ) : ℂ) = 1 := by rw [hTW]; simp
    push_cast at this
    linear_combination this / 2
  have hW2 : ((TW_81 : ℂ) * (1 - Complex.I)) ^ 2 = -Complex.I := by
    have hI : Complex.I ^ 2 = -1 := Complex.I_sq
    rw [mul_pow, hT]
    linear_combination (1 / 2 : ℂ) * hI
  generalize hW : (TW_81 : ℂ) * (1 - Complex.I) = W at hW2 ⊢
  have hW8 : ∀ k, W ^ (k + 8) = W ^ k := by
    intro k
    rw [pow_add, show 8 = 2 * 4 by rfl, pow_mul, hW2]
    simp [pow_succ]
  have hW3 : W ^ 3 = -Complex.I * W := by rw [pow_succ, hW2]
  have hW4 : W ^ 4 = -1 := by rw [show 4 = 2 * 2 by rfl, pow_mul, hW2]; simp
  have hW5 : W ^ 5 = -W := by rw [pow_succ, hW4]; ring
  have hW6 : W ^ 6 = Complex.I := by rw [show 6 = 2 * 3 by rfl, pow_mul, hW2]; simp [pow_succ]
  have hW7 : W ^ 7 = Complex.I * W := by rw [pow_succ, hW6]
  unfold gdft
  interval_cases q <;>
    simp only [Finset.sum_range_succ, Finset.sum_range_zero, mul_zero, zero_mul, pow_zero,
      mul_one, one_mul, zero_add, Nat.reduceMul, hW8, pow_one, hW2, hW3, hW4, hW5, hW6, hW7] <;>
    (try rw [← hW]) <;>
    apply Complex.ext <;>
    simp only [radix8_butterfly_forward, toC, Complex.add_re, Complex.add_im, Complex.mul_re,
      Complex.mul_im, Complex.neg_re, Complex.neg_im, Complex.I_re, Complex.I_im,
      Complex.ofReal_re, Complex.ofReal_im, Complex.sub_re, Complex.sub_im, Complex.one_re,
      Complex.one_im] <;>
    ring

theorem toC_radix8_inverse (TW_81 : ℝ) (hTW : 2 * TW_81 ^ 2 = 1)
    (X : ℕ → ne10_fft_cpx_float32_t ℝ) (q : ℕ) (hq : q < 8) :
    toC (radix8_butterfly_inverse TW_81 (X 0) (X 1) (X 2) (X 3) (X 4) (X 5) (X 6) (X 7) q)
      = gdft ((TW_81 : ℂ) * (1 + Complex.I)) 8 (fun p => toC (X p)) q := by
  have hT : (TW_81 : ℂ) ^ 2 = 1 / 2 := by
    have : ((2 * TW_81 ^ 2 : ℝ) : ℂ) = 1 := by rw [hTW]; simp
    push_cast at this
    linear_combination this / 2
  have hW2 : ((TW_81 : ℂ) * (1 + Complex.I)) ^ 2 = Complex.I := by
    have hI : Complex.I ^ 2 = -1 := Complex.I_sq
    rw [mul_pow, hT]
    linear_combination (1 / 2 : ℂ) * hI
  generalize hW : (TW_81 : ℂ) * (1 + Complex.I) = W at hW2 ⊢
  have hW8 : ∀ k, W ^ (k + 8) = W ^ k := by
    intro k
    rw [pow_add, show 8 = 2 * 4 by rfl, pow_mul, hW2]
    simp [pow_succ]
  have hW3 : W ^ 3 = Complex.I * W := by rw [pow_succ, hW2]
  have hW4 : W ^ 4 = -1 := by rw [show 4 = 2 * 2 by rfl, pow_mul, hW2]; simp
  have hW5 : W ^ 5 = -W := by rw [pow_succ, hW4]; ring
  have hW6 : W ^ 6 = -Complex.I := by rw [show 6 = 2 * 3 by rfl, pow_mul, hW2]; simp [pow_succ]
  have hW7 : W ^ 7 = -Complex.I * W := by rw [pow_succ, hW6]
  unfold gdft
  interval_cases q <;>
    simp only [Finset.sum_range_succ, Finset.sum_range_zero, mul_zero, zero_mul, pow_zero,
      mul_one, one_mul, zero_add, Nat.reduceMul, hW8, pow_one, hW2, hW3, hW4, hW5, hW6, hW7] <;>
    (try rw [← hW]) <;>
    apply Complex.ext <;>
    simp only [radix8_butterfly_inverse, toC, Complex.add_re, Complex.add_im, Complex.mul_re,
      Complex.mul_im, Complex.neg_re, Complex.neg_im, Complex.I_re, Complex.I_im,
      Complex.ofReal_re, Complex.ofReal_im, Complex.sub_re, Complex.sub_im, Complex.one_re,
      Complex.one_im] <;>
    ring

theorem toC_radix4_twiddle_inverse (t0 t1 t2 a0 a1 a2 a3 : ne10_fft_cpx_float32_t ℝ)
    (q : ℕ) (hq : q < 4) :
    toC (radix4_twiddle_butterfly_inverse t0 t1 t2 a0 a1 a2 a3 q)
      = toC a0 + Complex.I ^ q * ((starRingEnd ℂ) (toC t0) * toC a1)
        + Complex.I ^ (2 * q) * ((starRingEnd ℂ) (toC t1) * toC a2)
        + Complex.I ^ (3 * q) * ((starRingEnd ℂ) (toC t2) * toC a3) := by
  interval_cases q <;>
    apply Complex.ext <;>
    simp [radix4_twiddle_butterfly_inverse, toC, pow_succ] <;> ring

theorem toC_radix4_twiddle_inverse_scaled (c : ℝ)
    (t0 t1 t2 a0 a1 a2 a3 : ne10_fft_cpx_float32_t ℝ) (q : ℕ) (hq : q < 4) :
    toC (radix4_twiddle_butterfly_inverse_scaled c t0 t1 t2 a0 a1 a2 a3 q)
      = (toC a0 + Complex.I ^ q * ((starRingEnd ℂ) (toC t0) * toC a1)
        + Complex.I ^ (2 * q) * ((starRingEnd ℂ) (toC t1) * toC a2)
        + Complex.I ^ (3 * q) * ((starRingEnd ℂ) (toC t2) * toC a3)) * (c : ℂ) := by
  interval_cases q <;>
    apply Complex.ext <;>
    simp only [radix4_twiddle_butterfly_inverse_scaled, toC, pow_succ, pow_zero, one_mul,
      Nat.reduceMul, Complex.add_re, Complex.add_im, Complex.mul_re,
      Complex.mul_im, Complex.neg_re, Complex.neg_im, Complex.I_re, Complex.I_im,
      Complex.ofReal_re, Complex.ofReal_im, Complex.sub_re, Complex.sub_im, Complex.one_re,
      Complex.one_im, Complex.conj_re, Complex.conj_im] <;>
    ring

theorem toC_radix4_inverse (a0 a1 a2 a3 : ne10_fft_cpx_float32_t ℝ) (q : ℕ) (hq : q < 4) :
    toC (radix4_butterfly_inverse a0 a1 a2 a3 q)
      = toC a0 + Complex.I ^ q * toC a1 + Complex.I ^ (2 * q) * toC a2
        + Complex.I ^ (3 * q) * toC a3 := by
  interval_cases q <;>
    apply Complex.ext <;>
    simp [radix4_butterfly_inverse, toC, pow_succ] <;> ring

/-! ## One stage of the butterfly as a decimation-in-time step -/

/-- A middle stage turns `4 F` transforms of length `M` into `F` transforms of length
`4 M`, for any butterfly `bf` that combines its inputs as a radix-4 step with the
quarter-turn `J` and reads its twiddles through `τ`. -/
theorem middle_stage_dft
    (bf : ne10_fft_cpx_float32_t ℝ → ne10_fft_cpx_float32_t ℝ → ne10_fft_cpx_float32_t ℝ →
      ne10_fft_cpx_float32_t ℝ → ne10_fft_cpx_float32_t ℝ → ne10_fft_cpx_float32_t ℝ →
      ne10_fft_cpx_float32_t ℝ → Nat → ne10_fft_cpx_float32_t ℝ)
    (J : ℂ) (τ : ne10_fft_cpx_float32_t ℝ → ℂ)
    (hbf : ∀ t0 t1 t2 a0 a1 a2 a3 q, q < 4 →
      toC (bf t0 t1 t2 a0 a1 a2 a3 q)
        = toC a0 + J ^ q * (τ t0 * toC a1) + J ^ (2 * q) * (τ t1 * toC a2)
          + J ^ (3 * q) * (τ t2 * toC a3))
    (W : ℕ → ℂ) (hJ : J ^ 4 = 1) (M F : ℕ) (hM : 0 < M)
    (hW4 : W (4 * M) ^ 4 = W M) (hWM : W (4 * M) ^ M = J)
    (tw_table : Nat → ne10_fft_cpx_float32_t ℝ) (twiddles : Nat)
    (htw1 : ∀ m, m < M → τ (tw_table (twiddles + m)) = W (4 * M) ^ m)
    (htw2 : ∀ m, m < M → τ (tw_table (twiddles + m + M * 1)) = W (4 * M) ^ (2 * m))
    (htw3 : ∀ m, m < M → τ (tw_table (twiddles + m + M * 2)) = W (4 * M) ^ (3 * m))
    (in_ptr out_ptr : Buf) (hne : in_ptr ≠ out_ptr) (step : ℕ) (hstep : step = M * F)
    (x : ℕ → ℂ) (mem : Mem ℝ) (hinv : StageInv W x (4 * F) M (mem in_ptr)) :
    StageInv W x F (4 * M)
      (middle_stage bf tw_table twiddles in_ptr out_ptr F M step mem out_ptr) := by
  intro g m' hg hm'
  obtain ⟨_, hval⟩ := middle_stage_closed bf tw_table twiddles in_ptr out_ptr hne F M step mem
  have hq : m' / M < 4 := by
    rw [Nat.div_lt_iff_lt_mul hM]; omega
  have hm : m' % M < M := Nat.mod_lt _ hM
  have hidx : g * (4 * M) + m' = g * (M * 4) + m' % M + M * (m' / M) := by
    have := Nat.mod_add_div m' M
    rw [Nat.mul_comm 4 M]; omega
  have hm'eq : m' = m' % M + (m' / M) * M := by
    have := Nat.mod_add_div m' M
    rw [Nat.mul_comm (m' / M) M]; omega
  rw [hidx, hval g (m' % M) (m' / M) hg hm hq, hbf _ _ _ _ _ _ _ _ hq,
    htw1 _ hm, htw2 _ hm, htw3 _ hm]
  have e0 : mem in_ptr (g * M + m' % M) = mem in_ptr ((g + 0 * F) * M + m' % M) := by
    congr 1; ring
  have e1 : mem in_ptr (g * M + m' % M + step * 1) = mem in_ptr ((g + 1 * F) * M + m' % M) := by
    congr 1; rw [hstep]; ring
  have e2 : mem in_ptr (g * M + m' % M + step * 2) = mem in_ptr ((g + 2 * F) * M + m' % M) := by
    congr 1; rw [hstep]; ring
  have e3 : mem in_ptr (g * M + m' % M + step * 3) = mem in_ptr ((g + 3 * F) * M + m' % M) := by
    congr 1; rw [hstep]; ring
  rw [e0, e1, e2, e3, hinv _ _ (by omega) hm, hinv _ _ (by omega) hm, hinv _ _ (by omega) hm,
    hinv _ _ (by omega) hm]
  conv_rhs => rw [hm'eq]
  rw [gdft_radix4 (W (4 * M)) (W M) J M hW4 hWM hJ]
  have f0 : (fun j => x (g + 0 * F + j * (4 * F))) = (fun j => x (g + 4 * j * F)) := by
    funext j; congr 1; ring
  have f1 : (fun j => x (g + 1 * F + j * (4 * F))) = (fun j => x (g + (4 * j + 1) * F)) := by
    funext j; congr 1; ring
  have f2 : (fun j => x (g + 2 * F + j * (4 * F))) = (fun j => x (g + (4 * j + 2) * F)) := by
    funext j; congr 1; ring
  have f3 : (fun j => x (g + 3 * F + j * (4 * F))) = (fun j => x (g + (4 * j + 3) * F)) := by
    funext j; congr 1; ring
  rw [f0, f1, f2, f3]
  ring

/-- The last stage (one section, stride `M`) turns 4 transforms of length `M` into the
transform of length `4 M`, times the scale `c` of its butterfly; the source array may be
the destination array. -/
theorem last_stage_dft
    (bf : ne10_fft_cpx_float32_t ℝ → ne10_fft_cpx_float32_t ℝ → ne10_fft_cpx_float32_t ℝ →
      ne10_fft_cpx_float32_t ℝ → ne10_fft_cpx_float32_t ℝ → ne10_fft_cpx_float32_t ℝ →
      ne10_fft_cpx_float32_t ℝ → Nat → ne10_fft_cpx_float32_t ℝ)
    (J : ℂ) (τ : ne10_fft_cpx_float32_t ℝ → ℂ) (c : ℂ)
    (hbf : ∀ t0 t1 t2 a0 a1 a2 a3 q, q < 4 →
      toC (bf t0 t1 t2 a0 a1 a2 a3 q)
        = (toC a0 + J ^ q * (τ t0 * toC a1) + J ^ (2 * q) * (τ t1 * toC a2)
          + J ^ (3 * q) * (τ t2 * toC a3)) * c)
    (W : ℕ → ℂ) (hJ : J ^ 4 = 1) (M : ℕ) (hM : 0 < M)
    (hW4 : W (4 * M) ^ 4 = W M) (hWM : W (4 * M) ^ M = J)
    (tw_table : Nat → ne10_fft_cpx_float32_t ℝ) (twiddles : Nat)
    (htw1 : ∀ m, m < M → τ (tw_table (twiddles + m)) = W (4 * M) ^ m)
    (htw2 : ∀ m, m < M → τ (tw_table (twiddles + m + M * 1)) = W (4 * M) ^ (2 * m))
    (htw3 : ∀ m, m < M → τ (tw_table (twiddles + m + M * 2)) = W (4 * M) ^ (3 * m))
    (in_ptr : Buf) (x : ℕ → ℂ) (mem : Mem ℝ) (hinv : StageInv W x 4 M (mem in_ptr))
    (k : ℕ) (hk : k < 4 * M) :
    toC (last_stage bf tw_table twiddles in_ptr 1 M M mem Buf.out k)
      = gdft (W (4 * M)) (4 * M) x k * c := by
  obtain ⟨_, hval⟩ := last_stage_closed bf tw_table twiddles in_ptr M M (le_refl M) mem
  have hq : k / M < 4 := by
    rw [Nat.div_lt_iff_lt_mul hM]; omega
  have hm : k % M < M := Nat.mod_lt _ hM
  have hidx : k = k % M + M * (k / M) := (Nat.mod_add_div k M).symm
  have hkeq : k = k % M + (k / M) * M := by
    rw [Nat.mul_comm (k / M) M]; exact hidx
  conv_lhs => rw [hidx]
  rw [hval (k % M) (k / M) hm hq, hbf _ _ _ _ _ _ _ _ hq, htw1 _ hm, htw2 _ hm, htw3 _ hm]
  have e0 : mem in_ptr (k % M) = mem in_ptr (0 * M + k % M) := by
    congr 1; ring
  have e1 : mem in_ptr (k % M + M * 1) = mem in_ptr (1 * M + k % M) := by
    congr 1; ring
  have e2 : mem in_ptr (k % M + M * 2) = mem in_ptr (2 * M + k % M) := by
    congr 1; ring
  have e3 : mem in_ptr (k % M + M * 3) = mem in_ptr (3 * M + k % M) := by
    congr 1; ring
  rw [e0, e1, e2, e3, hinv _ _ (by omega) hm, hinv _ _ (by omega) hm, hinv _ _ (by omega) hm,
    hinv _ _ (by omega) hm]
  conv_rhs => rw [hkeq]
  rw [gdft_radix4 (W (4 * M)) (W M) J M hW4 hWM hJ]
  have f0 : (fun j => x (0 + j * 4)) = (fun j => x (4 * j)) := by
    funext j; congr 1; ring
  have f1 : (fun j => x (1 + j * 4)) = (fun j => x (4 * j + 1)) := by
    funext j; congr 1; ring
  have f2 : (fun j => x (2 + j * 4)) = (fun j => x (4 * j + 2)) := by
    funext j; congr 1; ring
  have f3 : (fun j => x (3 + j * 4)) = (fun j => x (4 * j + 3)) := by
    funext j; congr 1; ring
  rw [f0, f1, f2, f3]
  ring

/-- The loop over the middle stages keeps the stage invariant: started after `t` radix-4
stages on sub-transforms of length `r * 4 ^ t`, it ends after `t + passes` of them. -/
theorem middle_stages_dft
    (bf : ne10_fft_cpx_float32_t ℝ → ne10_fft_cpx_float32_t ℝ → ne10_fft_cpx_float32_t ℝ →
      ne10_fft_cpx_float32_t ℝ → ne10_fft_cpx_float32_t ℝ → ne10_fft_cpx_float32_t ℝ →
      ne10_fft_cpx_float32_t ℝ → Nat → ne10_fft_cpx_float32_t ℝ)
    (J : ℂ) (τ : ne10_fft_cpx_float32_t ℝ → ℂ)
    (hbf : ∀ t0 t1 t2 a0 a1 a2 a3 q, q < 4 →
      toC (bf t0 t1 t2 a0 a1 a2 a3 q)
        = toC a0 + J ^ q * (τ t0 * toC a1) + J ^ (2 * q) * (τ t1 * toC a2)
          + J ^ (3 * q) * (τ t2 * toC a3))
    (W : ℕ → ℂ) (hJ : J ^ 4 = 1) (hW4 : ∀ M, W (4 * M) ^ 4 = W M)
    (hWM : ∀ M, 0 < M → W (4 * M) ^ M = J)
    (r b : ℕ) (hr : 0 < r) (tw_table : Nat → ne10_fft_cpx_float32_t ℝ)
    (htw1 : ∀ t m, t < b → m < r * 4 ^ t →
      τ (tw_table (r * 4 ^ t - r + m)) = W (4 * (r * 4 ^ t)) ^ m)
    (htw2 : ∀ t m, t < b → m < r * 4 ^ t →
      τ (tw_table (r * 4 ^ t - r + m + r * 4 ^ t * 1)) = W (4 * (r * 4 ^ t)) ^ (2 * m))
    (htw3 : ∀ t m, t < b → m < r * 4 ^ t →
      τ (tw_table (r * 4 ^ t - r + m + r * 4 ^ t * 2)) = W (4 * (r * 4 ^ t)) ^ (3 * m))
    (x : ℕ → ℂ) (passes : ℕ) :
    ∀ (t : ℕ) (s : ButterflyState ℝ), t + passes + 1 ≤ b →
      s.mstride = r * 4 ^ t → s.fstride = 4 ^ (b - 1 - t) → s.twiddles = r * 4 ^ t - r →
      s.in_ptr ≠ s.out_ptr → StageInv W x (4 ^ (b - t)) (r * 4 ^ t) (s.mem s.in_ptr) →
      (middle_stages bf tw_table (r * 4 ^ (b - 1)) passes s).mstride = r * 4 ^ (t + passes) ∧
      (middle_stages bf tw_table (r * 4 ^ (b - 1)) passes s).fstride
        = 4 ^ (b - 1 - (t + passes)) ∧
      (middle_stages bf tw_table (r * 4 ^ (b - 1)) passes s).twiddles
        = r * 4 ^ (t + passes) - r ∧
      (middle_stages bf tw_table (r * 4 ^ (b - 1)) passes s).stage_count
        = s.stage_count - passes ∧
      StageInv W x (4 ^ (b - (t + passes))) (r * 4 ^ (t + passes))
        ((middle_stages bf tw_table (r * 4 ^ (b - 1)) passes s).mem
          (middle_stages bf tw_table (r * 4 ^ (b - 1)) passes s).in_ptr) := by
  induction passes with
  | zero =>
    intro t s _ hm hf htwd _ hinv
    simp only [middle_stages, add_zero, Nat.cast_zero, sub_zero]
    exact ⟨hm, hf, htwd, trivial, hinv⟩
  | succ passes ih =>
    intro t s hle hm hf htwd hne hinv
    have hMpos : 0 < r * 4 ^ t := by positivity
    have h4F : 4 ^ (b - t) = 4 * 4 ^ (b - 1 - t) := by
      rw [show b - t = (b - 1 - t) + 1 by omega, pow_succ]; ring
    have hstep : r * 4 ^ (b - 1) = r * 4 ^ t * 4 ^ (b - 1 - t) := by
      rw [mul_assoc, ← pow_add]; congr 2; omega
    have hrle : r ≤ r * 4 ^ t := Nat.le_mul_of_pos_right r (by positivity)
    rw [h4F] at hinv
    have hstage := middle_stage_dft bf J τ hbf W hJ (r * 4 ^ t) (4 ^ (b - 1 - t)) hMpos
      (hW4 _) (hWM _ hMpos) tw_table (r * 4 ^ t - r)
      (fun m hm' => htw1 t m (by omega) hm') (fun m hm' => htw2 t m (by omega) hm')
      (fun m hm' => htw3 t m (by omega) hm')
      s.in_ptr s.out_ptr hne (r * 4 ^ (b - 1)) hstep x s.mem hinv
    have hF1 : 4 ^ (b - 1 - t) = 4 ^ (b - (t + 1)) := by congr 1; omega
    have hM1 : 4 * (r * 4 ^ t) = r * 4 ^ (t + 1) := by rw [pow_succ]; ring
    rw [hF1, hM1] at hstage
    have := ih (t + 1)
      { mem := middle_stage bf tw_table s.twiddles s.in_ptr s.out_ptr s.fstride s.mstride
          (r * 4 ^ (b - 1)) s.mem
        in_ptr := s.out_ptr
        out_ptr := s.in_ptr
        twiddles := s.twiddles + s.mstride * 3
        mstride := s.mstride * 4
        fstride := s.fstride / 4
        stage_count := s.stage_count - 1 }
      (by omega)
      (by show s.mstride * 4 = r * 4 ^ (t + 1); rw [hm, pow_succ]; ring)
      (by
        show s.fstride / 4 = 4 ^ (b - 1 - (t + 1))
        rw [hf, show b - 1 - t = (b - 1 - (t + 1)) + 1 by omega, pow_succ]
        exact Nat.mul_div_cancel _ (by norm_num))
      (by
        show s.twiddles + s.mstride * 3 = r * 4 ^ (t + 1) - r
        rw [htwd, hm, pow_succ]
        have : r * (4 ^ t * 4) = r * 4 ^ t * 4 := by ring
        omega)
      (fun h => hne h.symm)
      (by
        show StageInv W x _ _ (middle_stage bf tw_table s.twiddles s.in_ptr s.out_ptr s.fstride
          s.mstride (r * 4 ^ (b - 1)) s.mem s.out_ptr)
        rw [htwd, hf, hm, hF1]
        exact hstage)
    have e : t + 1 + passes = t + (passes + 1) := by ring
    rw [e] at this
    simp only [middle_stages]
    obtain ⟨h1, h2, h3, h4, h5⟩ := this
    refine ⟨h1, h2, h3, ?_, h5⟩
    rw [h4]
    push_cast
    ring

/-- Everything after the first stage, for a plan with `b >= 1` radix-4 stages after a
first stage of radix `r`: from `4 ^ b` transforms of length `r` to the transform of length
`r * 4 ^ b`, times the scale `c` of the last stage's butterfly. -/
theorem butterfly_stages_dft
    (bf_mid bf_last : ne10_fft_cpx_float32_t ℝ → ne10_fft_cpx_float32_t ℝ →
      ne10_fft_cpx_float32_t ℝ → ne10_fft_cpx_float32_t ℝ → ne10_fft_cpx_float32_t ℝ →
      ne10_fft_cpx_float32_t ℝ → ne10_fft_cpx_float32_t ℝ → Nat → ne10_fft_cpx_float32_t ℝ)
    (J : ℂ) (τ : ne10_fft_cpx_float32_t ℝ → ℂ) (c : ℂ)
    (hmid : ∀ t0 t1 t2 a0 a1 a2 a3 q, q < 4 →
      toC (bf_mid t0 t1 t2 a0 a1 a2 a3 q)
        = toC a0 + J ^ q * (τ t0 * toC a1) + J ^ (2 * q) * (τ t1 * toC a2)
          + J ^ (3 * q) * (τ t2 * toC a3))
    (hlast : ∀ t0 t1 t2 a0 a1 a2 a3 q, q < 4 →
      toC (bf_last t0 t1 t2 a0 a1 a2 a3 q)
        = (toC a0 + J ^ q * (τ t0 * toC a1) + J ^ (2 * q) * (τ t1 * toC a2)
          + J ^ (3 * q) * (τ t2 * toC a3)) * c)
    (W : ℕ → ℂ) (hJ : J ^ 4 = 1) (hW4 : ∀ M, W (4 * M) ^ 4 = W M)
    (hWM : ∀ M, 0 < M → W (4 * M) ^ M = J)
    (r b : ℕ) (hr : 0 < r) (hb : 1 ≤ b) (tw_table : Nat → ne10_fft_cpx_float32_t ℝ)
    (htw1 : ∀ t m, t < b → m < r * 4 ^ t →
      τ (tw_table (r * 4 ^ t - r + m)) = W (4 * (r * 4 ^ t)) ^ m)
    (htw2 : ∀ t m, t < b → m < r * 4 ^ t →
      τ (tw_table (r * 4 ^ t - r + m + r * 4 ^ t * 1)) = W (4 * (r * 4 ^ t)) ^ (2 * m))
    (htw3 : ∀ t m, t < b → m < r * 4 ^ t →
      τ (tw_table (r * 4 ^ t - r + m + r * 4 ^ t * 2)) = W (4 * (r * 4 ^ t)) ^ (3 * m))
    (x : ℕ → ℂ) (mem1 : Mem ℝ) (hinv0 : StageInv W x (4 ^ b) r (mem1 Buf.out))
    (k : ℕ) (hk : k < r * 4 ^ b) :
    toC (butterfly_stages bf_mid bf_last tw_table mem1 (b : ℤ) (4 ^ (b - 1)) r
        (r * 4 ^ (b - 1)) Buf.out k)
      = gdft (W (r * 4 ^ b)) (r * 4 ^ b) x k * c := by
  have hpasses : ((b : ℤ) - 1).toNat = b - 1 := by omega
  have hinv0' : StageInv W x (4 ^ (b - 0)) (r * 4 ^ 0) (mem1 Buf.out) := by
    simpa using hinv0
  obtain ⟨h1, h2, h3, h4, h5⟩ := middle_stages_dft bf_mid J τ hmid W hJ hW4 hWM r b hr tw_table
    htw1 htw2 htw3 x (b - 1) 0
    { mem := mem1, in_ptr := Buf.out, out_ptr := Buf.buffer, twiddles := 0,
      mstride := r, fstride := 4 ^ (b - 1), stage_count := (b : ℤ) }
    (by omega) (by simp) (by simp) (by simp) (fun h => Buf.noConfusion h) hinv0'
  unfold butterfly_stages
  simp only [hpasses]
  generalize middle_stages bf_mid tw_table (r * 4 ^ (b - 1)) (b - 1)
    { mem := mem1, in_ptr := Buf.out, out_ptr := Buf.buffer, twiddles := 0,
      mstride := r, fstride := 4 ^ (b - 1), stage_count := (b : ℤ) } = s at h1 h2 h3 h4 h5 ⊢
  have hsc : s.stage_count ≠ 0 := by
    rw [h4]
    show (b : ℤ) - ((b - 1 : ℕ) : ℤ) ≠ 0
    omega
  rw [if_pos hsc]
  simp only [zero_add] at h1 h2 h3 h5
  have hf1 : s.fstride = 1 := by
    rw [h2, show b - 1 - (b - 1) = 0 by omega, pow_zero]
  have h4one : 4 ^ (b - (b - 1)) = 4 := by
    rw [show b - (b - 1) = 1 by omega, pow_one]
  rw [h4one] at h5
  have hMpos : 0 < r * 4 ^ (b - 1) := by positivity
  have hn : r * 4 ^ b = 4 * (r * 4 ^ (b - 1)) := by
    conv_lhs => rw [show b = (b - 1) + 1 by omega, pow_succ]
    ring
  rw [hf1, h1, h3, hn]
  exact last_stage_dft bf_last J τ c hlast W hJ (r * 4 ^ (b - 1)) hMpos (hW4 _) (hWM _ hMpos)
    tw_table (r * 4 ^ (b - 1) - r)
    (fun m hm => htw1 (b - 1) m (by omega) hm) (fun m hm => htw2 (b - 1) m (by omega) hm)
    (fun m hm => htw3 (b - 1) m (by omega) hm) s.in_ptr x s.mem h5 k (by omega)

/-! ## The plan of a power of two -/

theorem ne10_factor_radix_eight (a : Int) :
    ne10_factor_radix 8 NE10_FACTOR_EIGHT_FIRST_STAGE a = (8, a) := by
  have h1 : Int.land NE10_FACTOR_EIGHT_FIRST_STAGE NE10_FACTOR_EIGHT_FIRST_STAGE ≠ 0 := by
    decide
  unfold ne10_factor_radix
  rw [if_pos ⟨h1, Or.inl rfl⟩, if_pos rfl]

theorem ne10_factor_radix_four_dvd (n a : Int) (h4 : n % 4 = 0) (h8 : n ≠ 8) (h24 : n ≠ 24)
    (h40 : n ≠ 40) : ne10_factor_radix n NE10_FACTOR_EIGHT_FIRST_STAGE a = (4, a) := by
  have hl : Int.land NE10_FACTOR_EIGHT_FIRST_STAGE NE10_FACTOR_EIGHT = 0 := by decide
  unfold ne10_factor_radix
  rw [if_neg, if_neg, if_pos h4]
  · rintro ⟨h, _⟩
    exact h hl
  · rintro ⟨_, h | h | h⟩
    · exact h8 h
    · exact h40 h
    · exact h24 h

/-- The factor loop on `r * 4 ^ b` with `r` 4 or 8 and the radix-8-first-stage flag:
`b` passes strip a 4 and the last pass strips `r`. -/
theorem ne10_factor_loop_pow4 (r : Int) (hr : r = 4 ∨ r = 8) (b : ℕ) :
    ∀ s : FactorState, s.n = r * 4 ^ b →
      (ne10_factor_loop NE10_FACTOR_EIGHT_FIRST_STAGE s).stage_num = s.stage_num + b + 1 ∧
      (ne10_factor_loop NE10_FACTOR_EIGHT_FIRST_STAGE s).i = s.i + b + 1 ∧
      (ne10_factor_loop NE10_FACTOR_EIGHT_FIRST_STAGE s).p = r ∧
      (ne10_factor_loop NE10_FACTOR_EIGHT_FIRST_STAGE s).alg_flag = s.alg_flag ∧
      (∀ k, k < 2 * s.i →
        (ne10_factor_loop NE10_FACTOR_EIGHT_FIRST_STAGE s).facbuf k = s.facbuf k) ∧
      (∀ u, u < b →
        (ne10_factor_loop NE10_FACTOR_EIGHT_FIRST_STAGE s).facbuf (2 * (s.i + u)) = 4 ∧
        (ne10_factor_loop NE10_FACTOR_EIGHT_FIRST_STAGE s).facbuf (2 * (s.i + u) + 1)
          = r * 4 ^ (b - 1 - u)) ∧
      (ne10_factor_loop NE10_FACTOR_EIGHT_FIRST_STAGE s).facbuf (2 * (s.i + b)) = r ∧
      (ne10_factor_loop NE10_FACTOR_EIGHT_FIRST_STAGE s).facbuf (2 * (s.i + b) + 1) = 1 := by
  induction b with
  | zero =>
    intro s hs
    rw [pow_zero, mul_one] at hs
    have hrad : ne10_factor_radix s.n NE10_FACTOR_EIGHT_FIRST_STAGE s.alg_flag
        = (r, s.alg_flag) := by
      rcases hr with hr | hr
      · rw [hs, hr]
        exact ne10_factor_radix_four_dvd 4 _ (by decide) (by decide) (by decide) (by decide)
      · rw [hs, hr]
        exact ne10_factor_radix_eight _
    have hn1 : (ne10_factor_step NE10_FACTOR_EIGHT_FIRST_STAGE s).n = 1 := by
      show s.n / (ne10_factor_radix s.n NE10_FACTOR_EIGHT_FIRST_STAGE s.alg_flag).1 = 1
      rw [hrad]
      show s.n / r = 1
      rw [hs]
      rcases hr with hr | hr <;> rw [hr] <;> decide
    rw [ne10_factor_loop, if_neg (by rw [hn1]; decide)]
    have hR := ne10_factor_step_facbuf_radix NE10_FACTOR_EIGHT_FIRST_STAGE s
    have hS := ne10_factor_step_facbuf_size NE10_FACTOR_EIGHT_FIRST_STAGE s
    rw [hrad] at hR hS
    refine ⟨rfl, rfl, ?_, ?_, ?_, ?_, ?_, ?_⟩
    · show (ne10_factor_radix s.n NE10_FACTOR_EIGHT_FIRST_STAGE s.alg_flag).1 = r
      rw [hrad]
    · show (ne10_factor_radix s.n NE10_FACTOR_EIGHT_FIRST_STAGE s.alg_flag).2 = s.alg_flag
      rw [hrad]
    · intro k hk
      exact ne10_factor_step_facbuf_lt _ s k hk
    · intro u hu
      omega
    · exact hR
    · show (ne10_factor_step NE10_FACTOR_EIGHT_FIRST_STAGE s).facbuf (2 * s.i + 1) = 1
      rw [hS, ← hrad]
      exact hn1
  | succ b ih =>
    intro s hs
    have hpos : (0 : Int) < 4 ^ b := by positivity
    have hn16 : s.n = 4 * (r * 4 ^ b) := by rw [hs, pow_succ]; ring
    have hrb : ∃ c : Int, 0 < c ∧ r * 4 ^ b = 4 * c := by
      rcases hr with hr | hr
      · exact ⟨4 ^ b, hpos, by rw [hr]⟩
      · exact ⟨2 * 4 ^ b, by omega, by rw [hr]; ring⟩
    obtain ⟨c, hc, hrc⟩ := hrb
    have hrad : ne10_factor_radix s.n NE10_FACTOR_EIGHT_FIRST_STAGE s.alg_flag
        = (4, s.alg_flag) :=
      ne10_factor_radix_four_dvd s.n _ (by omega) (by omega) (by omega) (by omega)
    have hn' : (ne10_factor_step NE10_FACTOR_EIGHT_FIRST_STAGE s).n = r * 4 ^ b := by
      show s.n / (ne10_factor_radix s.n NE10_FACTOR_EIGHT_FIRST_STAGE s.alg_flag).1 = _
      rw [hrad, hn16]
      show 4 * (r * 4 ^ b) / 4 = r * 4 ^ b
      omega
    rw [ne10_factor_loop, if_pos (by rw [hn']; omega)]
    obtain ⟨i1, i2, i3, i4, i5, i6, i7, i8⟩ :=
      ih (ne10_factor_step NE10_FACTOR_EIGHT_FIRST_STAGE s) hn'
    have hR := ne10_factor_step_facbuf_radix NE10_FACTOR_EIGHT_FIRST_STAGE s
    have hS := ne10_factor_step_facbuf_size NE10_FACTOR_EIGHT_FIRST_STAGE s
    rw [hrad] at hR hS
    have hi : (ne10_factor_step NE10_FACTOR_EIGHT_FIRST_STAGE s).i = s.i + 1 := rfl
    have hst : (ne10_factor_step NE10_FACTOR_EIGHT_FIRST_STAGE s).stage_num = s.stage_num + 1 :=
      rfl
    have hal : (ne10_factor_step NE10_FACTOR_EIGHT_FIRST_STAGE s).alg_flag = s.alg_flag := by
      show (ne10_factor_radix s.n NE10_FACTOR_EIGHT_FIRST_STAGE s.alg_flag).2 = s.alg_flag
      rw [hrad]
    rw [hi] at i2 i5 i6 i7 i8
    rw [hst] at i1
    rw [hal] at i4
    refine ⟨by rw [i1]; ring, by rw [i2]; ring, i3, i4, ?_, ?_, ?_, ?_⟩
    · intro k hk
      rw [i5 k (by omega)]
      exact ne10_factor_step_facbuf_lt _ s k hk
    · intro u hu
      by_cases hu0 : u = 0
      · subst hu0
        rw [Nat.add_zero, i5 _ (by omega), i5 _ (by omega), hR, hS]
        refine ⟨rfl, ?_⟩
        show s.n / 4 = r * 4 ^ (b + 1 - 1 - 0)
        rw [hn16]
        show 4 * (r * 4 ^ b) / 4 = r * 4 ^ b
        omega
      · obtain ⟨j1, j2⟩ := i6 (u - 1) (by omega)
        have e : s.i + 1 + (u - 1) = s.i + u := by omega
        rw [e] at j1 j2
        refine ⟨j1, ?_⟩
        rw [j2]
        congr 2
        omega
    · have e : s.i + 1 + b = s.i + (b + 1) := by ring
      rw [e] at i7
      exact i7
    · have e : s.i + 1 + b = s.i + (b + 1) := by ring
      rw [e] at i8
      exact i8

/-- The factor buffer that `ne10_factor` leaves for the length `r * 4 ^ b` (`r` 4 or 8)
with the radix-8-first-stage flag, when `b + 1 <= 21`. -/
theorem ne10_factor_body_pow4 (r : Int) (hr : r = 4 ∨ r = 8) (b : ℕ) (hb : b + 1 ≤ 21)
    (buf : Nat → Int) :
    (ne10_factor_body (r * 4 ^ b) buf NE10_FACTOR_EIGHT_FIRST_STAGE).2 0 = ((b + 1 : ℕ) : Int) ∧
    (ne10_factor_body (r * 4 ^ b) buf NE10_FACTOR_EIGHT_FIRST_STAGE).2 1 = 4 ^ b ∧
    (∀ u, u < b →
      (ne10_factor_body (r * 4 ^ b) buf NE10_FACTOR_EIGHT_FIRST_STAGE).2 (2 * (1 + u)) = 4 ∧
      (ne10_factor_body (r * 4 ^ b) buf NE10_FACTOR_EIGHT_FIRST_STAGE).2 (2 * (1 + u) + 1)
        = r * 4 ^ (b - 1 - u)) ∧
    (ne10_factor_body (r * 4 ^ b) buf NE10_FACTOR_EIGHT_FIRST_STAGE).2 (2 * (1 + b)) = r := by
  have hpos : (0 : Int) < r * 4 ^ b := by
    rcases hr with hr | hr <;> rw [hr] <;> positivity
  obtain ⟨i1, i2, i3, i4, i5, i6, i7, i8⟩ :=
    ne10_factor_loop_pow4 r hr b (ne10_factor_init (r * 4 ^ b) buf) rfl
  have hst : (ne10_factor_loop NE10_FACTOR_EIGHT_FIRST_STAGE
      (ne10_factor_init (r * 4 ^ b) buf)).stage_num = b + 1 := by
    rw [i1]
    show 0 + b + 1 = b + 1
    ring
  have hS : ¬ (ne10_factor_loop NE10_FACTOR_EIGHT_FIRST_STAGE
      (ne10_factor_init (r * 4 ^ b) buf)).stage_num > 21 := by
    rw [hst]; omega
  obtain ⟨e0, e1, ek, _⟩ := ne10_factor_body_entries (r * 4 ^ b) buf
    NE10_FACTOR_EIGHT_FIRST_STAGE hpos hS
  rw [hst] at ek
  have hi1 : (ne10_factor_init (r * 4 ^ b) buf).i = 1 := rfl
  rw [hi1] at i6 i7
  refine ⟨by rw [e0, hst], ?_, ?_, ?_⟩
  · rw [e1, i3]
    have hr0 : r ≠ 0 := by rcases hr with hr | hr <;> rw [hr] <;> decide
    exact Int.mul_ediv_cancel_left _ hr0
  · intro u hu
    rw [ek _ (by omega) (by omega), ek _ (by omega) (by omega)]
    exact i6 u hu
  · rw [ek _ (by omega) (by omega)]
    exact i7

/-! ## The twiddle table of a power-of-two plan -/

/-- One stage of the twiddle generation, for a stage of radix 4 and section size `M`:
the three runs of `M` entries written at the current offset, and nothing below it. -/
theorem twiddle_gen_stage_four {R : Type} [Field R] (pi : R) (cos sin : R → R) (ncfft : Int)
    (factors : Nat → Int) (sc : Nat) (s : TwiddleGenState R) (M : ℕ)
    (h4 : factors (2 * sc) = 4) (hM : factors (2 * sc + 1) = (M : Int)) :
    (twiddle_gen_stage pi cos sin ncfft factors sc s).twiddles = s.twiddles + M * 3 ∧
    (twiddle_gen_stage pi cos sin ncfft factors sc s).fstride = s.fstride / 4 ∧
    (∀ idx, idx < s.twiddles →
      (twiddle_gen_stage pi cos sin ncfft factors sc s).table idx = s.table idx) ∧
    (∀ j q, j < M → 1 ≤ q → q ≤ 3 →
      (twiddle_gen_stage pi cos sin ncfft factors sc s).table (s.twiddles + (M * (q - 1) + j))
        = ⟨cos (-2 * pi * ((s.fstride / 4 : ℕ) : R) * (q : R) * (j : R) / (ncfft : R)),
           sin (-2 * pi * ((s.fstride / 4 : ℕ) : R) * (q : R) * (j : R) / (ncfft : R))⟩) := by
  have hr : (factors (2 * sc)).toNat = 4 := by rw [h4]; rfl
  have hm : (factors (2 * sc + 1)).toNat = M := by rw [hM]; exact Int.toNat_natCast M
  simp only [twiddle_gen_stage, hr, hm]
  refine ⟨trivial, trivial, ?_⟩
  have hl : List.range' 1 (4 - 1) = [1, 2, 3] := by decide
  simp only [hl, List.foldl_cons, List.foldl_nil]
  generalize hφ : (fun (q j : ℕ) =>
      -2 * pi * ((s.fstride / 4 : ℕ) : R) * (q : R) * (j : R) / (ncfft : R)) = φ
  have key : ∀ J : ℕ, J ≤ M →
      (∀ idx, idx < s.twiddles →
        (List.range J).foldl (fun (t : Nat → ne10_fft_cpx_float32_t R) (j : Nat) =>
          Function.update (Function.update (Function.update t
            (s.twiddles + (M * (1 - 1) + j)) ⟨cos (φ 1 j), sin (φ 1 j)⟩)
            (s.twiddles + (M * (2 - 1) + j)) ⟨cos (φ 2 j), sin (φ 2 j)⟩)
            (s.twiddles + (M * (3 - 1) + j)) ⟨cos (φ 3 j), sin (φ 3 j)⟩) s.table idx
          = s.table idx) ∧
      (∀ j q, j < J → 1 ≤ q → q ≤ 3 →
        (List.range J).foldl (fun (t : Nat → ne10_fft_cpx_float32_t R) (j : Nat) =>
          Function.update (Function.update (Function.update t
            (s.twiddles + (M * (1 - 1) + j)) ⟨cos (φ 1 j), sin (φ 1 j)⟩)
            (s.twiddles + (M * (2 - 1) + j)) ⟨cos (φ 2 j), sin (φ 2 j)⟩)
            (s.twiddles + (M * (3 - 1) + j)) ⟨cos (φ 3 j), sin (φ 3 j)⟩) s.table
          (s.twiddles + (M * (q - 1) + j)) = ⟨cos (φ q j), sin (φ q j)⟩) := by
    intro J
    induction J with
    | zero =>
      intro _
      refine ⟨fun _ _ => rfl, ?_⟩
      intro j q hj
      omega
    | succ J ih =>
      intro hJ
      obtain ⟨hframe, hval⟩ := ih (by omega)
      rw [List.range_succ, List.foldl_append, List.foldl_cons, List.foldl_nil]
      refine ⟨?_, ?_⟩
      · intro idx hidx
        rw [Function.update_noteq (by omega), Function.update_noteq (by omega),
          Function.update_noteq (by omega)]
        exact hframe idx hidx
      · intro j q hj hq1 hq3
        by_cases hjJ : j < J
        · have a1 := stride_index_ne M j J (q - 1) 0 hjJ (by omega)
          have a2 := stride_index_ne M j J (q - 1) 1 hjJ (by omega)
          have a3 := stride_index_ne M j J (q - 1) 2 hjJ (by omega)
          rw [Function.update_noteq (by omega),
            Function.update_noteq (by omega),
            Function.update_noteq (by omega)]
          exact hval j q hjJ hq1 hq3
        · have hjeq : j = J := by omega
          subst hjeq
          have hq : q = 1 ∨ q = 2 ∨ q = 3 := by omega
          rcases hq with hq | hq | hq
          · subst hq
            rw [Function.update_noteq (by omega),
              Function.update_noteq (by omega),
              Function.update_same]
          · subst hq
            rw [Function.update_noteq (by omega),
              Function.update_same]
          · subst hq
            rw [Function.update_same]
  have hk := key M (le_refl M)
  rw [← hφ] at hk
  exact hk

/-- The twiddle generation loop on a plan whose non-first stages all have radix 4: when
it has `sc` stages left to do, it fills the sub-tables of the stages with section sizes
`r * 4 ^ t`, `b - sc <= t < b`, each at offset `r * 4 ^ t - r`. -/
theorem twiddle_gen_pow4 {R : Type} [Field R] (pi : R) (cos sin : R → R) (ncfft : Int)
    (factors : Nat → Int) (r b : ℕ) (hr : 0 < r)
    (hfac : ∀ u, u < b → factors (2 * (1 + u)) = 4 ∧
      factors (2 * (1 + u) + 1) = ((r * 4 ^ (b - 1 - u) : ℕ) : ℤ)) (sc : ℕ) :
    sc ≤ b → ∀ s : TwiddleGenState R, s.fstride = 4 ^ sc → s.twiddles = r * 4 ^ (b - sc) - r →
      (∀ idx, idx < s.twiddles →
        (twiddle_gen pi cos sin ncfft factors sc s).table idx = s.table idx) ∧
      (∀ t m q, b - sc ≤ t → t < b → m < r * 4 ^ t → 1 ≤ q → q ≤ 3 →
        (twiddle_gen pi cos sin ncfft factors sc s).table
            (r * 4 ^ t - r + (r * 4 ^ t * (q - 1) + m))
          = ⟨cos (-2 * pi * ((4 ^ (b - 1 - t) : ℕ) : R) * (q : R) * (m : R) / (ncfft : R)),
             sin (-2 * pi * ((4 ^ (b - 1 - t) : ℕ) : R) * (q : R) * (m : R) / (ncfft : R))⟩) := by
  induction sc with
  | zero =>
    intro _ s _ _
    refine ⟨fun _ _ => rfl, ?_⟩
    intro t m q h1 h2
    omega
  | succ sc ih =>
    intro hsc s hf ht
    obtain ⟨f4, fM⟩ := hfac sc (by omega)
    have e1 : 2 * (1 + sc) = 2 * (sc + 1) := by ring
    rw [e1] at f4 fM
    obtain ⟨g1, g2, g3, g4⟩ := twiddle_gen_stage_four pi cos sin ncfft factors (sc + 1) s
      (r * 4 ^ (b - 1 - sc)) f4 fM
    have hpow : r * 4 ^ (b - sc) = r * 4 ^ (b - 1 - sc) * 4 := by
      rw [show b - sc = (b - 1 - sc) + 1 by omega, pow_succ]; ring
    have hrle : r ≤ r * 4 ^ (b - 1 - sc) := Nat.le_mul_of_pos_right r (by positivity)
    have hb1 : b - (sc + 1) = b - 1 - sc := by omega
    rw [hb1] at ht
    have hfs : s.fstride / 4 = 4 ^ sc := by
      rw [hf, pow_succ]
      exact Nat.mul_div_cancel _ (by norm_num)
    obtain ⟨i1, i2⟩ := ih (by omega) (twiddle_gen_stage pi cos sin ncfft factors (sc + 1) s)
      (by rw [g2, hfs])
      (by rw [g1, ht, hpow]; omega)
    show (∀ idx, idx < s.twiddles →
        (twiddle_gen pi cos sin ncfft factors sc
          (twiddle_gen_stage pi cos sin ncfft factors (sc + 1) s)).table idx = s.table idx) ∧
      (∀ t m q, b - (sc + 1) ≤ t → t < b → m < r * 4 ^ t → 1 ≤ q → q ≤ 3 →
        (twiddle_gen pi cos sin ncfft factors sc
          (twiddle_gen_stage pi cos sin ncfft factors (sc + 1) s)).table
            (r * 4 ^ t - r + (r * 4 ^ t * (q - 1) + m))
          = ⟨cos (-2 * pi * ((4 ^ (b - 1 - t) : ℕ) : R) * (q : R) * (m : R) / (ncfft : R)),
             sin (-2 * pi * ((4 ^ (b - 1 - t) : ℕ) : R) * (q : R) * (m : R) / (ncfft : R))⟩)
    refine ⟨?_, ?_⟩
    · intro idx hidx
      rw [i1 idx (by rw [g1]; omega)]
      exact g3 idx hidx
    · intro t m q h1 h2 hm hq1 hq3
      by_cases hts : b - sc ≤ t
      · exact i2 t m q hts h2 hm hq1 hq3
      · have hteq : t = b - 1 - sc := by omega
        subst hteq
        have hq : r * 4 ^ (b - 1 - sc) * (q - 1) ≤ r * 4 ^ (b - 1 - sc) * 2 :=
          Nat.mul_le_mul_left _ (by omega)
        rw [i1 _ (by rw [g1, ht]; omega)]
        have := g4 m q hm hq1 hq3
        rw [ht, hfs] at this
        rw [this]
        have e2 : b - 1 - (b - 1 - sc) = sc := by omega
        rw [e2]

/-- The twiddle table of the plan for `ncfft = r * 4 ^ b` (`r` 4 or 8): the three
entries that the butterfly of position `m` loads in the stage with section size
`r * 4 ^ t`. -/
theorem alloc_twiddles_pow4 {R : Type} [Field R] (pi : R) (cos sin : R → R) (r b : ℕ)
    (hr : r = 4 ∨ r = 8) (hb : b + 1 ≤ 21) (buf : Nat → Int)
    (table : Nat → ne10_fft_cpx_float32_t R) (t m q : ℕ)
    (ht : t < b) (hm : m < r * 4 ^ t) (hq1 : 1 ≤ q) (hq3 : q ≤ 3) :
    (twiddle_gen pi cos sin ((r : ℤ) * 4 ^ b)
        (ne10_factor_body ((r : ℤ) * 4 ^ b) buf NE10_FACTOR_EIGHT_FIRST_STAGE).2
        ((ne10_factor_body ((r : ℤ) * 4 ^ b) buf NE10_FACTOR_EIGHT_FIRST_STAGE).2 0 - 1).toNat
        { table := table, twiddles := 0,
          fstride := ((ne10_factor_body ((r : ℤ) * 4 ^ b) buf
            NE10_FACTOR_EIGHT_FIRST_STAGE).2 1).toNat }).table
        (r * 4 ^ t - r + (r * 4 ^ t * (q - 1) + m))
      = ⟨cos (-2 * pi * ((4 ^ (b - 1 - t) : ℕ) : R) * (q : R) * (m : R)
            / (((r : ℤ) * 4 ^ b : ℤ) : R)),
         sin (-2 * pi * ((4 ^ (b - 1 - t) : ℕ) : R) * (q : R) * (m : R)
            / (((r : ℤ) * 4 ^ b : ℤ) : R))⟩ := by
  have hr' : (r : ℤ) = 4 ∨ (r : ℤ) = 8 := by
    rcases hr with hr | hr <;> rw [hr] <;> simp
  have hrpos : 0 < r := by omega
  obtain ⟨e0, e1, eu, _⟩ := ne10_factor_body_pow4 (r : ℤ) hr' b hb buf
  have hsc : ((ne10_factor_body ((r : ℤ) * 4 ^ b) buf NE10_FACTOR_EIGHT_FIRST_STAGE).2 0
      - 1).toNat = b := by
    rw [e0]; push_cast; omega
  have hfs : ((ne10_factor_body ((r : ℤ) * 4 ^ b) buf NE10_FACTOR_EIGHT_FIRST_STAGE).2 1).toNat
      = 4 ^ b := by
    rw [e1]
    have : ((4 : ℤ) ^ b) = ((4 ^ b : ℕ) : ℤ) := by push_cast; rfl
    rw [this]
    exact Int.toNat_natCast _
  rw [hsc, hfs]
  have hfac : ∀ u, u < b →
      (ne10_factor_body ((r : ℤ) * 4 ^ b) buf NE10_FACTOR_EIGHT_FIRST_STAGE).2 (2 * (1 + u)) = 4 ∧
      (ne10_factor_body ((r : ℤ) * 4 ^ b) buf NE10_FACTOR_EIGHT_FIRST_STAGE).2
        (2 * (1 + u) + 1) = ((r * 4 ^ (b - 1 - u) : ℕ) : ℤ) := by
    intro u hu
    obtain ⟨a1, a2⟩ := eu u hu
    refine ⟨a1, ?_⟩
    rw [a2]; push_cast; rfl
  exact (twiddle_gen_pow4 pi cos sin ((r : ℤ) * 4 ^ b) _ r b hrpos hfac b (le_refl b)
    { table := table, twiddles := 0, fstride := 4 ^ b } rfl
    (by show 0 = r * 4 ^ (b - b) - r; simp)).2 t m q (by omega) ht hm hq1 hq3

/-! ## The roots of unity `exp (-2 π i / N)` -/

theorem exp_root_pow4 (M : ℕ) :
    Complex.exp (-2 * (Real.pi : ℂ) * Complex.I / ((4 * M : ℕ) : ℂ)) ^ 4
      = Complex.exp (-2 * (Real.pi : ℂ) * Complex.I / (M : ℂ)) := by
  rw [← Complex.exp_nat_mul]
  congr 1
  by_cases hM : M = 0
  · subst hM; simp
  · have : (M : ℂ) ≠ 0 := Nat.cast_ne_zero.mpr hM
    push_cast
    field_simp
    ring

theorem exp_root_powM (M : ℕ) (hM : 0 < M) :
    Complex.exp (-2 * (Real.pi : ℂ) * Complex.I / ((4 * M : ℕ) : ℂ)) ^ M = -Complex.I := by
  rw [← Complex.exp_nat_mul]
  have hM' : (M : ℂ) ≠ 0 := Nat.cast_ne_zero.mpr (by omega)
  have e : (M : ℂ) * (-2 * (Real.pi : ℂ) * Complex.I / ((4 * M : ℕ) : ℂ))
      = (-(Real.pi / 2 : ℝ) : ℂ) * Complex.I := by
    push_cast
    field_simp
    ring
  rw [e, Complex.exp_mul_I]
  rw [← Complex.ofReal_neg, ← Complex.ofReal_cos, ← Complex.ofReal_sin, Real.cos_neg, Real.sin_neg,
    Real.cos_pi_div_two, Real.sin_pi_div_two]
  simp

theorem exp_root_eight :
    Complex.exp (-2 * (Real.pi : ℂ) * Complex.I / ((8 : ℕ) : ℂ))
      = ((Real.sqrt 2 / 2 : ℝ) : ℂ) * (1 - Complex.I) := by
  have e : -2 * (Real.pi : ℂ) * Complex.I / ((8 : ℕ) : ℂ)
      = (-(Real.pi / 4 : ℝ) : ℂ) * Complex.I := by
    push_cast
    ring
  rw [e, Complex.exp_mul_I]
  rw [← Complex.ofReal_neg, ← Complex.ofReal_cos, ← Complex.ofReal_sin, Real.cos_neg, Real.sin_neg,
    Real.cos_pi_div_four, Real.sin_pi_div_four]
  push_cast
  ring

theorem toC_cos_sin (φ : ℝ) :
    toC ⟨Real.cos φ, Real.sin φ⟩ = Complex.exp ((φ : ℂ) * Complex.I) := by
  rw [Complex.exp_mul_I]
  apply Complex.ext <;>
    simp [toC, Complex.cos_ofReal_re, Complex.sin_ofReal_re, Complex.cos_ofReal_im,
      Complex.sin_ofReal_im]

theorem gdft_exp (n : ℕ) (x : ℕ → ℂ) (k : ℕ) :
    gdft (Complex.exp (-2 * (Real.pi : ℂ) * Complex.I / (n : ℂ))) n x k
      = ∑ m in Finset.range n,
          x m * Complex.exp (-2 * (Real.pi : ℂ) * Complex.I * (m : ℂ) * (k : ℂ) / (n : ℂ)) := by
  unfold gdft
  apply Finset.sum_congr rfl
  intro m _
  rw [← Complex.exp_nat_mul]
  congr 2
  push_cast
  ring

/-- The angle of a twiddle entry, as a power of the root of its stage. -/
theorem twiddle_exp (r b t q m : ℕ) (hr : 0 < r) (ht : t < b) :
    Complex.exp (((-2 * Real.pi * ((4 ^ (b - 1 - t) : ℕ) : ℝ) * (q : ℝ) * (m : ℝ)
        / (((r : ℤ) * 4 ^ b : ℤ) : ℝ) : ℝ) : ℂ) * Complex.I)
      = Complex.exp (-2 * (Real.pi : ℂ) * Complex.I / ((4 * (r * 4 ^ t) : ℕ) : ℂ)) ^ (q * m) := by
  rw [← Complex.exp_nat_mul]
  congr 1
  have hb : b = (b - 1 - t) + 1 + t := by omega
  have h4 : (4 : ℂ) ^ b = 4 ^ (b - 1 - t) * 4 * 4 ^ t := by
    conv_lhs => rw [hb]
    rw [pow_add, pow_succ]
  have hr' : (r : ℂ) ≠ 0 := Nat.cast_ne_zero.mpr (by omega)
  push_cast
  rw [h4]
  field_simp
  ring

/-! ## The forward butterfly computes the DFT -/

/-- After the radix-8 first stage the array behind `out` holds `F` transforms of length 8
(`TW_81` read as `√2/2`). -/
theorem first_stage_radix8_forward_inv (F : ℕ) (mem : Mem ℝ) :
    StageInv (fun N : ℕ => Complex.exp (-2 * (Real.pi : ℂ) * Complex.I / (N : ℂ)))
      (fun m => toC (mem Buf.input m)) F 8
      (first_stage_radix8 (radix8_butterfly_forward (Real.sqrt 2 / 2)) F mem Buf.out) := by
  intro g m hg hm
  obtain ⟨_, hval⟩ := first_stage_radix8_closed (radix8_butterfly_forward (Real.sqrt 2 / 2)) F mem
  have hTW : 2 * (Real.sqrt 2 / 2) ^ 2 = 1 := by
    rw [div_pow, Real.sq_sqrt (by norm_num)]; norm_num
  have h := toC_radix8_forward (Real.sqrt 2 / 2) hTW (fun p => mem Buf.input (g + F * p)) m hm
  simp only [mul_zero, add_zero, mul_one] at h
  rw [hval g m hg hm, h]
  show gdft _ 8 _ m = gdft (Complex.exp (-2 * (Real.pi : ℂ) * Complex.I / ((8 : ℕ) : ℂ))) 8 _ m
  rw [exp_root_eight]
  congr 1
  funext p
  rw [Nat.mul_comm F p]

/-- After the radix-4 first stage the array behind `out` holds `F` transforms of length
4. -/
theorem first_stage_radix4_forward_inv (F : ℕ) (mem : Mem ℝ) :
    StageInv (fun N : ℕ => Complex.exp (-2 * (Real.pi : ℂ) * Complex.I / (N : ℂ)))
      (fun m => toC (mem Buf.input m)) F 4
      (first_stage_radix4 radix4_butterfly_forward F mem Buf.out) := by
  intro g m hg hm
  obtain ⟨_, hval⟩ := first_stage_radix4_closed radix4_butterfly_forward F mem
  have hW : Complex.exp (-2 * (Real.pi : ℂ) * Complex.I / ((4 : ℕ) : ℂ)) = -Complex.I := by
    have := exp_root_powM 1 (by norm_num)
    simpa using this
  rw [hval g m hg hm, toC_radix4_forward _ _ _ _ m hm]
  show _ = gdft (Complex.exp (-2 * (Real.pi : ℂ) * Complex.I / ((4 : ℕ) : ℂ))) 4 _ m
  rw [hW]
  unfold gdft
  simp only [Finset.sum_range_succ, Finset.sum_range_zero, zero_mul, pow_zero, mul_one, one_mul,
    zero_add, add_zero]
  ring_nf


/-- The twiddle entries of a power-of-two plan, read as complex numbers, are the powers
of the stage's root that a radix-4 step needs. -/
theorem twiddles_forward_form (tw : ℕ → ne10_fft_cpx_float32_t ℝ) (r b : ℕ) (hr : 0 < r)
    (htw : ∀ t m q, t < b → m < r * 4 ^ t → 1 ≤ q → q ≤ 3 →
      tw (r * 4 ^ t - r + (r * 4 ^ t * (q - 1) + m))
        = ⟨Real.cos (-2 * Real.pi * ((4 ^ (b - 1 - t) : ℕ) : ℝ) * (q : ℝ) * (m : ℝ)
            / (((r : ℤ) * 4 ^ b : ℤ) : ℝ)),
           Real.sin (-2 * Real.pi * ((4 ^ (b - 1 - t) : ℕ) : ℝ) * (q : ℝ) * (m : ℝ)
            / (((r : ℤ) * 4 ^ b : ℤ) : ℝ))⟩) :
    (∀ t m, t < b → m < r * 4 ^ t → toC (tw (r * 4 ^ t - r + m))
      = Complex.exp (-2 * (Real.pi : ℂ) * Complex.I / ((4 * (r * 4 ^ t) : ℕ) : ℂ)) ^ m) ∧
    (∀ t m, t < b → m < r * 4 ^ t → toC (tw (r * 4 ^ t - r + m + r * 4 ^ t * 1))
      = Complex.exp (-2 * (Real.pi : ℂ) * Complex.I / ((4 * (r * 4 ^ t) : ℕ) : ℂ)) ^ (2 * m)) ∧
    (∀ t m, t < b → m < r * 4 ^ t → toC (tw (r * 4 ^ t - r + m + r * 4 ^ t * 2))
      = Complex.exp (-2 * (Real.pi : ℂ) * Complex.I / ((4 * (r * 4 ^ t) : ℕ) : ℂ))
          ^ (3 * m)) := by
  refine ⟨?_, ?_, ?_⟩
  · intro t m ht hm
    have h := htw t m 1 ht hm (le_refl 1) (by norm_num)
    have e : r * 4 ^ t - r + (r * 4 ^ t * (1 - 1) + m) = r * 4 ^ t - r + m := by simp
    rw [e] at h
    rw [h, toC_cos_sin, twiddle_exp r b t 1 m hr ht, one_mul]
  · intro t m ht hm
    have h := htw t m 2 ht hm (by norm_num) (by norm_num)
    have e : r * 4 ^ t - r + (r * 4 ^ t * (2 - 1) + m) = r * 4 ^ t - r + m + r * 4 ^ t * 1 := by
      omega
    rw [e] at h
    rw [h, toC_cos_sin, twiddle_exp r b t 2 m hr ht]
  · intro t m ht hm
    have h := htw t m 3 ht hm (by norm_num) (by norm_num)
    have e : r * 4 ^ t - r + (r * 4 ^ t * (3 - 1) + m) = r * 4 ^ t - r + m + r * 4 ^ t * 2 := by
      omega
    rw [e] at h
    rw [h, toC_cos_sin, twiddle_exp r b t 3 m hr ht]

/-- The function `butterfly_stages` when no stage follows the first one. -/
theorem butterfly_stages_zero {R : Type} [Field R]
    (bf_mid bf_last : ne10_fft_cpx_float32_t R → ne10_fft_cpx_float32_t R →
      ne10_fft_cpx_float32_t R → ne10_fft_cpx_float32_t R → ne10_fft_cpx_float32_t R →
      ne10_fft_cpx_float32_t R → ne10_fft_cpx_float32_t R → Nat → ne10_fft_cpx_float32_t R)
    (tw_table : Nat → ne10_fft_cpx_float32_t R) (mem : Mem R) (fstride mstride step : Nat) :
    butterfly_stages bf_mid bf_last tw_table mem 0 fstride mstride step = mem := by
  simp [butterfly_stages, middle_stages]

/-- The forward butterfly on the plan of `r * 4 ^ b` (`r` 4 or 8) computes the
`r * 4 ^ b`-point transform of the array behind `in`, in natural order. -/
theorem butterfly_forward_pow4 (r b : ℕ) (hr : r = 4 ∨ r = 8) (hb : b + 1 ≤ 21)
    (buf : Nat → Int) (table : Nat → ne10_fft_cpx_float32_t ℝ) (mem : Mem ℝ) (k : ℕ)
    (hk : k < r * 4 ^ b) :
    toC (ne10_mixed_radix_butterfly_float32_c (Real.sqrt 2 / 2) mem
        (ne10_factor_body ((r : ℤ) * 4 ^ b) buf NE10_FACTOR_EIGHT_FIRST_STAGE).2
        (twiddle_gen Real.pi Real.cos Real.sin ((r : ℤ) * 4 ^ b)
          (ne10_factor_body ((r : ℤ) * 4 ^ b) buf NE10_FACTOR_EIGHT_FIRST_STAGE).2
          ((ne10_factor_body ((r : ℤ) * 4 ^ b) buf NE10_FACTOR_EIGHT_FIRST_STAGE).2 0 - 1).toNat
          { table := table, twiddles := 0,
            fstride := ((ne10_factor_body ((r : ℤ) * 4 ^ b) buf
              NE10_FACTOR_EIGHT_FIRST_STAGE).2 1).toNat }).table Buf.out k)
      = gdft (Complex.exp (-2 * (Real.pi : ℂ) * Complex.I / ((r * 4 ^ b : ℕ) : ℂ))) (r * 4 ^ b)
          (fun m => toC (mem Buf.input m)) k := by
  have hr' : (r : ℤ) = 4 ∨ (r : ℤ) = 8 := by
    rcases hr with hr | hr <;> rw [hr] <;> simp
  have hrpos : 0 < r := by omega
  obtain ⟨e0, e1, eu, er⟩ := ne10_factor_body_pow4 (r : ℤ) hr' b hb buf
  have htw := alloc_twiddles_pow4 Real.pi Real.cos Real.sin r b hr hb buf table
  generalize (twiddle_gen Real.pi Real.cos Real.sin ((r : ℤ) * 4 ^ b)
          (ne10_factor_body ((r : ℤ) * 4 ^ b) buf NE10_FACTOR_EIGHT_FIRST_STAGE).2
          ((ne10_factor_body ((r : ℤ) * 4 ^ b) buf NE10_FACTOR_EIGHT_FIRST_STAGE).2 0 - 1).toNat
          { table := table, twiddles := 0,
            fstride := ((ne10_factor_body ((r : ℤ) * 4 ^ b) buf
              NE10_FACTOR_EIGHT_FIRST_STAGE).2 1).toNat }).table = tw at htw ⊢
  generalize (ne10_factor_body ((r : ℤ) * 4 ^ b) buf NE10_FACTOR_EIGHT_FIRST_STAGE).2 = fb
    at e0 e1 eu er ⊢
  -- the values the butterfly reads from the factor buffer
  have hsc : fb 0 = (b : ℤ) + 1 := by rw [e0]; push_cast; ring
  have hfs : (fb 1).toNat = 4 ^ b := by
    rw [e1]
    have : ((4 : ℤ) ^ b) = ((4 ^ b : ℕ) : ℤ) := by push_cast; rfl
    rw [this]
    exact Int.toNat_natCast _
  have hidx1 : (2 * ((b : ℤ) + 1) - 1).toNat = 2 * b + 1 := by omega
  have hidx2 : (2 * ((b : ℤ) + 1)).toNat = 2 * (1 + b) := by omega
  have hms : 1 ≤ b → (fb (2 * b + 1)).toNat = r := by
    intro h1
    have := (eu (b - 1) (by omega)).2
    have e : 2 * (1 + (b - 1)) + 1 = 2 * b + 1 := by omega
    rw [e, show b - 1 - (b - 1) = 0 by omega, pow_zero, mul_one] at this
    rw [this]
    exact Int.toNat_natCast _
  have hfw := twiddles_forward_form tw r b hrpos
    (fun t m q ht hm hq1 hq3 => htw t m q ht hm hq1 hq3)
  obtain ⟨htw1, htw2, htw3⟩ := hfw
  have hJ : (-Complex.I) ^ 4 = 1 := by
    rw [neg_pow, Complex.I_pow_four]; norm_num
  simp only [ne10_mixed_radix_butterfly_float32_c, hsc, hidx1, hidx2, er, hfs, add_sub_cancel_right]
  have hstages : ∀ (mem1 : Mem ℝ) (step : ℕ), 1 ≤ b → step = r * 4 ^ (b - 1) →
      StageInv (fun N : ℕ => Complex.exp (-2 * (Real.pi : ℂ) * Complex.I / (N : ℂ)))
        (fun m => toC (mem Buf.input m)) (4 ^ b) r (mem1 Buf.out) →
      toC (butterfly_stages radix4_twiddle_butterfly_forward radix4_twiddle_butterfly_forward tw
        mem1 (b : ℤ) (4 ^ b / 4) (fb (2 * b + 1)).toNat step Buf.out k)
      = gdft (Complex.exp (-2 * (Real.pi : ℂ) * Complex.I / ((r * 4 ^ b : ℕ) : ℂ))) (r * 4 ^ b)
          (fun m => toC (mem Buf.input m)) k := by
    intro mem1 step h1 hstep hinv
    have hdiv : 4 ^ b / 4 = 4 ^ (b - 1) := by
      conv_lhs => rw [show b = (b - 1) + 1 by omega, pow_succ]
      exact Nat.mul_div_cancel _ (by norm_num)
    rw [hms h1, hdiv, hstep]
    have := butterfly_stages_dft radix4_twiddle_butterfly_forward radix4_twiddle_butterfly_forward
      (-Complex.I) toC 1 toC_radix4_twiddle_forward
      (fun t0 t1 t2 a0 a1 a2 a3 q hq => by
        rw [mul_one]; exact toC_radix4_twiddle_forward t0 t1 t2 a0 a1 a2 a3 q hq)
      (fun N : ℕ => Complex.exp (-2 * (Real.pi : ℂ) * Complex.I / (N : ℂ))) hJ
      exp_root_pow4 exp_root_powM r b hrpos h1 tw htw1 htw2 htw3
      (fun m => toC (mem Buf.input m)) mem1 hinv k hk
    rw [mul_one] at this
    exact this
  rcases hr with hr | hr
  · subst hr
    rw [if_neg (by norm_num), if_pos (by norm_num)]
    by_cases hb0 : b = 0
    · subst hb0
      rw [Nat.cast_zero, butterfly_stages_zero]
      have := first_stage_radix4_forward_inv (4 ^ 0) mem 0 k (by norm_num) (by simpa using hk)
      simpa using this
    · exact hstages _ _ (by omega)
        (by conv_lhs => rw [show b = (b - 1) + 1 by omega, pow_succ]
            ring)
        (first_stage_radix4_forward_inv (4 ^ b) mem)
  · subst hr
    rw [if_pos (by norm_num)]
    by_cases hb0 : b = 0
    · subst hb0
      rw [Nat.cast_zero, butterfly_stages_zero]
      have := first_stage_radix8_forward_inv (4 ^ 0) mem 0 k (by norm_num) (by simpa using hk)
      simpa using this
    · exact hstages _ _ (by omega)
        (by conv_lhs => rw [show b = (b - 1) + 1 by omega, pow_succ]
            ring)
        (first_stage_radix8_forward_inv (4 ^ b) mem)

/-- The factor buffer for the lengths 1 and 2: one stage, of radix 1 and 2. -/
theorem ne10_factor_body_one (buf : Nat → Int) :
    (ne10_factor_body 1 buf NE10_FACTOR_EIGHT_FIRST_STAGE).2 0 = 1 ∧
    (ne10_factor_body 1 buf NE10_FACTOR_EIGHT_FIRST_STAGE).2 1 = 1 ∧
    (ne10_factor_body 1 buf NE10_FACTOR_EIGHT_FIRST_STAGE).2 2 = 1 := by
  simp [ne10_factor_body, ne10_factor_loop, ne10_factor_init, ne10_factor_step,
    ne10_factor_radix, NE10_FACTOR_EIGHT_FIRST_STAGE, NE10_FACTOR_EIGHT, Function.update]

theorem ne10_factor_body_two (buf : Nat → Int) :
    (ne10_factor_body 2 buf NE10_FACTOR_EIGHT_FIRST_STAGE).2 0 = 1 ∧
    (ne10_factor_body 2 buf NE10_FACTOR_EIGHT_FIRST_STAGE).2 1 = 1 ∧
    (ne10_factor_body 2 buf NE10_FACTOR_EIGHT_FIRST_STAGE).2 2 = 2 := by
  simp [ne10_factor_body, ne10_factor_loop, ne10_factor_init, ne10_factor_step,
    ne10_factor_radix, NE10_FACTOR_EIGHT_FIRST_STAGE, NE10_FACTOR_EIGHT, Function.update]

theorem pow_two_cases (k : ℕ) (hk : 2 ≤ k) :
    ∃ r b : ℕ, (r = 4 ∨ r = 8) ∧ 2 ^ k = r * 4 ^ b := by
  rcases Nat.even_or_odd' k with ⟨a, ha | ha⟩
  · refine ⟨4, a - 1, Or.inl rfl, ?_⟩
    rw [ha, pow_mul, show (2 : ℕ) ^ 2 = 4 by norm_num]
    conv_lhs => rw [show a = (a - 1) + 1 by omega, pow_succ]
    ring
  · refine ⟨8, a - 1, Or.inr rfl, ?_⟩
    rw [ha, pow_succ, pow_mul, show (2 : ℕ) ^ 2 = 4 by norm_num]
    conv_lhs => rw [show a = (a - 1) + 1 by omega, pow_succ]
    ring

/-- The stage count of `r * 4 ^ b`. -/
theorem ne10_factor_stage_pow4 (r : ℤ) (hr : r = 4 ∨ r = 8) (b : ℕ) (buf : Nat → Int) :
    (ne10_factor_loop NE10_FACTOR_EIGHT_FIRST_STAGE
      (ne10_factor_init (r * 4 ^ b) buf)).stage_num = b + 1 := by
  have := (ne10_factor_loop_pow4 r hr b (ne10_factor_init (r * 4 ^ b) buf) rfl).1
  rw [this]
  show 0 + b + 1 = b + 1
  ring

/-- The forward butterfly under the plan that the allocator makes for a power of two
`ncfft = 2 ^ k` computes the `2 ^ k`-point transform of the array behind `in`. -/
theorem butterfly_forward_plan (k : ℕ) (st cfg : ne10_fft_r2c_state_float32_t ℝ)
    (halloc : ne10_fft_alloc_r2c_float32 Real.pi Real.cos Real.sin (some st) (2 * 2 ^ k)
      = some cfg) (mem : Mem ℝ) (j : ℕ) (hj : j < 2 ^ k) :
    toC (ne10_mixed_radix_butterfly_float32_c (Real.sqrt 2 / 2) mem cfg.factors cfg.twiddles
        Buf.out j)
      = gdft (Complex.exp (-2 * (Real.pi : ℂ) * Complex.I / ((2 ^ k : ℕ) : ℂ))) (2 ^ k)
          (fun m => toC (mem Buf.input m)) j := by
  obtain ⟨_, hS, hcfg⟩ := alloc_eq_some _ _ _ _ _ _ halloc
  have hhalf : (2 * 2 ^ k : ℤ) / 2 = 2 ^ k := by
    rw [Int.mul_ediv_cancel_left _ (by norm_num)]
  rw [hhalf] at hS hcfg
  subst hcfg
  simp only
  by_cases hk0 : k = 0
  · subst hk0
    obtain ⟨e0, _, e2⟩ := ne10_factor_body_one st.factors
    have hj0 : j = 0 := by simpa using hj
    subst hj0
    simp only [pow_zero] at e0 e2 ⊢
    simp [ne10_mixed_radix_butterfly_float32_c, e0, e2, Mem.write_apply, gdft]
  · by_cases hk1 : k = 1
    · subst hk1
      obtain ⟨e0, e1, e2⟩ := ne10_factor_body_two st.factors
      simp only [pow_one] at e0 e1 e2 hj ⊢
      have hW : Complex.exp (-2 * (Real.pi : ℂ) * Complex.I / ((2 : ℕ) : ℂ)) = -1 := by
        have e : -2 * (Real.pi : ℂ) * Complex.I / ((2 : ℕ) : ℂ) = -((Real.pi : ℂ) * Complex.I) := by
          push_cast; ring
        rw [e, Complex.exp_neg, Complex.exp_pi_mul_I]
        norm_num
      rw [hW]
      interval_cases j
      · simp [ne10_mixed_radix_butterfly_float32_c, e0, e1, e2, Mem.write_apply, gdft,
          Finset.sum_range_succ]
        apply Complex.ext <;> simp [toC]
      · simp [ne10_mixed_radix_butterfly_float32_c, e0, e1, e2, Mem.write_apply, gdft,
          Finset.sum_range_succ]
        apply Complex.ext <;> simp [toC] <;> ring
    · obtain ⟨r, b, hr, hrb⟩ := pow_two_cases k (by omega)
      have hrbZ : (2 : ℤ) ^ k = (r : ℤ) * 4 ^ b := by exact_mod_cast hrb
      have hr' : (r : ℤ) = 4 ∨ (r : ℤ) = 8 := by
        rcases hr with hr | hr <;> rw [hr] <;> simp
      rw [hrbZ] at hS ⊢
      rw [ne10_factor_stage_pow4 (r : ℤ) hr' b] at hS
      rw [hrb] at hj ⊢
      exact butterfly_forward_pow4 r b hr (by omega) st.factors st.twiddles mem j hj

/-- C3 (complex DFT correctness): for every power-of-two length `2 ^ k`, with the factor
buffer and the twiddle table of the plan that the allocator builds for `ncfft = 2 ^ k`
(the factoring `ne10_factor (2 ^ k, NE10_FACTOR_EIGHT_FIRST_STAGE)`), arithmetic over the
reals and `TW_81` read as `√2/2`, the forward butterfly leaves in `out[j]`, for every
`j < 2 ^ k`, the sum over `m < 2 ^ k` of `in[m] * exp (-2 π i m j / 2 ^ k)`. -/
theorem ne10_mixed_radix_butterfly_dft (k : ℕ) (st cfg : ne10_fft_r2c_state_float32_t ℝ)
    (halloc : ne10_fft_alloc_r2c_float32 Real.pi Real.cos Real.sin (some st) (2 * 2 ^ k)
      = some cfg) (mem : Mem ℝ) (j : ℕ) (hj : j < 2 ^ k) :
    toC (ne10_mixed_radix_butterfly_float32_c (Real.sqrt 2 / 2) mem cfg.factors cfg.twiddles
        Buf.out j)
      = ∑ m in Finset.range (2 ^ k), toC (mem Buf.input m)
          * Complex.exp (-2 * (Real.pi : ℂ) * Complex.I * (m : ℂ) * (j : ℂ)
              / ((2 ^ k : ℕ) : ℂ)) := by
  rw [butterfly_forward_plan k st cfg halloc mem j hj, gdft_exp]

/-- Witness for C3: the plan for `ncfft = 2 ^ 4 = 16` (a radix-4 first stage and a
radix-4 last stage), a sample input, bin 5. -/
theorem ne10_mixed_radix_butterfly_dft_witness :
    ∃ cfg : ne10_fft_r2c_state_float32_t ℝ,
      ne10_fft_alloc_r2c_float32 Real.pi Real.cos Real.sin
        (some { buffer := fun _ => ⟨0, 0⟩, ncfft := 0, factors := fun _ => 0,
                twiddles := fun _ => ⟨0, 0⟩, super_twiddles := fun _ => ⟨0, 0⟩ })
        (2 * 2 ^ 4) = some cfg ∧
      toC (ne10_mixed_radix_butterfly_float32_c (Real.sqrt 2 / 2)
          (fun _ m => ⟨(m : ℝ), 1⟩) cfg.factors cfg.twiddles Buf.out 5)
        = ∑ m in Finset.range (2 ^ 4), toC (⟨(m : ℝ), 1⟩ : ne10_fft_cpx_float32_t ℝ)
            * Complex.exp (-2 * (Real.pi : ℂ) * Complex.I * (m : ℂ) * ((5 : ℕ) : ℂ)
                / ((2 ^ 4 : ℕ) : ℂ)) :=
  have halloc := alloc_some_eq Real.pi Real.cos Real.sin
    { buffer := fun _ => ⟨0, 0⟩, ncfft := 0, factors := fun _ => 0,
      twiddles := fun _ => ⟨0, 0⟩, super_twiddles := fun _ => ⟨0, 0⟩ } (2 * 2 ^ 4)
    (by norm_num)
    (by
      have hb := ne10_factor_loop_stage_le ((2 * 2 ^ 4 : ℤ) / 2) (fun _ => 0)
        NE10_FACTOR_EIGHT_FIRST_STAGE (by norm_num) (by norm_num)
      simp only at hb ⊢
      omega)
  ⟨_, halloc, ne10_mixed_radix_butterfly_dft 4 _ _ halloc (fun _ m => ⟨(m : ℝ), 1⟩) 5
    (by norm_num)⟩

/-! ## The real-to-complex transform computes the DFT of the real input -/

/-- The super-twiddle table in closed form. -/
theorem super_twiddle_gen_closed {R : Type} [Field R] (pi : R) (cos sin : R → R) (ncfft : Int)
    (table : Nat → ne10_fft_cpx_float32_t R) (j : ℕ) (hj : j < (ncfft / 2).toNat) :
    super_twiddle_gen pi cos sin ncfft table j
      = ⟨cos (-pi * (((j : R) + 1) / (ncfft : R) + 1 / 2)),
         sin (-pi * (((j : R) + 1) / (ncfft : R) + 1 / 2))⟩ := by
  unfold super_twiddle_gen
  generalize (ncfft / 2).toNat = L at hj
  induction L with
  | zero => omega
  | succ L ih =>
    rw [List.range_succ, List.foldl_append, List.foldl_cons, List.foldl_nil]
    by_cases hjL : j < L
    · rw [Function.update_noteq (by omega)]
      exact ih hjL
    · have : j = L := by omega
      subst this
      rw [Function.update_same]

/-- A loop of passes that store at `k` and then at `n - k`, for `k = 1 .. t` with
`t <= n / 2`: index `n - k` holds the second store of pass `k`, index `k` the first store
of pass `k` unless it is also `n - k`, and every other index is unchanged. -/
theorem split_fold_closed {β : Type} (first second : ℕ → β) (n : ℕ) (dst : Nat → β) (t : ℕ)
    (ht : t ≤ n / 2) (idx : ℕ) :
    (List.range' 1 t).foldl
        (fun d k => Function.update (Function.update d k (first k)) (n - k) (second k)) dst idx
      = if 1 ≤ n - idx ∧ n - idx ≤ t then second (n - idx)
        else if 1 ≤ idx ∧ idx ≤ t then first idx
        else dst idx := by
  induction t with
  | zero =>
    rw [if_neg (show ¬ (1 ≤ n - idx ∧ n - idx ≤ 0) by omega),
      if_neg (show ¬ (1 ≤ idx ∧ idx ≤ 0) by omega)]
    rfl
  | succ t ih =>
    rw [List.range'_1_concat, List.foldl_append, List.foldl_cons, List.foldl_nil]
    have ih' := ih (by omega)
    by_cases h1 : idx = n - (1 + t)
    · rw [if_pos (show 1 ≤ n - idx ∧ n - idx ≤ t + 1 by omega)]
      have e : n - idx = 1 + t := by omega
      rw [e, h1, Function.update_same]
    · by_cases h2 : idx = 1 + t
      · rw [if_neg (show ¬ (1 ≤ n - idx ∧ n - idx ≤ t + 1) by omega),
          if_pos (show 1 ≤ idx ∧ idx ≤ t + 1 by omega)]
        rw [Function.update_noteq h1, h2, Function.update_same]
      · rw [Function.update_noteq h1, Function.update_noteq h2, ih']
        by_cases c1 : 1 ≤ n - idx ∧ n - idx ≤ t
        · rw [if_pos c1, if_pos (show 1 ≤ n - idx ∧ n - idx ≤ t + 1 by omega)]
        · rw [if_neg c1, if_neg (show ¬ (1 ≤ n - idx ∧ n - idx ≤ t + 1) by omega)]
          by_cases c2 : 1 ≤ idx ∧ idx ≤ t
          · rw [if_pos c2, if_pos (show 1 ≤ idx ∧ idx ≤ t + 1 by omega)]
          · rw [if_neg c2, if_neg (show ¬ (1 ≤ idx ∧ idx ≤ t + 1) by omega)]

/-- The r2c split in closed form, for `ncfft >= 1`. -/
theorem split_r2c_closed {R : Type} [Field R] (dst src twiddles : Nat → ne10_fft_cpx_float32_t R)
    (n : ℕ) (hn : 1 ≤ n) (idx : ℕ) (hidx : idx ≤ n) :
    ne10_fft_split_r2c_1d_float32 dst src twiddles n idx
      = if idx = 0 then ⟨(src 0).r + (src 0).i, 0⟩
        else if idx = n then ⟨(src 0).r - (src 0).i, 0⟩
        else if n - idx ≤ n / 2 then split_r2c_store_nk src twiddles n (n - idx)
        else split_r2c_store_k src twiddles n idx := by
  unfold ne10_fft_split_r2c_1d_float32 split_r2c_loop
  have h := split_fold_closed (split_r2c_store_k src twiddles n)
    (split_r2c_store_nk src twiddles n) n (split_r2c_boundary dst src n) (n / 2) (le_refl _) idx
  have hb : split_r2c_body src twiddles n
      = (fun d k => Function.update (Function.update d k (split_r2c_store_k src twiddles n k))
          (n - k) (split_r2c_store_nk src twiddles n k)) := by
    funext d k
    rfl
  rw [hb, h]
  by_cases h0 : idx = 0
  · subst h0
    rw [if_neg (show ¬ (1 ≤ n - 0 ∧ n - 0 ≤ n / 2) by omega),
      if_neg (show ¬ (1 ≤ 0 ∧ 0 ≤ n / 2) by omega), if_pos rfl,
      split_r2c_boundary_zero dst src n hn]
  · rw [if_neg h0]
    by_cases hnn : idx = n
    · subst hnn
      rw [if_neg (show ¬ (1 ≤ idx - idx ∧ idx - idx ≤ idx / 2) by omega),
        if_neg (show ¬ (1 ≤ idx ∧ idx ≤ idx / 2) by omega), if_pos rfl,
        split_r2c_boundary_ncfft dst src idx hn]
    · rw [if_neg hnn]
      by_cases hc : n - idx ≤ n / 2
      · rw [if_pos (show 1 ≤ n - idx ∧ n - idx ≤ n / 2 by omega), if_pos hc]
      · rw [if_neg (show ¬ (1 ≤ n - idx ∧ n - idx ≤ n / 2) by omega),
          if_pos (show 1 ≤ idx ∧ idx ≤ n / 2 by omega), if_neg hc]


/-- One radix-2 decimation-in-time step. -/
theorem gdft_radix2 {K : Type} [CommRing K] (ζ ζ' : K) (M : ℕ) (h2 : ζ ^ 2 = ζ')
    (y : ℕ → K) (k : ℕ) :
    gdft ζ (2 * M) y k
      = gdft ζ' M (fun j => y (2 * j)) k + ζ ^ k * gdft ζ' M (fun j => y (2 * j + 1)) k := by
  unfold gdft
  rw [sum_range_two_mul, Finset.mul_sum, ← Finset.sum_add_distrib]
  apply Finset.sum_congr rfl
  intro j _
  have e0 : ζ ^ (2 * j * k) = ζ' ^ (j * k) := by
    rw [mul_assoc, pow_mul, h2]
  have e1 : ζ ^ ((2 * j + 1) * k) = ζ ^ k * ζ' ^ (j * k) := by
    rw [show (2 * j + 1) * k = k + 2 * (j * k) by ring, pow_add, pow_mul, h2]
  rw [e0, e1]
  ring

theorem gdft_add_mul {K : Type} [CommRing K] (ζ : K) (n : ℕ) (u v : ℕ → K) (c : K) (k : ℕ) :
    gdft ζ n (fun m => u m + c * v m) k = gdft ζ n u k + c * gdft ζ n v k := by
  unfold gdft
  rw [Finset.mul_sum, ← Finset.sum_add_distrib]
  apply Finset.sum_congr rfl
  intro m _
  ring

/-- The transform of a real sequence is conjugate-symmetric. -/
theorem gdft_real_conj (ζ : ℂ) (n : ℕ) (hζn : ζ ^ n = 1) (hζ : (starRingEnd ℂ) ζ * ζ = 1)
    (u : ℕ → ℝ) (k : ℕ) (hk : k ≤ n) :
    (starRingEnd ℂ) (gdft ζ n (fun m => (u m : ℂ)) (n - k)) = gdft ζ n (fun m => (u m : ℂ)) k := by
  unfold gdft
  rw [map_sum]
  apply Finset.sum_congr rfl
  intro m _
  rw [map_mul, Complex.conj_ofReal, map_pow]
  congr 1
  have h1 : ζ ^ (m * k) * ζ ^ (m * (n - k)) = 1 := by
    rw [← pow_add, ← Nat.mul_add, Nat.add_sub_cancel' hk, Nat.mul_comm, pow_mul, hζn, one_pow]
  have h2 : (starRingEnd ℂ) ζ ^ (m * (n - k)) * ζ ^ (m * (n - k)) = 1 := by
    rw [← mul_pow, hζ, one_pow]
  calc (starRingEnd ℂ) ζ ^ (m * (n - k))
      = (starRingEnd ℂ) ζ ^ (m * (n - k)) * (ζ ^ (m * k) * ζ ^ (m * (n - k))) := by
        rw [h1, mul_one]
    _ = ζ ^ (m * k) * ((starRingEnd ℂ) ζ ^ (m * (n - k)) * ζ ^ (m * (n - k))) := by ring
    _ = ζ ^ (m * k) := by rw [h2, mul_one]

theorem exp_root_pow_self (n : ℕ) (hn : 0 < n) :
    Complex.exp (-2 * (Real.pi : ℂ) * Complex.I / (n : ℂ)) ^ n = 1 := by
  rw [← Complex.exp_nat_mul]
  have hn' : (n : ℂ) ≠ 0 := Nat.cast_ne_zero.mpr (by omega)
  have e : (n : ℂ) * (-2 * (Real.pi : ℂ) * Complex.I / (n : ℂ))
      = -(2 * (Real.pi : ℂ) * Complex.I) := by
    field_simp
    ring
  rw [e, Complex.exp_neg, Complex.exp_two_pi_mul_I, inv_one]

theorem exp_root_conj_mul (n : ℕ) :
    (starRingEnd ℂ) (Complex.exp (-2 * (Real.pi : ℂ) * Complex.I / (n : ℂ)))
      * Complex.exp (-2 * (Real.pi : ℂ) * Complex.I / (n : ℂ)) = 1 := by
  rw [← Complex.exp_conj, ← Complex.exp_add]
  have : (starRingEnd ℂ) (-2 * (Real.pi : ℂ) * Complex.I / (n : ℂ))
      + -2 * (Real.pi : ℂ) * Complex.I / (n : ℂ) = 0 := by
    simp only [map_div₀, map_mul, map_neg, Complex.conj_ofReal, Complex.conj_I, map_natCast,
      map_ofNat]
    ring
  rw [this, Complex.exp_zero]

theorem exp_root_sq (n : ℕ) :
    Complex.exp (-2 * (Real.pi : ℂ) * Complex.I / ((2 * n : ℕ) : ℂ)) ^ 2
      = Complex.exp (-2 * (Real.pi : ℂ) * Complex.I / (n : ℂ)) := by
  rw [← Complex.exp_nat_mul]
  congr 1
  by_cases hn : n = 0
  · subst hn; simp
  · have : (n : ℂ) ≠ 0 := Nat.cast_ne_zero.mpr hn
    push_cast
    field_simp
    ring

theorem exp_root_half (n : ℕ) (hn : 0 < n) :
    Complex.exp (-2 * (Real.pi : ℂ) * Complex.I / ((2 * n : ℕ) : ℂ)) ^ n = -1 := by
  rw [← Complex.exp_nat_mul]
  have hn' : (n : ℂ) ≠ 0 := Nat.cast_ne_zero.mpr (by omega)
  have e : (n : ℂ) * (-2 * (Real.pi : ℂ) * Complex.I / ((2 * n : ℕ) : ℂ))
      = -((Real.pi : ℂ) * Complex.I) := by
    push_cast
    field_simp
    ring
  rw [e, Complex.exp_neg, Complex.exp_pi_mul_I]
  norm_num

/-- The angle of a super-twiddle entry: `-i` times a power of the root of the real
length. -/
theorem super_twiddle_exp (n j : ℕ) (hn : 0 < n) :
    Complex.exp (((-Real.pi * (((j : ℝ) + 1) / (((n : ℤ) : ℝ)) + 1 / 2) : ℝ) : ℂ) * Complex.I)
      = -Complex.I
        * Complex.exp (-2 * (Real.pi : ℂ) * Complex.I / ((2 * n : ℕ) : ℂ)) ^ (j + 1) := by
  rw [← Complex.exp_nat_mul]
  have hn' : (n : ℂ) ≠ 0 := Nat.cast_ne_zero.mpr (by omega)
  have hI : -Complex.I = Complex.exp ((-(Real.pi / 2 : ℝ) : ℂ) * Complex.I) := by
    rw [Complex.exp_mul_I, ← Complex.ofReal_neg, ← Complex.ofReal_cos, ← Complex.ofReal_sin,
      Real.cos_neg, Real.sin_neg, Real.cos_pi_div_two, Real.sin_pi_div_two]
    simp
  rw [hI, ← Complex.exp_add]
  congr 1
  push_cast
  field_simp
  ring

theorem toC_mk (a b : ℝ) : toC ⟨a, b⟩ = (a : ℂ) + Complex.I * (b : ℂ) := by
  apply Complex.ext <;> simp [toC]

theorem toC_split_r2c_store_k (src tw : ℕ → ne10_fft_cpx_float32_t ℝ) (n k : ℕ) :
    toC (split_r2c_store_k src tw n k)
      = ((1 / 2 : ℝ) : ℂ) * (toC (src k) + (starRingEnd ℂ) (toC (src (n - k)))
          + (toC (src k) - (starRingEnd ℂ) (toC (src (n - k)))) * toC (tw (k - 1))) := by
  apply Complex.ext <;>
    simp only [split_r2c_store_k, toC, Complex.re_ofReal_mul, Complex.im_ofReal_mul,
      Complex.add_re, Complex.add_im, Complex.sub_re, Complex.sub_im, Complex.mul_re,
      Complex.mul_im, Complex.conj_re, Complex.conj_im, Complex.ofReal_re, Complex.ofReal_im] <;>
    ring

theorem toC_split_r2c_store_nk (src tw : ℕ → ne10_fft_cpx_float32_t ℝ) (n k : ℕ) :
    toC (split_r2c_store_nk src tw n k)
      = (starRingEnd ℂ) (((1 / 2 : ℝ) : ℂ) * (toC (src k) + (starRingEnd ℂ) (toC (src (n - k)))
          - (toC (src k) - (starRingEnd ℂ) (toC (src (n - k)))) * toC (tw (k - 1)))) := by
  apply Complex.ext <;>
    simp only [split_r2c_store_nk, toC, Complex.re_ofReal_mul, Complex.im_ofReal_mul,
      Complex.add_re, Complex.add_im, Complex.sub_re, Complex.sub_im, Complex.mul_re,
      Complex.mul_im, Complex.conj_re, Complex.conj_im, Complex.ofReal_re, Complex.ofReal_im] <;>
    ring

theorem gdft_real_zero (ζ : ℂ) (n : ℕ) (u : ℕ → ℝ) :
    gdft ζ n (fun m => (u m : ℂ)) 0 = ((∑ m in Finset.range n, u m : ℝ) : ℂ) := by
  unfold gdft
  simp

theorem gdft_period (ζ : ℂ) (n : ℕ) (hζn : ζ ^ n = 1) (u : ℕ → ℂ) :
    gdft ζ n u n = gdft ζ n u 0 := by
  unfold gdft
  apply Finset.sum_congr rfl
  intro m _
  rw [Nat.mul_comm, pow_mul, hζn, one_pow, Nat.mul_zero, pow_zero]

/-- The r2c split turns the `n`-point transform of the packed real input into the
`2 n`-point transform of the real input, at the bins `0 .. n`. -/
theorem split_r2c_dft (n : ℕ) (hn : 1 ≤ n) (x : ℕ → ℝ)
    (dst src stw : ℕ → ne10_fft_cpx_float32_t ℝ)
    (hsrc : ∀ k, k < n → toC (src k)
      = gdft (Complex.exp (-2 * (Real.pi : ℂ) * Complex.I / (n : ℂ))) n
          (fun m => toC ⟨x (2 * m), x (2 * m + 1)⟩) k)
    (hstw : ∀ j, j < n / 2 → toC (stw j)
      = -Complex.I
        * Complex.exp (-2 * (Real.pi : ℂ) * Complex.I / ((2 * n : ℕ) : ℂ)) ^ (j + 1))
    (idx : ℕ) (hidx : idx ≤ n) :
    toC (ne10_fft_split_r2c_1d_float32 dst src stw n idx)
      = gdft (Complex.exp (-2 * (Real.pi : ℂ) * Complex.I / ((2 * n : ℕ) : ℂ))) (2 * n)
          (fun t => (x t : ℂ)) idx := by
  have hWn := exp_root_pow_self n (by omega)
  have hWc := exp_root_conj_mul n
  have hW2 := exp_root_sq n
  have hWh := exp_root_half n (by omega)
  have hW2c := exp_root_conj_mul (2 * n)
  generalize Complex.exp (-2 * (Real.pi : ℂ) * Complex.I / (n : ℂ)) = W at hsrc hWn hWc hW2
  generalize Complex.exp (-2 * (Real.pi : ℂ) * Complex.I / ((2 * n : ℕ) : ℂ)) = V
    at hstw hW2 hWh hW2c ⊢
  -- the transforms of the even and of the odd samples
  have hZ : ∀ k, k < n → toC (src k)
      = gdft W n (fun m => (x (2 * m) : ℂ)) k
        + Complex.I * gdft W n (fun m => (x (2 * m + 1) : ℂ)) k := by
    intro k hk
    rw [hsrc k hk, ← gdft_add_mul]
    congr 1
    funext m
    exact toC_mk _ _
  have hX : ∀ k, gdft V (2 * n) (fun t => (x t : ℂ)) k
      = gdft W n (fun m => (x (2 * m) : ℂ)) k
        + V ^ k * gdft W n (fun m => (x (2 * m + 1) : ℂ)) k :=
    fun k => gdft_radix2 V W n hW2 _ k
  have hEc := gdft_real_conj W n hWn hWc (fun m => x (2 * m))
  have hOc := gdft_real_conj W n hWn hWc (fun m => x (2 * m + 1))
  rw [split_r2c_closed dst src stw n hn idx hidx, hX]
  by_cases h0 : idx = 0
  · subst h0
    rw [if_pos rfl, pow_zero, one_mul]
    have hz := hZ 0 (by omega)
    rw [gdft_real_zero, gdft_real_zero] at hz ⊢
    have hre : (src 0).r = ∑ m in Finset.range n, x (2 * m) := by
      have := congrArg Complex.re hz
      simpa [toC] using this
    have him : (src 0).i = ∑ m in Finset.range n, x (2 * m + 1) := by
      have := congrArg Complex.im hz
      simpa [toC] using this
    rw [hre, him]
    apply Complex.ext <;> simp [toC]
  · rw [if_neg h0]
    by_cases hnn : idx = n
    · subst hnn
      rw [if_pos rfl, hWh, gdft_period W idx hWn, gdft_period W idx hWn]
      have hz := hZ 0 (by omega)
      rw [gdft_real_zero, gdft_real_zero] at hz ⊢
      have hre : (src 0).r = ∑ m in Finset.range idx, x (2 * m) := by
        have := congrArg Complex.re hz
        simpa [toC] using this
      have him : (src 0).i = ∑ m in Finset.range idx, x (2 * m + 1) := by
        have := congrArg Complex.im hz
        simpa [toC] using this
      rw [hre, him]
      apply Complex.ext <;> simp [toC]
      ring
    · rw [if_neg hnn]
      by_cases hc : n - idx ≤ n / 2
      · rw [if_pos hc, toC_split_r2c_store_nk, hZ (n - idx) (by omega),
          show n - (n - idx) = idx by omega, hZ idx (by omega),
          hstw (n - idx - 1) (by omega), show n - idx - 1 + 1 = n - idx by omega]
        have e1 := hEc idx hidx
        have e2 := hOc idx hidx
        have e3 := hEc (n - idx) (by omega)
        have e4 := hOc (n - idx) (by omega)
        rw [show n - (n - idx) = idx by omega] at e3 e4
        have hV : V ^ idx * V ^ (n - idx) = -1 := by
          rw [← pow_add, Nat.add_sub_cancel' hidx, hWh]
        have hVc : (starRingEnd ℂ) (V ^ (n - idx)) * V ^ (n - idx) = 1 := by
          rw [map_pow, ← mul_pow, hW2c, one_pow]
        have hVne : V ^ (n - idx) ≠ 0 := by
          intro h; rw [h, mul_zero] at hVc; exact zero_ne_one hVc
        have hVi : V ^ idx = -(starRingEnd ℂ) (V ^ (n - idx)) := by
          apply mul_right_cancel₀ hVne
          rw [hV, neg_mul, hVc]
        simp only [map_add, map_sub, map_mul, map_neg, Complex.conj_I, e1, e2, e3, e4,
          Complex.conj_conj, Complex.conj_ofReal]
        rw [hVi]
        push_cast
        have hI : Complex.I * Complex.I = -1 := Complex.I_mul_I
        linear_combination ((starRingEnd ℂ) (V ^ (n - idx))
          * gdft W n (fun m => (x (2 * m + 1) : ℂ)) idx) * hI
      · rw [if_neg hc, toC_split_r2c_store_k, hZ (n - idx) (by omega), hZ idx (by omega),
          hstw (idx - 1) (by omega), show idx - 1 + 1 = idx by omega]
        have e1 := hEc idx hidx
        have e2 := hOc idx hidx
        simp only [map_add, map_mul, Complex.conj_I, e1, e2]
        push_cast
        have hI : Complex.I * Complex.I = -1 := Complex.I_mul_I
        linear_combination (-V ^ idx * gdft W n (fun m => (x (2 * m + 1) : ℂ)) idx) * hI

/-- The forward real-to-complex transform under the plan for the real length `2 * 2 ^ k`
leaves in bin `idx <= 2 ^ k` the transform of the real input. -/
theorem r2c_plan_dft (k : ℕ) (st cfg : ne10_fft_r2c_state_float32_t ℝ)
    (halloc : ne10_fft_alloc_r2c_float32 Real.pi Real.cos Real.sin (some st) (2 * 2 ^ k)
      = some cfg) (fout : ℕ → ne10_fft_cpx_float32_t ℝ) (x : ℕ → ℝ) (idx : ℕ)
    (hidx : idx ≤ 2 ^ k) :
    toC ((ne10_fft_r2c_1d_float32_c (Real.sqrt 2 / 2) fout x cfg).1 idx)
      = gdft (Complex.exp (-2 * (Real.pi : ℂ) * Complex.I / ((2 * 2 ^ k : ℕ) : ℂ))) (2 * 2 ^ k)
          (fun t => (x t : ℂ)) idx := by
  obtain ⟨_, _, hcfg⟩ := alloc_eq_some _ _ _ _ _ _ halloc
  have hhalf : (2 * 2 ^ k : ℤ) / 2 = ((2 ^ k : ℕ) : ℤ) := by
    rw [Int.mul_ediv_cancel_left _ (by norm_num)]; push_cast; rfl
  rw [hhalf] at hcfg
  have hncfft : cfg.ncfft.toNat = 2 ^ k := by
    rw [hcfg]; exact Int.toNat_natCast _
  have hstw : cfg.super_twiddles
      = super_twiddle_gen Real.pi Real.cos Real.sin ((2 ^ k : ℕ) : ℤ) st.super_twiddles := by
    rw [hcfg]
  have hpos : 0 < 2 ^ k := by positivity
  simp only [ne10_fft_r2c_1d_float32_c]
  rw [hncfft]
  apply split_r2c_dft (2 ^ k) hpos x
  · intro j hj
    exact butterfly_forward_plan k st cfg halloc _ j hj
  · intro j hj
    rw [hstw, super_twiddle_gen_closed _ _ _ _ _ j (by omega), toC_cos_sin]
    exact super_twiddle_exp (2 ^ k) j hpos
  · exact hidx

theorem toC_injective (z w : ne10_fft_cpx_float32_t ℝ) (h : toC z = toC w) : z = w := by
  have h1 := congrArg Complex.re h
  have h2 := congrArg Complex.im h
  simp only [toC] at h1 h2
  exact ne10_fft_cpx_float32_t.ext h1 h2

theorem toC_real (a : ℝ) : toC ⟨a, 0⟩ = (a : ℂ) := by
  apply Complex.ext <;> simp [toC]

theorem gdft_impulse (ζ : ℂ) (N : ℕ) (hN : 0 < N) (j : ℕ) :
    gdft ζ N (fun t => (((if t = 0 then 1 else 0 : ℝ)) : ℂ)) j = 1 := by
  unfold gdft
  rw [Finset.sum_eq_single 0]
  · simp
  · intro t _ ht
    simp [ht]
  · intro h
    exact absurd (Finset.mem_range.mpr hN) h

theorem gdft_const_zero (ζ : ℂ) (N : ℕ) (c : ℝ) :
    gdft ζ N (fun _ => (c : ℂ)) 0 = (((N : ℝ) * c : ℝ) : ℂ) := by
  unfold gdft
  simp

/-- The root `exp (-2 π i / N)` is a primitive `N`-th root of unity. -/
theorem exp_root_primitive (N : ℕ) (hN : 0 < N) :
    IsPrimitiveRoot (Complex.exp (-2 * (Real.pi : ℂ) * Complex.I / (N : ℂ))) N := by
  have h := (Complex.isPrimitiveRoot_exp N (by omega)).inv
  have e : (Complex.exp (2 * (Real.pi : ℂ) * Complex.I / (N : ℂ)))⁻¹
      = Complex.exp (-2 * (Real.pi : ℂ) * Complex.I / (N : ℂ)) := by
    rw [← Complex.exp_neg]
    congr 1
    ring
  rw [e] at h
  exact h

theorem geom_sum_root_zero (ξ : ℂ) (N : ℕ) (h1 : ξ ^ N = 1) (hne : ξ ≠ 1) :
    ∑ t in Finset.range N, ξ ^ t = 0 := by
  have h := geom_sum_mul ξ N
  rw [h1, sub_self] at h
  rcases mul_eq_zero.mp h with h | h
  · exact h
  · exact absurd (sub_eq_zero.mp h) hne

theorem gdft_const_pos (N : ℕ) (c : ℝ) (j : ℕ) (hj0 : 0 < j) (hjN : j < N) :
    gdft (Complex.exp (-2 * (Real.pi : ℂ) * Complex.I / (N : ℂ))) N (fun _ => (c : ℂ)) j = 0 := by
  have hp := exp_root_primitive N (by omega)
  unfold gdft
  rw [← Finset.mul_sum]
  have hs : ∑ t in Finset.range N,
      Complex.exp (-2 * (Real.pi : ℂ) * Complex.I / (N : ℂ)) ^ (t * j)
      = ∑ t in Finset.range N,
        (Complex.exp (-2 * (Real.pi : ℂ) * Complex.I / (N : ℂ)) ^ j) ^ t := by
    apply Finset.sum_congr rfl
    intro t _
    rw [← pow_mul, Nat.mul_comm]
  rw [hs, geom_sum_root_zero _ N _ (hp.pow_ne_one_of_pos_of_lt hj0 hjN), mul_zero]
  rw [← pow_mul, Nat.mul_comm, pow_mul, hp.pow_eq_one, one_pow]

/-- C8 as amended (known value), for the lengths the butterflies and the allocator's
block support: for every power of two `N = 2 ^ (k + 1)` with `2 <= N <= 2 ^ 28` the scratch
buffer of `N` complex entries lies inside the block that the allocator requested, and the
forward real-to-complex transform of the impulse `x = [1, 0, ..., 0]` has `fout[j] = (1, 0)` for
every `j <= N / 2`. -/
theorem ne10_fft_r2c_impulse (k : ℕ) (hk : k ≤ 27) (st cfg : ne10_fft_r2c_state_float32_t ℝ)
    (halloc : ne10_fft_alloc_r2c_float32 Real.pi Real.cos Real.sin (some st) (2 ^ (k + 1))
      = some cfg) (fout : ℕ → ne10_fft_cpx_float32_t ℝ) (j : ℕ) (hj : j ≤ 2 ^ (k + 1) / 2) :
    buffer_in_block cfg NE10_FFT_BYTE_ALIGNMENT (2 ^ (k + 1)) ∧
    (ne10_fft_r2c_1d_float32_c (Real.sqrt 2 / 2) fout (fun t => if t = 0 then 1 else 0) cfg).1 j
      = ⟨1, 0⟩ := by
  refine ⟨alloc_pow2_block_succ Real.pi Real.cos Real.sin k hk (some st) cfg halloc, ?_⟩
  have e : (2 : ℤ) ^ (k + 1) = 2 * 2 ^ k := by rw [pow_succ]; ring
  have e' : 2 ^ (k + 1) = 2 * 2 ^ k := by rw [pow_succ]; ring
  rw [e] at halloc
  rw [e'] at hj
  apply toC_injective
  rw [r2c_plan_dft k st cfg halloc fout _ j (by omega), gdft_impulse _ _ (by positivity)]
  apply Complex.ext <;> simp [toC]

/-- C9 as amended (DC check), for the lengths the butterflies and the allocator's block
support: for every power of two `N = 2 ^ (k + 1)` with `2 <= N <= 2 ^ 28` and every real
`c`, the scratch buffer of `N` complex entries lies inside the block that the allocator
requested, and the forward real-to-complex transform of the constant input `x = [c, ..., c]` has
`fout[0] = (N * c, 0)` and `fout[j] = (0, 0)` for every `1 <= j <= N / 2`. -/
theorem ne10_fft_r2c_constant (k : ℕ) (hk : k ≤ 27) (st cfg : ne10_fft_r2c_state_float32_t ℝ)
    (halloc : ne10_fft_alloc_r2c_float32 Real.pi Real.cos Real.sin (some st) (2 ^ (k + 1))
      = some cfg) (fout : ℕ → ne10_fft_cpx_float32_t ℝ) (c : ℝ) :
    buffer_in_block cfg NE10_FFT_BYTE_ALIGNMENT (2 ^ (k + 1)) ∧
    (ne10_fft_r2c_1d_float32_c (Real.sqrt 2 / 2) fout (fun _ => c) cfg).1 0
      = ⟨((2 ^ (k + 1) : ℕ) : ℝ) * c, 0⟩ ∧
    ∀ j, 1 ≤ j → j ≤ 2 ^ (k + 1) / 2 →
      (ne10_fft_r2c_1d_float32_c (Real.sqrt 2 / 2) fout (fun _ => c) cfg).1 j = ⟨0, 0⟩ := by
  refine ⟨alloc_pow2_block_succ Real.pi Real.cos Real.sin k hk (some st) cfg halloc, ?_⟩
  have e : (2 : ℤ) ^ (k + 1) = 2 * 2 ^ k := by rw [pow_succ]; ring
  have e' : 2 ^ (k + 1) = 2 * 2 ^ k := by rw [pow_succ]; ring
  have hpos : 0 < 2 ^ k := by positivity
  rw [e] at halloc
  rw [e']
  refine ⟨?_, ?_⟩
  · apply toC_injective
    rw [r2c_plan_dft k st cfg halloc fout _ 0 (by omega), gdft_const_zero, toC_real]
  · intro j hj1 hj
    apply toC_injective
    rw [r2c_plan_dft k st cfg halloc fout _ j (by omega), gdft_const_pos _ _ _ (by omega) (by omega)]
    apply Complex.ext <;> simp [toC]

theorem ne10_factor_body_three (buf : Nat → Int) :
    (ne10_factor_body 3 buf NE10_FACTOR_EIGHT_FIRST_STAGE).2 0 = 1 ∧
    (ne10_factor_body 3 buf NE10_FACTOR_EIGHT_FIRST_STAGE).2 1 = 1 ∧
    (ne10_factor_body 3 buf NE10_FACTOR_EIGHT_FIRST_STAGE).2 2 = 3 := by
  simp [ne10_factor_body, ne10_factor_loop, ne10_factor_init, ne10_factor_step,
    ne10_factor_radix, NE10_FACTOR_EIGHT_FIRST_STAGE, NE10_FACTOR_EIGHT, Function.update]

/-- The plan that the allocator returns for the real length 6 on the zero block. -/
theorem alloc_six :
    ∃ cfg : ne10_fft_r2c_state_float32_t ℝ,
      ne10_fft_alloc_r2c_float32 Real.pi Real.cos Real.sin (some (zero_block ℝ)) 6 = some cfg ∧
      cfg.ncfft = 3 ∧ cfg.buffer = (fun _ => ⟨0, 0⟩) ∧
      cfg.factors 0 = 1 ∧ cfg.factors 1 = 1 ∧ cfg.factors 2 = 3 := by
  have h := alloc_some_eq Real.pi Real.cos Real.sin (zero_block ℝ) 6 (by norm_num)
    (by
      have hb := ne10_factor_loop_stage_le ((6 : ℤ) / 2) (zero_block ℝ).factors
        NE10_FACTOR_EIGHT_FIRST_STAGE (by norm_num) (by norm_num)
      omega)
  have h62 : (6 : ℤ) / 2 = 3 := by norm_num
  rw [h62] at h
  obtain ⟨e0, e1, e2⟩ := ne10_factor_body_three (zero_block ℝ).factors
  exact ⟨_, h, rfl, rfl, e0, e1, e2⟩

/-- With a first radix other than 8, 4 and 2 the forward butterfly copies `in[0]` to
`out[0]` and does nothing else. -/
theorem butterfly_forward_other_radix {R : Type} [Field R] (TW_81 : R) (mem : Mem R)
    (factors : Nat → Int) (twiddles : Nat → ne10_fft_cpx_float32_t R)
    (h8 : factors (2 * factors 0).toNat ≠ 8) (h4 : factors (2 * factors 0).toNat ≠ 4)
    (h2 : factors (2 * factors 0).toNat ≠ 2) :
    ne10_mixed_radix_butterfly_float32_c TW_81 mem factors twiddles
      = mem.write Buf.out 0 (mem Buf.input 0) := by
  simp only [ne10_mixed_radix_butterfly_float32_c]
  rw [if_neg h8, if_neg h4, if_neg h2]

/-- On any block the allocator returns a plan for the length `2 ^ (k + 1)`, `k < 30`. -/
theorem alloc_pow2_some (st : ne10_fft_r2c_state_float32_t ℝ) (k : ℕ) (hk : k < 30) :
    ∃ cfg : ne10_fft_r2c_state_float32_t ℝ,
      ne10_fft_alloc_r2c_float32 Real.pi Real.cos Real.sin (some st) (2 ^ (k + 1)) = some cfg := by
  have h1 : (2 : ℤ) ≤ 2 ^ (k + 1) := by
    calc (2 : ℤ) = 2 ^ 1 := by norm_num
      _ ≤ 2 ^ (k + 1) := pow_le_pow_right₀ (by norm_num) (by omega)
  have h2 : (2 : ℤ) ^ (k + 1) / 2 = 2 ^ k := by
    rw [pow_succ]; exact Int.mul_ediv_cancel _ (by norm_num)
  have h3 : (2 : ℤ) ^ k < 2 ^ 31 := pow_lt_pow_right₀ (by norm_num) (by omega)
  refine ⟨_, alloc_some_eq Real.pi Real.cos Real.sin st (2 ^ (k + 1)) h1 ?_⟩
  have hb := ne10_factor_loop_stage_le ((2 : ℤ) ^ (k + 1) / 2) st.factors
    NE10_FACTOR_EIGHT_FIRST_STAGE (by rw [h2]; positivity) (by rw [h2]; exact h3)
  omega

/-- The plan for the length `2 ^ 29`, on any block: the allocator returns one, with
`ncfft = 2 ^ 28`; the byte count of its layout is 7516193072, which a `ne10_uint32_t`
holds as 3221225776, the size of the block; the scratch buffer starts at byte 3221225768
or later, so the `ncfft` complex entries that the transforms store in it do not lie inside
the block. -/
theorem alloc_pow2_wrap (st : ne10_fft_r2c_state_float32_t ℝ) :
    ∃ cfg : ne10_fft_r2c_state_float32_t ℝ,
      ne10_fft_alloc_r2c_float32 Real.pi Real.cos Real.sin (some st) (2 ^ (28 + 1)) = some cfg ∧
      cfg.ncfft = 2 ^ 28 ∧ ne10_fft_r2c_bytes (2 ^ (28 + 1)) = 7516193072 ∧
      cfg.memneeded = 3221225776 ∧ ¬ buffer_in_block cfg 0 (2 ^ 28) := by
  obtain ⟨cfg, h⟩ := alloc_pow2_some st 28 (by norm_num)
  obtain ⟨hn, hm⟩ := alloc_memneeded Real.pi Real.cos Real.sin (some st) cfg _ h
  have hb : ne10_fft_r2c_bytes (2 ^ (28 + 1)) = 7516193072 := by
    rw [ne10_fft_r2c_bytes_eq _ (by norm_num)]
    norm_num
  have hn' : cfg.ncfft = 2 ^ 28 := by
    rw [hn]
    norm_num
  have hm' : cfg.memneeded = 3221225776 := by
    rw [hm, hb]
    have hw : ((7516193072 : ℤ) % 2 ^ 32) = ((3221225776 : ℕ) : ℤ) := by norm_num
    rw [hw, Int.toNat_natCast]
  refine ⟨cfg, h, hn', hb, hm', ?_⟩
  have ht : Int.tdiv ((2 : ℤ) ^ 28) 2 = 134217728 := by norm_num [Int.tdiv]
  simp only [buffer_in_block, hn', ht, hm', sizeof_r2c_state, NE10_MAXFACTORS]
  norm_num

/-- C8, counterexample: the even length 6 gets a plan, and the transform of the impulse
under it (output array and scratch buffer holding zeros before the call) has
`fout[1] = (0, 0)`, not `(1, 0)`; and the power of two `2 ^ 29` gets a plan whose byte
count 7516193072 wraps to a block of 3221225776 bytes, in which the `N / 2` complex entries
that the transform stores in the scratch buffer do not lie. -/
theorem ne10_fft_r2c_impulse_counterexample :
    (∃ cfg : ne10_fft_r2c_state_float32_t ℝ,
      ne10_fft_alloc_r2c_float32 Real.pi Real.cos Real.sin (some (zero_block ℝ)) 6 = some cfg ∧
      (ne10_fft_r2c_1d_float32_c (Real.sqrt 2 / 2) (fun _ => ⟨0, 0⟩)
        (fun t => if t = 0 then 1 else 0) cfg).1 1 ≠ ⟨1, 0⟩) ∧
    (∃ cfg : ne10_fft_r2c_state_float32_t ℝ,
      ne10_fft_alloc_r2c_float32 Real.pi Real.cos Real.sin (some (zero_block ℝ)) (2 ^ (28 + 1))
        = some cfg ∧
      cfg.ncfft = 2 ^ 28 ∧ ne10_fft_r2c_bytes (2 ^ (28 + 1)) = 7516193072 ∧
      cfg.memneeded = 3221225776 ∧ ¬ buffer_in_block cfg 0 (2 ^ 28)) := by
  refine ⟨?_, alloc_pow2_wrap (zero_block ℝ)⟩
  obtain ⟨cfg, h, hn, hbuf, e0, e1, e2⟩ := alloc_six
  refine ⟨cfg, h, ?_⟩
  have hr : cfg.factors (2 * cfg.factors 0).toNat = 3 := by rw [e0]; exact e2
  simp only [ne10_fft_r2c_1d_float32_c]
  rw [butterfly_forward_other_radix _ _ _ _ (by rw [hr]; decide) (by rw [hr]; decide)
    (by rw [hr]; decide), hn]
  rw [show ((3 : ℤ)).toNat = 3 by rfl, split_r2c_closed _ _ _ 3 (by norm_num) 1 (by norm_num)]
  simp [split_r2c_store_k, Mem.write_apply, hbuf]

/-- C9, counterexample: under the plan for the even length 6 the transform of the
constant input `[1, ..., 1]` has `fout[0] = (2, 0)`, not `(6, 0)`; and the power of two
`2 ^ 29` gets a plan whose byte count 7516193072 wraps to a block of 3221225776 bytes, in
which the `N / 2` complex entries that the transform stores in the scratch buffer do not
lie. -/
theorem ne10_fft_r2c_constant_counterexample :
    (∃ cfg : ne10_fft_r2c_state_float32_t ℝ,
      ne10_fft_alloc_r2c_float32 Real.pi Real.cos Real.sin (some (zero_block ℝ)) 6 = some cfg ∧
      (ne10_fft_r2c_1d_float32_c (Real.sqrt 2 / 2) (fun _ => ⟨0, 0⟩)
        (fun _ => 1) cfg).1 0 ≠ ⟨6 * 1, 0⟩) ∧
    (∃ cfg : ne10_fft_r2c_state_float32_t ℝ,
      ne10_fft_alloc_r2c_float32 Real.pi Real.cos Real.sin (some (zero_block ℝ)) (2 ^ (28 + 1))
        = some cfg ∧
      cfg.ncfft = 2 ^ 28 ∧ ne10_fft_r2c_bytes (2 ^ (28 + 1)) = 7516193072 ∧
      cfg.memneeded = 3221225776 ∧ ¬ buffer_in_block cfg 0 (2 ^ 28)) := by
  refine ⟨?_, alloc_pow2_wrap (zero_block ℝ)⟩
  obtain ⟨cfg, h, hn, hbuf, e0, e1, e2⟩ := alloc_six
  refine ⟨cfg, h, ?_⟩
  have hr : cfg.factors (2 * cfg.factors 0).toNat = 3 := by rw [e0]; exact e2
  simp only [ne10_fft_r2c_1d_float32_c]
  rw [butterfly_forward_other_radix _ _ _ _ (by rw [hr]; decide) (by rw [hr]; decide)
    (by rw [hr]; decide), hn]
  rw [show ((3 : ℤ)).toNat = 3 by rfl, split_r2c_closed _ _ _ 3 (by norm_num) 0 (by norm_num)]
  simp [Mem.write_apply]
  norm_num

/-- Witness for C8: the plan for `N = 2 ^ 3 = 8`, bin 2. -/
theorem ne10_fft_r2c_impulse_witness :
    ∃ cfg : ne10_fft_r2c_state_float32_t ℝ,
      ne10_fft_alloc_r2c_float32 Real.pi Real.cos Real.sin (some (zero_block ℝ)) (2 ^ (2 + 1))
        = some cfg ∧
      2 ≤ 2 ^ (2 + 1) / 2 ∧
      (ne10_fft_r2c_1d_float32_c (Real.sqrt 2 / 2) (fun _ => ⟨0, 0⟩)
        (fun t => if t = 0 then 1 else 0) cfg).1 2 = ⟨1, 0⟩ :=
  Exists.elim (alloc_pow2_some (zero_block ℝ) 2 (by norm_num)) (fun cfg h =>
    ⟨cfg, h, by norm_num, (ne10_fft_r2c_impulse 2 (by norm_num) (zero_block ℝ) cfg h
      (fun _ => ⟨0, 0⟩) 2 (by norm_num)).2⟩)

/-- Witness for C9: the plan for `N = 2 ^ 4 = 16`, the constant `3`. -/
theorem ne10_fft_r2c_constant_witness :
    ∃ cfg : ne10_fft_r2c_state_float32_t ℝ,
      ne10_fft_alloc_r2c_float32 Real.pi Real.cos Real.sin (some (zero_block ℝ)) (2 ^ (3 + 1))
        = some cfg ∧
      ((ne10_fft_r2c_1d_float32_c (Real.sqrt 2 / 2) (fun _ => ⟨0, 0⟩) (fun _ => 3) cfg).1 0
        = ⟨((2 ^ (3 + 1) : ℕ) : ℝ) * 3, 0⟩ ∧
      ∀ j, 1 ≤ j → j ≤ 2 ^ (3 + 1) / 2 →
        (ne10_fft_r2c_1d_float32_c (Real.sqrt 2 / 2) (fun _ => ⟨0, 0⟩) (fun _ => 3) cfg).1 j
          = ⟨0, 0⟩) :=
  Exists.elim (alloc_pow2_some (zero_block ℝ) 3 (by norm_num)) (fun cfg h =>
    ⟨cfg, h, (ne10_fft_r2c_constant 3 (by norm_num) (zero_block ℝ) cfg h
      (fun _ => ⟨0, 0⟩) 3).2⟩)

/-! ## The inverse butterfly computes the scaled inverse DFT -/

theorem exp_inv_root_conj (N : ℕ) :
    Complex.exp (2 * (Real.pi : ℂ) * Complex.I / (N : ℂ))
      = (starRingEnd ℂ) (Complex.exp (-2 * (Real.pi : ℂ) * Complex.I / (N : ℂ))) := by
  rw [← Complex.exp_conj]
  congr 1
  simp only [map_div₀, map_mul, map_neg, Complex.conj_ofReal, Complex.conj_I, map_natCast,
    map_ofNat]
  ring

theorem exp_inv_root_pow4 (M : ℕ) :
    Complex.exp (2 * (Real.pi : ℂ) * Complex.I / ((4 * M : ℕ) : ℂ)) ^ 4
      = Complex.exp (2 * (Real.pi : ℂ) * Complex.I / (M : ℂ)) := by
  rw [exp_inv_root_conj, exp_inv_root_conj, ← map_pow, exp_root_pow4]

theorem exp_inv_root_powM (M : ℕ) (hM : 0 < M) :
    Complex.exp (2 * (Real.pi : ℂ) * Complex.I / ((4 * M : ℕ) : ℂ)) ^ M = Complex.I := by
  rw [exp_inv_root_conj, ← map_pow, exp_root_powM M hM, map_neg, Complex.conj_I, neg_neg]

theorem exp_inv_root_eight :
    Complex.exp (2 * (Real.pi : ℂ) * Complex.I / ((8 : ℕ) : ℂ))
      = ((Real.sqrt 2 / 2 : ℝ) : ℂ) * (1 + Complex.I) := by
  rw [exp_inv_root_conj, exp_root_eight, map_mul, Complex.conj_ofReal, map_sub, map_one,
    Complex.conj_I, sub_neg_eq_add]

/-- After the radix-8 first stage of the inverse butterfly the array behind `out` holds
`F` inverse transforms of length 8 (`TW_81` read as `√2/2`). -/
theorem first_stage_radix8_inverse_inv (F : ℕ) (mem : Mem ℝ) :
    StageInv (fun N : ℕ => Complex.exp (2 * (Real.pi : ℂ) * Complex.I / (N : ℂ)))
      (fun m => toC (mem Buf.input m)) F 8
      (first_stage_radix8 (radix8_butterfly_inverse (Real.sqrt 2 / 2)) F mem Buf.out) := by
  intro g m hg hm
  obtain ⟨_, hval⟩ := first_stage_radix8_closed (radix8_butterfly_inverse (Real.sqrt 2 / 2)) F mem
  have hTW : 2 * (Real.sqrt 2 / 2) ^ 2 = 1 := by
    rw [div_pow, Real.sq_sqrt (by norm_num)]; norm_num
  have h := toC_radix8_inverse (Real.sqrt 2 / 2) hTW (fun p => mem Buf.input (g + F * p)) m hm
  simp only [mul_zero, add_zero, mul_one] at h
  rw [hval g m hg hm, h]
  show gdft _ 8 _ m = gdft (Complex.exp (2 * (Real.pi : ℂ) * Complex.I / ((8 : ℕ) : ℂ))) 8 _ m
  rw [exp_inv_root_eight]
  congr 1
  funext p
  rw [Nat.mul_comm F p]

/-- After the radix-4 first stage of the inverse butterfly the array behind `out` holds
`F` inverse transforms of length 4. -/
theorem first_stage_radix4_inverse_inv (F : ℕ) (mem : Mem ℝ) :
    StageInv (fun N : ℕ => Complex.exp (2 * (Real.pi : ℂ) * Complex.I / (N : ℂ)))
      (fun m => toC (mem Buf.input m)) F 4
      (first_stage_radix4 radix4_butterfly_inverse F mem Buf.out) := by
  intro g m hg hm
  obtain ⟨_, hval⟩ := first_stage_radix4_closed radix4_butterfly_inverse F mem
  have hW : Complex.exp (2 * (Real.pi : ℂ) * Complex.I / ((4 : ℕ) : ℂ)) = Complex.I := by
    have := exp_inv_root_powM 1 (by norm_num)
    simpa using this
  rw [hval g m hg hm, toC_radix4_inverse _ _ _ _ m hm]
  show _ = gdft (Complex.exp (2 * (Real.pi : ℂ) * Complex.I / ((4 : ℕ) : ℂ))) 4 _ m
  rw [hW]
  unfold gdft
  simp only [Finset.sum_range_succ, Finset.sum_range_zero, zero_mul, pow_zero, mul_one, one_mul,
    zero_add, add_zero]
  ring_nf

/-- The conjugates of the twiddle entries of a power-of-two plan are the powers of the
inverse root that a radix-4 step of the inverse butterfly needs. -/
theorem twiddles_inverse_form (tw : ℕ → ne10_fft_cpx_float32_t ℝ) (r b : ℕ) (hr : 0 < r)
    (htw : ∀ t m q, t < b → m < r * 4 ^ t → 1 ≤ q → q ≤ 3 →
      tw (r * 4 ^ t - r + (r * 4 ^ t * (q - 1) + m))
        = ⟨Real.cos (-2 * Real.pi * ((4 ^ (b - 1 - t) : ℕ) : ℝ) * (q : ℝ) * (m : ℝ)
            / (((r : ℤ) * 4 ^ b : ℤ) : ℝ)),
           Real.sin (-2 * Real.pi * ((4 ^ (b - 1 - t) : ℕ) : ℝ) * (q : ℝ) * (m : ℝ)
            / (((r : ℤ) * 4 ^ b : ℤ) : ℝ))⟩) :
    (∀ t m, t < b → m < r * 4 ^ t → (starRingEnd ℂ) (toC (tw (r * 4 ^ t - r + m)))
      = Complex.exp (2 * (Real.pi : ℂ) * Complex.I / ((4 * (r * 4 ^ t) : ℕ) : ℂ)) ^ m) ∧
    (∀ t m, t < b → m < r * 4 ^ t →
      (starRingEnd ℂ) (toC (tw (r * 4 ^ t - r + m + r * 4 ^ t * 1)))
      = Complex.exp (2 * (Real.pi : ℂ) * Complex.I / ((4 * (r * 4 ^ t) : ℕ) : ℂ)) ^ (2 * m)) ∧
    (∀ t m, t < b → m < r * 4 ^ t →
      (starRingEnd ℂ) (toC (tw (r * 4 ^ t - r + m + r * 4 ^ t * 2)))
      = Complex.exp (2 * (Real.pi : ℂ) * Complex.I / ((4 * (r * 4 ^ t) : ℕ) : ℂ))
          ^ (3 * m)) := by
  obtain ⟨h1, h2, h3⟩ := twiddles_forward_form tw r b hr htw
  refine ⟨?_, ?_, ?_⟩
  · intro t m ht hm
    rw [h1 t m ht hm, map_pow, ← exp_inv_root_conj]
  · intro t m ht hm
    rw [h2 t m ht hm, map_pow, ← exp_inv_root_conj]
  · intro t m ht hm
    rw [h3 t m ht hm, map_pow, ← exp_inv_root_conj]

/-- The inverse butterfly on the plan of `r * 4 ^ b` (`r` 4 or 8) computes the
`r * 4 ^ b`-point inverse transform of the array behind `in`, scaled by
`1 / (r * 4 ^ b)`, in natural order. -/
theorem butterfly_inverse_pow4 (r b : ℕ) (hr : r = 4 ∨ r = 8) (hb : b + 1 ≤ 21)
    (buf : Nat → Int) (table : Nat → ne10_fft_cpx_float32_t ℝ) (mem : Mem ℝ) (k : ℕ)
    (hk : k < r * 4 ^ b) :
    toC (ne10_mixed_radix_butterfly_inverse_float32_c (Real.sqrt 2 / 2) mem
        (ne10_factor_body ((r : ℤ) * 4 ^ b) buf NE10_FACTOR_EIGHT_FIRST_STAGE).2
        (twiddle_gen Real.pi Real.cos Real.sin ((r : ℤ) * 4 ^ b)
          (ne10_factor_body ((r : ℤ) * 4 ^ b) buf NE10_FACTOR_EIGHT_FIRST_STAGE).2
          ((ne10_factor_body ((r : ℤ) * 4 ^ b) buf NE10_FACTOR_EIGHT_FIRST_STAGE).2 0 - 1).toNat
          { table := table, twiddles := 0,
            fstride := ((ne10_factor_body ((r : ℤ) * 4 ^ b) buf
              NE10_FACTOR_EIGHT_FIRST_STAGE).2 1).toNat }).table Buf.out k)
      = gdft (Complex.exp (2 * (Real.pi : ℂ) * Complex.I / ((r * 4 ^ b : ℕ) : ℂ))) (r * 4 ^ b)
          (fun m => toC (mem Buf.input m)) k * (1 / ((r * 4 ^ b : ℕ) : ℂ)) := by
  have hr' : (r : ℤ) = 4 ∨ (r : ℤ) = 8 := by
    rcases hr with hr | hr <;> rw [hr] <;> simp
  have hrpos : 0 < r := by omega
  obtain ⟨e0, e1, eu, er⟩ := ne10_factor_body_pow4 (r : ℤ) hr' b hb buf
  have htw := alloc_twiddles_pow4 Real.pi Real.cos Real.sin r b hr hb buf table
  generalize (twiddle_gen Real.pi Real.cos Real.sin ((r : ℤ) * 4 ^ b)
          (ne10_factor_body ((r : ℤ) * 4 ^ b) buf NE10_FACTOR_EIGHT_FIRST_STAGE).2
          ((ne10_factor_body ((r : ℤ) * 4 ^ b) buf NE10_FACTOR_EIGHT_FIRST_STAGE).2 0 - 1).toNat
          { table := table, twiddles := 0,
            fstride := ((ne10_factor_body ((r : ℤ) * 4 ^ b) buf
              NE10_FACTOR_EIGHT_FIRST_STAGE).2 1).toNat }).table = tw at htw ⊢
  generalize (ne10_factor_body ((r : ℤ) * 4 ^ b) buf NE10_FACTOR_EIGHT_FIRST_STAGE).2 = fb
    at e0 e1 eu er ⊢
  have hsc : fb 0 = (b : ℤ) + 1 := by rw [e0]; push_cast; ring
  have hfs : (fb 1).toNat = 4 ^ b := by
    rw [e1]
    have : ((4 : ℤ) ^ b) = ((4 ^ b : ℕ) : ℤ) := by push_cast; rfl
    rw [this]
    exact Int.toNat_natCast _
  have hidx1 : (2 * ((b : ℤ) + 1) - 1).toNat = 2 * b + 1 := by omega
  have hidx2 : (2 * ((b : ℤ) + 1)).toNat = 2 * (1 + b) := by omega
  have hms : 1 ≤ b → (fb (2 * b + 1)).toNat = r := by
    intro h1
    have := (eu (b - 1) (by omega)).2
    have e : 2 * (1 + (b - 1)) + 1 = 2 * b + 1 := by omega
    rw [e, show b - 1 - (b - 1) = 0 by omega, pow_zero, mul_one] at this
    rw [this]
    exact Int.toNat_natCast _
  obtain ⟨htw1, htw2, htw3⟩ := twiddles_inverse_form tw r b hrpos
    (fun t m q ht hm hq1 hq3 => htw t m q ht hm hq1 hq3)
  have hJ : Complex.I ^ 4 = 1 := Complex.I_pow_four
  simp only [ne10_mixed_radix_butterfly_inverse_float32_c, hsc, hidx1, hidx2, er, hfs,
    add_sub_cancel_right]
  have hc : (((1 / ((((4 ^ b : ℕ) : ℤ) * (r : ℤ) : ℤ) : ℝ) : ℝ)) : ℂ)
      = 1 / ((r * 4 ^ b : ℕ) : ℂ) := by
    push_cast
    ring
  generalize (1 / ((((4 ^ b : ℕ) : ℤ) * (r : ℤ) : ℤ) : ℝ) : ℝ) = c at hc ⊢
  have hstages : ∀ (mem1 : Mem ℝ) (step : ℕ), 1 ≤ b → step = r * 4 ^ (b - 1) →
      StageInv (fun N : ℕ => Complex.exp (2 * (Real.pi : ℂ) * Complex.I / (N : ℂ)))
        (fun m => toC (mem Buf.input m)) (4 ^ b) r (mem1 Buf.out) →
      toC (butterfly_stages radix4_twiddle_butterfly_inverse
        (radix4_twiddle_butterfly_inverse_scaled c) tw
        mem1 (b : ℤ) (4 ^ b / 4) (fb (2 * b + 1)).toNat step Buf.out k)
      = gdft (Complex.exp (2 * (Real.pi : ℂ) * Complex.I / ((r * 4 ^ b : ℕ) : ℂ))) (r * 4 ^ b)
          (fun m => toC (mem Buf.input m)) k * (1 / ((r * 4 ^ b : ℕ) : ℂ)) := by
    intro mem1 step h1 hstep hinv
    have hdiv : 4 ^ b / 4 = 4 ^ (b - 1) := by
      conv_lhs => rw [show b = (b - 1) + 1 by omega, pow_succ]
      exact Nat.mul_div_cancel _ (by norm_num)
    rw [hms h1, hdiv, hstep, ← hc]
    exact butterfly_stages_dft radix4_twiddle_butterfly_inverse
      (radix4_twiddle_butterfly_inverse_scaled c)
      Complex.I (fun z => (starRingEnd ℂ) (toC z)) (c : ℂ) toC_radix4_twiddle_inverse
      (toC_radix4_twiddle_inverse_scaled c)
      (fun N : ℕ => Complex.exp (2 * (Real.pi : ℂ) * Complex.I / (N : ℂ))) hJ
      exp_inv_root_pow4 exp_inv_root_powM r b hrpos h1 tw htw1 htw2 htw3
      (fun m => toC (mem Buf.input m)) mem1 hinv k hk
  have hzero : ∀ (mem1 : Mem ℝ), b = 0 →
      StageInv (fun N : ℕ => Complex.exp (2 * (Real.pi : ℂ) * Complex.I / (N : ℂ)))
        (fun m => toC (mem Buf.input m)) (4 ^ b) r (mem1 Buf.out) →
      toC (scale_first_stage c r mem1 Buf.out k)
      = gdft (Complex.exp (2 * (Real.pi : ℂ) * Complex.I / ((r * 4 ^ b : ℕ) : ℂ))) (r * 4 ^ b)
          (fun m => toC (mem Buf.input m)) k * (1 / ((r * 4 ^ b : ℕ) : ℂ)) := by
    intro mem1 hb0 hinv
    subst hb0
    simp only [pow_zero, mul_one] at hk hinv ⊢
    obtain ⟨_, hq, _⟩ := scale_first_stage_closed c r mem1
    have h := hinv 0 k (by norm_num) hk
    simp only [zero_mul, zero_add, mul_one] at h
    simp only [pow_zero, mul_one] at hc
    rw [hq k hk, ← hc, ← h]
    apply Complex.ext <;> simp [toC]
  rcases hr with hr | hr
  · subst hr
    rw [if_neg (by norm_num), if_pos (by norm_num)]
    by_cases hb0 : b = 0
    · rw [if_pos (by exact_mod_cast hb0)]
      have := hzero _ hb0 (first_stage_radix4_inverse_inv (4 ^ b) mem)
      subst hb0
      rw [Nat.cast_zero, butterfly_stages_zero]
      exact this
    · rw [if_neg (by exact_mod_cast hb0)]
      exact hstages _ _ (by omega)
        (by conv_lhs => rw [show b = (b - 1) + 1 by omega, pow_succ]
            ring)
        (first_stage_radix4_inverse_inv (4 ^ b) mem)
  · subst hr
    rw [if_pos (by norm_num)]
    by_cases hb0 : b = 0
    · rw [if_pos (by exact_mod_cast hb0)]
      have := hzero _ hb0 (first_stage_radix8_inverse_inv (4 ^ b) mem)
      subst hb0
      rw [Nat.cast_zero, butterfly_stages_zero]
      exact this
    · rw [if_neg (by exact_mod_cast hb0)]
      exact hstages _ _ (by omega)
        (by conv_lhs => rw [show b = (b - 1) + 1 by omega, pow_succ]
            ring)
        (first_stage_radix8_inverse_inv (4 ^ b) mem)

/-- The inverse butterfly under the plan that the allocator makes for a power of two
`ncfft = 2 ^ k` computes the `2 ^ k`-point inverse transform of the array behind `in`,
scaled by `1 / 2 ^ k`. -/
theorem butterfly_inverse_plan (k : ℕ) (st cfg : ne10_fft_r2c_state_float32_t ℝ)
    (halloc : ne10_fft_alloc_r2c_float32 Real.pi Real.cos Real.sin (some st) (2 * 2 ^ k)
      = some cfg) (mem : Mem ℝ) (j : ℕ) (hj : j < 2 ^ k) :
    toC (ne10_mixed_radix_butterfly_inverse_float32_c (Real.sqrt 2 / 2) mem cfg.factors
        cfg.twiddles Buf.out j)
      = gdft (Complex.exp (2 * (Real.pi : ℂ) * Complex.I / ((2 ^ k : ℕ) : ℂ))) (2 ^ k)
          (fun m => toC (mem Buf.input m)) j * (1 / ((2 ^ k : ℕ) : ℂ)) := by
  obtain ⟨_, hS, hcfg⟩ := alloc_eq_some _ _ _ _ _ _ halloc
  have hhalf : (2 * 2 ^ k : ℤ) / 2 = 2 ^ k := by
    rw [Int.mul_ediv_cancel_left _ (by norm_num)]
  rw [hhalf] at hS hcfg
  subst hcfg
  simp only
  by_cases hk0 : k = 0
  · subst hk0
    obtain ⟨e0, _, e2⟩ := ne10_factor_body_one st.factors
    have hj0 : j = 0 := by simpa using hj
    subst hj0
    simp only [pow_zero] at e0 e2 ⊢
    simp [ne10_mixed_radix_butterfly_inverse_float32_c, e0, e2, Mem.write_apply, gdft]
  · by_cases hk1 : k = 1
    · subst hk1
      obtain ⟨e0, e1, e2⟩ := ne10_factor_body_two st.factors
      simp only [pow_one] at e0 e1 e2 hj ⊢
      have hW : Complex.exp (2 * (Real.pi : ℂ) * Complex.I / ((2 : ℕ) : ℂ)) = -1 := by
        have e : 2 * (Real.pi : ℂ) * Complex.I / ((2 : ℕ) : ℂ) = (Real.pi : ℂ) * Complex.I := by
          push_cast; ring
        rw [e, Complex.exp_pi_mul_I]
      rw [hW]
      interval_cases j
      · simp [ne10_mixed_radix_butterfly_inverse_float32_c, e0, e1, e2, Mem.write_apply, gdft,
          Finset.sum_range_succ]
        apply Complex.ext <;> simp [toC]
      · simp [ne10_mixed_radix_butterfly_inverse_float32_c, e0, e1, e2, Mem.write_apply, gdft,
          Finset.sum_range_succ]
        apply Complex.ext <;> simp [toC] <;> ring
    · obtain ⟨r, b, hr, hrb⟩ := pow_two_cases k (by omega)
      have hrbZ : (2 : ℤ) ^ k = (r : ℤ) * 4 ^ b := by exact_mod_cast hrb
      have hr' : (r : ℤ) = 4 ∨ (r : ℤ) = 8 := by
        rcases hr with hr | hr <;> rw [hr] <;> simp
      rw [hrbZ] at hS ⊢
      rw [ne10_factor_stage_pow4 (r : ℤ) hr' b] at hS
      rw [hrb] at hj ⊢
      exact butterfly_inverse_pow4 r b hr (by omega) st.factors st.twiddles mem j hj

theorem gdft_congr {K : Type} [CommRing K] (ζ : K) (n : ℕ) (x y : ℕ → K)
    (h : ∀ m, m < n → x m = y m) (k : ℕ) : gdft ζ n x k = gdft ζ n y k := by
  unfold gdft
  apply Finset.sum_congr rfl
  intro m hm
  rw [h m (Finset.mem_range.mp hm)]

/-- Inversion of the transform: the transform with the inverse root undoes the transform
with a primitive root, up to the factor `n`. -/
theorem gdft_inverse (ω ω' : ℂ) (n : ℕ) (hp : IsPrimitiveRoot ω n) (hinv : ω' * ω = 1)
    (z : ℕ → ℂ) (t : ℕ) (ht : t < n) :
    gdft ω' n (gdft ω n z) t = (n : ℂ) * z t := by
  have hω'n : ω' ^ n = 1 := by
    have h := congrArg (fun u => u ^ n) hinv
    simp only [mul_pow, hp.pow_eq_one, mul_one, one_pow] at h
    exact h
  unfold gdft
  have h1 : ∀ j ∈ Finset.range n, (∑ m in Finset.range n, z m * ω ^ (m * j)) * ω' ^ (j * t)
      = ∑ m in Finset.range n, z m * (ω ^ m * ω' ^ t) ^ j := by
    intro j _
    rw [Finset.sum_mul]
    apply Finset.sum_congr rfl
    intro m _
    rw [mul_pow, ← pow_mul, ← pow_mul, Nat.mul_comm t j]
    ring
  rw [Finset.sum_congr rfl h1, Finset.sum_comm]
  have h2 : ∀ m ∈ Finset.range n, ∑ j in Finset.range n, z m * (ω ^ m * ω' ^ t) ^ j
      = if m = t then (n : ℂ) * z t else 0 := by
    intro m hm
    have hm' := Finset.mem_range.mp hm
    rw [← Finset.mul_sum]
    by_cases hmt : m = t
    · subst hmt
      rw [if_pos rfl, ← mul_pow, mul_comm ω ω', hinv, one_pow]
      simp
      ring
    · rw [if_neg hmt, geom_sum_root_zero _ n, mul_zero]
      · rw [mul_pow, ← pow_mul, ← pow_mul, Nat.mul_comm m n, Nat.mul_comm t n, pow_mul, pow_mul,
          hp.pow_eq_one, hω'n, one_pow, one_pow, mul_one]
      · intro h
        apply hmt
        have h3 : ω ^ m = ω ^ t := by
          have := congrArg (fun u => u * ω ^ t) h
          simp only at this
          rw [mul_assoc, ← mul_pow, hinv, one_pow, mul_one, one_mul] at this
          exact this
        exact hp.pow_inj hm' ht h3
  rw [Finset.sum_congr rfl h2, Finset.sum_ite_eq']
  rw [if_pos (Finset.mem_range.mpr ht)]

/-! ## The c2r split undoes the r2c split -/

/-- The c2r split in closed form, for `ncfft >= 1`. -/
theorem split_c2r_closed {R : Type} [Field R] (dst src twiddles : Nat → ne10_fft_cpx_float32_t R)
    (n : ℕ) (hn : 1 ≤ n) (idx : ℕ) (hidx : idx < n) :
    ne10_fft_split_c2r_1d_float32 dst src twiddles n idx
      = if idx = 0 then
          ⟨((src 0).r + (src n).r) * (1 / 2), ((src 0).r - (src n).r) * (1 / 2)⟩
        else if n - idx ≤ n / 2 then split_c2r_store_nk src twiddles n (n - idx)
        else split_c2r_store_k src twiddles n idx := by
  unfold ne10_fft_split_c2r_1d_float32
  have h := split_fold_closed (split_c2r_store_k src twiddles n)
    (split_c2r_store_nk src twiddles n) n
    (Function.update dst 0
      ⟨((src 0).r + (src n).r) * (1 / 2), ((src 0).r - (src n).r) * (1 / 2)⟩)
    (n / 2) (le_refl _) idx
  have hb : split_c2r_body src twiddles n
      = (fun d k => Function.update (Function.update d k (split_c2r_store_k src twiddles n k))
          (n - k) (split_c2r_store_nk src twiddles n k)) := by
    funext d k
    rfl
  rw [hb, h]
  by_cases h0 : idx = 0
  · subst h0
    rw [if_neg (show ¬ (1 ≤ n - 0 ∧ n - 0 ≤ n / 2) by omega),
      if_neg (show ¬ (1 ≤ 0 ∧ 0 ≤ n / 2) by omega), if_pos rfl, Function.update_same]
  · rw [if_neg h0]
    by_cases hc : n - idx ≤ n / 2
    · rw [if_pos (show 1 ≤ n - idx ∧ n - idx ≤ n / 2 by omega), if_pos hc]
    · rw [if_neg (show ¬ (1 ≤ n - idx ∧ n - idx ≤ n / 2) by omega),
        if_pos (show 1 ≤ idx ∧ idx ≤ n / 2 by omega), if_neg hc]

/-- Pass `k` of the c2r loop recovers `Z[k]` from what pass `k` of the r2c loop stored,
for a twiddle of modulus one. -/
theorem split_c2r_store_k_r2c (F Z tw : ℕ → ne10_fft_cpx_float32_t ℝ) (n k : ℕ)
    (hu : (tw (k - 1)).r * (tw (k - 1)).r + (tw (k - 1)).i * (tw (k - 1)).i = 1)
    (hFk : F k = split_r2c_store_k Z tw n k) (hFnk : F (n - k) = split_r2c_store_nk Z tw n k) :
    split_c2r_store_k F tw n k = Z k := by
  unfold split_c2r_store_k
  rw [hFk, hFnk]
  apply ne10_fft_cpx_float32_t.ext
  · simp only [split_r2c_store_k, split_r2c_store_nk]
    linear_combination (((Z k).r - (Z (n - k)).r) / 2) * hu
  · simp only [split_r2c_store_k, split_r2c_store_nk]
    linear_combination (((Z k).i + (Z (n - k)).i) / 2) * hu

/-- Pass `k` of the c2r loop recovers `Z[ncfft - k]` from what pass `k` of the r2c loop
stored, for a twiddle of modulus one. -/
theorem split_c2r_store_nk_r2c (F Z tw : ℕ → ne10_fft_cpx_float32_t ℝ) (n k : ℕ)
    (hu : (tw (k - 1)).r * (tw (k - 1)).r + (tw (k - 1)).i * (tw (k - 1)).i = 1)
    (hFk : F k = split_r2c_store_k Z tw n k) (hFnk : F (n - k) = split_r2c_store_nk Z tw n k) :
    split_c2r_store_nk F tw n k = Z (n - k) := by
  unfold split_c2r_store_nk
  rw [hFk, hFnk]
  apply ne10_fft_cpx_float32_t.ext
  · simp only [split_r2c_store_k, split_r2c_store_nk]
    linear_combination (-((Z k).r - (Z (n - k)).r) / 2) * hu
  · simp only [split_r2c_store_k, split_r2c_store_nk]
    linear_combination (((Z k).i + (Z (n - k)).i) / 2) * hu

/-- The middle pass `k = ncfft - k`, whose two stores hit the same index: the twiddle is
`-1` there. -/
theorem split_c2r_store_mid_r2c (F Z tw : ℕ → ne10_fft_cpx_float32_t ℝ) (n k : ℕ)
    (hnk : n - k = k) (htw : tw (k - 1) = ⟨-1, 0⟩)
    (hFk : F k = split_r2c_store_nk Z tw n k) :
    split_c2r_store_nk F tw n k = Z k := by
  unfold split_c2r_store_nk
  rw [hnk, hFk]
  apply ne10_fft_cpx_float32_t.ext
  · simp only [split_r2c_store_nk, hnk, htw]
    ring
  · simp only [split_r2c_store_nk, hnk, htw]
    ring

/-- The c2r split applied to the output of the r2c split gives back the array that the
r2c split read, for super twiddles of modulus one with `-1` in the middle. -/
theorem split_c2r_r2c (dF dZ Z tw : ℕ → ne10_fft_cpx_float32_t ℝ) (n : ℕ) (hn : 1 ≤ n)
    (hu : ∀ k, 1 ≤ k → k ≤ n / 2 →
      (tw (k - 1)).r * (tw (k - 1)).r + (tw (k - 1)).i * (tw (k - 1)).i = 1)
    (hmid : ∀ k, 1 ≤ k → n - k = k → tw (k - 1) = ⟨-1, 0⟩)
    (idx : ℕ) (hidx : idx < n) :
    ne10_fft_split_c2r_1d_float32 dZ (ne10_fft_split_r2c_1d_float32 dF Z tw n) tw n idx
      = Z idx := by
  rw [split_c2r_closed _ _ _ n hn idx hidx]
  have hF := split_r2c_closed dF Z tw n hn
  generalize ne10_fft_split_r2c_1d_float32 dF Z tw n = F at hF ⊢
  by_cases h0 : idx = 0
  · subst h0
    rw [if_pos rfl, hF 0 (by omega), hF n (le_refl n), if_pos rfl, if_neg (by omega),
      if_pos rfl]
    apply ne10_fft_cpx_float32_t.ext
    · simp only
      ring
    · simp only
      ring
  · rw [if_neg h0]
    by_cases hc : n - idx ≤ n / 2
    · rw [if_pos hc]
      by_cases hm : n - (n - idx) = n - idx
      · -- the middle pass
        have hk : n - idx = idx := by omega
        rw [hk]
        apply split_c2r_store_mid_r2c F Z tw n idx (by omega) (hmid idx (by omega) (by omega))
        rw [hF idx (by omega), if_neg h0, if_neg (by omega), if_pos hc, hk]
      · have hidx' : idx = n - (n - idx) := by omega
        conv_rhs => rw [hidx']
        apply split_c2r_store_nk_r2c F Z tw n (n - idx) (hu _ (by omega) hc)
        · rw [hF (n - idx) (by omega), if_neg (by omega), if_neg (by omega),
            if_neg (show ¬ (n - (n - idx) ≤ n / 2) by omega)]
        · rw [← hidx', hF idx (by omega), if_neg h0, if_neg (by omega), if_pos hc]
    · rw [if_neg hc]
      apply split_c2r_store_k_r2c F Z tw n idx (hu _ (by omega) (by omega))
      · rw [hF idx (by omega), if_neg h0, if_neg (by omega), if_neg hc]
      · rw [hF (n - idx) (by omega), if_neg (by omega), if_neg (by omega),
          if_pos (show n - (n - idx) ≤ n / 2 by omega)]
        congr 1
        omega

/-- The super twiddles of the plan for `ncfft = n` have modulus one, and the middle one
(for even `n`) is `-1`. -/
theorem super_twiddle_gen_unit (n : ℕ) (hn : 0 < n) (table : ℕ → ne10_fft_cpx_float32_t ℝ) :
    (∀ k, 1 ≤ k → k ≤ n / 2 →
      (super_twiddle_gen Real.pi Real.cos Real.sin (n : ℤ) table (k - 1)).r
          * (super_twiddle_gen Real.pi Real.cos Real.sin (n : ℤ) table (k - 1)).r
        + (super_twiddle_gen Real.pi Real.cos Real.sin (n : ℤ) table (k - 1)).i
          * (super_twiddle_gen Real.pi Real.cos Real.sin (n : ℤ) table (k - 1)).i = 1) ∧
    (∀ k, 1 ≤ k → n - k = k →
      super_twiddle_gen Real.pi Real.cos Real.sin (n : ℤ) table (k - 1) = ⟨-1, 0⟩) := by
  have hlen : ((n : ℤ) / 2).toNat = n / 2 := by omega
  refine ⟨?_, ?_⟩
  · intro k h1 h2
    rw [super_twiddle_gen_closed _ _ _ _ _ (k - 1) (by omega)]
    simp only
    have := Real.cos_sq_add_sin_sq
      (-Real.pi * ((((k - 1 : ℕ) : ℝ) + 1) / (((n : ℤ) : ℝ)) + 1 / 2))
    linear_combination this
  · intro k h1 h2
    rw [super_twiddle_gen_closed _ _ _ _ _ (k - 1) (by omega)]
    have hnk : n = 2 * k := by omega
    have hk0 : (k : ℝ) ≠ 0 := Nat.cast_ne_zero.mpr (by omega)
    have hhalf : (((k - 1 : ℕ) : ℝ) + 1) / (((n : ℤ) : ℝ)) = 1 / 2 := by
      rw [hnk, Nat.cast_sub h1]
      push_cast
      rw [sub_add_cancel]
      field_simp
      ring
    have hφ : -Real.pi * ((((k - 1 : ℕ) : ℝ) + 1) / (((n : ℤ) : ℝ)) + 1 / 2) = -Real.pi := by
      rw [hhalf]
      ring
    rw [hφ, Real.cos_neg, Real.sin_neg, Real.cos_pi, Real.sin_pi, neg_zero]

/-- The round trip under the plan for the real length `2 * 2 ^ k`. -/
theorem round_trip_plan (k : ℕ) (st cfg : ne10_fft_r2c_state_float32_t ℝ)
    (halloc : ne10_fft_alloc_r2c_float32 Real.pi Real.cos Real.sin (some st) (2 * 2 ^ k)
      = some cfg) (fout : ℕ → ne10_fft_cpx_float32_t ℝ) (y x : ℕ → ℝ) (t : ℕ)
    (ht : t < 2 * 2 ^ k) :
    (ne10_fft_c2r_1d_float32_c (Real.sqrt 2 / 2) y
        (ne10_fft_r2c_1d_float32_c (Real.sqrt 2 / 2) fout x cfg).1
        (ne10_fft_r2c_1d_float32_c (Real.sqrt 2 / 2) fout x cfg).2).1 t = x t := by
  obtain ⟨_, _, hcfg⟩ := alloc_eq_some _ _ _ _ _ _ halloc
  have hhalf : (2 * 2 ^ k : ℤ) / 2 = ((2 ^ k : ℕ) : ℤ) := by
    rw [Int.mul_ediv_cancel_left _ (by norm_num)]; push_cast; rfl
  rw [hhalf] at hcfg
  have hncfft : cfg.ncfft.toNat = 2 ^ k := by
    rw [hcfg]; exact Int.toNat_natCast _
  have hstw : cfg.super_twiddles
      = super_twiddle_gen Real.pi Real.cos Real.sin ((2 ^ k : ℕ) : ℤ) st.super_twiddles := by
    rw [hcfg]
  have hpos : 0 < 2 ^ k := by positivity
  obtain ⟨hu, hmid⟩ := super_twiddle_gen_unit (2 ^ k) hpos st.super_twiddles
  rw [← hstw] at hu hmid
  have hn0 : ((2 ^ k : ℕ) : ℂ) ≠ 0 := Nat.cast_ne_zero.mpr (by omega)
  simp only [ne10_fft_c2r_1d_float32_c, ne10_fft_r2c_1d_float32_c]
  rw [hncfft]
  have hj : t / 2 < 2 ^ k := by omega
  have key : ∀ (memi : Mem ℝ) (memf : Mem ℝ),
      (∀ m, memf Buf.input m = ⟨x (2 * m), x (2 * m + 1)⟩) →
      (∀ m, m < 2 ^ k → memi Buf.input m
        = ne10_mixed_radix_butterfly_float32_c (Real.sqrt 2 / 2) memf cfg.factors cfg.twiddles
            Buf.out m) →
      ne10_mixed_radix_butterfly_inverse_float32_c (Real.sqrt 2 / 2) memi cfg.factors
        cfg.twiddles Buf.out (t / 2) = ⟨x (2 * (t / 2)), x (2 * (t / 2) + 1)⟩ := by
    intro memi memf hin hmid'
    apply toC_injective
    rw [butterfly_inverse_plan k st cfg halloc memi (t / 2) hj]
    rw [gdft_congr _ _ _
      (gdft (Complex.exp (-2 * (Real.pi : ℂ) * Complex.I / ((2 ^ k : ℕ) : ℂ))) (2 ^ k)
        (fun m => toC (memf Buf.input m)))
      (fun m hm => by
        rw [hmid' m hm]
        exact butterfly_forward_plan k st cfg halloc memf m hm)]
    rw [gdft_inverse _ _ _ (exp_root_primitive (2 ^ k) hpos)
      (by rw [exp_inv_root_conj]; exact exp_root_conj_mul (2 ^ k)) _ _ hj, hin]
    field_simp
  have hz : ∀ memi : Mem ℝ,
      (∀ m, m < 2 ^ k → memi Buf.input m
        = ne10_mixed_radix_butterfly_float32_c (Real.sqrt 2 / 2)
            (fun b =>
              match b with
              | Buf.input => fun j => ⟨x (2 * j), x (2 * j + 1)⟩
              | Buf.out => cfg.buffer
              | Buf.buffer => fout) cfg.factors cfg.twiddles Buf.out m) →
      ne10_mixed_radix_butterfly_inverse_float32_c (Real.sqrt 2 / 2) memi cfg.factors
        cfg.twiddles Buf.out (t / 2) = ⟨x (2 * (t / 2)), x (2 * (t / 2) + 1)⟩ :=
    fun memi h => key memi _ (fun m => rfl) h
  by_cases hpar : t % 2 = 0
  · rw [if_pos hpar]
    refine Eq.trans (congrArg ne10_fft_cpx_float32_t.r (hz _ ?_)) ?_
    · intro m hm
      exact split_c2r_r2c _ _ _ _ (2 ^ k) hpos hu hmid m hm
    · show x (2 * (t / 2)) = x t
      congr 1
      omega
  · rw [if_neg hpar]
    refine Eq.trans (congrArg ne10_fft_cpx_float32_t.i (hz _ ?_)) ?_
    · intro m hm
      exact split_c2r_r2c _ _ _ _ (2 ^ k) hpos hu hmid m hm
    · show x (2 * (t / 2) + 1) = x t
      congr 1
      omega

/-! ## The round trip -/

/-- C1 as amended (round trip), for the lengths the butterflies and the allocator's block
support: for every power of two `N = 2 ^ (k + 1)` with `2 <= N <= 2 ^ 28`, under the plan
that the allocator builds for `N` (arithmetic over the reals, `TW_81` read as `√2/2`), the
scratch buffer of `N` complex entries lies inside the block that the allocator requested,
and `ne10_fft_c2r_1d_float32_c` applied to the output of `ne10_fft_r2c_1d_float32_c` on
`x`, with the plan as the forward call leaves it, returns `x[t]` at every `t < N`, whatever
the output arrays and the scratch buffer held before. -/
theorem ne10_fft_round_trip (k : ℕ) (hk : k ≤ 27) (st cfg : ne10_fft_r2c_state_float32_t ℝ)
    (halloc : ne10_fft_alloc_r2c_float32 Real.pi Real.cos Real.sin (some st) (2 ^ (k + 1))
      = some cfg) (fout : ℕ → ne10_fft_cpx_float32_t ℝ) (y x : ℕ → ℝ) (t : ℕ)
    (ht : t < 2 ^ (k + 1)) :
    buffer_in_block cfg NE10_FFT_BYTE_ALIGNMENT (2 ^ (k + 1)) ∧
    (ne10_fft_c2r_1d_float32_c (Real.sqrt 2 / 2) y
        (ne10_fft_r2c_1d_float32_c (Real.sqrt 2 / 2) fout x cfg).1
        (ne10_fft_r2c_1d_float32_c (Real.sqrt 2 / 2) fout x cfg).2).1 t = x t := by
  refine ⟨alloc_pow2_block_succ Real.pi Real.cos Real.sin k hk (some st) cfg halloc, ?_⟩
  have e : (2 : ℤ) ^ (k + 1) = 2 * 2 ^ k := by rw [pow_succ]; ring
  have e' : 2 ^ (k + 1) = 2 * 2 ^ k := by rw [pow_succ]; ring
  rw [e] at halloc
  rw [e'] at ht
  exact round_trip_plan k st cfg halloc fout y x t ht

/-- Witness for C1: the plan for `N = 2 ^ 3 = 8`, the input `x[t] = t`, sample 5. -/
theorem ne10_fft_round_trip_witness :
    ∃ cfg : ne10_fft_r2c_state_float32_t ℝ,
      ne10_fft_alloc_r2c_float32 Real.pi Real.cos Real.sin (some (zero_block ℝ)) (2 ^ (2 + 1))
        = some cfg ∧
      5 < 2 ^ (2 + 1) ∧
      (ne10_fft_c2r_1d_float32_c (Real.sqrt 2 / 2) (fun _ => 0)
          (ne10_fft_r2c_1d_float32_c (Real.sqrt 2 / 2) (fun _ => ⟨0, 0⟩)
            (fun t => (t : ℝ)) cfg).1
          (ne10_fft_r2c_1d_float32_c (Real.sqrt 2 / 2) (fun _ => ⟨0, 0⟩)
            (fun t => (t : ℝ)) cfg).2).1 5 = ((5 : ℕ) : ℝ) :=
  Exists.elim (alloc_pow2_some (zero_block ℝ) 2 (by norm_num)) (fun cfg h =>
    ⟨cfg, h, by norm_num, (ne10_fft_round_trip 2 (by norm_num) (zero_block ℝ) cfg h
      (fun _ => ⟨0, 0⟩) (fun _ => 0) (fun t => (t : ℝ)) 5 (by norm_num)).2⟩)

/-- With a first radix other than 8, 4 and 2 the inverse butterfly copies `in[0]` to
`out[0]` and does nothing else. -/
theorem butterfly_inverse_other_radix {R : Type} [Field R] (TW_81 : R) (mem : Mem R)
    (factors : Nat → Int) (twiddles : Nat → ne10_fft_cpx_float32_t R)
    (h8 : factors (2 * factors 0).toNat ≠ 8) (h4 : factors (2 * factors 0).toNat ≠ 4)
    (h2 : factors (2 * factors 0).toNat ≠ 2) :
    ne10_mixed_radix_butterfly_inverse_float32_c TW_81 mem factors twiddles
      = mem.write Buf.out 0 (mem Buf.input 0) := by
  simp only [ne10_mixed_radix_butterfly_inverse_float32_c]
  rw [if_neg h8, if_neg h4, if_neg h2]

/-- C1, counterexample: the even length 6 gets a plan, and the round trip of the constant
input `[1, ..., 1]` under it, into an output array holding zeros, returns `0` at index 2,
not `1`; and the power of two `2 ^ 29` gets a plan whose byte count 7516193072 wraps to a
block of 3221225776 bytes, in which the `N / 2` complex entries that both transforms store
in the scratch buffer do not lie. -/
theorem ne10_fft_round_trip_counterexample :
    (∃ cfg : ne10_fft_r2c_state_float32_t ℝ,
      ne10_fft_alloc_r2c_float32 Real.pi Real.cos Real.sin (some (zero_block ℝ)) 6 = some cfg ∧
      (ne10_fft_c2r_1d_float32_c (Real.sqrt 2 / 2) (fun _ => 0)
          (ne10_fft_r2c_1d_float32_c (Real.sqrt 2 / 2) (fun _ => ⟨0, 0⟩) (fun _ => 1) cfg).1
          (ne10_fft_r2c_1d_float32_c (Real.sqrt 2 / 2) (fun _ => ⟨0, 0⟩) (fun _ => 1) cfg).2).1 2
        ≠ 1) ∧
    (∃ cfg : ne10_fft_r2c_state_float32_t ℝ,
      ne10_fft_alloc_r2c_float32 Real.pi Real.cos Real.sin (some (zero_block ℝ)) (2 ^ (28 + 1))
        = some cfg ∧
      cfg.ncfft = 2 ^ 28 ∧ ne10_fft_r2c_bytes (2 ^ (28 + 1)) = 7516193072 ∧
      cfg.memneeded = 3221225776 ∧ ¬ buffer_in_block cfg 0 (2 ^ 28)) := by
  refine ⟨?_, alloc_pow2_wrap (zero_block ℝ)⟩
  obtain ⟨cfg, h, hn, hbuf, e0, e1, e2⟩ := alloc_six
  refine ⟨cfg, h, ?_⟩
  have hr : cfg.factors (2 * cfg.factors 0).toNat = 3 := by rw [e0]; exact e2
  simp only [ne10_fft_c2r_1d_float32_c, ne10_fft_r2c_1d_float32_c]
  rw [butterfly_inverse_other_radix _ _ _ _ (by rw [hr]; decide) (by rw [hr]; decide)
    (by rw [hr]; decide)]
  simp [Mem.write_apply]

/-! ## The radix set and the algorithm flag -/

/-- The radix that a pass chooses and the flag it leaves: a radix from the list with the
flag untouched or raised, or the remaining length itself with the flag raised. -/
theorem ne10_factor_radix_kind (n flags a : Int) (hn : 0 < n) :
    (((ne10_factor_radix n flags a).1 = 8 ∨ (ne10_factor_radix n flags a).1 = 4 ∨
        (ne10_factor_radix n flags a).1 = 2) ∧ (ne10_factor_radix n flags a).2 = a) ∨
    (((ne10_factor_radix n flags a).1 = 5 ∨ (ne10_factor_radix n flags a).1 = 3) ∧
      (ne10_factor_radix n flags a).2 = NE10_FFT_ALG_ANY) ∨
    ((ne10_factor_radix n flags a).1 = n ∧ n % 2 = 1 ∧ n % 3 ≠ 0 ∧ n % 5 ≠ 0 ∧
      (ne10_factor_radix n flags a).2 = NE10_FFT_ALG_ANY) := by
  unfold ne10_factor_radix
  split_ifs <;> simp
  omega

theorem RadixInv_step (flags : Int) (t : FactorState)
    (hi : t.i = t.stage_num + 1) (hn : 0 < t.n)
    (hset : ∀ j, j < t.stage_num →
      (t.facbuf (2 * (j + 1)) = 8 ∨ t.facbuf (2 * (j + 1)) = 4 ∨ t.facbuf (2 * (j + 1)) = 2 ∨
        t.facbuf (2 * (j + 1)) = 5 ∨ t.facbuf (2 * (j + 1)) = 3))
    (hfl : t.alg_flag = NE10_FFT_ALG_ANY ∨ t.alg_flag = NE10_FFT_ALG_DEFAULT)
    (hiff : t.alg_flag = NE10_FFT_ALG_ANY ↔
      ∃ j, j < t.stage_num ∧
        ¬ (t.facbuf (2 * (j + 1)) = 2 ∨ t.facbuf (2 * (j + 1)) = 4 ∨
          t.facbuf (2 * (j + 1)) = 8)) :
    RadixInv (ne10_factor_step flags t) := by
  have hpos := ne10_factor_step_pos flags t hn
  have hold : ∀ j, j < t.stage_num →
      (ne10_factor_step flags t).facbuf (2 * (j + 1)) = t.facbuf (2 * (j + 1)) := by
    intro j hj
    exact ne10_factor_step_facbuf_lt flags t _ (by omega)
  have hnew : (ne10_factor_step flags t).facbuf (2 * (t.stage_num + 1))
      = (ne10_factor_radix t.n flags t.alg_flag).1 := by
    rw [← hi]
    exact ne10_factor_step_facbuf_radix flags t
  have hst : (ne10_factor_step flags t).stage_num = t.stage_num + 1 := rfl
  have hal : (ne10_factor_step flags t).alg_flag = (ne10_factor_radix t.n flags t.alg_flag).2 :=
    rfl
  have hnn : (ne10_factor_step flags t).n = t.n / (ne10_factor_radix t.n flags t.alg_flag).1 :=
    rfl
  have hany : NE10_FFT_ALG_ANY ≠ NE10_FFT_ALG_DEFAULT := by decide
  refine ⟨by show t.i + 1 = t.stage_num + 1 + 1; omega, hpos, ?_, ?_, ?_⟩
  · intro j hj
    rw [hst] at hj
    by_cases hjt : j < t.stage_num
    · left
      rw [hold j hjt]
      exact hset j hjt
    · have hje : j = t.stage_num := by omega
      subst hje
      rw [hnew]
      rcases ne10_factor_radix_kind t.n flags t.alg_flag hn with h | h | h
      · rcases h.1 with h1 | h1 | h1 <;> rw [h1] <;> simp
      · rcases h.1 with h1 | h1 <;> rw [h1] <;> simp
      · right
        refine ⟨by rw [hst], ?_, by rw [h.1]; exact hn, by rw [h.1]; exact h.2.1,
          by rw [h.1]; exact h.2.2.1, by rw [h.1]; exact h.2.2.2.1⟩
        rw [hnn, h.1]
        exact Int.ediv_self (by omega)
  · rw [hal]
    rcases ne10_factor_radix_kind t.n flags t.alg_flag hn with h | h | h
    · rw [h.2]; exact hfl
    · left; exact h.2
    · left; exact h.2.2.2.2
  · rw [hal, hst]
    rcases ne10_factor_radix_kind t.n flags t.alg_flag hn with h | h | h
    · rw [h.2, hiff]
      constructor
      · rintro ⟨j, hj, hjn⟩
        exact ⟨j, by omega, by rw [hold j hj]; exact hjn⟩
      · rintro ⟨j, hj, hjn⟩
        by_cases hjt : j < t.stage_num
        · exact ⟨j, hjt, by rw [← hold j hjt]; exact hjn⟩
        · have hje : j = t.stage_num := by omega
          subst hje
          rw [hnew] at hjn
          exact absurd (by rcases h.1 with h1 | h1 | h1 <;> rw [h1] <;> simp) hjn
    · rw [h.2]
      refine ⟨fun _ => ⟨t.stage_num, by omega, ?_⟩, fun _ => rfl⟩
      rw [hnew]
      rcases h.1 with h1 | h1 <;> rw [h1] <;> decide
    · rw [h.2.2.2.2]
      refine ⟨fun _ => ⟨t.stage_num, by omega, ?_⟩, fun _ => rfl⟩
      rw [hnew, h.1]
      omega

/-- The loop leaves `RadixInv` true of its final state. -/
theorem ne10_factor_loop_radix (n : Int) (buf : Nat → Int) (flags : Int) (hn : 0 < n) :
    RadixInv (ne10_factor_loop flags (ne10_factor_init n buf)) := by
  have hany : NE10_FFT_ALG_ANY ≠ NE10_FFT_ALG_DEFAULT := by decide
  refine (ne10_factor_loop_rule flags RadixInv ?_ (ne10_factor_init n buf) ?_).1
  · intro t ht h1
    obtain ⟨hi, hpos, hset, hfl, hiff⟩ := ht
    refine RadixInv_step flags t hi hpos ?_ hfl hiff
    intro j hj
    rcases hset j hj with h | h
    · exact h
    · omega
  · refine RadixInv_step flags (ne10_factor_init n buf) rfl hn ?_ (Or.inr rfl) ?_
    · intro j hj
      exact absurd hj (Nat.not_lt_zero _)
    · constructor
      · intro h
        exact absurd h.symm hany
      · rintro ⟨j, hj, _⟩
        exact absurd hj (Nat.not_lt_zero _)

/-- The returned buffer in terms of the loop's final state, for a successful call. -/
theorem ne10_factor_ok_entries (n : Int) (buf fb : Nat → Int) (flags : Int)
    (hok : ne10_factor n (some buf) flags = (NE10_OK, some fb)) :
    0 < n ∧
    (fb 0).toNat = (ne10_factor_loop flags (ne10_factor_init n buf)).stage_num ∧
    fb 1 = n / (ne10_factor_loop flags (ne10_factor_init n buf)).p ∧
    (∀ k, 2 ≤ k → k ≤ 2 * (fb 0).toNat + 1 →
      fb k = (ne10_factor_loop flags (ne10_factor_init n buf)).facbuf k) ∧
    fb (2 * (fb 0).toNat + 2) = (ne10_factor_loop flags (ne10_factor_init n buf)).alg_flag := by
  obtain ⟨hn, hS, hfb⟩ := ne10_factor_ok_inv n buf fb flags hok
  obtain ⟨e0, e1, ek, ef⟩ := ne10_factor_body_entries n buf flags hn hS
  rw [← hfb] at e0 e1 ek ef
  have h0 : (fb 0).toNat = (ne10_factor_loop flags (ne10_factor_init n buf)).stage_num := by
    rw [e0]; exact Int.toNat_natCast _
  rw [h0]
  exact ⟨hn, rfl, e1, ek, ef⟩

/-- C12 (radix set), with the residual as the code leaves it: when `ne10_factor` returns
`NE10_OK`, every recorded radix `facbuf[2 (j + 1)]`, `j < stage_count`, is one of 8, 4, 2,
5, 3, or else it is the last recorded radix and is positive, odd and divisible by neither
3 nor 5 (the whole remaining length, prime or not). -/
theorem ne10_factor_radix_set (n : Int) (buf fb : Nat → Int) (flags : Int)
    (hok : ne10_factor n (some buf) flags = (NE10_OK, some fb)) :
    ∀ j, j < (fb 0).toNat →
      (fb (2 * (j + 1)) = 8 ∨ fb (2 * (j + 1)) = 4 ∨ fb (2 * (j + 1)) = 2 ∨
        fb (2 * (j + 1)) = 5 ∨ fb (2 * (j + 1)) = 3) ∨
      (j + 1 = (fb 0).toNat ∧ 0 < fb (2 * (j + 1)) ∧ fb (2 * (j + 1)) % 2 = 1 ∧
        fb (2 * (j + 1)) % 3 ≠ 0 ∧ fb (2 * (j + 1)) % 5 ≠ 0) := by
  obtain ⟨hn, h0, _, ek, _⟩ := ne10_factor_ok_entries n buf fb flags hok
  obtain ⟨_, _, hset, _, _⟩ := ne10_factor_loop_radix n buf flags hn
  intro j hj
  rw [ek _ (by omega) (by omega), h0]
  rw [h0] at hj
  rcases hset j hj with h | h
  · exact Or.inl h
  · exact Or.inr ⟨h.1, h.2.2⟩

/-- Witness for C12: the length 45 records the radices 5, 3, 3. -/
theorem ne10_factor_radix_set_witness :
    ne10_factor 45 (some (fun _ => 0)) NE10_FACTOR_DEFAULT
      = (NE10_OK, some (ne10_factor_body 45 (fun _ => 0) NE10_FACTOR_DEFAULT).2) ∧
    ∀ j, j < ((ne10_factor_body 45 (fun _ => 0) NE10_FACTOR_DEFAULT).2 0).toNat →
      ((ne10_factor_body 45 (fun _ => 0) NE10_FACTOR_DEFAULT).2 (2 * (j + 1)) = 8 ∨
        (ne10_factor_body 45 (fun _ => 0) NE10_FACTOR_DEFAULT).2 (2 * (j + 1)) = 4 ∨
        (ne10_factor_body 45 (fun _ => 0) NE10_FACTOR_DEFAULT).2 (2 * (j + 1)) = 2 ∨
        (ne10_factor_body 45 (fun _ => 0) NE10_FACTOR_DEFAULT).2 (2 * (j + 1)) = 5 ∨
        (ne10_factor_body 45 (fun _ => 0) NE10_FACTOR_DEFAULT).2 (2 * (j + 1)) = 3) ∨
      (j + 1 = ((ne10_factor_body 45 (fun _ => 0) NE10_FACTOR_DEFAULT).2 0).toNat ∧
        0 < (ne10_factor_body 45 (fun _ => 0) NE10_FACTOR_DEFAULT).2 (2 * (j + 1)) ∧
        (ne10_factor_body 45 (fun _ => 0) NE10_FACTOR_DEFAULT).2 (2 * (j + 1)) % 2 = 1 ∧
        (ne10_factor_body 45 (fun _ => 0) NE10_FACTOR_DEFAULT).2 (2 * (j + 1)) % 3 ≠ 0 ∧
        (ne10_factor_body 45 (fun _ => 0) NE10_FACTOR_DEFAULT).2 (2 * (j + 1)) % 5 ≠ 0) :=
  have h : ne10_factor 45 (some (fun _ => 0)) NE10_FACTOR_DEFAULT
      = (NE10_OK, some (ne10_factor_body 45 (fun _ => 0) NE10_FACTOR_DEFAULT).2) := by
    rw [ne10_factor_some 45 _ _ (by decide), ne10_factor_body_fst,
      if_neg (by
        have := ne10_factor_loop_stage_le 45 (fun _ => 0) NE10_FACTOR_DEFAULT (by decide)
          (by norm_num)
        omega)]
  ⟨h, ne10_factor_radix_set 45 (fun _ => 0) _ NE10_FACTOR_DEFAULT h⟩

/-- C12, counterexample: the length 49 is factored into the single radix 49, which is
neither in the list nor a prime. -/
theorem ne10_factor_radix_set_counterexample :
    (ne10_factor 49 (some (fun _ => 0)) NE10_FACTOR_DEFAULT).1 = NE10_OK ∧
    (ne10_factor_body 49 (fun _ => 0) NE10_FACTOR_DEFAULT).2 0 = 1 ∧
    (ne10_factor_body 49 (fun _ => 0) NE10_FACTOR_DEFAULT).2 2 = 49 ∧
    ¬ Nat.Prime 49 := by
  refine ⟨?_, ?_, ?_, by norm_num⟩
  · rw [ne10_factor_some 49 _ _ (by decide), ne10_factor_body_fst,
      if_neg (by
        have := ne10_factor_loop_stage_le 49 (fun _ => 0) NE10_FACTOR_DEFAULT (by decide)
          (by norm_num)
        omega)]
  · simp [ne10_factor_body, ne10_factor_loop, ne10_factor_init, ne10_factor_step,
      ne10_factor_radix, NE10_FACTOR_DEFAULT, NE10_FACTOR_EIGHT_FIRST_STAGE, NE10_FACTOR_EIGHT,
      Function.update]
  · simp [ne10_factor_body, ne10_factor_loop, ne10_factor_init, ne10_factor_step,
      ne10_factor_radix, NE10_FACTOR_DEFAULT, NE10_FACTOR_EIGHT_FIRST_STAGE, NE10_FACTOR_EIGHT,
      Function.update]

/-- C13 (algorithm flag): when `ne10_factor` returns `NE10_OK`, the entry
`facbuf[2 * stage_count + 2]` is `NE10_FFT_ALG_ANY` if and only if some recorded radix is
not in `{2, 4, 8}`, and it is `NE10_FFT_ALG_DEFAULT` otherwise. -/
theorem ne10_factor_alg_flag (n : Int) (buf fb : Nat → Int) (flags : Int)
    (hok : ne10_factor n (some buf) flags = (NE10_OK, some fb)) :
    (fb (2 * (fb 0).toNat + 2) = NE10_FFT_ALG_ANY ↔
      ∃ j, j < (fb 0).toNat ∧
        ¬ (fb (2 * (j + 1)) = 2 ∨ fb (2 * (j + 1)) = 4 ∨ fb (2 * (j + 1)) = 8)) ∧
    ((¬ ∃ j, j < (fb 0).toNat ∧
        ¬ (fb (2 * (j + 1)) = 2 ∨ fb (2 * (j + 1)) = 4 ∨ fb (2 * (j + 1)) = 8)) →
      fb (2 * (fb 0).toNat + 2) = NE10_FFT_ALG_DEFAULT) := by
  obtain ⟨hn, h0, _, ek, ef⟩ := ne10_factor_ok_entries n buf fb flags hok
  obtain ⟨_, _, _, hfl, hiff⟩ := ne10_factor_loop_radix n buf flags hn
  have hex : (∃ j, j < (fb 0).toNat ∧
        ¬ (fb (2 * (j + 1)) = 2 ∨ fb (2 * (j + 1)) = 4 ∨ fb (2 * (j + 1)) = 8)) ↔
      ∃ j, j < (ne10_factor_loop flags (ne10_factor_init n buf)).stage_num ∧
        ¬ ((ne10_factor_loop flags (ne10_factor_init n buf)).facbuf (2 * (j + 1)) = 2 ∨
          (ne10_factor_loop flags (ne10_factor_init n buf)).facbuf (2 * (j + 1)) = 4 ∨
          (ne10_factor_loop flags (ne10_factor_init n buf)).facbuf (2 * (j + 1)) = 8) := by
    constructor
    · rintro ⟨j, hj, h⟩
      rw [ek _ (by omega) (by omega)] at h
      exact ⟨j, by omega, h⟩
    · rintro ⟨j, hj, h⟩
      exact ⟨j, by omega, by rw [ek _ (by omega) (by omega)]; exact h⟩
  rw [ef, hex]
  refine ⟨hiff, fun hno => ?_⟩
  rcases hfl with h | h
  · exact absurd (hiff.mp h) hno
  · exact h

/-- Witness for C13: the length 12 (radices 4 and 3) gets the flag `NE10_FFT_ALG_ANY`. -/
theorem ne10_factor_alg_flag_witness :
    ne10_factor 12 (some (fun _ => 0)) NE10_FACTOR_DEFAULT
      = (NE10_OK, some (ne10_factor_body 12 (fun _ => 0) NE10_FACTOR_DEFAULT).2) ∧
    ((ne10_factor_body 12 (fun _ => 0) NE10_FACTOR_DEFAULT).2
        (2 * ((ne10_factor_body 12 (fun _ => 0) NE10_FACTOR_DEFAULT).2 0).toNat + 2)
      = NE10_FFT_ALG_ANY ↔
      ∃ j, j < ((ne10_factor_body 12 (fun _ => 0) NE10_FACTOR_DEFAULT).2 0).toNat ∧
        ¬ ((ne10_factor_body 12 (fun _ => 0) NE10_FACTOR_DEFAULT).2 (2 * (j + 1)) = 2 ∨
          (ne10_factor_body 12 (fun _ => 0) NE10_FACTOR_DEFAULT).2 (2 * (j + 1)) = 4 ∨
          (ne10_factor_body 12 (fun _ => 0) NE10_FACTOR_DEFAULT).2 (2 * (j + 1)) = 8)) :=
  have h : ne10_factor 12 (some (fun _ => 0)) NE10_FACTOR_DEFAULT
      = (NE10_OK, some (ne10_factor_body 12 (fun _ => 0) NE10_FACTOR_DEFAULT).2) := by
    rw [ne10_factor_some 12 _ _ (by decide), ne10_factor_body_fst,
      if_neg (by
        have := ne10_factor_loop_stage_le 12 (fun _ => 0) NE10_FACTOR_DEFAULT (by decide)
          (by norm_num)
        omega)]
  ⟨h, (ne10_factor_alg_flag 12 (fun _ => 0) _ NE10_FACTOR_DEFAULT h).1⟩

/-- C14 (first-stage stride): when `ne10_factor` returns `NE10_OK`, `facbuf[1]` is `n`
divided by the last recorded radix `facbuf[2 * stage_count]`, that radix divides `n`, and
`facbuf[1] * facbuf[2 * stage_count] = n`; so the product `fstride * first_radix` from
which the inverse butterfly computes `one_by_nfft` is `n`. -/
theorem ne10_factor_first_stride (n : Int) (buf fb : Nat → Int) (flags : Int)
    (hok : ne10_factor n (some buf) flags = (NE10_OK, some fb)) :
    fb 1 = n / fb (2 * (fb 0).toNat) ∧ fb (2 * (fb 0).toNat) ∣ n ∧
    fb 1 * fb (2 * (fb 0).toNat) = n ∧
    (((fb 1).toNat : Int) * fb (2 * fb 0).toNat : Int) = n ∧
    (1 / ((((fb 1).toNat : Int) * fb (2 * fb 0).toNat : Int) : ℝ) = 1 / (n : ℝ)) := by
  obtain ⟨hn, h0, e1, ek, _⟩ := ne10_factor_ok_entries n buf fb flags hok
  obtain ⟨hinv, hn1⟩ := ne10_factor_loop_inv n buf flags hn
  obtain ⟨_, _, h1, hprod, _, _, hp⟩ := hinv
  obtain ⟨_, _, hset, _, _⟩ := ne10_factor_loop_radix n buf flags hn
  generalize ne10_factor_loop flags (ne10_factor_init n buf) = s at h0 e1 ek hn1 h1 hprod hp hset
  have hlast : fb (2 * (fb 0).toNat) = s.p := by
    rw [ek _ (by omega) (by omega), h0, hp]
  have hs : s.stage_num = (s.stage_num - 1) + 1 := by omega
  have hpe : s.p = s.facbuf (2 * (s.stage_num - 1 + 1)) := by
    rw [hp, ← hs]
  have hdvd : s.p ∣ n := by
    rw [hn1, mul_one, hs, Finset.prod_range_succ, ← hpe] at hprod
    exact Dvd.intro_left _ hprod
  have hmul : fb 1 * fb (2 * (fb 0).toNat) = n := by
    rw [hlast, e1]
    exact Int.ediv_mul_cancel hdvd
  have hp0 : 0 < s.p := by
    rw [hpe]
    rcases hset (s.stage_num - 1) (by omega) with h | h
    · omega
    · exact h.2.2.1
  have hnonneg : 0 ≤ fb 1 := by
    rw [e1]
    exact Int.ediv_nonneg (by omega) (by omega)
  have hidx : (2 * fb 0).toNat = 2 * (fb 0).toNat := by omega
  have hprod' : (((fb 1).toNat : Int) * fb (2 * fb 0).toNat : Int) = n := by
    rw [hidx, Int.toNat_of_nonneg hnonneg]
    exact hmul
  refine ⟨by rw [hlast]; exact e1, by rw [hlast]; exact hdvd, hmul, hprod', ?_⟩
  rw [hprod']

/-- Witness for C14: the length 24 with the radix-8-first-stage flag. -/
theorem ne10_factor_first_stride_witness :
    ne10_factor 24 (some (fun _ => 0)) NE10_FACTOR_EIGHT_FIRST_STAGE
      = (NE10_OK, some (ne10_factor_body 24 (fun _ => 0) NE10_FACTOR_EIGHT_FIRST_STAGE).2) ∧
    (ne10_factor_body 24 (fun _ => 0) NE10_FACTOR_EIGHT_FIRST_STAGE).2 1
      * (ne10_factor_body 24 (fun _ => 0) NE10_FACTOR_EIGHT_FIRST_STAGE).2
          (2 * ((ne10_factor_body 24 (fun _ => 0) NE10_FACTOR_EIGHT_FIRST_STAGE).2 0).toNat)
      = 24 :=
  have h : ne10_factor 24 (some (fun _ => 0)) NE10_FACTOR_EIGHT_FIRST_STAGE
      = (NE10_OK, some (ne10_factor_body 24 (fun _ => 0) NE10_FACTOR_EIGHT_FIRST_STAGE).2) := by
    rw [ne10_factor_some 24 _ _ (by decide), ne10_factor_body_fst,
      if_neg (by
        have := ne10_factor_loop_stage_le 24 (fun _ => 0) NE10_FACTOR_EIGHT_FIRST_STAGE
          (by decide) (by norm_num)
        omega)]
  ⟨h, (ne10_factor_first_stride 24 (fun _ => 0) _ NE10_FACTOR_EIGHT_FIRST_STAGE h).2.2.1⟩

/-! ## The documented example: lengths `4 ^ m` -/

/-- A power of 4 is none of the lengths 8, 24, 40 that the radix-8-first-stage flag
treats specially. -/
theorem four_pow_not_special (m : ℕ) :
    (4 : Int) ^ (m + 1) ≠ 8 ∧ (4 : Int) ^ (m + 1) ≠ 40 ∧ (4 : Int) ^ (m + 1) ≠ 24 := by
  cases m with
  | zero => decide
  | succ k =>
    have h : (4 : Int) ^ (k + 1 + 1) = 16 * 4 ^ k := by rw [pow_succ, pow_succ]; ring
    rw [h]
    refine ⟨?_, ?_, ?_⟩ <;> omega

/-- On a power of 4 a pass chooses the radix 4 and leaves the flag alone, when the flags
do not ask for radix 8 throughout. -/
theorem ne10_factor_radix_four_pow (flags a : Int)
    (hf : Int.land flags NE10_FACTOR_EIGHT = 0) (m : ℕ) :
    ne10_factor_radix (4 ^ (m + 1)) flags a = (4, a) := by
  obtain ⟨h8, h40, h24⟩ := four_pow_not_special m
  have h4 : (4 : Int) ^ (m + 1) % 4 = 0 := by
    rw [pow_succ]; exact Int.mul_emod_left _ _
  unfold ne10_factor_radix
  rw [if_neg, if_neg, if_pos h4]
  · rintro ⟨h, _⟩
    exact h hf
  · rintro ⟨_, h | h | h⟩
    · exact h8 h
    · exact h40 h
    · exact h24 h

/-- The factor loop on `4 ^ (m + 1)`: `m + 1` passes, each stripping a 4. -/
theorem ne10_factor_loop_four_pow (flags : Int) (hf : Int.land flags NE10_FACTOR_EIGHT = 0)
    (m : ℕ) :
    ∀ s : FactorState, s.n = 4 ^ (m + 1) →
      (ne10_factor_loop flags s).stage_num = s.stage_num + m + 1 ∧
      (ne10_factor_loop flags s).i = s.i + m + 1 ∧
      (ne10_factor_loop flags s).p = 4 ∧
      (ne10_factor_loop flags s).alg_flag = s.alg_flag ∧
      (∀ k, k < 2 * s.i → (ne10_factor_loop flags s).facbuf k = s.facbuf k) ∧
      (∀ u, u ≤ m →
        (ne10_factor_loop flags s).facbuf (2 * (s.i + u)) = 4 ∧
        (ne10_factor_loop flags s).facbuf (2 * (s.i + u) + 1) = 4 ^ (m - u)) := by
  induction m with
  | zero =>
    intro s hs
    have hrad : ne10_factor_radix s.n flags s.alg_flag = (4, s.alg_flag) := by
      rw [hs]; exact ne10_factor_radix_four_pow flags _ hf 0
    have hn1 : (ne10_factor_step flags s).n = 1 := by
      show s.n / (ne10_factor_radix s.n flags s.alg_flag).1 = 1
      rw [hrad, hs]
      show (4 : Int) ^ (0 + 1) / 4 = 1
      norm_num
    rw [ne10_factor_loop, if_neg (by rw [hn1]; decide)]
    have hR := ne10_factor_step_facbuf_radix flags s
    have hS := ne10_factor_step_facbuf_size flags s
    rw [hrad] at hR hS
    refine ⟨rfl, rfl, ?_, ?_, ?_, ?_⟩
    · show (ne10_factor_radix s.n flags s.alg_flag).1 = 4
      rw [hrad]
    · show (ne10_factor_radix s.n flags s.alg_flag).2 = s.alg_flag
      rw [hrad]
    · intro k hk
      exact ne10_factor_step_facbuf_lt _ s k hk
    · intro u hu
      have hu0 : u = 0 := by omega
      subst hu0
      refine ⟨hR, ?_⟩
      show (ne10_factor_step flags s).facbuf (2 * s.i + 1) = 4 ^ (0 - 0)
      rw [hS, hs]
      show (4 : Int) ^ (0 + 1) / 4 = 4 ^ (0 - 0)
      norm_num
  | succ m ih =>
    intro s hs
    have hpos : (0 : Int) < 4 ^ (m + 1) := by positivity
    have hrad : ne10_factor_radix s.n flags s.alg_flag = (4, s.alg_flag) := by
      rw [hs]; exact ne10_factor_radix_four_pow flags _ hf (m + 1)
    have hdiv : s.n / 4 = 4 ^ (m + 1) := by
      rw [hs, pow_succ]
      exact Int.mul_ediv_cancel _ (by decide)
    have hn' : (ne10_factor_step flags s).n = 4 ^ (m + 1) := by
      show s.n / (ne10_factor_radix s.n flags s.alg_flag).1 = _
      rw [hrad]
      exact hdiv
    have h16 : (4 : Int) ^ (m + 1) = 4 * 4 ^ m := by rw [pow_succ]; ring
    have hpos' : (0 : Int) < 4 ^ m := by positivity
    rw [ne10_factor_loop, if_pos (by rw [hn']; omega)]
    obtain ⟨i1, i2, i3, i4, i5, i6⟩ := ih (ne10_factor_step flags s) hn'
    have hR := ne10_factor_step_facbuf_radix flags s
    have hS := ne10_factor_step_facbuf_size flags s
    rw [hrad] at hR hS
    have hi : (ne10_factor_step flags s).i = s.i + 1 := rfl
    have hst : (ne10_factor_step flags s).stage_num = s.stage_num + 1 := rfl
    have hal : (ne10_factor_step flags s).alg_flag = s.alg_flag := by
      show (ne10_factor_radix s.n flags s.alg_flag).2 = s.alg_flag
      rw [hrad]
    rw [hi] at i2 i5 i6
    rw [hst] at i1
    rw [hal] at i4
    refine ⟨by rw [i1]; ring, by rw [i2]; ring, i3, i4, ?_, ?_⟩
    · intro k hk
      rw [i5 k (by omega)]
      exact ne10_factor_step_facbuf_lt _ s k hk
    · intro u hu
      by_cases hu0 : u = 0
      · subst hu0
        rw [Nat.add_zero, i5 _ (by omega), i5 _ (by omega), hR, hS]
        exact ⟨rfl, hdiv⟩
      · obtain ⟨j1, j2⟩ := i6 (u - 1) (by omega)
        have e : s.i + 1 + (u - 1) = s.i + u := by omega
        rw [e] at j1 j2
        refine ⟨j1, ?_⟩
        rw [j2]
        congr 1
        omega

/-- C15 (documented example generalised): for `n = 4 ^ m`, `1 <= m <= 21` (every power of
4 in the `int32` range has `m <= 15`), `ne10_factor` with the flags `NE10_FACTOR_DEFAULT` or
`NE10_FACTOR_EIGHT_FIRST_STAGE` returns `NE10_OK` and leaves the stage count `m`, the
first-stage stride `n / 4 = 4 ^ (m - 1)`, the `m` pairs `(4, 4 ^ (m - 1)), ..., (4, 1)`,
and the flag `NE10_FFT_ALG_DEFAULT` after them. -/
theorem ne10_factor_four_pow (m : ℕ) (hm : 1 ≤ m) (hm21 : m ≤ 21)
    (buf : Nat → Int) (flags : Int)
    (hflags : flags = NE10_FACTOR_DEFAULT ∨ flags = NE10_FACTOR_EIGHT_FIRST_STAGE) :
    (ne10_factor (4 ^ m) (some buf) flags).1 = NE10_OK ∧
    ∃ fb, (ne10_factor (4 ^ m) (some buf) flags).2 = some fb ∧
      fb 0 = (m : Int) ∧ fb 1 = 4 ^ m / 4 ∧ fb 1 = 4 ^ (m - 1) ∧
      (∀ j, 1 ≤ j → j ≤ m → fb (2 * j) = 4 ∧ fb (2 * j + 1) = 4 ^ (m - j)) ∧
      fb (2 * m + 2) = NE10_FFT_ALG_DEFAULT := by
  have hf : Int.land flags NE10_FACTOR_EIGHT = 0 := by
    rcases hflags with h | h <;> rw [h] <;> decide
  have hpos : (0 : Int) < 4 ^ m := by positivity
  have hm' : m = (m - 1) + 1 := by omega
  obtain ⟨i1, i2, i3, i4, i5, i6⟩ :=
    ne10_factor_loop_four_pow flags hf (m - 1) (ne10_factor_init (4 ^ m) buf)
      (by show (4 : Int) ^ m = 4 ^ (m - 1 + 1); rw [← hm'])
  have hst : (ne10_factor_loop flags (ne10_factor_init (4 ^ m) buf)).stage_num = m := by
    rw [i1]
    show 0 + (m - 1) + 1 = m
    omega
  have hS : ¬ (ne10_factor_loop flags (ne10_factor_init (4 ^ m) buf)).stage_num > 21 := by
    omega
  obtain ⟨e0, e1, ek, ef⟩ := ne10_factor_body_entries (4 ^ m) buf flags hpos hS
  rw [hst] at e0 ek ef
  have hi1 : (ne10_factor_init (4 ^ m) buf).i = 1 := rfl
  rw [hi1] at i6
  have hdiv : (4 : Int) ^ m / 4 = 4 ^ (m - 1) := by
    conv_lhs => rw [hm', pow_succ]
    exact Int.mul_ediv_cancel _ (by decide)
  rw [ne10_factor_some _ _ _ hpos]
  refine ⟨?_, _, rfl, e0, ?_, ?_, ?_, ?_⟩
  · rw [ne10_factor_body_fst, if_neg hS]
  · rw [e1, i3]
  · rw [e1, i3, hdiv]
  · intro j hj1 hjm
    obtain ⟨j1, j2⟩ := i6 (j - 1) (by omega)
    have e : 1 + (j - 1) = j := by omega
    rw [e] at j1 j2
    rw [ek _ (by omega) (by omega), ek _ (by omega) (by omega), j1, j2]
    refine ⟨rfl, ?_⟩
    congr 1
    omega
  · rw [ef, i4]
    rfl

/-- Witness for C15: the documented example, `n = 1024 = 4 ^ 5`; the buffer starts
`[5, 256, 4, 256, 4, 64, 4, 16, 4, 4, 4, 1]` and the flag after it is
`NE10_FFT_ALG_DEFAULT`. -/
theorem ne10_factor_four_pow_witness :
    (ne10_factor 1024 (some (fun _ => 0)) NE10_FACTOR_DEFAULT).1 = NE10_OK ∧
    ∃ fb, (ne10_factor 1024 (some (fun _ => 0)) NE10_FACTOR_DEFAULT).2 = some fb ∧
      (List.range 12).map fb = [5, 256, 4, 256, 4, 64, 4, 16, 4, 4, 4, 1] ∧
      fb 12 = NE10_FFT_ALG_DEFAULT := by
  have h := ne10_factor_four_pow 5 (by norm_num) (by norm_num) (fun _ => 0) NE10_FACTOR_DEFAULT
    (Or.inl rfl)
  have e : (4 : Int) ^ 5 = 1024 := by norm_num
  rw [e] at h
  obtain ⟨h1, fb, h2, h3, _, h4, h5, h6⟩ := h
  refine ⟨h1, fb, h2, ?_, h6⟩
  have p1 := h5 1 (by norm_num) (by norm_num)
  have p2 := h5 2 (by norm_num) (by norm_num)
  have p3 := h5 3 (by norm_num) (by norm_num)
  have p4 := h5 4 (by norm_num) (by norm_num)
  have p5 := h5 5 (by norm_num) (by norm_num)
  simp only [List.range, List.range.loop, List.map, h3, h4, p1.1, p1.2, p2.1, p2.2, p3.1, p3.2,
    p4.1, p4.2, p5.1, p5.2]
  norm_num

/-! ## The super-twiddle table of a plan -/

/-- The super-twiddle loop stores nothing at or beyond index `ncfft / 2`. -/
theorem super_twiddle_gen_frame {R : Type} [Field R] (pi : R) (cos sin : R → R) (ncfft : Int)
    (table : Nat → ne10_fft_cpx_float32_t R) (j : ℕ) (hj : (ncfft / 2).toNat ≤ j) :
    super_twiddle_gen pi cos sin ncfft table j = table j := by
  unfold super_twiddle_gen
  generalize (ncfft / 2).toNat = L at hj
  induction L with
  | zero => rfl
  | succ L ih =>
    rw [List.range_succ, List.foldl_append, List.foldl_cons, List.foldl_nil,
      Function.update_noteq (by omega)]
    exact ih (by omega)

/-- The angle of a super-twiddle entry: `-i` times `exp (-i π (j + 1) / ncfft)`. -/
theorem super_twiddle_angle (n : Int) (hn : 0 < n) (j : ℕ) :
    Complex.exp (((-Real.pi * (((j : ℝ) + 1) / (n : ℝ) + 1 / 2) : ℝ) : ℂ) * Complex.I)
      = -Complex.I
        * Complex.exp (-(Complex.I * (Real.pi : ℂ) * ((j : ℂ) + 1) / (n : ℂ))) := by
  have hn' : (n : ℂ) ≠ 0 := Int.cast_ne_zero.mpr (by omega)
  have hI : -Complex.I = Complex.exp ((-(Real.pi / 2 : ℝ) : ℂ) * Complex.I) := by
    rw [Complex.exp_mul_I, ← Complex.ofReal_neg, ← Complex.ofReal_cos, ← Complex.ofReal_sin,
      Real.cos_neg, Real.sin_neg, Real.cos_pi_div_two, Real.sin_pi_div_two]
    simp
  rw [hI, ← Complex.exp_add]
  congr 1
  push_cast
  field_simp
  ring

/-- C19 (super twiddles): for every plan that the allocator returns and every
`j < ncfft / 2`, `super_twiddles[j] = (cos t, sin t)` with
`t = -π ((j + 1) / ncfft + 1/2)`; read as a complex number it is
`-i * exp (-i π (j + 1) / ncfft)`, and it has modulus one; the entries from index
`ncfft / 2` on are not written. -/
theorem ne10_fft_alloc_super_twiddles (st cfg : ne10_fft_r2c_state_float32_t ℝ) (nfft : Int)
    (halloc : ne10_fft_alloc_r2c_float32 Real.pi Real.cos Real.sin (some st) nfft = some cfg) :
    (∀ j : ℕ, j < (cfg.ncfft / 2).toNat →
      cfg.super_twiddles j
        = ⟨Real.cos (-Real.pi * (((j : ℝ) + 1) / (cfg.ncfft : ℝ) + 1 / 2)),
           Real.sin (-Real.pi * (((j : ℝ) + 1) / (cfg.ncfft : ℝ) + 1 / 2))⟩ ∧
      toC (cfg.super_twiddles j)
        = -Complex.I
          * Complex.exp (-(Complex.I * (Real.pi : ℂ) * ((j : ℂ) + 1) / (cfg.ncfft : ℂ))) ∧
      (cfg.super_twiddles j).r ^ 2 + (cfg.super_twiddles j).i ^ 2 = 1) ∧
    (∀ j : ℕ, (cfg.ncfft / 2).toNat ≤ j → cfg.super_twiddles j = st.super_twiddles j) := by
  obtain ⟨h2, _, hcfg⟩ := alloc_eq_some _ _ _ _ _ _ halloc
  have hn : cfg.ncfft = nfft / 2 := by rw [hcfg]
  have hstw : cfg.super_twiddles
      = super_twiddle_gen Real.pi Real.cos Real.sin (nfft / 2) st.super_twiddles := by
    rw [hcfg]
  rw [hn, hstw]
  refine ⟨?_, ?_⟩
  · intro j hj
    have hval := super_twiddle_gen_closed Real.pi Real.cos Real.sin (nfft / 2)
      st.super_twiddles j hj
    rw [hval]
    refine ⟨rfl, ?_, ?_⟩
    · rw [toC_cos_sin]
      push_cast
      have := super_twiddle_angle (nfft / 2) (by omega) j
      push_cast at this
      exact this
    · exact Real.cos_sq_add_sin_sq _
  · intro j hj
    exact super_twiddle_gen_frame _ _ _ _ _ j hj

/-- Witness for C19: the plan for the length 16 on the zero block, entry 2. -/
theorem ne10_fft_alloc_super_twiddles_witness :
    ∃ cfg : ne10_fft_r2c_state_float32_t ℝ,
      ne10_fft_alloc_r2c_float32 Real.pi Real.cos Real.sin (some (zero_block ℝ)) (2 ^ (3 + 1))
        = some cfg ∧
      (cfg.super_twiddles 2).r ^ 2 + (cfg.super_twiddles 2).i ^ 2 = 1 ∧
      cfg.super_twiddles 7 = ⟨0, 0⟩ :=
  Exists.elim (alloc_pow2_some (zero_block ℝ) 3 (by norm_num)) (fun cfg h =>
    have hn : cfg.ncfft = 8 := by
      obtain ⟨_, _, hcfg⟩ := alloc_eq_some _ _ _ _ _ _ h
      rw [hcfg]
      norm_num
    have hlen : (cfg.ncfft / 2).toNat = 4 := by rw [hn]; rfl
    ⟨cfg, h,
      ((ne10_fft_alloc_super_twiddles (zero_block ℝ) cfg _ h).1 2 (by rw [hlen]; norm_num)).2.2,
      (ne10_fft_alloc_super_twiddles (zero_block ℝ) cfg _ h).2 7 (by rw [hlen]; norm_num)⟩)

/-! ## The inverse split, for a general super-twiddle table -/

/-- The middle pass `k = ncfft - k` for a twiddle that is real and of modulus one. -/
theorem split_c2r_store_mid_real (F Z tw : ℕ → ne10_fft_cpx_float32_t ℝ) (n k : ℕ)
    (hnk : n - k = k) (hi : (tw (k - 1)).i = 0)
    (hr : (tw (k - 1)).r * (tw (k - 1)).r = 1)
    (hFk : F k = split_r2c_store_nk Z tw n k) :
    split_c2r_store_nk F tw n k = Z k := by
  unfold split_c2r_store_nk
  rw [hnk, hFk]
  apply ne10_fft_cpx_float32_t.ext
  · simp only [split_r2c_store_nk, hnk, hi]
    ring
  · simp only [split_r2c_store_nk, hnk, hi]
    linear_combination ((Z k).i) * hr

/-- C17 (inverse split), with the condition on the middle entry that the code needs: for
every `ncfft >= 1`, every super-twiddle table whose entries `twiddles[k - 1]`,
`1 <= k <= ncfft / 2`, have modulus one and whose middle entry `twiddles[ncfft / 2 - 1]`
(for even `ncfft`) is real, and every array `z`, applying `ne10_fft_split_c2r_1d_float32`
to the output of `ne10_fft_split_r2c_1d_float32` on `z` returns `z` at every index below
`ncfft`, whatever the two destination arrays held before. -/
theorem ne10_fft_split_c2r_inverse (dF dZ z tw : ℕ → ne10_fft_cpx_float32_t ℝ) (ncfft : ℕ)
    (hn : 1 ≤ ncfft)
    (hu : ∀ k, 1 ≤ k → k ≤ ncfft / 2 →
      (tw (k - 1)).r * (tw (k - 1)).r + (tw (k - 1)).i * (tw (k - 1)).i = 1)
    (hmid : ∀ k, 1 ≤ k → ncfft - k = k → (tw (k - 1)).i = 0)
    (idx : ℕ) (hidx : idx < ncfft) :
    ne10_fft_split_c2r_1d_float32 dZ (ne10_fft_split_r2c_1d_float32 dF z tw ncfft) tw ncfft idx
      = z idx := by
  rw [split_c2r_closed _ _ _ ncfft hn idx hidx]
  have hF := split_r2c_closed dF z tw ncfft hn
  generalize ne10_fft_split_r2c_1d_float32 dF z tw ncfft = F at hF ⊢
  by_cases h0 : idx = 0
  · subst h0
    rw [if_pos rfl, hF 0 (by omega), hF ncfft (le_refl ncfft), if_pos rfl, if_neg (by omega),
      if_pos rfl]
    apply ne10_fft_cpx_float32_t.ext
    · simp only
      ring
    · simp only
      ring
  · rw [if_neg h0]
    by_cases hc : ncfft - idx ≤ ncfft / 2
    · rw [if_pos hc]
      by_cases hm : ncfft - (ncfft - idx) = ncfft - idx
      · have hk : ncfft - idx = idx := by omega
        rw [hk]
        have hi := hmid idx (by omega) hk
        have hr : (tw (idx - 1)).r * (tw (idx - 1)).r = 1 := by
          have := hu idx (by omega) (by omega)
          rw [hi] at this
          linarith
        apply split_c2r_store_mid_real F z tw ncfft idx hk hi hr
        rw [hF idx (by omega), if_neg h0, if_neg (by omega), if_pos hc, hk]
      · have hidx' : idx = ncfft - (ncfft - idx) := by omega
        conv_rhs => rw [hidx']
        apply split_c2r_store_nk_r2c F z tw ncfft (ncfft - idx) (hu _ (by omega) hc)
        · rw [hF (ncfft - idx) (by omega), if_neg (by omega), if_neg (by omega),
            if_neg (show ¬ (ncfft - (ncfft - idx) ≤ ncfft / 2) by omega)]
        · rw [← hidx', hF idx (by omega), if_neg h0, if_neg (by omega), if_pos hc]
    · rw [if_neg hc]
      apply split_c2r_store_k_r2c F z tw ncfft idx (hu _ (by omega) (by omega))
      · rw [hF idx (by omega), if_neg h0, if_neg (by omega), if_neg hc]
      · rw [hF (ncfft - idx) (by omega), if_neg (by omega), if_neg (by omega),
          if_pos (show ncfft - (ncfft - idx) ≤ ncfft / 2 by omega)]
        congr 1
        omega

/-- Witness for C17: `ncfft = 4`, the table with `twiddles[0] = (3/5, 4/5)` and
`twiddles[1] = (-1, 0)`, a sample array, index 3. -/
theorem ne10_fft_split_c2r_inverse_witness :
    ne10_fft_split_c2r_1d_float32 (fun _ => ⟨0, 0⟩)
        (ne10_fft_split_r2c_1d_float32 (fun _ => ⟨0, 0⟩) (fun m => ⟨(m : ℝ), 1 - (m : ℝ)⟩)
          (fun j => if j = 0 then ⟨3 / 5, 4 / 5⟩ else ⟨-1, 0⟩) 4)
        (fun j => if j = 0 then ⟨3 / 5, 4 / 5⟩ else ⟨-1, 0⟩) 4 3
      = ⟨((3 : ℕ) : ℝ), 1 - ((3 : ℕ) : ℝ)⟩ :=
  ne10_fft_split_c2r_inverse (fun _ => ⟨0, 0⟩) (fun _ => ⟨0, 0⟩) (fun m => ⟨(m : ℝ), 1 - (m : ℝ)⟩)
    (fun j => if j = 0 then ⟨3 / 5, 4 / 5⟩ else ⟨-1, 0⟩) 4 (by norm_num)
    (by
      intro k h1 h2
      have h2' : k ≤ 2 := by omega
      interval_cases k
      · norm_num
      · norm_num)
    (by
      intro k h1 h2
      have hk : k = 2 := by omega
      subst hk
      norm_num)
    3 (by norm_num)

/-- C17, counterexample: `ncfft = 2` with the unit-modulus table `twiddles[0] = (0, 1)`
and `z = [(0, 0), (0, 1)]`: the two splits in a row leave `(1, 0)` at index 1, not
`z[1] = (0, 1)`. -/
theorem ne10_fft_split_c2r_inverse_counterexample :
    ((fun _ : ℕ => (⟨0, 1⟩ : ne10_fft_cpx_float32_t ℝ)) 0).r ^ 2
        + ((fun _ : ℕ => (⟨0, 1⟩ : ne10_fft_cpx_float32_t ℝ)) 0).i ^ 2 = 1 ∧
    ne10_fft_split_c2r_1d_float32 (fun _ => ⟨0, 0⟩)
        (ne10_fft_split_r2c_1d_float32 (fun _ => ⟨0, 0⟩)
          (fun m => if m = 1 then ⟨0, 1⟩ else ⟨0, 0⟩) (fun _ => ⟨0, 1⟩) 2)
        (fun _ => ⟨0, 1⟩) 2 1
      ≠ (fun m : ℕ => if m = 1 then (⟨0, 1⟩ : ne10_fft_cpx_float32_t ℝ) else ⟨0, 0⟩) 1 := by
  refine ⟨by norm_num, ?_⟩
  rw [split_c2r_closed _ _ _ 2 (by norm_num) 1 (by norm_num)]
  rw [if_neg (by norm_num), if_pos (by norm_num)]
  have hF1 := split_r2c_closed (fun _ => (⟨0, 0⟩ : ne10_fft_cpx_float32_t ℝ))
    (fun m => if m = 1 then ⟨0, 1⟩ else ⟨0, 0⟩) (fun _ => ⟨0, 1⟩) 2 (by norm_num) 1 (by norm_num)
  rw [if_neg (by norm_num), if_neg (by norm_num), if_pos (by norm_num)] at hF1
  intro h
  have hr := congrArg ne10_fft_cpx_float32_t.i h
  simp [split_c2r_store_nk, hF1, split_r2c_store_nk] at hr

/-! ## The inverse transform, and linearity of the forward transform -/

theorem gdft_exp_inv (n : ℕ) (x : ℕ → ℂ) (k : ℕ) :
    gdft (Complex.exp (2 * (Real.pi : ℂ) * Complex.I / (n : ℂ))) n x k
      = ∑ m in Finset.range n,
          x m * Complex.exp (2 * (Real.pi : ℂ) * Complex.I * (m : ℂ) * (k : ℂ) / (n : ℂ)) := by
  unfold gdft
  apply Finset.sum_congr rfl
  intro m _
  rw [← Complex.exp_nat_mul]
  congr 2
  push_cast
  ring

/-- C16 (inverse transform): for every power-of-two length `2 ^ k`, with the factor
buffer and the twiddle table of the plan that the allocator builds for `ncfft = 2 ^ k`,
arithmetic over the reals and `TW_81` read as `√2/2`, the inverse butterfly leaves in
`out[j]`, for every `j < 2 ^ k`, `1 / 2 ^ k` times the sum over `m < 2 ^ k` of
`in[m] * exp (+2 π i m j / 2 ^ k)`: the scale `1 / n` is applied exactly once. -/
theorem ne10_mixed_radix_butterfly_inverse_dft (k : ℕ)
    (st cfg : ne10_fft_r2c_state_float32_t ℝ)
    (halloc : ne10_fft_alloc_r2c_float32 Real.pi Real.cos Real.sin (some st) (2 * 2 ^ k)
      = some cfg) (mem : Mem ℝ) (j : ℕ) (hj : j < 2 ^ k) :
    toC (ne10_mixed_radix_butterfly_inverse_float32_c (Real.sqrt 2 / 2) mem cfg.factors
        cfg.twiddles Buf.out j)
      = (1 / ((2 ^ k : ℕ) : ℂ))
        * ∑ m in Finset.range (2 ^ k), toC (mem Buf.input m)
          * Complex.exp (2 * (Real.pi : ℂ) * Complex.I * (m : ℂ) * (j : ℂ)
              / ((2 ^ k : ℕ) : ℂ)) := by
  rw [butterfly_inverse_plan k st cfg halloc mem j hj, gdft_exp_inv, mul_comm]

/-- Witness for C16: the plan for `ncfft = 2 ^ 5 = 32` (a radix-8 first stage and a
radix-4 last stage), a sample input, sample 7. -/
theorem ne10_mixed_radix_butterfly_inverse_dft_witness :
    ∃ cfg : ne10_fft_r2c_state_float32_t ℝ,
      ne10_fft_alloc_r2c_float32 Real.pi Real.cos Real.sin (some (zero_block ℝ)) (2 * 2 ^ 5)
        = some cfg ∧
      7 < 2 ^ 5 ∧
      toC (ne10_mixed_radix_butterfly_inverse_float32_c (Real.sqrt 2 / 2)
          (fun _ m => ⟨1, (m : ℝ)⟩) cfg.factors cfg.twiddles Buf.out 7)
        = (1 / ((2 ^ 5 : ℕ) : ℂ))
          * ∑ m in Finset.range (2 ^ 5), toC (⟨1, (m : ℝ)⟩ : ne10_fft_cpx_float32_t ℝ)
            * Complex.exp (2 * (Real.pi : ℂ) * Complex.I * (m : ℂ) * ((7 : ℕ) : ℂ)
                / ((2 ^ 5 : ℕ) : ℂ)) :=
  have halloc := alloc_some_eq Real.pi Real.cos Real.sin (zero_block ℝ) (2 * 2 ^ 5)
    (by norm_num)
    (by
      have hb := ne10_factor_loop_stage_le ((2 * 2 ^ 5 : ℤ) / 2) (zero_block ℝ).factors
        NE10_FACTOR_EIGHT_FIRST_STAGE (by norm_num) (by norm_num)
      omega)
  ⟨_, halloc, by norm_num,
    ne10_mixed_radix_butterfly_inverse_dft 5 _ _ halloc (fun _ m => ⟨1, (m : ℝ)⟩) 7
      (by norm_num)⟩

/-- C11 as amended (linearity), for the lengths the butterflies and the allocator's block
support: for every power of two `N = 2 ^ (k + 1)` with `2 <= N <= 2 ^ 28`, all reals `a`,
`b` and all real inputs `x`, `y`, the scratch buffers of `N` complex entries lie inside the
blocks that the allocator requested, and the forward real-to-complex transform of
`a x + b y` equals `a` times that of `x` plus `b` times that of `y` in every bin
`j <= N / 2`; the three calls run under plans allocated for `N` and may find anything in
the scratch buffer and in the output array. -/
theorem ne10_fft_r2c_linear (k : ℕ) (hk : k ≤ 27)
    (st1 st2 st3 cfg1 cfg2 cfg3 : ne10_fft_r2c_state_float32_t ℝ)
    (h1 : ne10_fft_alloc_r2c_float32 Real.pi Real.cos Real.sin (some st1) (2 ^ (k + 1))
      = some cfg1)
    (h2 : ne10_fft_alloc_r2c_float32 Real.pi Real.cos Real.sin (some st2) (2 ^ (k + 1))
      = some cfg2)
    (h3 : ne10_fft_alloc_r2c_float32 Real.pi Real.cos Real.sin (some st3) (2 ^ (k + 1))
      = some cfg3)
    (fout1 fout2 fout3 : ℕ → ne10_fft_cpx_float32_t ℝ) (a b : ℝ) (x y : ℕ → ℝ) (j : ℕ)
    (hj : j ≤ 2 ^ (k + 1) / 2) :
    (buffer_in_block cfg1 NE10_FFT_BYTE_ALIGNMENT (2 ^ (k + 1)) ∧
      buffer_in_block cfg2 NE10_FFT_BYTE_ALIGNMENT (2 ^ (k + 1)) ∧
      buffer_in_block cfg3 NE10_FFT_BYTE_ALIGNMENT (2 ^ (k + 1))) ∧
    (ne10_fft_r2c_1d_float32_c (Real.sqrt 2 / 2) fout1 (fun t => a * x t + b * y t) cfg1).1 j
      = ⟨a * ((ne10_fft_r2c_1d_float32_c (Real.sqrt 2 / 2) fout2 x cfg2).1 j).r
          + b * ((ne10_fft_r2c_1d_float32_c (Real.sqrt 2 / 2) fout3 y cfg3).1 j).r,
         a * ((ne10_fft_r2c_1d_float32_c (Real.sqrt 2 / 2) fout2 x cfg2).1 j).i
          + b * ((ne10_fft_r2c_1d_float32_c (Real.sqrt 2 / 2) fout3 y cfg3).1 j).i⟩ := by
  refine ⟨⟨alloc_pow2_block_succ Real.pi Real.cos Real.sin k hk (some st1) cfg1 h1,
    alloc_pow2_block_succ Real.pi Real.cos Real.sin k hk (some st2) cfg2 h2,
    alloc_pow2_block_succ Real.pi Real.cos Real.sin k hk (some st3) cfg3 h3⟩, ?_⟩
  have e : (2 : ℤ) ^ (k + 1) = 2 * 2 ^ k := by rw [pow_succ]; ring
  have e' : 2 ^ (k + 1) = 2 * 2 ^ k := by rw [pow_succ]; ring
  rw [e] at h1 h2 h3
  rw [e'] at hj
  have hj' : j ≤ 2 ^ k := by omega
  have hx := r2c_plan_dft k st2 cfg2 h2 fout2 x j hj'
  have hy := r2c_plan_dft k st3 cfg3 h3 fout3 y j hj'
  have hs := r2c_plan_dft k st1 cfg1 h1 fout1 (fun t => a * x t + b * y t) j hj'
  apply toC_injective
  have hlin : toC ⟨a * ((ne10_fft_r2c_1d_float32_c (Real.sqrt 2 / 2) fout2 x cfg2).1 j).r
          + b * ((ne10_fft_r2c_1d_float32_c (Real.sqrt 2 / 2) fout3 y cfg3).1 j).r,
         a * ((ne10_fft_r2c_1d_float32_c (Real.sqrt 2 / 2) fout2 x cfg2).1 j).i
          + b * ((ne10_fft_r2c_1d_float32_c (Real.sqrt 2 / 2) fout3 y cfg3).1 j).i⟩
      = (a : ℂ) * toC ((ne10_fft_r2c_1d_float32_c (Real.sqrt 2 / 2) fout2 x cfg2).1 j)
        + (b : ℂ) * toC ((ne10_fft_r2c_1d_float32_c (Real.sqrt 2 / 2) fout3 y cfg3).1 j) := by
    apply Complex.ext <;> simp [toC]
  rw [hlin, hs, hx, hy]
  unfold gdft
  rw [Finset.mul_sum, Finset.mul_sum, ← Finset.sum_add_distrib]
  apply Finset.sum_congr rfl
  intro m _
  push_cast
  ring

/-- Witness for C11: plans for `N = 2 ^ 3 = 8`, `a = 2`, `b = -3`, bin 3. -/
theorem ne10_fft_r2c_linear_witness :
    ∃ cfg : ne10_fft_r2c_state_float32_t ℝ,
      ne10_fft_alloc_r2c_float32 Real.pi Real.cos Real.sin (some (zero_block ℝ)) (2 ^ (2 + 1))
        = some cfg ∧
      3 ≤ 2 ^ (2 + 1) / 2 ∧
      (ne10_fft_r2c_1d_float32_c (Real.sqrt 2 / 2) (fun _ => ⟨0, 0⟩)
          (fun t => 2 * (t : ℝ) + (-3) * ((t : ℝ) ^ 2)) cfg).1 3
        = ⟨2 * ((ne10_fft_r2c_1d_float32_c (Real.sqrt 2 / 2) (fun _ => ⟨0, 0⟩)
              (fun t => (t : ℝ)) cfg).1 3).r
            + (-3) * ((ne10_fft_r2c_1d_float32_c (Real.sqrt 2 / 2) (fun _ => ⟨0, 0⟩)
              (fun t => (t : ℝ) ^ 2) cfg).1 3).r,
           2 * ((ne10_fft_r2c_1d_float32_c (Real.sqrt 2 / 2) (fun _ => ⟨0, 0⟩)
              (fun t => (t : ℝ)) cfg).1 3).i
            + (-3) * ((ne10_fft_r2c_1d_float32_c (Real.sqrt 2 / 2) (fun _ => ⟨0, 0⟩)
              (fun t => (t : ℝ) ^ 2) cfg).1 3).i⟩ :=
  Exists.elim (alloc_pow2_some (zero_block ℝ) 2 (by norm_num)) (fun cfg h =>
    ⟨cfg, h, by norm_num,
      (ne10_fft_r2c_linear 2 (by norm_num) _ _ _ cfg cfg cfg h h h (fun _ => ⟨0, 0⟩)
        (fun _ => ⟨0, 0⟩) (fun _ => ⟨0, 0⟩) 2 (-3) (fun t => (t : ℝ)) (fun t => (t : ℝ) ^ 2) 3
        (by norm_num)).2⟩)

/-- The plan that the allocator returns for the real length 6, on any block. -/
theorem alloc_six_of (st : ne10_fft_r2c_state_float32_t ℝ) :
    ∃ cfg : ne10_fft_r2c_state_float32_t ℝ,
      ne10_fft_alloc_r2c_float32 Real.pi Real.cos Real.sin (some st) 6 = some cfg ∧
      cfg.ncfft = 3 ∧ cfg.buffer = st.buffer ∧
      cfg.factors 0 = 1 ∧ cfg.factors 1 = 1 ∧ cfg.factors 2 = 3 := by
  have h := alloc_some_eq Real.pi Real.cos Real.sin st 6 (by norm_num)
    (by
      have hb := ne10_factor_loop_stage_le ((6 : ℤ) / 2) st.factors
        NE10_FACTOR_EIGHT_FIRST_STAGE (by norm_num) (by norm_num)
      omega)
  have h62 : (6 : ℤ) / 2 = 3 := by norm_num
  rw [h62] at h
  obtain ⟨e0, e1, e2⟩ := ne10_factor_body_three st.factors
  exact ⟨_, h, rfl, rfl, e0, e1, e2⟩

/-- C11, counterexample: the even length 6 gets a plan, and when the block that the plan
was made in holds `(1, 0)` in its scratch buffer the transform of the zero input has
`fout[1] = (1, 0)`; so with `a = b = 1` and `x = y = 0` bin 1 of the transform of
`a x + b y` is `(1, 0)`, not `a (1, 0) + b (1, 0) = (2, 0)`.  And the power of two `2 ^ 29`
gets a plan whose byte count 7516193072 wraps to a block of 3221225776 bytes, in which the
`N / 2` complex entries that the transform stores in the scratch buffer do not lie. -/
theorem ne10_fft_r2c_linear_counterexample :
    (∃ cfg : ne10_fft_r2c_state_float32_t ℝ,
      ne10_fft_alloc_r2c_float32 Real.pi Real.cos Real.sin
        (some { buffer := fun _ => ⟨1, 0⟩, ncfft := 0, factors := fun _ => 0,
                twiddles := fun _ => ⟨0, 0⟩, super_twiddles := fun _ => ⟨0, 0⟩ }) 6 = some cfg ∧
      (ne10_fft_r2c_1d_float32_c (Real.sqrt 2 / 2) (fun _ => ⟨0, 0⟩)
          (fun _ => 1 * 0 + 1 * 0) cfg).1 1
        ≠ ⟨1 * ((ne10_fft_r2c_1d_float32_c (Real.sqrt 2 / 2) (fun _ => ⟨0, 0⟩)
              (fun _ => 0) cfg).1 1).r
            + 1 * ((ne10_fft_r2c_1d_float32_c (Real.sqrt 2 / 2) (fun _ => ⟨0, 0⟩)
              (fun _ => 0) cfg).1 1).r,
           1 * ((ne10_fft_r2c_1d_float32_c (Real.sqrt 2 / 2) (fun _ => ⟨0, 0⟩)
              (fun _ => 0) cfg).1 1).i
            + 1 * ((ne10_fft_r2c_1d_float32_c (Real.sqrt 2 / 2) (fun _ => ⟨0, 0⟩)
              (fun _ => 0) cfg).1 1).i⟩) ∧
    (∃ cfg : ne10_fft_r2c_state_float32_t ℝ,
      ne10_fft_alloc_r2c_float32 Real.pi Real.cos Real.sin (some (zero_block ℝ)) (2 ^ (28 + 1))
        = some cfg ∧
      cfg.ncfft = 2 ^ 28 ∧ ne10_fft_r2c_bytes (2 ^ (28 + 1)) = 7516193072 ∧
      cfg.memneeded = 3221225776 ∧ ¬ buffer_in_block cfg 0 (2 ^ 28)) := by
  refine ⟨?_, alloc_pow2_wrap (zero_block ℝ)⟩
  obtain ⟨cfg, h, hn, hbuf, e0, e1, e2⟩ := alloc_six_of
    { buffer := fun _ => ⟨1, 0⟩, ncfft := 0, factors := fun _ => 0,
      twiddles := fun _ => ⟨0, 0⟩, super_twiddles := fun _ => ⟨0, 0⟩ }
  refine ⟨cfg, h, ?_⟩
  have hr : cfg.factors (2 * cfg.factors 0).toNat = 3 := by rw [e0]; exact e2
  have hval : ∀ x : ℕ → ℝ, (∀ t, x t = 0) →
      (ne10_fft_r2c_1d_float32_c (Real.sqrt 2 / 2) (fun _ => ⟨0, 0⟩) x cfg).1 1 = ⟨1, 0⟩ := by
    intro x hx
    simp only [ne10_fft_r2c_1d_float32_c]
    rw [butterfly_forward_other_radix _ _ _ _ (by rw [hr]; decide) (by rw [hr]; decide)
      (by rw [hr]; decide), hn]
    rw [show ((3 : ℤ)).toNat = 3 by rfl, split_r2c_closed _ _ _ 3 (by norm_num) 1 (by norm_num)]
    simp [split_r2c_store_k, Mem.write_apply, hbuf]
    norm_num
  rw [hval _ (fun _ => by norm_num), hval _ (fun _ => rfl)]
  intro hcontra
  have := congrArg ne10_fft_cpx_float32_t.r hcontra
  norm_num at this

/-! ## The half-complex layout that `Do_fftr` writes -/

/-- The loop of the `kHalfComplexInPlace` case after `t <= h - 1` passes: index `j` holds
the imaginary part stored by pass `h - j` when that pass ran and was not followed by pass
`j`, else the real part stored by pass `j` when it ran, else its old value. -/
theorem half_complex_fold {R : Type} (re im : ℕ → R) (h : ℕ) (d : ℕ → R) (t : ℕ)
    (ht : t ≤ h - 1) (j : ℕ) :
    (List.range' 1 t).foldl
        (fun (d : ℕ → R) (idx : ℕ) =>
          Function.update (Function.update d idx (re idx)) (h - idx) (im idx)) d j
      = if 1 ≤ h - j ∧ h - j ≤ t ∧ (j ≤ h - j ∨ t < j) then im (h - j)
        else if 1 ≤ j ∧ j ≤ t then re j
        else d j := by
  induction t with
  | zero =>
    rw [if_neg (by omega), if_neg (by omega)]
    rfl
  | succ t ih =>
    rw [List.range'_1_concat, List.foldl_append, List.foldl_cons, List.foldl_nil]
    have ih' := ih (by omega)
    by_cases h1 : j = h - (1 + t)
    · rw [h1, Function.update_same, if_pos (by omega)]
      congr 1
      omega
    · rw [Function.update_noteq h1]
      by_cases h2 : j = 1 + t
      · rw [h2, Function.update_same, if_neg (by omega), if_pos (by omega)]
      · rw [Function.update_noteq h2, ih']
        have e1 : (1 ≤ h - j ∧ h - j ≤ t + 1 ∧ (j ≤ h - j ∨ t + 1 < j))
            ↔ (1 ≤ h - j ∧ h - j ≤ t ∧ (j ≤ h - j ∨ t < j)) := by omega
        have e2 : (1 ≤ j ∧ j ≤ t + 1) ↔ (1 ≤ j ∧ j ≤ t) := by omega
        simp only [e1, e2]

/-- What the `kHalfComplexInPlace` case leaves in `data_out`, for `fft_len / 2 = h >= 1`:
the real parts of bins 0 and `h`; below `h`, the imaginary part of bin `h - j` in the
lower half `2 j <= h` and the real part of bin `j` in the upper half; nothing beyond
index `h`. -/
theorem Do_fftr_half_complex_layout {R : Type} [Field R] (d : ℕ → R)
    (cx : ℕ → ne10_fft_cpx_float32_t R) (fft_len : Int) (h : ℕ) (hh : (fft_len / 2).toNat = h)
    (h1 : 1 ≤ h) (j : ℕ) :
    Do_fftr_half_complex d cx fft_len j
      = if j = 0 then (cx 0).r
        else if j = h then (cx h).r
        else if h < j then d j
        else if 2 * j ≤ h then (cx (h - j)).i
        else (cx j).r := by
  simp only [Do_fftr_half_complex, hh]
  rw [half_complex_fold (fun idx => (cx idx).r) (fun idx => (cx idx).i) h _ (h - 1) (le_refl _) j]
  by_cases c0 : j = 0
  · subst c0
    rw [if_neg (by omega), if_neg (by omega), if_pos rfl, Function.update_noteq (by omega),
      Function.update_same]
  · rw [if_neg c0]
    by_cases c1 : j = h
    · subst c1
      rw [if_neg (by omega), if_neg (by omega), if_pos rfl, Function.update_same]
    · rw [if_neg c1]
      by_cases c2 : h < j
      · rw [if_pos c2, if_neg (by omega), if_neg (by omega), Function.update_noteq c1,
          Function.update_noteq c0]
      · rw [if_neg c2]
        by_cases c3 : 2 * j ≤ h
        · rw [if_pos c3, if_pos (by omega)]
        · rw [if_neg c3, if_neg (by omega), if_pos (by omega)]

/-- C20, the code at a failing input: for the length 4 and the impulse input the core's
spectrum has `X[1] = (1, 0)`, and `Do_fftr` with `kHalfComplexInPlace`, on an output array
holding 7 everywhere, leaves `data_out[1] = 0` (the imaginary part of `X[1]`, where the
documented layout has `Re X[1] = 1`) and `data_out[3] = 7` (untouched, where the
documented layout has `Im X[1] = 0`). -/
theorem Do_fftr_half_complex_defect :
    ∃ cfg : ne10_fft_r2c_state_float32_t ℝ,
      ne10_fft_alloc_r2c_float32 Real.pi Real.cos Real.sin (some (zero_block ℝ)) 4 = some cfg ∧
      (ne10_fft_r2c_1d_float32_c (Real.sqrt 2 / 2) (fun _ => ⟨0, 0⟩)
        (fun t => if t = 0 then 1 else 0) cfg).1 1 = ⟨1, 0⟩ ∧
      ∃ d : ℕ → ℝ,
        Do_fftr (Real.sqrt 2 / 2) Real.pi Real.cos Real.sin (some (zero_block ℝ))
          (fun _ => ⟨0, 0⟩) (some (fun _ => 7)) (some (fun t => if t = 0 then 1 else 0)) 4
          kHalfComplexInPlace = some (some d) ∧
        d 1 = 0 ∧ d 3 = 7 := by
  obtain ⟨cfg, hcfg⟩ := alloc_pow2_some (zero_block ℝ) 1 (by norm_num)
  have e4 : (2 : ℤ) ^ (1 + 1) = 4 := by norm_num
  rw [e4] at hcfg
  have hcfg' : ne10_fft_alloc_r2c_float32 Real.pi Real.cos Real.sin (some (zero_block ℝ))
      (2 * 2 ^ 1) = some cfg := by
    rw [show (2 * 2 ^ 1 : ℤ) = 4 by norm_num]; exact hcfg
  have hX : (ne10_fft_r2c_1d_float32_c (Real.sqrt 2 / 2) (fun _ => ⟨0, 0⟩)
      (fun t => if t = 0 then 1 else 0) cfg).1 1 = ⟨1, 0⟩ := by
    apply toC_injective
    rw [r2c_plan_dft 1 _ cfg hcfg' _ _ 1 (by norm_num), gdft_impulse _ _ (by positivity)]
    apply Complex.ext <;> simp [toC]
  refine ⟨cfg, hcfg, hX, ?_⟩
  have hlay := Do_fftr_half_complex_layout (fun _ => (7 : ℝ))
    (ne10_fft_r2c_1d_float32_c (Real.sqrt 2 / 2) (fun _ => ⟨0, 0⟩)
      (fun t => if t = 0 then 1 else 0) cfg).1 4 2 (by decide) (by norm_num)
  refine ⟨Do_fftr_half_complex (fun _ => (7 : ℝ))
    (ne10_fft_r2c_1d_float32_c (Real.sqrt 2 / 2) (fun _ => ⟨0, 0⟩)
      (fun t => if t = 0 then 1 else 0) cfg).1 4, ?_, ?_, ?_⟩
  · simp only [Do_fftr, hcfg]
    rw [if_neg (by norm_num), if_pos trivial]
  · rw [hlay 1, if_neg (by norm_num), if_neg (by norm_num), if_neg (by norm_num),
      if_pos (by norm_num), hX]
  · rw [hlay 3, if_neg (by norm_num), if_neg (by norm_num), if_pos (by norm_num)]

/-! ## The twiddle table of any plan -/

/-- The inner loop of the twiddle generation, over `k = 1 .. L`, for one `j < M`: the
entry at `B + (M (k - 1) + j)` gets the value for `k`, every other entry is kept. -/
theorem twiddle_inner_closed {β : Type} (val : ℕ → β) (B M j : ℕ) (hj : j < M) (t0 : ℕ → β)
    (L : ℕ) :
    (∀ k, 1 ≤ k → k ≤ L →
      (List.range' 1 L).foldl (fun (t : ℕ → β) (k : ℕ) =>
        Function.update t (B + (M * (k - 1) + j)) (val k)) t0 (B + (M * (k - 1) + j)) = val k) ∧
    (∀ idx, (∀ k, 1 ≤ k → k ≤ L → idx ≠ B + (M * (k - 1) + j)) →
      (List.range' 1 L).foldl (fun (t : ℕ → β) (k : ℕ) =>
        Function.update t (B + (M * (k - 1) + j)) (val k)) t0 idx = t0 idx) := by
  have hM : 0 < M := by omega
  induction L with
  | zero =>
    refine ⟨?_, fun _ _ => rfl⟩
    intro k h1 h2
    omega
  | succ L ih =>
    obtain ⟨iv, ifr⟩ := ih
    rw [List.range'_1_concat, List.foldl_append, List.foldl_cons, List.foldl_nil]
    refine ⟨?_, ?_⟩
    · intro k h1 h2
      by_cases hk : k = 1 + L
      · rw [hk, Function.update_same]
      · have hlt : M * (k - 1) < M * (1 + L - 1) := mul_lt_mul_of_pos_left (by omega) hM
        rw [Function.update_noteq (by omega)]
        exact iv k h1 (by omega)
    · intro idx hidx
      rw [Function.update_noteq (hidx (1 + L) (by omega) (by omega))]
      exact ifr idx (fun k h1 h2 => hidx k h1 (by omega))

/-- The two nested loops of one stage of the twiddle generation, after `J <= M` passes of
the outer loop. -/
theorem twiddle_outer_closed {β : Type} (val : ℕ → ℕ → β) (B M L : ℕ) (t0 : ℕ → β) (J : ℕ)
    (hJ : J ≤ M) :
    (∀ j k, j < J → 1 ≤ k → k ≤ L →
      (List.range J).foldl (fun (t : ℕ → β) (j : ℕ) =>
        (List.range' 1 L).foldl (fun (t : ℕ → β) (k : ℕ) =>
          Function.update t (B + (M * (k - 1) + j)) (val k j)) t) t0
        (B + (M * (k - 1) + j)) = val k j) ∧
    (∀ idx, (∀ j k, j < J → 1 ≤ k → k ≤ L → idx ≠ B + (M * (k - 1) + j)) →
      (List.range J).foldl (fun (t : ℕ → β) (j : ℕ) =>
        (List.range' 1 L).foldl (fun (t : ℕ → β) (k : ℕ) =>
          Function.update t (B + (M * (k - 1) + j)) (val k j)) t) t0 idx = t0 idx) := by
  induction J with
  | zero =>
    refine ⟨?_, fun _ _ => rfl⟩
    intro j k hj
    omega
  | succ J ih =>
    obtain ⟨iv, ifr⟩ := ih (by omega)
    rw [List.range_succ, List.foldl_append, List.foldl_cons, List.foldl_nil]
    obtain ⟨nv, nfr⟩ := twiddle_inner_closed (fun k => val k J) B M J (by omega)
      ((List.range J).foldl (fun (t : ℕ → β) (j : ℕ) =>
        (List.range' 1 L).foldl (fun (t : ℕ → β) (k : ℕ) =>
          Function.update t (B + (M * (k - 1) + j)) (val k j)) t) t0) L
    refine ⟨?_, ?_⟩
    · intro j k hj h1 h2
      by_cases hjJ : j = J
      · subst hjJ
        exact nv k h1 h2
      · rw [nfr]
        · exact iv j k (by omega) h1 h2
        · intro k' h1' h2'
          have := stride_index_ne M j J (k - 1) (k' - 1) (by omega) (by omega)
          omega
    · intro idx hidx
      rw [nfr idx (fun k h1 h2 => hidx J k (by omega) h1 h2)]
      exact ifr idx (fun j k hj h1 h2 => hidx j k (by omega) h1 h2)

/-- One stage of the twiddle generation in closed form, for any radix and section size:
the pointer and `fstride` after it, the `(radix - 1) * mstride` entries it writes, and the
entries below and above them, which it keeps. -/
theorem twiddle_gen_stage_closed {R : Type} [Field R] (pi : R) (cos sin : R → R) (ncfft : Int)
    (factors : Nat → Int) (sc : Nat) (s : TwiddleGenState R) :
    (twiddle_gen_stage pi cos sin ncfft factors sc s).twiddles
      = s.twiddles + (factors (2 * sc + 1)).toNat * ((factors (2 * sc)).toNat - 1) ∧
    (twiddle_gen_stage pi cos sin ncfft factors sc s).fstride
      = s.fstride / (factors (2 * sc)).toNat ∧
    (∀ idx, idx < s.twiddles →
      (twiddle_gen_stage pi cos sin ncfft factors sc s).table idx = s.table idx) ∧
    (∀ idx, s.twiddles + (factors (2 * sc + 1)).toNat * ((factors (2 * sc)).toNat - 1) ≤ idx →
      (twiddle_gen_stage pi cos sin ncfft factors sc s).table idx = s.table idx) ∧
    (∀ j k, j < (factors (2 * sc + 1)).toNat → 1 ≤ k → k < (factors (2 * sc)).toNat →
      (twiddle_gen_stage pi cos sin ncfft factors sc s).table
          (s.twiddles + ((factors (2 * sc + 1)).toNat * (k - 1) + j))
        = ⟨cos (-2 * pi * ((s.fstride / (factors (2 * sc)).toNat : ℕ) : R) * (k : R) * (j : R)
              / (ncfft : R)),
           sin (-2 * pi * ((s.fstride / (factors (2 * sc)).toNat : ℕ) : R) * (k : R) * (j : R)
              / (ncfft : R))⟩) := by
  generalize hr : (factors (2 * sc)).toNat = r
  generalize hm : (factors (2 * sc + 1)).toNat = M
  simp only [twiddle_gen_stage, hr, hm]
  obtain ⟨hv, hf⟩ := twiddle_outer_closed
    (fun (k j : ℕ) => (⟨cos (-2 * pi * ((s.fstride / r : ℕ) : R) * (k : R) * (j : R)
        / (ncfft : R)),
      sin (-2 * pi * ((s.fstride / r : ℕ) : R) * (k : R) * (j : R) / (ncfft : R))⟩ :
        ne10_fft_cpx_float32_t R))
    s.twiddles M (r - 1) s.table M (le_refl M)
  refine ⟨trivial, trivial, ?_, ?_, ?_⟩
  · intro idx hidx
    exact hf idx (fun j k _ _ _ => by omega)
  · intro idx hidx
    refine hf idx (fun j k hj h1 h2 => ?_)
    have h3 : M * (k - 1) + M ≤ M * (r - 1) := by
      have : M * (k - 1 + 1) ≤ M * (r - 1) := Nat.mul_le_mul_left M (by omega)
      rw [Nat.mul_add, Nat.mul_one] at this
      exact this
    omega
  · intro j k hj h1 h2
    exact hv j k hj h1 (by omega)

/-- The whole twiddle generation in closed form, for any factor buffer: the sub-table of
every stage `u` between 1 and the starting stage `sc`, the entries below the starting
pointer and the entries beyond the last sub-table, which it keeps. -/
theorem twiddle_gen_closed {R : Type} [Field R] (pi : R) (cos sin : R → R) (ncfft : Int)
    (factors : Nat → Int) (sc : Nat) :
    ∀ s : TwiddleGenState R,
      (∀ idx, idx < s.twiddles →
        (twiddle_gen pi cos sin ncfft factors sc s).table idx = s.table idx) ∧
      (∀ idx, s.twiddles + twiddle_offset factors sc 0 ≤ idx →
        (twiddle_gen pi cos sin ncfft factors sc s).table idx = s.table idx) ∧
      (∀ u j k, 1 ≤ u → u ≤ sc → j < (factors (2 * u + 1)).toNat → 1 ≤ k →
        k < (factors (2 * u)).toNat →
        (twiddle_gen pi cos sin ncfft factors sc s).table
            (s.twiddles + twiddle_offset factors sc u
              + ((factors (2 * u + 1)).toNat * (k - 1) + j))
          = ⟨cos (-2 * pi * ((twiddle_fstride factors sc s.fstride u : ℕ) : R) * (k : R)
                * (j : R) / (ncfft : R)),
             sin (-2 * pi * ((twiddle_fstride factors sc s.fstride u : ℕ) : R) * (k : R)
                * (j : R) / (ncfft : R))⟩) := by
  induction sc with
  | zero =>
    intro s
    refine ⟨fun _ _ => rfl, fun _ _ => rfl, ?_⟩
    intro u j k h1 h2
    omega
  | succ sc ih =>
    intro s
    obtain ⟨g1, g2, g3, g4, g5⟩ := twiddle_gen_stage_closed pi cos sin ncfft factors (sc + 1) s
    obtain ⟨i1, i2, i3⟩ := ih (twiddle_gen_stage pi cos sin ncfft factors (sc + 1) s)
    rw [g1] at i1 i2 i3
    rw [g2] at i3
    have hoff0 : twiddle_offset factors (sc + 1) 0
        = (factors (2 * (sc + 1) + 1)).toNat * ((factors (2 * (sc + 1))).toNat - 1)
          + twiddle_offset factors sc 0 := by
      rw [twiddle_offset, if_neg (by omega)]
    show (∀ idx, idx < s.twiddles →
        (twiddle_gen pi cos sin ncfft factors sc
          (twiddle_gen_stage pi cos sin ncfft factors (sc + 1) s)).table idx = s.table idx) ∧
      (∀ idx, s.twiddles + twiddle_offset factors (sc + 1) 0 ≤ idx →
        (twiddle_gen pi cos sin ncfft factors sc
          (twiddle_gen_stage pi cos sin ncfft factors (sc + 1) s)).table idx = s.table idx) ∧
      (∀ u j k, 1 ≤ u → u ≤ sc + 1 → j < (factors (2 * u + 1)).toNat → 1 ≤ k →
        k < (factors (2 * u)).toNat →
        (twiddle_gen pi cos sin ncfft factors sc
          (twiddle_gen_stage pi cos sin ncfft factors (sc + 1) s)).table
            (s.twiddles + twiddle_offset factors (sc + 1) u
              + ((factors (2 * u + 1)).toNat * (k - 1) + j))
          = ⟨cos (-2 * pi * ((twiddle_fstride factors (sc + 1) s.fstride u : ℕ) : R) * (k : R)
                * (j : R) / (ncfft : R)),
             sin (-2 * pi * ((twiddle_fstride factors (sc + 1) s.fstride u : ℕ) : R) * (k : R)
                * (j : R) / (ncfft : R))⟩)
    refine ⟨?_, ?_, ?_⟩
    · intro idx hidx
      rw [i1 idx (by omega)]
      exact g3 idx hidx
    · intro idx hidx
      rw [hoff0] at hidx
      rw [i2 idx (by omega)]
      exact g4 idx (by omega)
    · intro u j k h1 h2 hj hk1 hk2
      by_cases hu : u = sc + 1
      · subst hu
        have hoff : twiddle_offset factors (sc + 1) (sc + 1) = 0 := by
          rw [twiddle_offset, if_pos rfl]
        have hfs : twiddle_fstride factors (sc + 1) s.fstride (sc + 1)
            = s.fstride / (factors (2 * (sc + 1))).toNat := by
          rw [twiddle_fstride, if_pos rfl]
        rw [hoff, hfs, Nat.add_zero]
        have hlt : (factors (2 * (sc + 1) + 1)).toNat * (k - 1) + j
            < (factors (2 * (sc + 1) + 1)).toNat * ((factors (2 * (sc + 1))).toNat - 1) := by
          have : (factors (2 * (sc + 1) + 1)).toNat * (k - 1 + 1)
              ≤ (factors (2 * (sc + 1) + 1)).toNat * ((factors (2 * (sc + 1))).toNat - 1) :=
            Nat.mul_le_mul_left _ (by omega)
          rw [Nat.mul_add, Nat.mul_one] at this
          omega
        rw [i1 _ (by omega)]
        exact g5 j k hj hk1 hk2
      · have hoff : twiddle_offset factors (sc + 1) u
            = (factors (2 * (sc + 1) + 1)).toNat * ((factors (2 * (sc + 1))).toNat - 1)
              + twiddle_offset factors sc u := by
          rw [twiddle_offset, if_neg hu]
        have hfs : twiddle_fstride factors (sc + 1) s.fstride u
            = twiddle_fstride factors sc (s.fstride / (factors (2 * (sc + 1))).toNat) u := by
          rw [twiddle_fstride, if_neg hu]
        have e : s.twiddles
              + ((factors (2 * (sc + 1) + 1)).toNat * ((factors (2 * (sc + 1))).toNat - 1)
                + twiddle_offset factors sc u)
              + ((factors (2 * u + 1)).toNat * (k - 1) + j)
            = s.twiddles
              + (factors (2 * (sc + 1) + 1)).toNat * ((factors (2 * (sc + 1))).toNat - 1)
              + twiddle_offset factors sc u
              + ((factors (2 * u + 1)).toNat * (k - 1) + j) := by
          omega
        rw [hoff, hfs, e]
        exact i3 u j k h1 (by omega) hj hk1 hk2

/-- What a successful factoring leaves in the buffer, as the twiddle generation needs it:
the stage count, the first-stage stride, positive radices, and sizes that telescope. -/
theorem ne10_factor_plan_facts (n : Int) (buf : Nat → Int) (flags : Int) (hn : 0 < n)
    (hS : ¬ (ne10_factor_loop flags (ne10_factor_init n buf)).stage_num > 21) :
    ∃ sn : ℕ, 1 ≤ sn ∧ (ne10_factor_body n buf flags).2 0 = (sn : Int) ∧
      (ne10_factor_body n buf flags).2 1 = n / (ne10_factor_body n buf flags).2 (2 * sn) ∧
      (∀ j, j < sn → 0 < (ne10_factor_body n buf flags).2 (2 * (j + 1))) ∧
      (∀ j, j < sn →
        (ne10_factor_body n buf flags).2 (2 * (j + 1))
            * (ne10_factor_body n buf flags).2 (2 * (j + 1) + 1)
          = if j = 0 then n else (ne10_factor_body n buf flags).2 (2 * j + 1)) ∧
      (∏ j in Finset.range sn, (ne10_factor_body n buf flags).2 (2 * (j + 1))) = n := by
  obtain ⟨e0, e1, ek, _⟩ := ne10_factor_body_entries n buf flags hn hS
  obtain ⟨hinv, hn1⟩ := ne10_factor_loop_inv n buf flags hn
  obtain ⟨_, _, h1, hprod, hpair, _, hp⟩ := hinv
  obtain ⟨_, _, hset, _, _⟩ := ne10_factor_loop_radix n buf flags hn
  generalize ne10_factor_loop flags (ne10_factor_init n buf) = s at e0 e1 ek hn1 h1 hprod hpair hp hset
  generalize (ne10_factor_body n buf flags).2 = fb at e0 e1 ek
  refine ⟨s.stage_num, h1, e0, ?_, ?_, ?_, ?_⟩
  · rw [e1, ek _ (by omega) (by omega), hp]
  · intro j hj
    rw [ek _ (by omega) (by omega)]
    rcases hset j hj with h | h
    · omega
    · exact h.2.2.1
  · intro j hj
    rw [ek _ (by omega) (by omega), ek _ (by omega) (by omega), hpair j hj]
    by_cases hj0 : j = 0
    · rw [if_pos hj0, if_pos hj0]
    · rw [if_neg hj0, if_neg hj0, ek _ (by omega) (by omega)]
  · rw [hn1, mul_one] at hprod
    rw [← hprod]
    apply Finset.prod_congr rfl
    intro j hj
    have := Finset.mem_range.mp hj
    rw [ek _ (by omega) (by omega)]

/-- The radices of the first `u` recorded pairs times the size of pair `u` give `n`. -/
theorem factor_prefix_size (fb : Nat → Int) (n : Int) (sn : ℕ)
    (hpair : ∀ j, j < sn →
      fb (2 * (j + 1)) * fb (2 * (j + 1) + 1) = if j = 0 then n else fb (2 * j + 1))
    (u : ℕ) (h1 : 1 ≤ u) (hu : u ≤ sn) :
    (∏ j in Finset.range u, fb (2 * (j + 1))) * fb (2 * u + 1) = n := by
  induction u with
  | zero => omega
  | succ u ih =>
    by_cases hu0 : u = 0
    · subst hu0
      have := hpair 0 (by omega)
      simpa using this
    · have hp := hpair u (by omega)
      rw [if_neg hu0] at hp
      rw [Finset.prod_range_succ, mul_assoc, hp]
      exact ih (by omega) (by omega)

/-- The running `fstride` of the twiddle generation, started at the product of the first
`sc` radices, is at stage `u` the product of the radices of the pairs before `u`. -/
theorem twiddle_fstride_prefix (fb : Nat → Int) (sc : ℕ) :
    ∀ u, 1 ≤ u → u ≤ sc → (∀ j, j < sc → 0 < fb (2 * (j + 1))) →
      twiddle_fstride fb sc (∏ j in Finset.range sc, (fb (2 * (j + 1))).toNat) u
        = ∏ j in Finset.range (u - 1), (fb (2 * (j + 1))).toNat := by
  induction sc with
  | zero =>
    intro u h1 h2
    omega
  | succ sc ih =>
    intro u h1 h2 hp
    have hr : 0 < (fb (2 * (sc + 1))).toNat := by
      have := hp sc (by omega)
      omega
    have hdiv : (∏ j in Finset.range (sc + 1), (fb (2 * (j + 1))).toNat)
        / (fb (2 * (sc + 1))).toNat = ∏ j in Finset.range sc, (fb (2 * (j + 1))).toNat := by
      rw [Finset.prod_range_succ]
      exact Nat.mul_div_cancel _ hr
    by_cases hu : u = sc + 1
    · subst hu
      rw [twiddle_fstride, if_pos rfl, hdiv]
      rfl
    · rw [twiddle_fstride, if_neg hu, hdiv]
      exact ih u h1 (by omega) (fun j hj => hp j (by omega))

theorem prod_toNat_cast (fb : Nat → Int) (u : ℕ) (hp : ∀ j, j < u → 0 < fb (2 * (j + 1))) :
    ((∏ j in Finset.range u, (fb (2 * (j + 1))).toNat : ℕ) : Int)
      = ∏ j in Finset.range u, fb (2 * (j + 1)) := by
  rw [Nat.cast_prod]
  apply Finset.prod_congr rfl
  intro j hj
  have := hp j (Finset.mem_range.mp hj)
  exact Int.toNat_of_nonneg (by omega)

/-- The running `fstride` of the twiddle generation of a successful plan, at stage `u`:
`ncfft / (radix * mstride)`. -/
theorem twiddle_fstride_plan (n : Int) (buf : Nat → Int) (flags : Int) (hn : 0 < n)
    (hS : ¬ (ne10_factor_loop flags (ne10_factor_init n buf)).stage_num > 21)
    (u : ℕ) (h1 : 1 ≤ u) (hu : u < ((ne10_factor_body n buf flags).2 0).toNat) :
    ((twiddle_fstride (ne10_factor_body n buf flags).2
        (((ne10_factor_body n buf flags).2 0).toNat - 1)
        ((ne10_factor_body n buf flags).2 1).toNat u : ℕ) : Int)
      = n / ((ne10_factor_body n buf flags).2 (2 * u)
          * (ne10_factor_body n buf flags).2 (2 * u + 1)) := by
  obtain ⟨sn, hsn, e0, e1, hpos, hpair, hprod⟩ := ne10_factor_plan_facts n buf flags hn hS
  generalize (ne10_factor_body n buf flags).2 = fb at e0 e1 hpos hpair hprod hu ⊢
  have h0 : (fb 0).toNat = sn := by rw [e0]; exact Int.toNat_natCast _
  rw [h0] at hu ⊢
  have hsn' : sn = (sn - 1) + 1 := by omega
  -- the first-stage stride is the product of the radices before the last
  have hf0 : (fb 1).toNat = ∏ j in Finset.range (sn - 1), (fb (2 * (j + 1))).toNat := by
    have hc := prod_toNat_cast fb (sn - 1) (fun j hj => hpos j (by omega))
    have hlast : 0 < fb (2 * sn) := by
      have := hpos (sn - 1) (by omega)
      rw [← hsn'] at this
      exact this
    have hsplit : (∏ j in Finset.range (sn - 1), fb (2 * (j + 1))) * fb (2 * sn) = n := by
      rw [← hprod]
      conv_rhs => rw [hsn', Finset.prod_range_succ, ← hsn']
    have : fb 1 = ∏ j in Finset.range (sn - 1), fb (2 * (j + 1)) := by
      rw [e1, ← hsplit]
      exact Int.mul_ediv_cancel _ (by omega)
    rw [this, ← hc]
    exact Int.toNat_natCast _
  rw [hf0, twiddle_fstride_prefix fb (sn - 1) u h1 (by omega) (fun j hj => hpos j (by omega)),
    prod_toNat_cast fb (u - 1) (fun j hj => hpos j (by omega))]
  -- the size before pair `u`
  have hp := hpair (u - 1) (by omega)
  have e2 : 2 * (u - 1 + 1) = 2 * u := by omega
  rw [e2] at hp
  rw [hp]
  by_cases hu1 : u - 1 = 0
  · rw [if_pos hu1, hu1, Finset.prod_range_zero]
    exact (Int.ediv_self (by omega)).symm
  · rw [if_neg hu1]
    have hA := factor_prefix_size fb n sn hpair (u - 1) (by omega) (by omega)
    have hPpos : 0 < ∏ j in Finset.range (u - 1), fb (2 * (j + 1)) :=
      Finset.prod_pos (fun j hj => hpos j (by have := Finset.mem_range.mp hj; omega))
    have hsz : fb (2 * (u - 1) + 1) ≠ 0 := by
      intro hz
      rw [hz, mul_zero] at hA
      omega
    rw [← hA]
    exact (Int.mul_ediv_cancel _ hsz).symm

/-- C18 (twiddle table contents): for every plan that the allocator returns and every
stage `u` recorded before the last pair (`1 <= u < stage_count`, the engine's non-first
stages), with radix `r = factors[2u]`, section size `mstride = factors[2u+1]` and
`fstride = ncfft / (r * mstride)`, the sub-table of the stage starts at the total size of
the sub-tables generated before it and holds at offset `mstride * (k - 1) + j` the pair
`(cos t, sin t)`, `t = -2 π fstride k j / ncfft`, for `j < mstride` and `1 <= k < r`;
nothing is stored beyond the sub-tables, so no entry exists for `k = 0`. -/
theorem ne10_fft_alloc_twiddles (st cfg : ne10_fft_r2c_state_float32_t ℝ) (nfft : Int)
    (halloc : ne10_fft_alloc_r2c_float32 Real.pi Real.cos Real.sin (some st) nfft = some cfg) :
    (∀ u j k : ℕ, 1 ≤ u → u < (cfg.factors 0).toNat → j < (cfg.factors (2 * u + 1)).toNat →
      1 ≤ k → k < (cfg.factors (2 * u)).toNat →
      cfg.twiddles (twiddle_offset cfg.factors ((cfg.factors 0).toNat - 1) u
          + ((cfg.factors (2 * u + 1)).toNat * (k - 1) + j))
        = ⟨Real.cos (-2 * Real.pi
              * ((cfg.ncfft / (cfg.factors (2 * u) * cfg.factors (2 * u + 1)) : Int) : ℝ)
              * (k : ℝ) * (j : ℝ) / (cfg.ncfft : ℝ)),
           Real.sin (-2 * Real.pi
              * ((cfg.ncfft / (cfg.factors (2 * u) * cfg.factors (2 * u + 1)) : Int) : ℝ)
              * (k : ℝ) * (j : ℝ) / (cfg.ncfft : ℝ))⟩) ∧
    (∀ idx, twiddle_offset cfg.factors ((cfg.factors 0).toNat - 1) 0 ≤ idx →
      cfg.twiddles idx = st.twiddles idx) := by
  obtain ⟨h2, hS, hcfg⟩ := alloc_eq_some _ _ _ _ _ _ halloc
  have hn : 0 < nfft / 2 := by omega
  subst hcfg
  simp only
  have hsc : ((ne10_factor_body (nfft / 2) st.factors NE10_FACTOR_EIGHT_FIRST_STAGE).2 0 - 1).toNat
      = ((ne10_factor_body (nfft / 2) st.factors NE10_FACTOR_EIGHT_FIRST_STAGE).2 0).toNat - 1 := by
    omega
  rw [hsc]
  obtain ⟨c1, c2, c3⟩ := twiddle_gen_closed Real.pi Real.cos Real.sin (nfft / 2)
    (ne10_factor_body (nfft / 2) st.factors NE10_FACTOR_EIGHT_FIRST_STAGE).2
    (((ne10_factor_body (nfft / 2) st.factors NE10_FACTOR_EIGHT_FIRST_STAGE).2 0).toNat - 1)
    { table := st.twiddles, twiddles := 0,
      fstride := ((ne10_factor_body (nfft / 2) st.factors
        NE10_FACTOR_EIGHT_FIRST_STAGE).2 1).toNat }
  refine ⟨?_, ?_⟩
  · intro u j k h1 hu hj hk1 hk2
    have hv := c3 u j k h1 (by omega) hj hk1 hk2
    simp only [Nat.zero_add] at hv
    rw [hv]
    have hf := twiddle_fstride_plan (nfft / 2) st.factors NE10_FACTOR_EIGHT_FIRST_STAGE hn hS
      u h1 hu
    have hfR : ((twiddle_fstride
          (ne10_factor_body (nfft / 2) st.factors NE10_FACTOR_EIGHT_FIRST_STAGE).2
          (((ne10_factor_body (nfft / 2) st.factors NE10_FACTOR_EIGHT_FIRST_STAGE).2 0).toNat - 1)
          ((ne10_factor_body (nfft / 2) st.factors NE10_FACTOR_EIGHT_FIRST_STAGE).2 1).toNat u
            : ℕ) : ℝ)
        = ((nfft / 2 / ((ne10_factor_body (nfft / 2) st.factors
              NE10_FACTOR_EIGHT_FIRST_STAGE).2 (2 * u)
            * (ne10_factor_body (nfft / 2) st.factors
              NE10_FACTOR_EIGHT_FIRST_STAGE).2 (2 * u + 1)) : Int) : ℝ) := by
      rw [← hf]
      norm_cast
    rw [hfR]
  · intro idx hidx
    have := c2 idx (by simpa using hidx)
    exact this

/-- Witness for C18: the plan for the real length 24 (`ncfft = 12`, stages of radix 4 and
3) on the zero block. -/
theorem ne10_fft_alloc_twiddles_witness :
    ∃ cfg : ne10_fft_r2c_state_float32_t ℝ,
      ne10_fft_alloc_r2c_float32 Real.pi Real.cos Real.sin (some (zero_block ℝ)) 24 = some cfg ∧
      (∀ u j k : ℕ, 1 ≤ u → u < (cfg.factors 0).toNat → j < (cfg.factors (2 * u + 1)).toNat →
        1 ≤ k → k < (cfg.factors (2 * u)).toNat →
        cfg.twiddles (twiddle_offset cfg.factors ((cfg.factors 0).toNat - 1) u
            + ((cfg.factors (2 * u + 1)).toNat * (k - 1) + j))
          = ⟨Real.cos (-2 * Real.pi
                * ((cfg.ncfft / (cfg.factors (2 * u) * cfg.factors (2 * u + 1)) : Int) : ℝ)
                * (k : ℝ) * (j : ℝ) / (cfg.ncfft : ℝ)),
             Real.sin (-2 * Real.pi
                * ((cfg.ncfft / (cfg.factors (2 * u) * cfg.factors (2 * u + 1)) : Int) : ℝ)
                * (k : ℝ) * (j : ℝ) / (cfg.ncfft : ℝ))⟩) ∧
      (∀ idx, twiddle_offset cfg.factors ((cfg.factors 0).toNat - 1) 0 ≤ idx →
        cfg.twiddles idx = (zero_block ℝ).twiddles idx) :=
  have halloc := alloc_some_eq Real.pi Real.cos Real.sin (zero_block ℝ) 24 (by norm_num)
    (by
      have hb := ne10_factor_loop_stage_le ((24 : ℤ) / 2) (zero_block ℝ).factors
        NE10_FACTOR_EIGHT_FIRST_STAGE (by norm_num) (by norm_num)
      omega)
  ⟨_, halloc, ne10_fft_alloc_twiddles (zero_block ℝ) _ 24 halloc⟩

/-! ## The `kIntelPerm` and `kIntelCCS` layouts that `Do_fftr` writes -/

/-- A loop that stores a real and an imaginary part through a moving pointer, after `t`
passes starting at bin `a` with the pointer at `p`: the pointer is at `p + 2 t`, and the
`2 t` floats from `p` on hold the pairs of the bins `a, a + 1, ...`. -/
theorem pair_fold {R : Type} (re im : ℕ → R) (a p : ℕ) (d : ℕ → R) (t : ℕ) :
    ((List.range' a t).foldl
        (fun (s : (Nat → R) × Nat) (idx : Nat) =>
          (Function.update (Function.update s.1 s.2 (re idx)) (s.2 + 1) (im idx), s.2 + 2))
        (d, p)).2 = p + 2 * t ∧
    ∀ j, ((List.range' a t).foldl
        (fun (s : (Nat → R) × Nat) (idx : Nat) =>
          (Function.update (Function.update s.1 s.2 (re idx)) (s.2 + 1) (im idx), s.2 + 2))
        (d, p)).1 j
      = if p ≤ j ∧ j < p + 2 * t then
          (if (j - p) % 2 = 0 then re (a + (j - p) / 2) else im (a + (j - p) / 2))
        else d j := by
  induction t with
  | zero =>
    refine ⟨rfl, fun j => ?_⟩
    rw [if_neg (by omega)]
    rfl
  | succ t ih =>
    obtain ⟨hp, hv⟩ := ih
    rw [List.range'_concat, List.foldl_append, List.foldl_cons, List.foldl_nil]
    refine ⟨?_, fun j => ?_⟩
    · show _ + 2 = _
      rw [hp]; ring
    · show Function.update (Function.update _ _ _) _ _ j = _
      rw [hp]
      by_cases h1 : j = p + 2 * t + 1
      · rw [h1, Function.update_same, if_pos (by omega), if_neg (by omega)]
        congr 1
        omega
      · rw [Function.update_noteq h1]
        by_cases h2 : j = p + 2 * t
        · rw [h2, Function.update_same, if_pos (by omega), if_pos (by omega)]
          congr 1
          omega
        · rw [Function.update_noteq h2, hv j]
          have e : (p ≤ j ∧ j < p + 2 * (t + 1)) ↔ (p ≤ j ∧ j < p + 2 * t) := by omega
          simp only [e]

/-- What the `kIntelPerm` case leaves in `data_out`, for `fft_len / 2 = h`. -/
theorem Do_fftr_perm_closed {R : Type} [Field R] (d : ℕ → R)
    (cx : ℕ → ne10_fft_cpx_float32_t R) (fft_len : Int) (h : ℕ) (hh : (fft_len / 2).toNat = h)
    (j : ℕ) :
    Do_fftr_perm d cx fft_len j
      = if j = 0 then (cx 0).r
        else if j = 1 then (cx h).r
        else if j < 2 * h then (if j % 2 = 0 then (cx (j / 2)).r else (cx (j / 2)).i)
        else d j := by
  simp only [Do_fftr_perm, hh]
  rw [(pair_fold (fun idx => (cx idx).r) (fun idx => (cx idx).i) 1 2 _ (h - 1)).2 j]
  by_cases c0 : j = 0
  · subst c0
    rw [if_neg (by omega), if_pos rfl, Function.update_noteq (by omega), Function.update_same]
  · rw [if_neg c0]
    by_cases c1 : j = 1
    · subst c1
      rw [if_neg (by omega), if_pos rfl, Function.update_same]
    · rw [if_neg c1]
      by_cases c2 : j < 2 * h
      · rw [if_pos (by omega), if_pos c2]
        have e1 : (j - 2) % 2 = j % 2 := by omega
        have e2 : 1 + (j - 2) / 2 = j / 2 := by omega
        rw [e1, e2]
      · rw [if_neg (by omega), if_neg c2, Function.update_noteq c1, Function.update_noteq c0]

/-- What the `kIntelCCS` case leaves in `data_out`, for `fft_len / 2 = h`. -/
theorem Do_fftr_ccs_closed {R : Type} [Field R] (d : ℕ → R)
    (cx : ℕ → ne10_fft_cpx_float32_t R) (fft_len : Int) (h : ℕ) (hh : (fft_len / 2).toNat = h)
    (j : ℕ) :
    Do_fftr_ccs d cx fft_len j
      = if j < 2 * h + 2 then (if j % 2 = 0 then (cx (j / 2)).r else (cx (j / 2)).i)
        else d j := by
  simp only [Do_fftr_ccs, hh, List.range_eq_range']
  rw [(pair_fold (fun idx => (cx idx).r) (fun idx => (cx idx).i) 0 0 _ (h + 1)).2 j]
  have e : (0 ≤ j ∧ j < 2 * (h + 1)) ↔ j < 2 * h + 2 := by omega
  simp only [Nat.sub_zero, Nat.zero_add, e]

/-- What `Do_fftr` returns when the plan exists and the spectrum fits the local array. -/
theorem Do_fftr_some {R : Type} [Field R] (TW_81 pi : R) (cos sin : R → R)
    (st : Option (ne10_fft_r2c_state_float32_t R)) (cfg : ne10_fft_r2c_state_float32_t R)
    (cx_out : Nat → ne10_fft_cpx_float32_t R) (d x : Nat → R) (fft_len format : Int)
    (halloc : ne10_fft_alloc_r2c_float32 pi cos sin st fft_len = some cfg)
    (hcap : fft_len / 2 ≤ 2048) :
    Do_fftr TW_81 pi cos sin st cx_out (some d) (some x) fft_len format
      = some (some
          (if format = kHalfComplexInPlace then
            Do_fftr_half_complex d (ne10_fft_r2c_1d_float32_c TW_81 cx_out x cfg).1 fft_len
          else if format = kIntelPerm then
            Do_fftr_perm d (ne10_fft_r2c_1d_float32_c TW_81 cx_out x cfg).1 fft_len
          else if format = kIntelCCS then
            Do_fftr_ccs d (ne10_fft_r2c_1d_float32_c TW_81 cx_out x cfg).1 fft_len
          else d)) := by
  simp only [Do_fftr, halloc]
  rw [if_neg (by omega)]

/-- C21: for every even length `fft_len` that has a plan and whose spectrum fits the local
array (`fft_len / 2 <= 2048`), `Do_fftr` with `kIntelPerm` returns normally and leaves in
`data_out`: `Re X[0]` at 0, `Re X[fft_len/2]` at 1, `Re X[k]` at `2k` and `Im X[k]` at
`2k + 1` for `1 <= k < fft_len/2`, and the old contents from index `fft_len` on (exactly
`fft_len` floats are written), where `X` is the spectrum the core computes. -/
theorem Do_fftr_perm_layout {R : Type} [Field R] (TW_81 pi : R) (cos sin : R → R)
    (st : Option (ne10_fft_r2c_state_float32_t R)) (cfg : ne10_fft_r2c_state_float32_t R)
    (cx_out : Nat → ne10_fft_cpx_float32_t R) (d x : Nat → R) (fft_len : Int)
    (halloc : ne10_fft_alloc_r2c_float32 pi cos sin st fft_len = some cfg)
    (hcap : fft_len / 2 ≤ 2048) (heven : fft_len % 2 = 0) :
    ∃ out : Nat → R,
      Do_fftr TW_81 pi cos sin st cx_out (some d) (some x) fft_len kIntelPerm
        = some (some out) ∧
      out 0 = ((ne10_fft_r2c_1d_float32_c TW_81 cx_out x cfg).1 0).r ∧
      out 1 = ((ne10_fft_r2c_1d_float32_c TW_81 cx_out x cfg).1 (fft_len / 2).toNat).r ∧
      (∀ k, 1 ≤ k → k < (fft_len / 2).toNat →
        out (2 * k) = ((ne10_fft_r2c_1d_float32_c TW_81 cx_out x cfg).1 k).r ∧
        out (2 * k + 1) = ((ne10_fft_r2c_1d_float32_c TW_81 cx_out x cfg).1 k).i) ∧
      (∀ j, fft_len.toNat ≤ j → out j = d j) := by
  have hlen : 2 ≤ fft_len := by
    cases st with
    | none => simp [ne10_fft_alloc_r2c_float32] at halloc
    | some s => exact (alloc_eq_some pi cos sin s cfg fft_len halloc).1
  have hL : fft_len.toNat = 2 * (fft_len / 2).toNat := by omega
  have h1 : 1 ≤ (fft_len / 2).toNat := by omega
  refine ⟨Do_fftr_perm d (ne10_fft_r2c_1d_float32_c TW_81 cx_out x cfg).1 fft_len,
    ?_, ?_, ?_, ?_, ?_⟩
  · rw [Do_fftr_some TW_81 pi cos sin st cfg cx_out d x fft_len kIntelPerm halloc hcap]
    rw [if_neg (by decide), if_pos rfl]
  · rw [Do_fftr_perm_closed d _ fft_len _ rfl 0, if_pos rfl]
  · rw [Do_fftr_perm_closed d _ fft_len _ rfl 1, if_neg (by omega), if_pos rfl]
  · intro k hk1 hk2
    have e1 : 2 * k / 2 = k := by omega
    have e2 : (2 * k + 1) / 2 = k := by omega
    constructor
    · rw [Do_fftr_perm_closed d _ fft_len _ rfl (2 * k), if_neg (by omega), if_neg (by omega),
        if_pos (by omega), if_pos (by omega), e1]
    · rw [Do_fftr_perm_closed d _ fft_len _ rfl (2 * k + 1), if_neg (by omega),
        if_neg (by omega), if_pos (by omega), if_neg (by omega), e2]
  · intro j hj
    rw [Do_fftr_perm_closed d _ fft_len _ rfl j, if_neg (by omega), if_neg (by omega),
      if_neg (by omega)]

/-- C21 at a concrete input: the length 8 with the allocator's plan, the impulse input and
an output array holding 7. -/
theorem Do_fftr_perm_layout_witness :
    ∃ cfg : ne10_fft_r2c_state_float32_t ℝ,
      ne10_fft_alloc_r2c_float32 Real.pi Real.cos Real.sin (some (zero_block ℝ)) 8 = some cfg ∧
      ∃ out : Nat → ℝ,
        Do_fftr (Real.sqrt 2 / 2) Real.pi Real.cos Real.sin (some (zero_block ℝ))
            (fun _ => ⟨0, 0⟩) (some (fun _ => 7)) (some (fun t => if t = 0 then 1 else 0)) 8
            kIntelPerm
          = some (some out) ∧
        out 0 = ((ne10_fft_r2c_1d_float32_c (Real.sqrt 2 / 2) (fun _ => ⟨0, 0⟩)
          (fun t => if t = 0 then 1 else 0) cfg).1 0).r ∧
        out 1 = ((ne10_fft_r2c_1d_float32_c (Real.sqrt 2 / 2) (fun _ => ⟨0, 0⟩)
          (fun t => if t = 0 then 1 else 0) cfg).1 ((8 : ℤ) / 2).toNat).r ∧
        (∀ k, 1 ≤ k → k < ((8 : ℤ) / 2).toNat →
          out (2 * k) = ((ne10_fft_r2c_1d_float32_c (Real.sqrt 2 / 2) (fun _ => ⟨0, 0⟩)
            (fun t => if t = 0 then 1 else 0) cfg).1 k).r ∧
          out (2 * k + 1) = ((ne10_fft_r2c_1d_float32_c (Real.sqrt 2 / 2) (fun _ => ⟨0, 0⟩)
            (fun t => if t = 0 then 1 else 0) cfg).1 k).i) ∧
        (∀ j, (8 : ℤ).toNat ≤ j → out j = (fun _ => (7 : ℝ)) j) := by
  obtain ⟨cfg, hcfg⟩ := alloc_pow2_some (zero_block ℝ) 2 (by norm_num)
  have e : (2 : ℤ) ^ (2 + 1) = 8 := by norm_num
  rw [e] at hcfg
  exact ⟨cfg, hcfg, Do_fftr_perm_layout (Real.sqrt 2 / 2) Real.pi Real.cos Real.sin
    (some (zero_block ℝ)) cfg (fun _ => ⟨0, 0⟩) (fun _ => 7) (fun t => if t = 0 then 1 else 0)
    8 hcfg (by decide) (by decide)⟩

/-- The plan's `ncfft` is half the length. -/
theorem alloc_ncfft {R : Type} [Field R] (pi : R) (cos sin : R → R)
    (st : Option (ne10_fft_r2c_state_float32_t R)) (cfg : ne10_fft_r2c_state_float32_t R)
    (nfft : Int) (h : ne10_fft_alloc_r2c_float32 pi cos sin st nfft = some cfg) :
    2 ≤ nfft ∧ cfg.ncfft = nfft / 2 := by
  cases st with
  | none => simp [ne10_fft_alloc_r2c_float32] at h
  | some s =>
    obtain ⟨h2, _, hc⟩ := alloc_eq_some pi cos sin s cfg nfft h
    exact ⟨h2, by rw [hc]⟩

/-- The first and the last bin that the core's forward transform writes have imaginary
part 0, whatever the plan. -/
theorem r2c_boundary_imag {R : Type} [Field R] (TW_81 : R)
    (fout : Nat → ne10_fft_cpx_float32_t R) (fin : Nat → R)
    (cfg : ne10_fft_r2c_state_float32_t R) (hn : 1 ≤ cfg.ncfft.toNat) :
    ((ne10_fft_r2c_1d_float32_c TW_81 fout fin cfg).1 0).i = 0 ∧
    ((ne10_fft_r2c_1d_float32_c TW_81 fout fin cfg).1 cfg.ncfft.toNat).i = 0 := by
  simp only [ne10_fft_r2c_1d_float32_c]
  constructor
  · rw [split_r2c_closed _ _ _ _ hn 0 (by omega), if_pos rfl]
  · rw [split_r2c_closed _ _ _ _ hn _ (le_refl _), if_neg (by omega), if_pos rfl]

/-- C22: for every even length `fft_len` that has a plan and whose spectrum fits the local
array, `Do_fftr` with `kIntelCCS` returns normally and leaves in `data_out` the pairs
`Re X[k], Im X[k]` at `2k, 2k + 1` for `0 <= k <= fft_len/2`, with `data_out[1] = 0` and
`data_out[fft_len + 1] = 0` for every input, and the old contents from index
`fft_len + 2` on (exactly `fft_len + 2` floats are written). -/
theorem Do_fftr_ccs_layout {R : Type} [Field R] (TW_81 pi : R) (cos sin : R → R)
    (st : Option (ne10_fft_r2c_state_float32_t R)) (cfg : ne10_fft_r2c_state_float32_t R)
    (cx_out : Nat → ne10_fft_cpx_float32_t R) (d x : Nat → R) (fft_len : Int)
    (halloc : ne10_fft_alloc_r2c_float32 pi cos sin st fft_len = some cfg)
    (hcap : fft_len / 2 ≤ 2048) (heven : fft_len % 2 = 0) :
    ∃ out : Nat → R,
      Do_fftr TW_81 pi cos sin st cx_out (some d) (some x) fft_len kIntelCCS
        = some (some out) ∧
      (∀ k, k ≤ (fft_len / 2).toNat →
        out (2 * k) = ((ne10_fft_r2c_1d_float32_c TW_81 cx_out x cfg).1 k).r ∧
        out (2 * k + 1) = ((ne10_fft_r2c_1d_float32_c TW_81 cx_out x cfg).1 k).i) ∧
      out 1 = 0 ∧ out (fft_len.toNat + 1) = 0 ∧
      (∀ j, fft_len.toNat + 2 ≤ j → out j = d j) := by
  obtain ⟨hlen, hnc⟩ := alloc_ncfft pi cos sin st cfg fft_len halloc
  have hL : fft_len.toNat = 2 * (fft_len / 2).toNat := by omega
  have hn : 1 ≤ cfg.ncfft.toNat := by rw [hnc]; omega
  obtain ⟨hi0, hin⟩ := r2c_boundary_imag TW_81 cx_out x cfg hn
  rw [hnc] at hin
  have hpair : ∀ k, k ≤ (fft_len / 2).toNat →
      Do_fftr_ccs d (ne10_fft_r2c_1d_float32_c TW_81 cx_out x cfg).1 fft_len (2 * k)
        = ((ne10_fft_r2c_1d_float32_c TW_81 cx_out x cfg).1 k).r ∧
      Do_fftr_ccs d (ne10_fft_r2c_1d_float32_c TW_81 cx_out x cfg).1 fft_len (2 * k + 1)
        = ((ne10_fft_r2c_1d_float32_c TW_81 cx_out x cfg).1 k).i := by
    intro k hk
    have e1 : 2 * k / 2 = k := by omega
    have e2 : (2 * k + 1) / 2 = k := by omega
    constructor
    · rw [Do_fftr_ccs_closed d _ fft_len _ rfl (2 * k), if_pos (by omega), if_pos (by omega),
        e1]
    · rw [Do_fftr_ccs_closed d _ fft_len _ rfl (2 * k + 1), if_pos (by omega),
        if_neg (by omega), e2]
  refine ⟨Do_fftr_ccs d (ne10_fft_r2c_1d_float32_c TW_81 cx_out x cfg).1 fft_len,
    ?_, hpair, ?_, ?_, ?_⟩
  · rw [Do_fftr_some TW_81 pi cos sin st cfg cx_out d x fft_len kIntelCCS halloc hcap]
    rw [if_neg (by decide), if_neg (by decide), if_pos rfl]
  · have := (hpair 0 (by omega)).2
    rw [show 2 * 0 + 1 = 1 from rfl] at this
    rw [this, hi0]
  · have := (hpair (fft_len / 2).toNat (le_refl _)).2
    rw [← hL] at this
    rw [this, hin]
  · intro j hj
    rw [Do_fftr_ccs_closed d _ fft_len _ rfl j, if_neg (by omega)]

/-- C22 at a concrete input: the length 8 with the allocator's plan, the impulse input and
an output array holding 7. -/
theorem Do_fftr_ccs_layout_witness :
    ∃ cfg : ne10_fft_r2c_state_float32_t ℝ,
      ne10_fft_alloc_r2c_float32 Real.pi Real.cos Real.sin (some (zero_block ℝ)) 8 = some cfg ∧
      ∃ out : Nat → ℝ,
        Do_fftr (Real.sqrt 2 / 2) Real.pi Real.cos Real.sin (some (zero_block ℝ))
            (fun _ => ⟨0, 0⟩) (some (fun _ => 7)) (some (fun t => if t = 0 then 1 else 0)) 8
            kIntelCCS
          = some (some out) ∧
        (∀ k, k ≤ ((8 : ℤ) / 2).toNat →
          out (2 * k) = ((ne10_fft_r2c_1d_float32_c (Real.sqrt 2 / 2) (fun _ => ⟨0, 0⟩)
            (fun t => if t = 0 then 1 else 0) cfg).1 k).r ∧
          out (2 * k + 1) = ((ne10_fft_r2c_1d_float32_c (Real.sqrt 2 / 2) (fun _ => ⟨0, 0⟩)
            (fun t => if t = 0 then 1 else 0) cfg).1 k).i) ∧
        out 1 = 0 ∧ out ((8 : ℤ).toNat + 1) = 0 ∧
        (∀ j, (8 : ℤ).toNat + 2 ≤ j → out j = (fun _ => (7 : ℝ)) j) := by
  obtain ⟨cfg, hcfg⟩ := alloc_pow2_some (zero_block ℝ) 2 (by norm_num)
  have e : (2 : ℤ) ^ (2 + 1) = 8 := by norm_num
  rw [e] at hcfg
  exact ⟨cfg, hcfg, Do_fftr_ccs_layout (Real.sqrt 2 / 2) Real.pi Real.cos Real.sin
    (some (zero_block ℝ)) cfg (fun _ => ⟨0, 0⟩) (fun _ => 7) (fun t => if t = 0 then 1 else 0)
    8 hcfg (by decide) (by decide)⟩


/-! ## The formula of the r2c split -/

/-- C25: for `ncfft >= 2` and a pass `1 <= k <= ncfft / 2` of the loop of
`ne10_fft_split_r2c_1d_float32`, with `f1 = src[k] + conj(src[ncfft-k])`,
`f2 = src[k] - conj(src[ncfft-k])` and `tw = f2 * twiddles[k-1]`: strictly below the
midpoint (`k < ncfft - k`) the call leaves `dst[k] = 0.5 (f1 + tw)` and
`dst[ncfft-k] = conj(0.5 (f1 - tw))`; at the midpoint (`k = ncfft - k`) both stores hit
index `k` and the call leaves `dst[k] = conj(0.5 (f1 - tw))`. -/
theorem ne10_fft_split_r2c_formula (dst src twiddles : ℕ → ne10_fft_cpx_float32_t ℝ)
    (ncfft k : ℕ) (hn : 2 ≤ ncfft) (hk1 : 1 ≤ k) (hk2 : k ≤ ncfft / 2) :
    (k < ncfft - k →
      toC (ne10_fft_split_r2c_1d_float32 dst src twiddles ncfft k)
        = ((1 / 2 : ℝ) : ℂ) * (toC (src k) + (starRingEnd ℂ) (toC (src (ncfft - k)))
            + (toC (src k) - (starRingEnd ℂ) (toC (src (ncfft - k))))
              * toC (twiddles (k - 1))) ∧
      toC (ne10_fft_split_r2c_1d_float32 dst src twiddles ncfft (ncfft - k))
        = (starRingEnd ℂ) (((1 / 2 : ℝ) : ℂ)
            * (toC (src k) + (starRingEnd ℂ) (toC (src (ncfft - k)))
              - (toC (src k) - (starRingEnd ℂ) (toC (src (ncfft - k))))
                * toC (twiddles (k - 1))))) ∧
    (k = ncfft - k →
      toC (ne10_fft_split_r2c_1d_float32 dst src twiddles ncfft k)
        = (starRingEnd ℂ) (((1 / 2 : ℝ) : ℂ)
            * (toC (src k) + (starRingEnd ℂ) (toC (src (ncfft - k)))
              - (toC (src k) - (starRingEnd ℂ) (toC (src (ncfft - k))))
                * toC (twiddles (k - 1))))) := by
  refine ⟨fun hlt => ⟨?_, ?_⟩, fun heq => ?_⟩
  · rw [split_r2c_closed dst src twiddles ncfft (by omega) k (by omega), if_neg (by omega),
      if_neg (by omega), if_neg (by omega), toC_split_r2c_store_k]
  · rw [split_r2c_closed dst src twiddles ncfft (by omega) (ncfft - k) (by omega),
      if_neg (by omega), if_neg (by omega), if_pos (by omega),
      show ncfft - (ncfft - k) = k by omega, toC_split_r2c_store_nk]
  · rw [split_r2c_closed dst src twiddles ncfft (by omega) k (by omega), if_neg (by omega),
      if_neg (by omega), if_pos (by omega), ← heq, toC_split_r2c_store_nk, ← heq]

/-- C25 at a concrete input: `ncfft = 4`, pass `k = 1`, which is below the midpoint. -/
theorem ne10_fft_split_r2c_formula_witness :
    toC (ne10_fft_split_r2c_1d_float32 (fun _ => ⟨0, 0⟩) (fun j => ⟨(j : ℝ), 1⟩)
        (fun _ => ⟨0, -1⟩) 4 1)
      = ((1 / 2 : ℝ) : ℂ)
        * (toC ((fun j : ℕ => (⟨(j : ℝ), 1⟩ : ne10_fft_cpx_float32_t ℝ)) 1)
          + (starRingEnd ℂ)
            (toC ((fun j : ℕ => (⟨(j : ℝ), 1⟩ : ne10_fft_cpx_float32_t ℝ)) (4 - 1)))
          + (toC ((fun j : ℕ => (⟨(j : ℝ), 1⟩ : ne10_fft_cpx_float32_t ℝ)) 1)
            - (starRingEnd ℂ)
              (toC ((fun j : ℕ => (⟨(j : ℝ), 1⟩ : ne10_fft_cpx_float32_t ℝ)) (4 - 1))))
            * toC ((fun _ : ℕ => (⟨0, -1⟩ : ne10_fft_cpx_float32_t ℝ)) (1 - 1))) ∧
    toC (ne10_fft_split_r2c_1d_float32 (fun _ => ⟨0, 0⟩) (fun j => ⟨(j : ℝ), 1⟩)
        (fun _ => ⟨0, -1⟩) 4 (4 - 1))
      = (starRingEnd ℂ) (((1 / 2 : ℝ) : ℂ)
        * (toC ((fun j : ℕ => (⟨(j : ℝ), 1⟩ : ne10_fft_cpx_float32_t ℝ)) 1)
          + (starRingEnd ℂ)
            (toC ((fun j : ℕ => (⟨(j : ℝ), 1⟩ : ne10_fft_cpx_float32_t ℝ)) (4 - 1)))
          - (toC ((fun j : ℕ => (⟨(j : ℝ), 1⟩ : ne10_fft_cpx_float32_t ℝ)) 1)
            - (starRingEnd ℂ)
              (toC ((fun j : ℕ => (⟨(j : ℝ), 1⟩ : ne10_fft_cpx_float32_t ℝ)) (4 - 1))))
            * toC ((fun _ : ℕ => (⟨0, -1⟩ : ne10_fft_cpx_float32_t ℝ)) (1 - 1)))) :=
  (ne10_fft_split_r2c_formula (fun _ => ⟨0, 0⟩) (fun j => ⟨(j : ℝ), 1⟩) (fun _ => ⟨0, -1⟩) 4 1
    (by decide) (by decide) (by decide)).1 (by decide)


/-! ## The plan of a power of two -/

/-- A power of two from 4 on is `4 * 4 ^ b` for an even exponent and `8 * 4 ^ b` for an
odd one, with `b + 1` half the exponent. -/
theorem pow_two_shape (k : ℕ) (hk : 2 ≤ k) :
    ∃ (r : ℤ) (b : ℕ), ((r = 4 ∧ k % 2 = 0) ∨ (r = 8 ∧ k % 2 = 1)) ∧ b + 1 = k / 2 ∧
      (2 : ℤ) ^ k = r * 4 ^ b := by
  rcases Nat.even_or_odd' k with ⟨a, ha | ha⟩
  · refine ⟨4, a - 1, Or.inl ⟨rfl, by omega⟩, by omega, ?_⟩
    rw [ha, pow_mul, show (2 : ℤ) ^ 2 = 4 by norm_num]
    conv_lhs => rw [show a = (a - 1) + 1 by omega, pow_succ]
    ring
  · refine ⟨8, a - 1, Or.inr ⟨rfl, by omega⟩, by omega, ?_⟩
    rw [ha, pow_succ, pow_mul, show (2 : ℤ) ^ 2 = 4 by norm_num]
    conv_lhs => rw [show a = (a - 1) + 1 by omega, pow_succ]
    ring

/-- The entry after the last pair of the factor buffer for `r * 4 ^ b`: the flag
`NE10_FFT_ALG_DEFAULT`; and the return code is `NE10_OK`. -/
theorem ne10_factor_body_pow4_flag (r : Int) (hr : r = 4 ∨ r = 8) (b : ℕ) (hb : b + 1 ≤ 21)
    (buf : Nat → Int) :
    (ne10_factor_body (r * 4 ^ b) buf NE10_FACTOR_EIGHT_FIRST_STAGE).1 = NE10_OK ∧
    (ne10_factor_body (r * 4 ^ b) buf NE10_FACTOR_EIGHT_FIRST_STAGE).2 (2 * (b + 1) + 2)
      = NE10_FFT_ALG_DEFAULT := by
  have hpos : (0 : Int) < r * 4 ^ b := by
    rcases hr with hr | hr <;> rw [hr] <;> positivity
  have hst := ne10_factor_stage_pow4 r hr b buf
  have hS : ¬ (ne10_factor_loop NE10_FACTOR_EIGHT_FIRST_STAGE
      (ne10_factor_init (r * 4 ^ b) buf)).stage_num > 21 := by
    rw [hst]; omega
  obtain ⟨_, _, _, ef⟩ := ne10_factor_body_entries (r * 4 ^ b) buf
    NE10_FACTOR_EIGHT_FIRST_STAGE hpos hS
  rw [hst] at ef
  refine ⟨?_, ?_⟩
  · rw [ne10_factor_body_fst, if_neg hS]
  · rw [ef, (ne10_factor_loop_pow4 r hr b (ne10_factor_init (r * 4 ^ b) buf) rfl).2.2.2.1]
    rfl

/-- C26: for `n = 2 ^ k` with `1 <= k <= 42` (every power of two of the 32-bit range
among them), `ne10_factor (n, facbuf, NE10_FACTOR_EIGHT_FIRST_STAGE)` succeeds and leaves a
table with `stage_count = facbuf[0] >= 1`, the flag `NE10_FFT_ALG_DEFAULT` after the last
pair, radix 4 in every pair but the last, and in the last pair (the engine's first radix)
8 exactly when `k` is odd and at least 3, 4 exactly when `k` is even, 2 exactly when
`k = 1`; a recorded radix 2 occurs only for `k = 1`. -/
theorem ne10_factor_pow2_shape (k : ℕ) (hk1 : 1 ≤ k) (hk2 : k ≤ 42) (buf : Nat → Int) :
    ∃ (fb : Nat → Int) (sc : ℕ),
      ne10_factor (2 ^ k) (some buf) NE10_FACTOR_EIGHT_FIRST_STAGE = (NE10_OK, some fb) ∧
      fb 0 = (sc : Int) ∧ 1 ≤ sc ∧
      fb (2 * sc + 2) = NE10_FFT_ALG_DEFAULT ∧
      (∀ u, 1 ≤ u → u < sc → fb (2 * u) = 4) ∧
      (fb (2 * sc) = 8 ↔ (k % 2 = 1 ∧ 3 ≤ k)) ∧
      (fb (2 * sc) = 4 ↔ k % 2 = 0) ∧
      (fb (2 * sc) = 2 ↔ k = 1) ∧
      (∀ u, 1 ≤ u → u ≤ sc → fb (2 * u) = 2 → k = 1) := by
  have hpos : (0 : ℤ) < 2 ^ k := by positivity
  rw [ne10_factor_some _ _ _ hpos]
  by_cases hk : k = 1
  · subst hk
    rw [pow_one]
    have hcode : (ne10_factor_body 2 buf NE10_FACTOR_EIGHT_FIRST_STAGE).1 = NE10_OK := by
      simp [ne10_factor_body, ne10_factor_loop, ne10_factor_init, ne10_factor_step,
        ne10_factor_radix, NE10_FACTOR_EIGHT_FIRST_STAGE, NE10_FACTOR_EIGHT]
    have hflag : (ne10_factor_body 2 buf NE10_FACTOR_EIGHT_FIRST_STAGE).2 4
        = NE10_FFT_ALG_DEFAULT := by
      simp [ne10_factor_body, ne10_factor_loop, ne10_factor_init, ne10_factor_step,
        ne10_factor_radix, NE10_FACTOR_EIGHT_FIRST_STAGE, NE10_FACTOR_EIGHT, Function.update]
    obtain ⟨e0, _, e2⟩ := ne10_factor_body_two buf
    refine ⟨_, 1, by rw [hcode], by rw [e0]; rfl, le_refl _, hflag, ?_, ?_, ?_, ?_, ?_⟩
    · intro u h1 h2
      omega
    · show (ne10_factor_body 2 buf NE10_FACTOR_EIGHT_FIRST_STAGE).2 2 = 8 ↔ _
      rw [e2]
      constructor
      · intro h; exact absurd h (by decide)
      · intro h; omega
    · show (ne10_factor_body 2 buf NE10_FACTOR_EIGHT_FIRST_STAGE).2 2 = 4 ↔ _
      rw [e2]
      constructor
      · intro h; exact absurd h (by decide)
      · intro h; omega
    · show (ne10_factor_body 2 buf NE10_FACTOR_EIGHT_FIRST_STAGE).2 2 = 2 ↔ _
      rw [e2]
      exact ⟨fun _ => rfl, fun _ => rfl⟩
    · intro _ _ _ _
      rfl
  · obtain ⟨r, b, hrk, hb, hpow⟩ := pow_two_shape k (by omega)
    have hr : r = 4 ∨ r = 8 := by
      rcases hrk with h | h
      · exact Or.inl h.1
      · exact Or.inr h.1
    rw [hpow]
    obtain ⟨hcode, hflag⟩ := ne10_factor_body_pow4_flag r hr b (by omega) buf
    obtain ⟨e0, _, eu, er⟩ := ne10_factor_body_pow4 r hr b (by omega) buf
    have ilast : 2 * (b + 1) = 2 * (1 + b) := by ring
    refine ⟨_, b + 1, by rw [hcode], e0, by omega, hflag, ?_, ?_, ?_, ?_, ?_⟩
    · intro u h1 h2
      have := (eu (u - 1) (by omega)).1
      rw [show 2 * (1 + (u - 1)) = 2 * u by omega] at this
      exact this
    · rw [ilast, er]
      rcases hrk with ⟨h1, h2⟩ | ⟨h1, h2⟩
      · rw [h1]
        constructor
        · intro h; exact absurd h (by decide)
        · intro h; omega
      · rw [h1]
        exact ⟨fun _ => ⟨h2, by omega⟩, fun _ => rfl⟩
    · rw [ilast, er]
      rcases hrk with ⟨h1, h2⟩ | ⟨h1, h2⟩
      · rw [h1]
        exact ⟨fun _ => h2, fun _ => rfl⟩
      · rw [h1]
        constructor
        · intro h; exact absurd h (by decide)
        · intro h; omega
    · rw [ilast, er]
      constructor
      · intro h
        rcases hr with h1 | h1 <;> rw [h1] at h <;> exact absurd h (by decide)
      · intro h; exact absurd h hk
    · intro u h1 h2 h
      exfalso
      by_cases hu : u = b + 1
      · rw [hu, ilast, er] at h
        rcases hr with h1 | h1 <;> rw [h1] at h <;> exact absurd h (by decide)
      · have := (eu (u - 1) (by omega)).1
        rw [show 2 * (1 + (u - 1)) = 2 * u by omega, h] at this
        exact absurd this (by decide)

/-- C26 at a concrete input: `n = 2 ^ 5 = 32`. -/
theorem ne10_factor_pow2_shape_witness :
    ∃ (fb : Nat → Int) (sc : ℕ),
      ne10_factor (2 ^ 5) (some (fun _ => 0)) NE10_FACTOR_EIGHT_FIRST_STAGE
        = (NE10_OK, some fb) ∧
      fb 0 = (sc : Int) ∧ 1 ≤ sc ∧
      fb (2 * sc + 2) = NE10_FFT_ALG_DEFAULT ∧
      (∀ u, 1 ≤ u → u < sc → fb (2 * u) = 4) ∧
      (fb (2 * sc) = 8 ↔ (5 % 2 = 1 ∧ 3 ≤ 5)) ∧
      (fb (2 * sc) = 4 ↔ 5 % 2 = 0) ∧
      (fb (2 * sc) = 2 ↔ 5 = 1) ∧
      (∀ u, 1 ≤ u → u ≤ sc → fb (2 * u) = 2 → 5 = 1) :=
  ne10_factor_pow2_shape 5 (by decide) (by decide) (fun _ => 0)


/-! ## The first stages as small transforms -/

/-- The forward radix-4 butterfly over any commutative ring: output `m` is the sum of the inputs
`j`, each turned `j * m` times by the swap `(r, i) ↦ (i, -r)` (multiplication by `-i`). -/
theorem radix4_butterfly_forward_swaps {R : Type} [CommRing R]
    (a : ℕ → ne10_fft_cpx_float32_t R) (m : ℕ) (hm : m < 4) :
    radix4_butterfly_forward (a 0) (a 1) (a 2) (a 3) m
      = ⟨∑ j in Finset.range 4,
            ((fun z : ne10_fft_cpx_float32_t R => (⟨z.i, -z.r⟩ : ne10_fft_cpx_float32_t R))^[j * m]
              (a j)).r,
          ∑ j in Finset.range 4,
            ((fun z : ne10_fft_cpx_float32_t R => (⟨z.i, -z.r⟩ : ne10_fft_cpx_float32_t R))^[j * m]
              (a j)).i⟩ := by
  interval_cases m <;>
    simp only [radix4_butterfly_forward, Finset.sum_range_succ, Finset.sum_range_zero,
      Function.iterate_succ, Function.iterate_zero, Function.comp_apply, id_eq,
      Nat.reduceMul, neg_neg, zero_add] <;>
    ext <;> simp only [] <;> ring

/-- The forward butterfly on the plan of the length 4 is the radix-4 first stage with one
group. -/
theorem butterfly_forward_four {R : Type} [Field R] (TW_81 : R) (mem : Mem R)
    (buf : Nat → Int) (tw : Nat → ne10_fft_cpx_float32_t R) :
    ne10_mixed_radix_butterfly_float32_c TW_81 mem
        (ne10_factor_body 4 buf NE10_FACTOR_EIGHT_FIRST_STAGE).2 tw
      = first_stage_radix4 radix4_butterfly_forward 1 mem := by
  obtain ⟨e0, e1, _, er⟩ := ne10_factor_body_pow4 4 (Or.inl rfl) 0 (by norm_num) buf
  rw [pow_zero, mul_one] at e0 e1 er
  simp only [ne10_mixed_radix_butterfly_float32_c, e0]
  rw [show (2 * ((0 + 1 : ℕ) : ℤ)).toNat = 2 * (1 + 0) from rfl, er, if_neg (by decide),
    if_pos rfl, e1]
  exact butterfly_stages_zero _ _ _ _ _ _ _

/-- C29: the radix-4 first stage of the forward butterfly, for every `fstride`, every
group `f < fstride` and every `m < 4`.  Over any commutative ring, `out[4 f + m]` is the sum of the
four inputs `in[f + j * fstride]`, input `j` turned `j * m` times by the swap
`(r, i) ↦ (i, -r)` (only additions, subtractions and swaps); over the reals read as
complex numbers this is `∑ j < 4, in[f + j * fstride] * (-i) ^ (j * m)`; and on the plan
of the length 4 the whole forward butterfly is the 4-point DFT. -/
theorem first_stage_radix4_forward_dft {R : Type} [CommRing R] (fstride : ℕ) (memR : Mem R)
    (mem : Mem ℝ) (f m : ℕ) (hf : f < fstride) (hm : m < 4) (TW_81 : ℝ) (buf : Nat → Int)
    (tw : Nat → ne10_fft_cpx_float32_t ℝ) :
    first_stage_radix4 radix4_butterfly_forward fstride memR Buf.out (4 * f + m)
      = ⟨∑ j in Finset.range 4,
            ((fun z : ne10_fft_cpx_float32_t R => (⟨z.i, -z.r⟩ : ne10_fft_cpx_float32_t R))^[j * m]
              (memR Buf.input (f + j * fstride))).r,
          ∑ j in Finset.range 4,
            ((fun z : ne10_fft_cpx_float32_t R => (⟨z.i, -z.r⟩ : ne10_fft_cpx_float32_t R))^[j * m]
              (memR Buf.input (f + j * fstride))).i⟩ ∧
    toC (first_stage_radix4 radix4_butterfly_forward fstride mem Buf.out (4 * f + m))
      = ∑ j in Finset.range 4, toC (mem Buf.input (f + j * fstride)) * (-Complex.I) ^ (j * m) ∧
    toC (ne10_mixed_radix_butterfly_float32_c TW_81 mem
        (ne10_factor_body 4 buf NE10_FACTOR_EIGHT_FIRST_STAGE).2 tw Buf.out m)
      = ∑ j in Finset.range 4, toC (mem Buf.input j)
          * Complex.exp (-2 * (Real.pi : ℂ) * Complex.I * (j : ℂ) * (m : ℂ) / ((4 : ℕ) : ℂ)) := by
  refine ⟨?_, ?_, ?_⟩
  · rw [Nat.mul_comm 4 f, (first_stage_radix4_closed radix4_butterfly_forward fstride memR).2
      f m hf hm]
    have := radix4_butterfly_forward_swaps (fun j => memR Buf.input (f + j * fstride)) m hm
    simp only [zero_mul, add_zero, one_mul] at this
    rw [← this]
    simp only [mul_one, Nat.mul_comm fstride]
    rw [Nat.one_mul]
  · rw [Nat.mul_comm 4 f, (first_stage_radix4_closed radix4_butterfly_forward fstride mem).2
      f m hf hm, toC_radix4_forward _ _ _ _ m hm]
    simp only [Finset.sum_range_succ, Finset.sum_range_zero, zero_mul, pow_zero, mul_one,
      one_mul, zero_add, add_zero]
    ring_nf
  · rw [butterfly_forward_four, ← gdft_exp]
    have := first_stage_radix4_forward_inv 1 mem 0 m (by norm_num) hm
    simpa using this

/-- C29 at a concrete input: `fstride = 2`, group 1, output 3, and arrays whose entry `j`
is `(j, 1)`, over the integers and over the reals. -/
theorem first_stage_radix4_forward_dft_witness :
    first_stage_radix4 radix4_butterfly_forward 2
        (fun _ j => (⟨(j : ℤ), 1⟩ : ne10_fft_cpx_float32_t ℤ)) Buf.out (4 * 1 + 3)
      = ⟨∑ j in Finset.range 4,
            ((fun z : ne10_fft_cpx_float32_t ℤ => (⟨z.i, -z.r⟩ : ne10_fft_cpx_float32_t ℤ))^[j * 3]
              ((fun (_ : Buf) (j : ℕ) => (⟨(j : ℤ), 1⟩ : ne10_fft_cpx_float32_t ℤ)) Buf.input
                (1 + j * 2))).r,
          ∑ j in Finset.range 4,
            ((fun z : ne10_fft_cpx_float32_t ℤ => (⟨z.i, -z.r⟩ : ne10_fft_cpx_float32_t ℤ))^[j * 3]
              ((fun (_ : Buf) (j : ℕ) => (⟨(j : ℤ), 1⟩ : ne10_fft_cpx_float32_t ℤ)) Buf.input
                (1 + j * 2))).i⟩ ∧
    toC (first_stage_radix4 radix4_butterfly_forward 2
        (fun _ j => (⟨(j : ℝ), 1⟩ : ne10_fft_cpx_float32_t ℝ)) Buf.out (4 * 1 + 3))
      = ∑ j in Finset.range 4,
          toC ((fun (_ : Buf) (j : ℕ) => (⟨(j : ℝ), 1⟩ : ne10_fft_cpx_float32_t ℝ)) Buf.input
            (1 + j * 2)) * (-Complex.I) ^ (j * 3) ∧
    toC (ne10_mixed_radix_butterfly_float32_c (Real.sqrt 2 / 2)
        (fun _ j => (⟨(j : ℝ), 1⟩ : ne10_fft_cpx_float32_t ℝ))
        (ne10_factor_body 4 (fun _ => 0) NE10_FACTOR_EIGHT_FIRST_STAGE).2 (fun _ => ⟨0, 0⟩)
        Buf.out 3)
      = ∑ j in Finset.range 4,
          toC ((fun (_ : Buf) (j : ℕ) => (⟨(j : ℝ), 1⟩ : ne10_fft_cpx_float32_t ℝ)) Buf.input j)
          * Complex.exp (-2 * (Real.pi : ℂ) * Complex.I * (j : ℂ) * ((3 : ℕ) : ℂ)
              / ((4 : ℕ) : ℂ)) :=
  first_stage_radix4_forward_dft 2 (fun _ j => (⟨(j : ℤ), 1⟩ : ne10_fft_cpx_float32_t ℤ))
    (fun _ j => (⟨(j : ℝ), 1⟩ : ne10_fft_cpx_float32_t ℝ)) 1 3 (by decide) (by decide)
    (Real.sqrt 2 / 2) (fun _ => 0) (fun _ => ⟨0, 0⟩)


/-- The forward radix-8 butterfly for any value of `TW_81`: the coefficient of input `j`
in output `q` is `(-i) ^ (e / 2) * (TW_81 (1 - i)) ^ (e % 2)` for `e = j * q` (the even
powers of the eighth root are hard-coded swaps, only an odd power uses `TW_81`). -/
theorem toC_radix8_forward_coeff (TW_81 : ℝ) (X : ℕ → ne10_fft_cpx_float32_t ℝ) (q : ℕ)
    (hq : q < 8) :
    toC (radix8_butterfly_forward TW_81 (X 0) (X 1) (X 2) (X 3) (X 4) (X 5) (X 6) (X 7) q)
      = ∑ j in Finset.range 8, toC (X j)
          * ((-Complex.I) ^ (j * q / 2) * ((TW_81 : ℂ) * (1 - Complex.I)) ^ (j * q % 2)) := by
  have hJ2 : (-Complex.I) ^ 2 = -1 := by rw [neg_pow, Complex.I_sq]; norm_num
  have hJ3 : (-Complex.I) ^ 3 = Complex.I := by rw [pow_succ, hJ2]; ring
  have hJ4 : ∀ k, (-Complex.I) ^ (k + 4) = (-Complex.I) ^ k := by
    intro k
    rw [pow_add, show 4 = 2 * 2 by rfl, pow_mul, hJ2]
    norm_num
  interval_cases q <;>
    simp only [Finset.sum_range_succ, Finset.sum_range_zero, mul_zero, zero_mul, pow_zero,
      mul_one, one_mul, zero_add, Nat.reduceMul, Nat.reduceDiv, Nat.reduceMod, Nat.zero_div,
      Nat.zero_mod, hJ4, pow_one, hJ2, hJ3] <;>
    apply Complex.ext <;>
    simp only [radix8_butterfly_forward, toC, Complex.add_re, Complex.add_im, Complex.mul_re,
      Complex.mul_im, Complex.neg_re, Complex.neg_im, Complex.I_re, Complex.I_im,
      Complex.ofReal_re, Complex.ofReal_im, Complex.sub_re, Complex.sub_im, Complex.one_re,
      Complex.one_im] <;>
    ring

/-- The radix-8 first stage for any value of `TW_81`, with the coefficients of
`toC_radix8_forward_coeff`. -/
theorem first_stage_radix8_coeff (TW_81 : ℝ) (fstride : ℕ) (mem : Mem ℝ) (f m : ℕ)
    (hf : f < fstride) (hm : m < 8) :
    toC (first_stage_radix8 (radix8_butterfly_forward TW_81) fstride mem Buf.out (8 * f + m))
      = ∑ j in Finset.range 8, toC (mem Buf.input (f + j * fstride))
          * ((-Complex.I) ^ (j * m / 2) * ((TW_81 : ℂ) * (1 - Complex.I)) ^ (j * m % 2)) := by
  rw [Nat.mul_comm 8 f, (first_stage_radix8_closed (radix8_butterfly_forward TW_81) fstride
    mem).2 f m hf hm]
  have h := toC_radix8_forward_coeff TW_81 (fun p => mem Buf.input (f + p * fstride)) m hm
  simp only [zero_mul, add_zero, one_mul] at h
  simp only [Nat.mul_comm fstride]
  exact h

/-- A sum against the indicator of the index 1. -/
theorem sum_indicator_one (c : ℕ → ℂ) (x : ℕ → ℂ) (hx : ∀ j, x j = if j = 1 then 1 else 0) :
    ∑ j in Finset.range 8, x j * c j = c 1 := by
  rw [Finset.sum_eq_single 1]
  · rw [hx 1, if_pos rfl, one_mul]
  · intro j _ hj
    rw [hx j, if_neg hj, zero_mul]
  · intro h
    exact absurd (Finset.mem_range.mpr (by norm_num)) h

/-- The samples that a group of the first stage loads from the array that holds 1 at
index `fstride` and 0 elsewhere. -/
theorem impulse_at_stride (fstride : ℕ) (hfs : 1 ≤ fstride) (j : ℕ) :
    toC ((fun (_ : Buf) (idx : ℕ) =>
        if idx = fstride then (⟨1, 0⟩ : ne10_fft_cpx_float32_t ℝ) else ⟨0, 0⟩) Buf.input
        (0 + j * fstride))
      = if j = 1 then 1 else 0 := by
  by_cases hj : j = 1
  · subst hj
    rw [if_pos rfl]
    simp only [zero_add, one_mul, if_true]
    apply Complex.ext <;> simp [toC]
  · rw [if_neg hj]
    have hne : ¬ (0 + j * fstride = fstride) := by
      intro h
      rw [zero_add] at h
      have : j * fstride = 1 * fstride := by rw [h, one_mul]
      exact hj (Nat.eq_of_mul_eq_mul_right (by omega) this)
    simp only [hne, if_false]
    apply Complex.ext <;> simp [toC]

/-- C30 as amended: the radix-8 first stage of the forward butterfly, for every
`fstride >= 1`, every input, every group `f < fstride` and every `m < 8`.  For any value of
`TW_81`, `out[8 f + m]` is `∑ j < 8, in[f + j * fstride] * c (j * m)` with
`c e = (-i) ^ (e / 2) * (TW_81 (1 - i)) ^ (e % 2)`; when `2 * TW_81 ^ 2 = 1` this is
`∑ j < 8, in[f + j * fstride] * w ^ (j * m)` with `w = TW_81 (1 - i)`; and the stage is
the 8-point DFT of the eight samples spaced by `fstride`, for every input, exactly when
`TW_81 = √2 / 2`. -/
theorem first_stage_radix8_forward_dft (TW_81 : ℝ) (fstride : ℕ) (hfs : 1 ≤ fstride) :
    (∀ (mem : Mem ℝ) (f m : ℕ), f < fstride → m < 8 →
      toC (first_stage_radix8 (radix8_butterfly_forward TW_81) fstride mem Buf.out (8 * f + m))
        = ∑ j in Finset.range 8, toC (mem Buf.input (f + j * fstride))
            * ((-Complex.I) ^ (j * m / 2) * ((TW_81 : ℂ) * (1 - Complex.I)) ^ (j * m % 2))) ∧
    (2 * TW_81 ^ 2 = 1 → ∀ (mem : Mem ℝ) (f m : ℕ), f < fstride → m < 8 →
      toC (first_stage_radix8 (radix8_butterfly_forward TW_81) fstride mem Buf.out (8 * f + m))
        = ∑ j in Finset.range 8, toC (mem Buf.input (f + j * fstride))
            * ((TW_81 : ℂ) * (1 - Complex.I)) ^ (j * m)) ∧
    ((∀ (mem : Mem ℝ) (f m : ℕ), f < fstride → m < 8 →
      toC (first_stage_radix8 (radix8_butterfly_forward TW_81) fstride mem Buf.out (8 * f + m))
        = ∑ j in Finset.range 8, toC (mem Buf.input (f + j * fstride))
            * Complex.exp (-2 * (Real.pi : ℂ) * Complex.I / ((8 : ℕ) : ℂ)) ^ (j * m))
      ↔ TW_81 = Real.sqrt 2 / 2) := by
  have hpow : 2 * TW_81 ^ 2 = 1 → ∀ (mem : Mem ℝ) (f m : ℕ), f < fstride → m < 8 →
      toC (first_stage_radix8 (radix8_butterfly_forward TW_81) fstride mem Buf.out (8 * f + m))
        = ∑ j in Finset.range 8, toC (mem Buf.input (f + j * fstride))
            * ((TW_81 : ℂ) * (1 - Complex.I)) ^ (j * m) := by
    intro hTW mem f m hf hm
    rw [Nat.mul_comm 8 f, (first_stage_radix8_closed (radix8_butterfly_forward TW_81) fstride
      mem).2 f m hf hm]
    have h := toC_radix8_forward TW_81 hTW (fun p => mem Buf.input (f + p * fstride)) m hm
    simp only [zero_mul, add_zero, one_mul] at h
    simp only [Nat.mul_comm fstride]
    exact h
  refine ⟨fun mem f m hf hm => first_stage_radix8_coeff TW_81 fstride mem f m hf hm, hpow, ?_⟩
  constructor
  · intro hall
    have h1 := hall (fun _ idx => if idx = fstride then ⟨1, 0⟩ else ⟨0, 0⟩) 0 1 (by omega)
      (by norm_num)
    rw [first_stage_radix8_coeff TW_81 fstride _ 0 1 (by omega) (by norm_num),
      sum_indicator_one _ _ (impulse_at_stride fstride hfs),
      sum_indicator_one _ _ (impulse_at_stride fstride hfs), exp_root_eight] at h1
    have h2 := congrArg Complex.re h1
    simp at h2
    linarith
  · intro hTW
    have h2 : 2 * TW_81 ^ 2 = 1 := by
      rw [hTW, div_pow, Real.sq_sqrt (by norm_num)]; norm_num
    intro mem f m hf hm
    rw [hpow h2 mem f m hf hm, exp_root_eight, hTW]

/-- C30 at a concrete input: `TW_81 = √2 / 2` and `fstride = 1`. -/
theorem first_stage_radix8_forward_dft_witness :
    1 ≤ 1 ∧
    ((∀ (mem : Mem ℝ) (f m : ℕ), f < 1 → m < 8 →
      toC (first_stage_radix8 (radix8_butterfly_forward (Real.sqrt 2 / 2)) 1 mem Buf.out
          (8 * f + m))
        = ∑ j in Finset.range 8, toC (mem Buf.input (f + j * 1))
            * ((-Complex.I) ^ (j * m / 2)
              * (((Real.sqrt 2 / 2 : ℝ) : ℂ) * (1 - Complex.I)) ^ (j * m % 2))) ∧
    (2 * (Real.sqrt 2 / 2) ^ 2 = 1 → ∀ (mem : Mem ℝ) (f m : ℕ), f < 1 → m < 8 →
      toC (first_stage_radix8 (radix8_butterfly_forward (Real.sqrt 2 / 2)) 1 mem Buf.out
          (8 * f + m))
        = ∑ j in Finset.range 8, toC (mem Buf.input (f + j * 1))
            * (((Real.sqrt 2 / 2 : ℝ) : ℂ) * (1 - Complex.I)) ^ (j * m)) ∧
    ((∀ (mem : Mem ℝ) (f m : ℕ), f < 1 → m < 8 →
      toC (first_stage_radix8 (radix8_butterfly_forward (Real.sqrt 2 / 2)) 1 mem Buf.out
          (8 * f + m))
        = ∑ j in Finset.range 8, toC (mem Buf.input (f + j * 1))
            * Complex.exp (-2 * (Real.pi : ℂ) * Complex.I / ((8 : ℕ) : ℂ)) ^ (j * m))
      ↔ Real.sqrt 2 / 2 = Real.sqrt 2 / 2)) :=
  ⟨le_refl 1, first_stage_radix8_forward_dft (Real.sqrt 2 / 2) 1 (le_refl 1)⟩

/-- C30 as stated fails for the constant of the source, `TW_81 = 0.70710678`: with
`fstride = 1` and the input that is 1 at index 1 and 0 elsewhere, `out[2]` is `-i` (a
hard-coded swap), while `∑ j < 8, in[j] * w ^ (2 j)` with `w = TW_81 (1 - i)` is
`w ^ 2 = -2 TW_81 ^ 2 i`, and `2 * 0.70710678 ^ 2` is not 1. -/
theorem first_stage_radix8_forward_dft_counterexample :
    toC (first_stage_radix8 (radix8_butterfly_forward (0.70710678 : ℝ)) 1
        (fun _ idx => if idx = 1 then ⟨1, 0⟩ else ⟨0, 0⟩) Buf.out (8 * 0 + 2))
      = -Complex.I ∧
    toC (first_stage_radix8 (radix8_butterfly_forward (0.70710678 : ℝ)) 1
        (fun _ idx => if idx = 1 then ⟨1, 0⟩ else ⟨0, 0⟩) Buf.out (8 * 0 + 2))
      ≠ ∑ j in Finset.range 8,
          toC ((fun (_ : Buf) (idx : ℕ) =>
            if idx = 1 then (⟨1, 0⟩ : ne10_fft_cpx_float32_t ℝ) else ⟨0, 0⟩) Buf.input
            (0 + j * 1))
          * (((0.70710678 : ℝ) : ℂ) * (1 - Complex.I)) ^ (j * 2) := by
  have hL : toC (first_stage_radix8 (radix8_butterfly_forward (0.70710678 : ℝ)) 1
      (fun _ idx => if idx = 1 then ⟨1, 0⟩ else ⟨0, 0⟩) Buf.out (8 * 0 + 2)) = -Complex.I := by
    rw [first_stage_radix8_coeff _ 1 _ 0 2 (by norm_num) (by norm_num),
      sum_indicator_one _ _ (impulse_at_stride 1 (le_refl 1))]
    norm_num
  refine ⟨hL, ?_⟩
  rw [hL, sum_indicator_one (fun j => (((0.70710678 : ℝ) : ℂ) * (1 - Complex.I)) ^ (j * 2)) _
    (impulse_at_stride 1 (le_refl 1))]
  intro h
  have h2 := congrArg Complex.im h
  have hI : Complex.I ^ 2 = -1 := Complex.I_sq
  have e : ∀ t : ℝ, ((t : ℂ) * (1 - Complex.I)) ^ (1 * 2)
      = ((-2 * t ^ 2 : ℝ) : ℂ) * Complex.I := by
    intro t
    push_cast
    linear_combination (t : ℂ) ^ 2 * hI
  rw [e, Complex.im_ofReal_mul] at h2
  simp only [Complex.neg_im, Complex.I_im] at h2
  norm_num at h2


/-! ## The loop variables of the stages -/

section StageVars

variable {R : Type}

/-- The loop variables after some passes of the loop over the middle stages: each pass
multiplies `mstride` by 4, divides `fstride` by 4, advances `twiddles` by `3 * mstride` and
decrements `stage_count`. -/
theorem middle_stages_vars
    (bf : ne10_fft_cpx_float32_t R → ne10_fft_cpx_float32_t R → ne10_fft_cpx_float32_t R →
      ne10_fft_cpx_float32_t R → ne10_fft_cpx_float32_t R → ne10_fft_cpx_float32_t R →
      ne10_fft_cpx_float32_t R → Nat → ne10_fft_cpx_float32_t R)
    (tw_table : Nat → ne10_fft_cpx_float32_t R) (step r b : ℕ) (passes : ℕ) :
    ∀ (t : ℕ) (s : ButterflyState R), t + passes + 1 ≤ b →
      s.mstride = r * 4 ^ t → s.fstride = 4 ^ (b - 1 - t) →
      (middle_stages bf tw_table step passes s).mstride = r * 4 ^ (t + passes) ∧
      (middle_stages bf tw_table step passes s).fstride = 4 ^ (b - 1 - (t + passes)) ∧
      (middle_stages bf tw_table step passes s).stage_count = s.stage_count - passes := by
  induction passes with
  | zero =>
    intro t s _ hm hf
    exact ⟨hm, hf, by simp [middle_stages]⟩
  | succ p ih =>
    intro t s hb hm hf
    rw [middle_stages]
    have h := ih (t + 1)
      { mem := middle_stage bf tw_table s.twiddles s.in_ptr s.out_ptr s.fstride s.mstride
          step s.mem
        in_ptr := s.out_ptr
        out_ptr := s.in_ptr
        twiddles := s.twiddles + s.mstride * 3
        mstride := s.mstride * 4
        fstride := s.fstride / 4
        stage_count := s.stage_count - 1 } (by omega)
      (show s.mstride * 4 = r * 4 ^ (t + 1) by rw [hm, pow_succ]; ring)
      (show s.fstride / 4 = 4 ^ (b - 1 - (t + 1)) by
        rw [hf, show b - 1 - t = (b - 1 - (t + 1)) + 1 by omega, pow_succ]
        exact Nat.mul_div_cancel _ (by norm_num))
    obtain ⟨h1, h2, h3⟩ := h
    refine ⟨?_, ?_, ?_⟩
    · rw [h1, show t + 1 + p = t + (p + 1) by omega]
    · rw [h2, show t + 1 + p = t + (p + 1) by omega]
    · rw [h3]
      show s.stage_count - 1 - (p : ℤ) = s.stage_count - ((p + 1 : ℕ) : ℤ)
      push_cast
      ring

/-- With at least one stage after the first, `butterfly_stages` is the middle stages
followed by the last stage. -/
theorem butterfly_stages_last
    (bf_mid bf_last : ne10_fft_cpx_float32_t R → ne10_fft_cpx_float32_t R →
      ne10_fft_cpx_float32_t R → ne10_fft_cpx_float32_t R → ne10_fft_cpx_float32_t R →
      ne10_fft_cpx_float32_t R → ne10_fft_cpx_float32_t R → Nat → ne10_fft_cpx_float32_t R)
    (tw_table : Nat → ne10_fft_cpx_float32_t R) (mem : Mem R) (b fstride mstride step : ℕ)
    (r : ℕ) (hb : 1 ≤ b) (hm : mstride = r * 4 ^ 0) (hf : fstride = 4 ^ (b - 1 - 0)) :
    butterfly_stages bf_mid bf_last tw_table mem (b : ℤ) fstride mstride step
      = last_stage bf_last tw_table
          (middle_stages bf_mid tw_table step (b - 1)
            { mem := mem, in_ptr := Buf.out, out_ptr := Buf.buffer, twiddles := 0,
              mstride := mstride, fstride := fstride, stage_count := (b : ℤ) }).twiddles
          (middle_stages bf_mid tw_table step (b - 1)
            { mem := mem, in_ptr := Buf.out, out_ptr := Buf.buffer, twiddles := 0,
              mstride := mstride, fstride := fstride, stage_count := (b : ℤ) }).in_ptr
          (middle_stages bf_mid tw_table step (b - 1)
            { mem := mem, in_ptr := Buf.out, out_ptr := Buf.buffer, twiddles := 0,
              mstride := mstride, fstride := fstride, stage_count := (b : ℤ) }).fstride
          (middle_stages bf_mid tw_table step (b - 1)
            { mem := mem, in_ptr := Buf.out, out_ptr := Buf.buffer, twiddles := 0,
              mstride := mstride, fstride := fstride, stage_count := (b : ℤ) }).mstride
          step
          (middle_stages bf_mid tw_table step (b - 1)
            { mem := mem, in_ptr := Buf.out, out_ptr := Buf.buffer, twiddles := 0,
              mstride := mstride, fstride := fstride, stage_count := (b : ℤ) }).mem := by
  have hsc := (middle_stages_vars bf_mid tw_table step r b (b - 1) 0
    { mem := mem, in_ptr := Buf.out, out_ptr := Buf.buffer, twiddles := 0,
      mstride := mstride, fstride := fstride, stage_count := (b : ℤ) }
    (by omega) hm hf).2.2
  simp only [butterfly_stages]
  rw [show ((b : ℤ) - 1).toNat = b - 1 by omega, if_pos]
  rw [hsc]
  show (b : ℤ) - ((b - 1 : ℕ) : ℤ) ≠ 0
  omega

end StageVars

/-- The factor table of a power of two `2 ^ k >= 16`, as the butterflies read it: the
stage count `b + 1 >= 2`, `fstride = 4 ^ b`, the first radix `r` (the last recorded
radix), and `r` again in the entry `2 * stage_count - 1` that initialises `mstride`. -/
theorem pow2_plan_reads (k : ℕ) (hk4 : 4 ≤ k) (hk42 : k ≤ 42) (buf : Nat → Int) :
    ∃ r b : ℕ, (r = 4 ∨ r = 8) ∧ 1 ≤ b ∧ 2 ^ k = r * 4 ^ b ∧
      (ne10_factor_body (2 ^ k) buf NE10_FACTOR_EIGHT_FIRST_STAGE).2 0 = ((b + 1 : ℕ) : ℤ) ∧
      (ne10_factor_body (2 ^ k) buf NE10_FACTOR_EIGHT_FIRST_STAGE).2 1 = ((4 ^ b : ℕ) : ℤ) ∧
      (ne10_factor_body (2 ^ k) buf NE10_FACTOR_EIGHT_FIRST_STAGE).2 (2 * (b + 1)) = (r : ℤ) ∧
      (ne10_factor_body (2 ^ k) buf NE10_FACTOR_EIGHT_FIRST_STAGE).2 (2 * (b + 1) - 1)
        = (r : ℤ) := by
  obtain ⟨r, b, hrk, hb, hpow⟩ := pow_two_shape k (by omega)
  have hr : r = 4 ∨ r = 8 := by
    rcases hrk with h | h
    · exact Or.inl h.1
    · exact Or.inr h.1
  have hb1 : 1 ≤ b := by omega
  obtain ⟨e0, e1, eu, er⟩ := ne10_factor_body_pow4 r hr b (by omega) buf
  rw [← hpow] at e0 e1 eu er
  have hlast := (eu (b - 1) (by omega)).2
  rw [show 2 * (1 + (b - 1)) + 1 = 2 * (b + 1) - 1 by omega,
    show b - 1 - (b - 1) = 0 by omega, pow_zero, mul_one] at hlast
  rw [show 2 * (1 + b) = 2 * (b + 1) by ring] at er
  refine ⟨r.toNat, b, by omega, hb1, ?_, e0, by rw [e1]; push_cast; rfl, ?_, ?_⟩
  · have h : ((2 ^ k : ℕ) : ℤ) = ((r.toNat * 4 ^ b : ℕ) : ℤ) := by
      push_cast
      rw [hpow, Int.toNat_of_nonneg (by omega)]
    exact_mod_cast h
  · rw [er, Int.toNat_of_nonneg (by omega)]
  · rw [hlast, Int.toNat_of_nonneg (by omega)]

/-- The forward butterfly on a factor table that records `stage_count = b + 1`,
`fstride = 4 ^ b` and the first radix `r` (4 or 8): the first stage, then the stage loop
started with `stage_count = b`, `fstride = 4 ^ b / 4`, `mstride` from the entry
`2 * stage_count - 1`, and `step = r * 4 ^ b / 4`. -/
theorem butterfly_forward_stages_eq {R : Type} [Field R] (fb : Nat → Int) (r b : ℕ)
    (hr : r = 4 ∨ r = 8) (e0 : fb 0 = ((b + 1 : ℕ) : ℤ)) (e1 : fb 1 = ((4 ^ b : ℕ) : ℤ))
    (er : fb (2 * (b + 1)) = (r : ℤ)) (TW_81 : R) (mem : Mem R)
    (tw : Nat → ne10_fft_cpx_float32_t R) :
    ne10_mixed_radix_butterfly_float32_c TW_81 mem fb tw
      = butterfly_stages radix4_twiddle_butterfly_forward radix4_twiddle_butterfly_forward tw
          (if r = 8 then first_stage_radix8 (radix8_butterfly_forward TW_81) (4 ^ b) mem
           else first_stage_radix4 radix4_butterfly_forward (4 ^ b) mem)
          (b : ℤ) (4 ^ b / 4) (fb (2 * (b + 1) - 1)).toNat (r * 4 ^ b / 4) := by
  have hidx1 : (2 * (((b + 1 : ℕ) : ℤ)) - 1).toNat = 2 * (b + 1) - 1 := by omega
  have hidx2 : (2 * (((b + 1 : ℕ) : ℤ))).toNat = 2 * (b + 1) := by omega
  have hsub : (((b + 1 : ℕ) : ℤ)) - 1 = (b : ℤ) := by push_cast; ring
  simp only [ne10_mixed_radix_butterfly_float32_c, e0, e1, hidx1, hidx2, er, hsub,
    Int.toNat_natCast]
  rcases hr with hr | hr
  · subst hr
    rw [if_neg (by norm_num), if_pos (by norm_num), if_neg (by norm_num),
      show 4 * 4 ^ b / 4 = 4 ^ b by omega]
  · subst hr
    rw [if_pos (by norm_num), if_pos rfl, show 8 * 4 ^ b / 4 = 4 ^ b * 2 by omega]

/-- The inverse butterfly on such a table with at least two stages: the first stage
without scaling, then the stage loop as in the forward butterfly, the last stage scaling
by `1 / nfft`. -/
theorem butterfly_inverse_stages_eq {R : Type} [Field R] (fb : Nat → Int) (r b : ℕ)
    (hr : r = 4 ∨ r = 8) (hb : 1 ≤ b) (e0 : fb 0 = ((b + 1 : ℕ) : ℤ))
    (e1 : fb 1 = ((4 ^ b : ℕ) : ℤ)) (er : fb (2 * (b + 1)) = (r : ℤ)) (TW_81 : R)
    (mem : Mem R) (tw : Nat → ne10_fft_cpx_float32_t R) :
    ne10_mixed_radix_butterfly_inverse_float32_c TW_81 mem fb tw
      = butterfly_stages radix4_twiddle_butterfly_inverse
          (radix4_twiddle_butterfly_inverse_scaled
            (1 / ((((4 ^ b : ℕ) : ℤ) * (r : ℤ) : ℤ) : R))) tw
          (if r = 8 then first_stage_radix8 (radix8_butterfly_inverse TW_81) (4 ^ b) mem
           else first_stage_radix4 radix4_butterfly_inverse (4 ^ b) mem)
          (b : ℤ) (4 ^ b / 4) (fb (2 * (b + 1) - 1)).toNat (r * 4 ^ b / 4) := by
  have hidx1 : (2 * (((b + 1 : ℕ) : ℤ)) - 1).toNat = 2 * (b + 1) - 1 := by omega
  have hidx2 : (2 * (((b + 1 : ℕ) : ℤ))).toNat = 2 * (b + 1) := by omega
  have hsub : (((b + 1 : ℕ) : ℤ)) - 1 = (b : ℤ) := by push_cast; ring
  have hb0 : ¬ ((b : ℤ) = 0) := by omega
  simp only [ne10_mixed_radix_butterfly_inverse_float32_c, e0, e1, hidx1, hidx2, er, hsub,
    Int.toNat_natCast, hb0, if_false]
  rcases hr with hr | hr
  · subst hr
    rw [if_neg (by norm_num), if_pos (by norm_num), if_neg (by norm_num),
      show 4 * 4 ^ b / 4 = 4 ^ b by omega]
  · subst hr
    rw [if_pos (by norm_num), if_pos rfl, show 8 * 4 ^ b / 4 = 4 ^ b * 2 by omega]

/-- C27: for a power of two `n = 2 ^ k >= 16` (`k <= 42`) with the factor table of
`ne10_factor`, there are the first radix `r` (4 or 8) and `b >= 1` with `n = r * 4 ^ b`
and `stage_count = b + 1` such that: the entry `factors[2 * stage_count - 1]`, from which
`mstride` is initialised, equals the first radix `factors[2 * stage_count]`; the forward
and the inverse butterfly are their first stage followed by the stage loop started with
`stage_count = b`, `fstride = 4 ^ b / 4`, `mstride = r` and `step = n / 4`; and in that
loop, whatever the butterflies and the arrays, at the start of the stage after `t <= b - 1`
middle stages `fstride * mstride * 4 = n` and `stage_count = b - t`, and at the last stage
(`t = b - 1`) `fstride = 1` and `mstride = step = n / 4`. -/
theorem butterfly_stage_invariant {R : Type} [Field R] (k : ℕ) (hk4 : 4 ≤ k) (hk42 : k ≤ 42)
    (buf : Nat → Int) (TW_81 : R) (tw : Nat → ne10_fft_cpx_float32_t R) (mem : Mem R) :
    ∃ r b : ℕ, (r = 4 ∨ r = 8) ∧ 1 ≤ b ∧ 2 ^ k = r * 4 ^ b ∧
      (ne10_factor_body (2 ^ k) buf NE10_FACTOR_EIGHT_FIRST_STAGE).2 0 = ((b + 1 : ℕ) : ℤ) ∧
      (ne10_factor_body (2 ^ k) buf NE10_FACTOR_EIGHT_FIRST_STAGE).2 (2 * (b + 1)) = (r : ℤ) ∧
      (ne10_factor_body (2 ^ k) buf NE10_FACTOR_EIGHT_FIRST_STAGE).2 (2 * (b + 1) - 1)
        = (r : ℤ) ∧
      ne10_mixed_radix_butterfly_float32_c TW_81 mem
          (ne10_factor_body (2 ^ k) buf NE10_FACTOR_EIGHT_FIRST_STAGE).2 tw
        = butterfly_stages radix4_twiddle_butterfly_forward radix4_twiddle_butterfly_forward tw
            (if r = 8 then first_stage_radix8 (radix8_butterfly_forward TW_81) (4 ^ b) mem
             else first_stage_radix4 radix4_butterfly_forward (4 ^ b) mem)
            (b : ℤ) (4 ^ b / 4) r (2 ^ k / 4) ∧
      ne10_mixed_radix_butterfly_inverse_float32_c TW_81 mem
          (ne10_factor_body (2 ^ k) buf NE10_FACTOR_EIGHT_FIRST_STAGE).2 tw
        = butterfly_stages radix4_twiddle_butterfly_inverse
            (radix4_twiddle_butterfly_inverse_scaled
              (1 / ((((4 ^ b : ℕ) : ℤ) * (r : ℤ) : ℤ) : R))) tw
            (if r = 8 then first_stage_radix8 (radix8_butterfly_inverse TW_81) (4 ^ b) mem
             else first_stage_radix4 radix4_butterfly_inverse (4 ^ b) mem)
            (b : ℤ) (4 ^ b / 4) r (2 ^ k / 4) ∧
      ∀ (bf : ne10_fft_cpx_float32_t R → ne10_fft_cpx_float32_t R → ne10_fft_cpx_float32_t R →
          ne10_fft_cpx_float32_t R → ne10_fft_cpx_float32_t R → ne10_fft_cpx_float32_t R →
          ne10_fft_cpx_float32_t R → Nat → ne10_fft_cpx_float32_t R)
        (tbl : Nat → ne10_fft_cpx_float32_t R) (m0 : Mem R) (t : ℕ), t ≤ b - 1 →
        (middle_stages bf tbl (2 ^ k / 4) t
            { mem := m0, in_ptr := Buf.out, out_ptr := Buf.buffer, twiddles := 0,
              mstride := r, fstride := 4 ^ b / 4, stage_count := (b : ℤ) }).fstride
          * (middle_stages bf tbl (2 ^ k / 4) t
            { mem := m0, in_ptr := Buf.out, out_ptr := Buf.buffer, twiddles := 0,
              mstride := r, fstride := 4 ^ b / 4, stage_count := (b : ℤ) }).mstride * 4
          = 2 ^ k ∧
        (middle_stages bf tbl (2 ^ k / 4) t
            { mem := m0, in_ptr := Buf.out, out_ptr := Buf.buffer, twiddles := 0,
              mstride := r, fstride := 4 ^ b / 4, stage_count := (b : ℤ) }).stage_count
          = (b : ℤ) - (t : ℤ) ∧
        (t = b - 1 →
          (middle_stages bf tbl (2 ^ k / 4) t
              { mem := m0, in_ptr := Buf.out, out_ptr := Buf.buffer, twiddles := 0,
                mstride := r, fstride := 4 ^ b / 4, stage_count := (b : ℤ) }).fstride = 1 ∧
          (middle_stages bf tbl (2 ^ k / 4) t
              { mem := m0, in_ptr := Buf.out, out_ptr := Buf.buffer, twiddles := 0,
                mstride := r, fstride := 4 ^ b / 4, stage_count := (b : ℤ) }).mstride
            = 2 ^ k / 4) := by
  obtain ⟨r, b, hr, hb1, hpow, e0, e1, er, em⟩ := pow2_plan_reads k hk4 hk42 buf
  refine ⟨r, b, hr, hb1, hpow, e0, er, em, ?_, ?_, ?_⟩
  · rw [butterfly_forward_stages_eq _ r b hr e0 e1 er, em, Int.toNat_natCast, hpow]
  · rw [butterfly_inverse_stages_eq _ r b hr hb1 e0 e1 er, em, Int.toNat_natCast, hpow]
  · intro bf tbl m0 t ht
    have hdiv : 4 ^ b / 4 = 4 ^ (b - 1 - 0) := by
      conv_lhs => rw [show b = (b - 1) + 1 by omega, pow_succ]
      rw [Nat.sub_zero]
      exact Nat.mul_div_cancel _ (by norm_num)
    obtain ⟨h1, h2, h3⟩ := middle_stages_vars bf tbl (2 ^ k / 4) r b t 0
      { mem := m0, in_ptr := Buf.out, out_ptr := Buf.buffer, twiddles := 0,
        mstride := r, fstride := 4 ^ b / 4, stage_count := (b : ℤ) }
      (by omega) (by simp) hdiv
    rw [zero_add] at h1 h2
    have hprod : 4 ^ (b - 1 - t) * (r * 4 ^ t) * 4 = 2 ^ k := by
      rw [hpow]
      conv_rhs => rw [show b = (b - 1 - t) + t + 1 by omega, pow_succ, pow_add]
      ring
    refine ⟨by rw [h1, h2]; exact hprod, h3, ?_⟩
    intro htb
    rw [h1, h2]
    constructor
    · rw [htb, Nat.sub_self, pow_zero]
    · rw [← hprod, htb, Nat.sub_self, pow_zero, one_mul]
      exact (Nat.mul_div_cancel _ (by norm_num)).symm

/-- C27 at a concrete input: `n = 2 ^ 5 = 32`. -/
theorem butterfly_stage_invariant_witness :
    ∃ r b : ℕ, (r = 4 ∨ r = 8) ∧ 1 ≤ b ∧ 2 ^ 5 = r * 4 ^ b ∧
      (ne10_factor_body (2 ^ 5) (fun _ => 0) NE10_FACTOR_EIGHT_FIRST_STAGE).2 0
        = ((b + 1 : ℕ) : ℤ) ∧
      (ne10_factor_body (2 ^ 5) (fun _ => 0) NE10_FACTOR_EIGHT_FIRST_STAGE).2 (2 * (b + 1))
        = (r : ℤ) ∧
      (ne10_factor_body (2 ^ 5) (fun _ => 0) NE10_FACTOR_EIGHT_FIRST_STAGE).2
        (2 * (b + 1) - 1) = (r : ℤ) :=
  Exists.elim
    (butterfly_stage_invariant 5 (by decide) (by decide) (fun _ => 0) (Real.sqrt 2 / 2)
      (fun _ => ⟨0, 0⟩) (fun _ _ => ⟨0, 0⟩))
    (fun r h => Exists.elim h (fun b hb =>
      ⟨r, b, hb.1, hb.2.1, hb.2.2.1, hb.2.2.2.1, hb.2.2.2.2.1, hb.2.2.2.2.2.1⟩))


/-! ## The last stage works in place -/

section LastStage

variable {R : Type}

/-- The last stage with one section of at most `step` butterflies leaves every entry of
the output array that no butterfly stores to as it was. -/
theorem last_stage_frame
    (bf : ne10_fft_cpx_float32_t R → ne10_fft_cpx_float32_t R → ne10_fft_cpx_float32_t R →
      ne10_fft_cpx_float32_t R → ne10_fft_cpx_float32_t R → ne10_fft_cpx_float32_t R →
      ne10_fft_cpx_float32_t R → Nat → ne10_fft_cpx_float32_t R)
    (tw_table : Nat → ne10_fft_cpx_float32_t R) (twiddles : Nat) (in_ptr : Buf)
    (M step : Nat) (hM : M ≤ step) (mem : Mem R) (idx : ℕ)
    (hidx : ∀ m q, m < M → q < 4 → idx ≠ m + step * q) :
    last_stage bf tw_table twiddles in_ptr 1 M step mem Buf.out idx = mem Buf.out idx := by
  unfold last_stage
  rw [Function.iterate_one]
  obtain ⟨_, _, _, _, _, iframe⟩ :=
    radix4_stage_iterate bf tw_table in_ptr Buf.out M step step
      { mem := mem, src := 0, dst := 0, tw := twiddles }
      (fun _ => ⟨rfl, rfl⟩) M hM
  apply iframe
  intro m q hm hq
  simp only [zero_add]
  exact hidx m q hm hq

/-- C28: the last stage with `fstride = 1` and `mstride = step`, run in place (the source
array is the destination array `out`).  Butterfly `m < mstride` stores its output `q` at
`m + step * q`, computed from the old contents at `m, m + step, m + 2 step, m + 3 step`;
every other entry is left as it was; the index sets of different butterflies are
disjoint; and the result is the one of the same stage reading from a distinct array that
holds the same samples. -/
theorem last_stage_in_place
    (bf : ne10_fft_cpx_float32_t R → ne10_fft_cpx_float32_t R → ne10_fft_cpx_float32_t R →
      ne10_fft_cpx_float32_t R → ne10_fft_cpx_float32_t R → ne10_fft_cpx_float32_t R →
      ne10_fft_cpx_float32_t R → Nat → ne10_fft_cpx_float32_t R)
    (tw_table : Nat → ne10_fft_cpx_float32_t R) (twiddles : Nat) (step : Nat) (mem : Mem R) :
    (∀ m q, m < step → q < 4 →
      last_stage bf tw_table twiddles Buf.out 1 step step mem Buf.out (m + step * q)
        = bf (tw_table (twiddles + m)) (tw_table (twiddles + m + step * 1))
            (tw_table (twiddles + m + step * 2))
            (mem Buf.out m) (mem Buf.out (m + step * 1))
            (mem Buf.out (m + step * 2)) (mem Buf.out (m + step * 3)) q) ∧
    (∀ idx, (∀ m q, m < step → q < 4 → idx ≠ m + step * q) →
      last_stage bf tw_table twiddles Buf.out 1 step step mem Buf.out idx = mem Buf.out idx) ∧
    (∀ m m' q q', m < step → m' < step → m ≠ m' → m + step * q ≠ m' + step * q') ∧
    (∀ mem2 : Mem R, mem2 Buf.buffer = mem Buf.out → mem2 Buf.out = mem Buf.out →
      last_stage bf tw_table twiddles Buf.buffer 1 step step mem2 Buf.out
        = last_stage bf tw_table twiddles Buf.out 1 step step mem Buf.out) := by
  refine ⟨?_, ?_, ?_, ?_⟩
  · exact (last_stage_closed bf tw_table twiddles Buf.out step step (le_refl _) mem).2
  · intro idx hidx
    exact last_stage_frame bf tw_table twiddles Buf.out step step (le_refl _) mem idx hidx
  · intro m m' q q' hm hm' hne
    rcases Nat.lt_or_gt_of_ne hne with h | h
    · exact stride_index_ne step m m' q q' h hm'
    · exact fun e => stride_index_ne step m' m q' q h hm e.symm
  · intro mem2 hsrc hdst
    funext idx
    by_cases hw : idx < 4 * step
    · have hpos : 0 < step := by omega
      have hm : idx % step < step := Nat.mod_lt _ hpos
      have hq : idx / step < 4 := by
        rw [Nat.div_lt_iff_lt_mul hpos]
        omega
      have hidx : idx = idx % step + step * (idx / step) := (Nat.mod_add_div idx step).symm
      rw [hidx,
        (last_stage_closed bf tw_table twiddles Buf.buffer step step (le_refl _) mem2).2
          _ _ hm hq,
        (last_stage_closed bf tw_table twiddles Buf.out step step (le_refl _) mem).2
          _ _ hm hq, hsrc]
    · have hnot : ∀ m q, m < step → q < 4 → idx ≠ m + step * q := by
        intro m q hm hq
        have : step * q ≤ step * 3 := Nat.mul_le_mul_left step (by omega)
        omega
      rw [last_stage_frame bf tw_table twiddles Buf.buffer step step (le_refl _) mem2 idx hnot,
        last_stage_frame bf tw_table twiddles Buf.out step step (le_refl _) mem idx hnot, hdst]

end LastStage


/-! ## What a plan depends on -/

/-- The factor loop does not read the buffer: two runs from states that agree on the
variables and on the pairs recorded so far end in states that agree in the same way. -/
theorem ne10_factor_loop_buffer_free (flags : Int) :
    ∀ s1 s2 : FactorState, s1.n = s2.n → s1.i = s2.i → s1.stage_num = s2.stage_num →
      s1.alg_flag = s2.alg_flag → (∀ k, 2 ≤ k → k < 2 * s1.i → s1.facbuf k = s2.facbuf k) →
      (ne10_factor_loop flags s1).i = (ne10_factor_loop flags s2).i ∧
      (ne10_factor_loop flags s1).stage_num = (ne10_factor_loop flags s2).stage_num ∧
      (ne10_factor_loop flags s1).alg_flag = (ne10_factor_loop flags s2).alg_flag ∧
      (ne10_factor_loop flags s1).p = (ne10_factor_loop flags s2).p ∧
      (∀ k, 2 ≤ k → k < 2 * (ne10_factor_loop flags s1).i →
        (ne10_factor_loop flags s1).facbuf k = (ne10_factor_loop flags s2).facbuf k) := by
  intro s1
  have hstep : ∀ s1 s2 : FactorState, s1.n = s2.n → s1.i = s2.i →
      s1.stage_num = s2.stage_num → s1.alg_flag = s2.alg_flag →
      (∀ k, 2 ≤ k → k < 2 * s1.i → s1.facbuf k = s2.facbuf k) →
      (ne10_factor_step flags s1).n = (ne10_factor_step flags s2).n ∧
      (ne10_factor_step flags s1).i = (ne10_factor_step flags s2).i ∧
      (ne10_factor_step flags s1).stage_num = (ne10_factor_step flags s2).stage_num ∧
      (ne10_factor_step flags s1).alg_flag = (ne10_factor_step flags s2).alg_flag ∧
      (ne10_factor_step flags s1).p = (ne10_factor_step flags s2).p ∧
      (∀ k, 2 ≤ k → k < 2 * (ne10_factor_step flags s1).i →
        (ne10_factor_step flags s1).facbuf k = (ne10_factor_step flags s2).facbuf k) := by
    intro s1 s2 hn hi hs ha hb
    refine ⟨?_, ?_, ?_, ?_, ?_, ?_⟩
    · simp only [ne10_factor_step, hn, ha]
    · simp only [ne10_factor_step, hi]
    · simp only [ne10_factor_step, hs]
    · simp only [ne10_factor_step, hn, ha]
    · simp only [ne10_factor_step, hn, ha]
    · intro k hk2 hk
      have hk' : k < 2 * (s1.i + 1) := hk
      by_cases c1 : k = 2 * s1.i + 1
      · rw [c1, ne10_factor_step_facbuf_size, hi, ne10_factor_step_facbuf_size, hn, ha]
      · by_cases c2 : k = 2 * s1.i
        · rw [c2, ne10_factor_step_facbuf_radix, hi, ne10_factor_step_facbuf_radix, hn, ha]
        · rw [ne10_factor_step_facbuf_lt flags s1 k (by omega),
            ne10_factor_step_facbuf_lt flags s2 k (by omega)]
          exact hb k hk2 (by omega)
  induction s1 using ne10_factor_loop.induct flags with
  | case1 s h ih =>
    intro s2 hn hi hs ha hb
    obtain ⟨e1, e2, e3, e4, _, e6⟩ := hstep s s2 hn hi hs ha hb
    rw [ne10_factor_loop, if_pos h, ne10_factor_loop.eq_1 flags s2, if_pos (by rw [← e1]; exact h)]
    exact ih _ e1 e2 e3 e4 e6
  | case2 s h =>
    intro s2 hn hi hs ha hb
    obtain ⟨e1, e2, e3, e4, e5, e6⟩ := hstep s s2 hn hi hs ha hb
    rw [ne10_factor_loop, if_neg h, ne10_factor_loop.eq_1 flags s2, if_neg (by rw [← e1]; exact h)]
    exact ⟨e2, e3, e4, e5, e6⟩

/-- The factor table does not depend on what the buffer held: the return code, and every
entry from 0 to `2 * stage_count + 2` when the call succeeds. -/
theorem ne10_factor_body_buffer_free (n : Int) (buf1 buf2 : Nat → Int) (flags : Int)
    (hn : 0 < n) :
    (ne10_factor_loop flags (ne10_factor_init n buf1)).stage_num
      = (ne10_factor_loop flags (ne10_factor_init n buf2)).stage_num ∧
    (¬ (ne10_factor_loop flags (ne10_factor_init n buf1)).stage_num > 21 →
      ∀ k, k ≤ 2 * (ne10_factor_loop flags (ne10_factor_init n buf1)).stage_num + 2 →
        (ne10_factor_body n buf1 flags).2 k = (ne10_factor_body n buf2 flags).2 k) := by
  obtain ⟨e2, e3, e4, e5, e6⟩ := ne10_factor_loop_buffer_free flags
    (ne10_factor_init n buf1) (ne10_factor_init n buf2) rfl rfl rfl rfl
    (by
      intro k hk2 hk
      have : k < 2 * 1 := hk
      omega)
  refine ⟨e3, ?_⟩
  intro hS k hk
  have hS2 : ¬ (ne10_factor_loop flags (ne10_factor_init n buf2)).stage_num > 21 := by
    rw [← e3]; exact hS
  obtain ⟨a0, a1, ak, af⟩ := ne10_factor_body_entries n buf1 flags hn hS
  obtain ⟨b0, b1, bk, bf⟩ := ne10_factor_body_entries n buf2 flags hn hS2
  have hi := (ne10_factor_loop_inv n buf1 flags hn).1.2.1
  by_cases c0 : k = 0
  · rw [c0, a0, b0, e3]
  · by_cases c1 : k = 1
    · rw [c1, a1, b1, e5]
    · by_cases c2 : k = 2 * (ne10_factor_loop flags (ne10_factor_init n buf1)).stage_num + 2
      · rw [c2, af]
        rw [e3, bf, e4]
      · rw [ak k (by omega) (by omega), bk k (by omega) (by rw [← e3]; omega)]
        exact e6 k (by omega) (by rw [hi]; omega)

/-- The twiddle generation reads the factor table only in the pairs of its stages. -/
theorem twiddle_gen_factors_congr {R : Type} [Field R] (pi : R) (cos sin : R → R)
    (ncfft : Int) (f1 f2 : Nat → Int) (sc : ℕ) :
    (∀ k, 2 ≤ k → k ≤ 2 * sc + 1 → f1 k = f2 k) →
    ∀ s : TwiddleGenState R,
      twiddle_gen pi cos sin ncfft f1 sc s = twiddle_gen pi cos sin ncfft f2 sc s := by
  induction sc with
  | zero =>
    intro _ s
    rfl
  | succ c ih =>
    intro h s
    rw [twiddle_gen, twiddle_gen]
    have e : twiddle_gen_stage pi cos sin ncfft f1 (c + 1) s
        = twiddle_gen_stage pi cos sin ncfft f2 (c + 1) s := by
      simp only [twiddle_gen_stage, h (2 * (c + 1)) (by omega) (by omega),
        h (2 * (c + 1) + 1) (by omega) (by omega)]
    rw [e]
    exact ih (fun k hk2 hk => h k hk2 (by omega)) _

/-- The twiddle table does not depend on what the block held, below its size: two
generations that start at the same offset with the same `fstride` leave the same value in
every entry of the generated range, and in every entry where the two tables agreed. -/
theorem twiddle_gen_table_free {R : Type} [Field R] (pi : R) (cos sin : R → R) (ncfft : Int)
    (factors : Nat → Int) (sc : ℕ) :
    ∀ s1 s2 : TwiddleGenState R, s1.twiddles = s2.twiddles → s1.fstride = s2.fstride →
      ∀ idx, (s1.twiddles ≤ idx ∧ idx < s1.twiddles + twiddle_offset factors sc 0)
          ∨ s1.table idx = s2.table idx →
        (twiddle_gen pi cos sin ncfft factors sc s1).table idx
          = (twiddle_gen pi cos sin ncfft factors sc s2).table idx := by
  induction sc with
  | zero =>
    intro s1 s2 _ _ idx h
    rcases h with h | h
    · simp only [twiddle_offset] at h
      omega
    · exact h
  | succ c ih =>
    intro s1 s2 htw hfs idx h
    rw [twiddle_gen, twiddle_gen]
    obtain ⟨a1, a2, a3, a4, a5⟩ := twiddle_gen_stage_closed pi cos sin ncfft factors (c + 1) s1
    obtain ⟨b1, b2, b3, b4, b5⟩ := twiddle_gen_stage_closed pi cos sin ncfft factors (c + 1) s2
    have hoff : twiddle_offset factors (c + 1) 0
        = (factors (2 * (c + 1) + 1)).toNat * ((factors (2 * (c + 1))).toNat - 1)
          + twiddle_offset factors c 0 := by
      simp [twiddle_offset]
    apply ih _ _ (by rw [a1, b1, htw]) (by rw [a2, b2, hfs])
    generalize hM : (factors (2 * (c + 1) + 1)).toNat = M at a1 a3 a4 a5 b1 b4 b5 hoff
    generalize hr : (factors (2 * (c + 1))).toNat = r at a1 a3 a4 a5 b1 b4 b5 hoff
    by_cases hlow : s1.twiddles ≤ idx ∧ idx < s1.twiddles + M * (r - 1)
    · -- an entry of this stage's sub-table
      right
      have hMpos : 0 < M := by
        rcases Nat.eq_zero_or_pos M with h0 | h0
        · rw [h0, Nat.zero_mul] at hlow
          omega
        · exact h0
      have hj : (idx - s1.twiddles) % M < M := Nat.mod_lt _ hMpos
      have hk : (idx - s1.twiddles) / M < r - 1 := by
        rw [Nat.div_lt_iff_lt_mul hMpos, Nat.mul_comm]
        omega
      have hidx : idx = s1.twiddles
          + (M * ((idx - s1.twiddles) / M + 1 - 1) + (idx - s1.twiddles) % M) := by
        rw [Nat.add_sub_cancel]
        have := Nat.div_add_mod (idx - s1.twiddles) M
        omega
      obtain ⟨q, j, hj', hq, hidx'⟩ : ∃ q j, j < M ∧ q < r - 1
          ∧ idx = s1.twiddles + (M * (q + 1 - 1) + j) :=
        ⟨(idx - s1.twiddles) / M, (idx - s1.twiddles) % M, hj, hk, hidx⟩
      rw [hidx', a5 j (q + 1) hj' (by omega) (by omega)]
      rw [htw, b5 j (q + 1) hj' (by omega) (by omega), hfs]
    · rcases h with h | h
      · left
        rw [a1]
        rw [hoff] at h
        omega
      · right
        by_cases hlt : idx < s1.twiddles
        · rw [a3 idx hlt, b3 idx (by rw [← htw]; exact hlt)]
          exact h
        · rw [a4 idx (by omega), b4 idx (by rw [← htw]; omega)]
          exact h

/-- The c2r split writes its first `ncfft` entries from `src` and from the first
`ncfft / 2` super twiddles only. -/
theorem split_c2r_congr {R : Type} [Field R]
    (d1 d2 src tw1 tw2 : Nat → ne10_fft_cpx_float32_t R) (n : ℕ) (hn : 1 ≤ n)
    (htw : ∀ j, j < n / 2 → tw1 j = tw2 j) (idx : ℕ) (hidx : idx < n) :
    ne10_fft_split_c2r_1d_float32 d1 src tw1 n idx
      = ne10_fft_split_c2r_1d_float32 d2 src tw2 n idx := by
  rw [split_c2r_closed d1 src tw1 n hn idx hidx, split_c2r_closed d2 src tw2 n hn idx hidx]
  by_cases h0 : idx = 0
  · rw [if_pos h0, if_pos h0]
  · rw [if_neg h0, if_neg h0]
    by_cases h1 : n - idx ≤ n / 2
    · rw [if_pos h1, if_pos h1]
      simp only [split_c2r_store_nk, htw (n - idx - 1) (by omega)]
    · rw [if_neg h1, if_neg h1]
      simp only [split_c2r_store_k, htw (idx - 1) (by omega)]

/-- C23 as amended: two plans that `ne10_fft_alloc_r2c_float32` makes for the same length
`nfft`, in blocks holding anything, have the same `ncfft`, blocks of the same size, and
agree on every entry the allocator writes: the factor table up to index
`2 * stage_count + 2`, the twiddle table below its size, the super-twiddle table below
`ncfft / 2`.  When `nfft = 2 * 2 ^ k <= 2 ^ 28` the scratch buffers of `nfft` complex
entries lie inside the two blocks, the forward transforms under the two plans agree on the
bins `0 .. nfft / 2` and the inverse transforms on the samples `0 .. nfft - 1`, for the
same input, whatever the scratch buffers and the output arrays held. -/
theorem ne10_fft_alloc_deterministic (st1 st2 cfg1 cfg2 : ne10_fft_r2c_state_float32_t ℝ)
    (nfft : Int)
    (h1 : ne10_fft_alloc_r2c_float32 Real.pi Real.cos Real.sin (some st1) nfft = some cfg1)
    (h2 : ne10_fft_alloc_r2c_float32 Real.pi Real.cos Real.sin (some st2) nfft = some cfg2) :
    cfg1.ncfft = cfg2.ncfft ∧ cfg1.memneeded = cfg2.memneeded ∧
    (∀ k : ℕ, (k : ℤ) ≤ 2 * cfg1.factors 0 + 2 → cfg1.factors k = cfg2.factors k) ∧
    (∀ idx, idx < twiddle_offset cfg1.factors (cfg1.factors 0 - 1).toNat 0 →
      cfg1.twiddles idx = cfg2.twiddles idx) ∧
    (∀ j, j < (cfg1.ncfft / 2).toNat → cfg1.super_twiddles j = cfg2.super_twiddles j) ∧
    (∀ k : ℕ, k ≤ 27 → nfft = 2 * 2 ^ k →
      buffer_in_block cfg1 NE10_FFT_BYTE_ALIGNMENT nfft ∧
      buffer_in_block cfg2 NE10_FFT_BYTE_ALIGNMENT nfft ∧
      (∀ (fout1 fout2 : ℕ → ne10_fft_cpx_float32_t ℝ) (x : ℕ → ℝ) (idx : ℕ), idx ≤ 2 ^ k →
        (ne10_fft_r2c_1d_float32_c (Real.sqrt 2 / 2) fout1 x cfg1).1 idx
          = (ne10_fft_r2c_1d_float32_c (Real.sqrt 2 / 2) fout2 x cfg2).1 idx) ∧
      (∀ (fout1 fout2 : ℕ → ℝ) (fin : ℕ → ne10_fft_cpx_float32_t ℝ) (t : ℕ), t < 2 * 2 ^ k →
        (ne10_fft_c2r_1d_float32_c (Real.sqrt 2 / 2) fout1 fin cfg1).1 t
          = (ne10_fft_c2r_1d_float32_c (Real.sqrt 2 / 2) fout2 fin cfg2).1 t)) := by
  obtain ⟨hlen, hS1, hc1⟩ := alloc_eq_some Real.pi Real.cos Real.sin st1 cfg1 nfft h1
  obtain ⟨_, hS2, hc2⟩ := alloc_eq_some Real.pi Real.cos Real.sin st2 cfg2 nfft h2
  have hpos : (0 : ℤ) < nfft / 2 := by omega
  obtain ⟨hsn, hfac⟩ := ne10_factor_body_buffer_free (nfft / 2) st1.factors st2.factors
    NE10_FACTOR_EIGHT_FIRST_STAGE hpos
  have hfac := hfac hS1
  have hf0 := (ne10_factor_body_entries (nfft / 2) st1.factors NE10_FACTOR_EIGHT_FIRST_STAGE
    hpos hS1).1
  have hsn1 := (ne10_factor_loop_inv (nfft / 2) st1.factors NE10_FACTOR_EIGHT_FIRST_STAGE
    hpos).1.2.2.1
  have hsup : ∀ j, j < (cfg1.ncfft / 2).toNat → cfg1.super_twiddles j = cfg2.super_twiddles j := by
    intro j hj
    rw [hc1] at hj ⊢
    rw [hc2]
    simp only at hj ⊢
    rw [super_twiddle_gen_closed _ _ _ _ _ j hj, super_twiddle_gen_closed _ _ _ _ _ j hj]
  have hnc : cfg1.ncfft = cfg2.ncfft := by rw [hc1, hc2]
  have hmem : cfg1.memneeded = cfg2.memneeded := by rw [hc1, hc2]
  refine ⟨hnc, hmem, ?_, ?_, hsup, ?_⟩
  · intro k hk
    rw [hc1] at hk ⊢
    rw [hc2]
    simp only at hk ⊢
    rw [hf0] at hk
    exact hfac k (by omega)
  · intro idx hidx
    rw [hc1] at hidx ⊢
    rw [hc2]
    simp only at hidx ⊢
    generalize hsn' : (ne10_factor_loop NE10_FACTOR_EIGHT_FIRST_STAGE
      (ne10_factor_init (nfft / 2) st1.factors)).stage_num = sn at hfac hf0 hsn1
    have e0 : (ne10_factor_body (nfft / 2) st2.factors NE10_FACTOR_EIGHT_FIRST_STAGE).2 0
        = (ne10_factor_body (nfft / 2) st1.factors NE10_FACTOR_EIGHT_FIRST_STAGE).2 0 :=
      (hfac 0 (by omega)).symm
    have e1 : (ne10_factor_body (nfft / 2) st2.factors NE10_FACTOR_EIGHT_FIRST_STAGE).2 1
        = (ne10_factor_body (nfft / 2) st1.factors NE10_FACTOR_EIGHT_FIRST_STAGE).2 1 :=
      (hfac 1 (by omega)).symm
    rw [e0, e1]
    have hsc : ((ne10_factor_body (nfft / 2) st1.factors NE10_FACTOR_EIGHT_FIRST_STAGE).2 0
        - 1).toNat = sn - 1 := by rw [hf0]; omega
    rw [hsc] at hidx ⊢
    rw [← twiddle_gen_factors_congr Real.pi Real.cos Real.sin (nfft / 2)
      (ne10_factor_body (nfft / 2) st1.factors NE10_FACTOR_EIGHT_FIRST_STAGE).2
      (ne10_factor_body (nfft / 2) st2.factors NE10_FACTOR_EIGHT_FIRST_STAGE).2 (sn - 1)
      (fun k _ hk => hfac k (by omega))]
    exact twiddle_gen_table_free Real.pi Real.cos Real.sin (nfft / 2)
      (ne10_factor_body (nfft / 2) st1.factors NE10_FACTOR_EIGHT_FIRST_STAGE).2 (sn - 1)
      { table := st1.twiddles, twiddles := 0,
        fstride := ((ne10_factor_body (nfft / 2) st1.factors
          NE10_FACTOR_EIGHT_FIRST_STAGE).2 1).toNat }
      { table := st2.twiddles, twiddles := 0,
        fstride := ((ne10_factor_body (nfft / 2) st1.factors
          NE10_FACTOR_EIGHT_FIRST_STAGE).2 1).toNat }
      rfl rfl idx
      (Or.inl ⟨Nat.zero_le _, by rw [Nat.zero_add]; exact hidx⟩)
  · intro k hk27 hk
    subst hk
    have hn1 : cfg1.ncfft.toNat = 2 ^ k := by
      rw [hc1]
      show ((2 * 2 ^ k : ℤ) / 2).toNat = 2 ^ k
      rw [Int.mul_ediv_cancel_left _ (by norm_num)]
      exact_mod_cast Int.toNat_natCast (2 ^ k)
    have hn2 : cfg2.ncfft.toNat = 2 ^ k := by rw [← hnc]; exact hn1
    refine ⟨alloc_pow2_block Real.pi Real.cos Real.sin k hk27 (some st1) cfg1 h1,
      alloc_pow2_block Real.pi Real.cos Real.sin k hk27 (some st2) cfg2 h2, ?_, ?_⟩
    · intro fout1 fout2 x idx hidx
      apply toC_injective
      rw [r2c_plan_dft k st1 cfg1 h1 fout1 x idx hidx, r2c_plan_dft k st2 cfg2 h2 fout2 x idx hidx]
    · intro fout1 fout2 fin t ht
      have hout : ∀ j, j < 2 ^ k →
          ne10_mixed_radix_butterfly_inverse_float32_c (Real.sqrt 2 / 2)
            (fun b => match b with
              | Buf.input => ne10_fft_split_c2r_1d_float32 cfg1.buffer fin cfg1.super_twiddles
                  cfg1.ncfft.toNat
              | Buf.out => fun j => ⟨fout1 (2 * j), fout1 (2 * j + 1)⟩
              | Buf.buffer => fun j => ne10_fft_split_c2r_1d_float32 cfg1.buffer fin
                  cfg1.super_twiddles cfg1.ncfft.toNat (cfg1.ncfft.toNat + j))
            cfg1.factors cfg1.twiddles Buf.out j
          = ne10_mixed_radix_butterfly_inverse_float32_c (Real.sqrt 2 / 2)
            (fun b => match b with
              | Buf.input => ne10_fft_split_c2r_1d_float32 cfg2.buffer fin cfg2.super_twiddles
                  cfg2.ncfft.toNat
              | Buf.out => fun j => ⟨fout2 (2 * j), fout2 (2 * j + 1)⟩
              | Buf.buffer => fun j => ne10_fft_split_c2r_1d_float32 cfg2.buffer fin
                  cfg2.super_twiddles cfg2.ncfft.toNat (cfg2.ncfft.toNat + j))
            cfg2.factors cfg2.twiddles Buf.out j := by
        intro j hj
        apply toC_injective
        rw [butterfly_inverse_plan k st1 cfg1 h1 _ j hj, butterfly_inverse_plan k st2 cfg2 h2 _ j hj]
        congr 1
        apply gdft_congr
        intro m hm
        show toC (ne10_fft_split_c2r_1d_float32 cfg1.buffer fin cfg1.super_twiddles
            cfg1.ncfft.toNat m)
          = toC (ne10_fft_split_c2r_1d_float32 cfg2.buffer fin cfg2.super_twiddles
            cfg2.ncfft.toNat m)
        rw [hn1, hn2]
        rw [split_c2r_congr cfg1.buffer cfg2.buffer fin cfg1.super_twiddles cfg2.super_twiddles
          (2 ^ k) (Nat.one_le_two_pow) (fun j hj => hsup j (by
            rw [hc1]
            show j < ((2 * 2 ^ k : ℤ) / 2 / 2).toNat
            rw [Int.mul_ediv_cancel_left _ (by norm_num)]
            have : ((2 : ℤ) ^ k / 2).toNat = 2 ^ k / 2 := by
              have : ((2 : ℤ) ^ k) = ((2 ^ k : ℕ) : ℤ) := by push_cast; rfl
              rw [this]
              omega
            rw [this]
            exact hj)) m hm]
      have key : ∀ A B : ne10_fft_cpx_float32_t ℝ, A = B →
          (if t % 2 = 0 then A.r else A.i) = (if t % 2 = 0 then B.r else B.i) := by
        intro A B h
        rw [h]
      exact key _ _ (hout (t / 2) (by omega))

/-- C23 at a concrete input: the length 8, planned once in a block of zeros and once in a
block whose arrays hold other values. -/
theorem ne10_fft_alloc_deterministic_witness :
    ∃ cfg1 cfg2 : ne10_fft_r2c_state_float32_t ℝ,
      ne10_fft_alloc_r2c_float32 Real.pi Real.cos Real.sin (some (zero_block ℝ)) (2 ^ (2 + 1))
        = some cfg1 ∧
      ne10_fft_alloc_r2c_float32 Real.pi Real.cos Real.sin
        (some { buffer := fun _ => ⟨1, 0⟩, ncfft := 7, factors := fun _ => 5,
                twiddles := fun _ => ⟨2, 3⟩, super_twiddles := fun _ => ⟨4, 5⟩ }) (2 ^ (2 + 1))
        = some cfg2 ∧
      cfg1.ncfft = cfg2.ncfft ∧ cfg1.memneeded = cfg2.memneeded ∧
      (∀ k : ℕ, (k : ℤ) ≤ 2 * cfg1.factors 0 + 2 → cfg1.factors k = cfg2.factors k) ∧
      (∀ idx, idx < twiddle_offset cfg1.factors (cfg1.factors 0 - 1).toNat 0 →
        cfg1.twiddles idx = cfg2.twiddles idx) ∧
      (∀ j, j < (cfg1.ncfft / 2).toNat → cfg1.super_twiddles j = cfg2.super_twiddles j) ∧
      (∀ k : ℕ, k ≤ 27 → (2 : ℤ) ^ (2 + 1) = 2 * 2 ^ k →
        buffer_in_block cfg1 NE10_FFT_BYTE_ALIGNMENT (2 ^ (2 + 1)) ∧
        buffer_in_block cfg2 NE10_FFT_BYTE_ALIGNMENT (2 ^ (2 + 1)) ∧
        (∀ (fout1 fout2 : ℕ → ne10_fft_cpx_float32_t ℝ) (x : ℕ → ℝ) (idx : ℕ), idx ≤ 2 ^ k →
          (ne10_fft_r2c_1d_float32_c (Real.sqrt 2 / 2) fout1 x cfg1).1 idx
            = (ne10_fft_r2c_1d_float32_c (Real.sqrt 2 / 2) fout2 x cfg2).1 idx) ∧
        (∀ (fout1 fout2 : ℕ → ℝ) (fin : ℕ → ne10_fft_cpx_float32_t ℝ) (t : ℕ),
          t < 2 * 2 ^ k →
          (ne10_fft_c2r_1d_float32_c (Real.sqrt 2 / 2) fout1 fin cfg1).1 t
            = (ne10_fft_c2r_1d_float32_c (Real.sqrt 2 / 2) fout2 fin cfg2).1 t)) :=
  Exists.elim (alloc_pow2_some (zero_block ℝ) 2 (by norm_num)) (fun cfg1 h1 =>
    Exists.elim (alloc_pow2_some
      { buffer := fun _ => ⟨1, 0⟩, ncfft := 7, factors := fun _ => 5,
        twiddles := fun _ => ⟨2, 3⟩, super_twiddles := fun _ => ⟨4, 5⟩ } 2 (by norm_num))
      (fun cfg2 h2 =>
        ⟨cfg1, cfg2, h1, h2, ne10_fft_alloc_deterministic _ _ cfg1 cfg2 _ h1 h2⟩))

/-- C23 as stated fails for the even length 6: planned once in a block whose scratch
buffer holds zeros and once in a block whose scratch buffer holds `(1, 0)`, the forward
transform of the zero input (output array holding zeros) has `fout[1] = (0, 0)` under the
first plan and `fout[1] = (1, 0)` under the second.  And the power of two `2 ^ 29` gets a
plan whose byte count 7516193072 wraps to a block of 3221225776 bytes, in which the
`N / 2` complex entries that the transforms store in the scratch buffer do not lie. -/
theorem ne10_fft_alloc_deterministic_counterexample :
    (∃ cfg1 cfg2 : ne10_fft_r2c_state_float32_t ℝ,
      ne10_fft_alloc_r2c_float32 Real.pi Real.cos Real.sin (some (zero_block ℝ)) 6
        = some cfg1 ∧
      ne10_fft_alloc_r2c_float32 Real.pi Real.cos Real.sin
        (some { buffer := fun _ => ⟨1, 0⟩, ncfft := 0, factors := fun _ => 0,
                twiddles := fun _ => ⟨0, 0⟩, super_twiddles := fun _ => ⟨0, 0⟩ }) 6
        = some cfg2 ∧
      (ne10_fft_r2c_1d_float32_c (Real.sqrt 2 / 2) (fun _ => ⟨0, 0⟩) (fun _ => 0) cfg1).1 1
        = ⟨0, 0⟩ ∧
      (ne10_fft_r2c_1d_float32_c (Real.sqrt 2 / 2) (fun _ => ⟨0, 0⟩) (fun _ => 0) cfg2).1 1
        = ⟨1, 0⟩ ∧
      (ne10_fft_r2c_1d_float32_c (Real.sqrt 2 / 2) (fun _ => ⟨0, 0⟩) (fun _ => 0) cfg1).1 1
        ≠ (ne10_fft_r2c_1d_float32_c (Real.sqrt 2 / 2) (fun _ => ⟨0, 0⟩) (fun _ => 0) cfg2).1 1)
    ∧ (∃ cfg : ne10_fft_r2c_state_float32_t ℝ,
      ne10_fft_alloc_r2c_float32 Real.pi Real.cos Real.sin (some (zero_block ℝ)) (2 ^ (28 + 1))
        = some cfg ∧
      cfg.ncfft = 2 ^ 28 ∧ ne10_fft_r2c_bytes (2 ^ (28 + 1)) = 7516193072 ∧
      cfg.memneeded = 3221225776 ∧ ¬ buffer_in_block cfg 0 (2 ^ 28)) := by
  refine ⟨?_, alloc_pow2_wrap (zero_block ℝ)⟩
  obtain ⟨cfg1, h1, hn1, hbuf1, a0, _, a2⟩ := alloc_six_of (zero_block ℝ)
  obtain ⟨cfg2, h2, hn2, hbuf2, b0, _, b2⟩ := alloc_six_of
    { buffer := fun _ => ⟨1, 0⟩, ncfft := 0, factors := fun _ => 0,
      twiddles := fun _ => ⟨0, 0⟩, super_twiddles := fun _ => ⟨0, 0⟩ }
  have hr1 : cfg1.factors (2 * cfg1.factors 0).toNat = 3 := by rw [a0]; exact a2
  have hr2 : cfg2.factors (2 * cfg2.factors 0).toNat = 3 := by rw [b0]; exact b2
  have v1 : (ne10_fft_r2c_1d_float32_c (Real.sqrt 2 / 2) (fun _ => ⟨0, 0⟩) (fun _ => 0)
      cfg1).1 1 = ⟨0, 0⟩ := by
    simp only [ne10_fft_r2c_1d_float32_c]
    rw [butterfly_forward_other_radix _ _ _ _ (by rw [hr1]; decide) (by rw [hr1]; decide)
      (by rw [hr1]; decide), hn1]
    rw [show ((3 : ℤ)).toNat = 3 by rfl, split_r2c_closed _ _ _ 3 (by norm_num) 1 (by norm_num)]
    simp [split_r2c_store_k, Mem.write_apply, hbuf1, zero_block]
  have v2 : (ne10_fft_r2c_1d_float32_c (Real.sqrt 2 / 2) (fun _ => ⟨0, 0⟩) (fun _ => 0)
      cfg2).1 1 = ⟨1, 0⟩ := by
    simp only [ne10_fft_r2c_1d_float32_c]
    rw [butterfly_forward_other_radix _ _ _ _ (by rw [hr2]; decide) (by rw [hr2]; decide)
      (by rw [hr2]; decide), hn2]
    rw [show ((3 : ℤ)).toNat = 3 by rfl, split_r2c_closed _ _ _ 3 (by norm_num) 1 (by norm_num)]
    simp [split_r2c_store_k, Mem.write_apply, hbuf2]
    norm_num
  refine ⟨cfg1, cfg2, h1, h2, v1, v2, ?_⟩
  rw [v1, v2]
  intro hcontra
  have := congrArg ne10_fft_cpx_float32_t.r hcontra
  norm_num at this


/-! ## What the butterflies leave untouched -/

section Frames

variable {R : Type}

/-- The radix-8 first stage stores only below `8 * fstride`. -/
theorem first_stage_radix8_frame
    (bf : ne10_fft_cpx_float32_t R → ne10_fft_cpx_float32_t R → ne10_fft_cpx_float32_t R →
      ne10_fft_cpx_float32_t R → ne10_fft_cpx_float32_t R → ne10_fft_cpx_float32_t R →
      ne10_fft_cpx_float32_t R → ne10_fft_cpx_float32_t R → Nat → ne10_fft_cpx_float32_t R)
    (fstride : Nat) (mem : Mem R) (b : Buf) (idx : ℕ) (hidx : fstride * 8 ≤ idx) :
    first_stage_radix8 bf fstride mem b idx = mem b idx := by
  unfold first_stage_radix8
  have key : ∀ F : ℕ, F ≤ fstride → ∀ s0 : FirstStageState R,
      ((List.range F).foldl
        (fun (s : FirstStageState R) (f_count : Nat) =>
          let dst := f_count * 8
          let scratch_out := bf (s.mem Buf.input s.src) (s.mem Buf.input (s.src + fstride))
            (s.mem Buf.input (s.src + fstride * 2)) (s.mem Buf.input (s.src + fstride * 3))
            (s.mem Buf.input (s.src + fstride * 4)) (s.mem Buf.input (s.src + fstride * 5))
            (s.mem Buf.input (s.src + fstride * 6)) (s.mem Buf.input (s.src + fstride * 7))
          { mem := ((((((((s.mem.write Buf.out dst (scratch_out 0)).write Buf.out (dst + 1)
                (scratch_out 1)).write Buf.out (dst + 2) (scratch_out 2)).write Buf.out (dst + 3)
                (scratch_out 3)).write Buf.out (dst + 4) (scratch_out 4)).write Buf.out (dst + 5)
                (scratch_out 5)).write Buf.out (dst + 6) (scratch_out 6)).write Buf.out (dst + 7)
                (scratch_out 7))
            src := s.src + 1
            dst := dst })
        s0).mem b idx = s0.mem b idx := by
    intro F
    induction F with
    | zero =>
      intro _ s0
      rfl
    | succ F ih =>
      intro hF s0
      rw [List.range_succ, List.foldl_append, List.foldl_cons, List.foldl_nil]
      simp only [Mem.write_apply]
      rw [if_neg (fun h => absurd h.2 (by omega)), if_neg (fun h => absurd h.2 (by omega)),
        if_neg (fun h => absurd h.2 (by omega)), if_neg (fun h => absurd h.2 (by omega))]
      rw [if_neg (fun h => absurd h.2 (by omega)), if_neg (fun h => absurd h.2 (by omega)),
        if_neg (fun h => absurd h.2 (by omega)), if_neg (fun h => absurd h.2 (by omega))]
      exact ih (by omega) s0
  exact key fstride (le_refl _) _

/-- The radix-4 first stage stores only below `4 * fstride`. -/
theorem first_stage_radix4_frame
    (bf : ne10_fft_cpx_float32_t R → ne10_fft_cpx_float32_t R → ne10_fft_cpx_float32_t R →
      ne10_fft_cpx_float32_t R → Nat → ne10_fft_cpx_float32_t R)
    (fstride : Nat) (mem : Mem R) (b : Buf) (idx : ℕ) (hidx : fstride * 4 ≤ idx) :
    first_stage_radix4 bf fstride mem b idx = mem b idx := by
  unfold first_stage_radix4
  have key : ∀ F : ℕ, F ≤ fstride →
      ((fun (s : FirstStageState R) =>
          let scratch_out := bf (s.mem Buf.input s.src) (s.mem Buf.input (s.src + fstride * 1))
            (s.mem Buf.input (s.src + fstride * 2)) (s.mem Buf.input (s.src + fstride * 3))
          ({ mem := ((((s.mem.write Buf.out s.dst (scratch_out 0)).write Buf.out (s.dst + 1)
                (scratch_out 1)).write Buf.out (s.dst + 2) (scratch_out 2)).write Buf.out
                (s.dst + 3) (scratch_out 3))
             src := s.src + 1
             dst := s.dst + 4 } : FirstStageState R))^[F]
        { mem := mem, src := 0, dst := 0 }).dst = F * 4 ∧
      ((fun (s : FirstStageState R) =>
          let scratch_out := bf (s.mem Buf.input s.src) (s.mem Buf.input (s.src + fstride * 1))
            (s.mem Buf.input (s.src + fstride * 2)) (s.mem Buf.input (s.src + fstride * 3))
          ({ mem := ((((s.mem.write Buf.out s.dst (scratch_out 0)).write Buf.out (s.dst + 1)
                (scratch_out 1)).write Buf.out (s.dst + 2) (scratch_out 2)).write Buf.out
                (s.dst + 3) (scratch_out 3))
             src := s.src + 1
             dst := s.dst + 4 } : FirstStageState R))^[F]
        { mem := mem, src := 0, dst := 0 }).mem b idx = mem b idx := by
    intro F
    induction F with
    | zero =>
      intro _
      exact ⟨by simp, rfl⟩
    | succ F ih =>
      intro hF
      obtain ⟨hdst, hmem⟩ := ih (by omega)
      rw [Function.iterate_succ_apply']
      generalize Nat.iterate _ F _ = st at hdst hmem ⊢
      refine ⟨?_, ?_⟩
      · show _ + 4 = (F + 1) * 4
        rw [hdst]; ring
      · simp only [Mem.write_apply]
        rw [hdst]
        rw [if_neg (fun h => absurd h.2 (by omega)), if_neg (fun h => absurd h.2 (by omega)),
          if_neg (fun h => absurd h.2 (by omega)), if_neg (fun h => absurd h.2 (by omega))]
        exact hmem
  exact (key fstride (le_refl _)).2

/-- A middle stage stores only below `fstride * (mstride * 4)`. -/
theorem middle_stage_frame
    (bf : ne10_fft_cpx_float32_t R → ne10_fft_cpx_float32_t R → ne10_fft_cpx_float32_t R →
      ne10_fft_cpx_float32_t R → ne10_fft_cpx_float32_t R → ne10_fft_cpx_float32_t R →
      ne10_fft_cpx_float32_t R → Nat → ne10_fft_cpx_float32_t R)
    (tw_table : Nat → ne10_fft_cpx_float32_t R) (twiddles : Nat) (in_ptr out_ptr : Buf)
    (hne : in_ptr ≠ out_ptr) (fstride M step : Nat) (mem : Mem R) (b : Buf) (idx : ℕ)
    (hidx : fstride * (M * 4) ≤ idx) :
    middle_stage bf tw_table twiddles in_ptr out_ptr fstride M step mem b idx = mem b idx := by
  by_cases hb : b = out_ptr
  · subst hb
    unfold middle_stage
    have key : ∀ F : ℕ, F ≤ fstride → ∀ s0 : StageState R,
        ((List.range F).foldl
          (fun (s : StageState R) (f_count : Nat) =>
            (radix4_stage_body bf tw_table in_ptr b M step M)^[M]
              { s with dst := f_count * (M * 4), tw := twiddles })
          s0).mem b idx = s0.mem b idx := by
      intro F
      induction F with
      | zero =>
        intro _ s0
        rfl
      | succ F ih =>
        intro hF s0
        rw [List.range_succ, List.foldl_append, List.foldl_cons, List.foldl_nil]
        obtain ⟨_, _, _, _, _, iframe⟩ :=
          radix4_stage_iterate bf tw_table in_ptr b M step M
            { ((List.range F).foldl
                (fun (s : StageState R) (f_count : Nat) =>
                  (radix4_stage_body bf tw_table in_ptr b M step M)^[M]
                    { s with dst := f_count * (M * 4), tw := twiddles })
                s0) with dst := F * (M * 4), tw := twiddles }
            (fun h => absurd h hne) M (le_refl M)
        rw [iframe]
        · exact ih (by omega) s0
        · intro m q hm hq
          show idx ≠ F * (M * 4) + m + M * q
          have h1 : (F + 1) * (M * 4) ≤ fstride * (M * 4) := Nat.mul_le_mul_right _ hF
          have h2 : M * q ≤ M * 3 := Nat.mul_le_mul_left M (by omega)
          rw [Nat.add_mul] at h1
          omega
    exact key fstride (le_refl _) _
  · rw [(middle_stage_closed bf tw_table twiddles in_ptr out_ptr hne fstride M step mem).1 b hb]

/-- The middle stages of a plan `r * 4 ^ b` store only below `r * 4 ^ b`. -/
theorem middle_stages_frame
    (bf : ne10_fft_cpx_float32_t R → ne10_fft_cpx_float32_t R → ne10_fft_cpx_float32_t R →
      ne10_fft_cpx_float32_t R → ne10_fft_cpx_float32_t R → ne10_fft_cpx_float32_t R →
      ne10_fft_cpx_float32_t R → Nat → ne10_fft_cpx_float32_t R)
    (tw_table : Nat → ne10_fft_cpx_float32_t R) (step r b : ℕ) (bb : Buf) (idx : ℕ)
    (hidx : r * 4 ^ b ≤ idx) (passes : ℕ) :
    ∀ (t : ℕ) (s : ButterflyState R), t + passes + 1 ≤ b →
      s.mstride = r * 4 ^ t → s.fstride = 4 ^ (b - 1 - t) → s.in_ptr ≠ s.out_ptr →
      (middle_stages bf tw_table step passes s).mem bb idx = s.mem bb idx := by
  induction passes with
  | zero =>
    intro t s _ _ _ _
    rfl
  | succ p ih =>
    intro t s hb hm hf hne
    rw [middle_stages]
    rw [ih (t + 1)
      { mem := middle_stage bf tw_table s.twiddles s.in_ptr s.out_ptr s.fstride s.mstride
          step s.mem
        in_ptr := s.out_ptr
        out_ptr := s.in_ptr
        twiddles := s.twiddles + s.mstride * 3
        mstride := s.mstride * 4
        fstride := s.fstride / 4
        stage_count := s.stage_count - 1 } (by omega)
      (show s.mstride * 4 = r * 4 ^ (t + 1) by rw [hm, pow_succ]; ring)
      (show s.fstride / 4 = 4 ^ (b - 1 - (t + 1)) by
        rw [hf, show b - 1 - t = (b - 1 - (t + 1)) + 1 by omega, pow_succ]
        exact Nat.mul_div_cancel _ (by norm_num))
      (fun h => hne h.symm)]
    apply middle_stage_frame bf tw_table s.twiddles s.in_ptr s.out_ptr hne
    rw [hm, hf]
    have e : 4 ^ (b - 1 - t) * (r * 4 ^ t * 4) = r * 4 ^ b := by
      conv_rhs => rw [show b = (b - 1 - t) + t + 1 by omega, pow_succ, pow_add]
      ring
    rw [e]
    exact hidx

/-- The stages after the first one, on a plan `r * 4 ^ b` with `b >= 1`, store only
below `r * 4 ^ b`. -/
theorem butterfly_stages_frame
    (bf_mid bf_last : ne10_fft_cpx_float32_t R → ne10_fft_cpx_float32_t R →
      ne10_fft_cpx_float32_t R → ne10_fft_cpx_float32_t R → ne10_fft_cpx_float32_t R →
      ne10_fft_cpx_float32_t R → ne10_fft_cpx_float32_t R → Nat → ne10_fft_cpx_float32_t R)
    (tw_table : Nat → ne10_fft_cpx_float32_t R) (mem : Mem R) (r b : ℕ) (hb : 1 ≤ b)
    (bb : Buf) (idx : ℕ) (hidx : r * 4 ^ b ≤ idx) :
    butterfly_stages bf_mid bf_last tw_table mem (b : ℤ) (4 ^ b / 4) r (r * 4 ^ b / 4) bb idx
      = mem bb idx := by
  have hdiv : 4 ^ b / 4 = 4 ^ (b - 1 - 0) := by
    conv_lhs => rw [show b = (b - 1) + 1 by omega, pow_succ]
    rw [Nat.sub_zero]
    exact Nat.mul_div_cancel _ (by norm_num)
  have hstep : r * 4 ^ b / 4 = r * 4 ^ (b - 1) := by
    conv_lhs => rw [show b = (b - 1) + 1 by omega, pow_succ, ← Nat.mul_assoc]
    exact Nat.mul_div_cancel _ (by norm_num)
  rw [butterfly_stages_last bf_mid bf_last tw_table mem b (4 ^ b / 4) r (r * 4 ^ b / 4) r hb
    (by simp) hdiv]
  obtain ⟨h1, h2, _⟩ := middle_stages_vars bf_mid tw_table (r * 4 ^ b / 4) r b (b - 1) 0
    { mem := mem, in_ptr := Buf.out, out_ptr := Buf.buffer, twiddles := 0,
      mstride := r, fstride := 4 ^ b / 4, stage_count := (b : ℤ) }
    (by omega) (by simp) hdiv
  have hfr := middle_stages_frame bf_mid tw_table (r * 4 ^ b / 4) r b bb idx hidx (b - 1) 0
    { mem := mem, in_ptr := Buf.out, out_ptr := Buf.buffer, twiddles := 0,
      mstride := r, fstride := 4 ^ b / 4, stage_count := (b : ℤ) }
    (by omega) (by simp) hdiv (show Buf.out ≠ Buf.buffer by decide)
  rw [zero_add] at h1 h2
  rw [h1, h2, Nat.sub_self, pow_zero, hstep]
  rw [hstep] at hfr
  by_cases hbb : bb = Buf.out
  · subst hbb
    rw [last_stage_frame bf_last tw_table _ _ (r * 4 ^ (b - 1)) (r * 4 ^ (b - 1)) (le_refl _)
      _ idx]
    · exact hfr
    · intro m q hm hq
      have e : r * 4 ^ b = (r * 4 ^ (b - 1)) * 4 := by
        conv_lhs => rw [show b = (b - 1) + 1 by omega, pow_succ]
        ring
      have h3 : r * 4 ^ (b - 1) * q ≤ r * 4 ^ (b - 1) * 3 := Nat.mul_le_mul_left _ (by omega)
      omega
  · rw [(last_stage_closed bf_last tw_table _ _ (r * 4 ^ (b - 1)) (r * 4 ^ (b - 1)) (le_refl _)
      _).1 bb hbb]
    exact hfr

end Frames

/-- The forward butterfly on the factor table of `r * 4 ^ b` (`r` 4 or 8) changes no
entry of any array from index `r * 4 ^ b` on. -/
theorem butterfly_forward_frame_pow4 {R : Type} [Field R] (r b : ℕ) (hr : r = 4 ∨ r = 8)
    (hb : b + 1 ≤ 21) (buf : Nat → Int) (TW_81 : R) (mem : Mem R)
    (tw : Nat → ne10_fft_cpx_float32_t R) (bb : Buf) (idx : ℕ) (hidx : r * 4 ^ b ≤ idx) :
    ne10_mixed_radix_butterfly_float32_c TW_81 mem
        (ne10_factor_body ((r : ℤ) * 4 ^ b) buf NE10_FACTOR_EIGHT_FIRST_STAGE).2 tw bb idx
      = mem bb idx := by
  have hr' : (r : ℤ) = 4 ∨ (r : ℤ) = 8 := by
    rcases hr with hr | hr <;> rw [hr] <;> simp
  obtain ⟨e0, e1, eu, er⟩ := ne10_factor_body_pow4 (r : ℤ) hr' b hb buf
  rw [show 2 * (1 + b) = 2 * (b + 1) by ring] at er
  rw [butterfly_forward_stages_eq _ r b hr e0 (by rw [e1]; push_cast; rfl) er]
  have hfirst : (if r = 8 then first_stage_radix8 (radix8_butterfly_forward TW_81) (4 ^ b) mem
      else first_stage_radix4 radix4_butterfly_forward (4 ^ b) mem) bb idx = mem bb idx := by
    rcases hr with hr | hr
    · subst hr
      rw [if_neg (by norm_num)]
      exact first_stage_radix4_frame _ _ _ _ _ (by omega)
    · subst hr
      rw [if_pos rfl]
      exact first_stage_radix8_frame _ _ _ _ _ (by omega)
  by_cases hb0 : b = 0
  · subst hb0
    rw [Nat.cast_zero, butterfly_stages_zero]
    exact hfirst
  · have hlast := (eu (b - 1) (by omega)).2
    rw [show 2 * (1 + (b - 1)) + 1 = 2 * (b + 1) - 1 by omega,
      show b - 1 - (b - 1) = 0 by omega, pow_zero, mul_one] at hlast
    rw [hlast, Int.toNat_natCast, butterfly_stages_frame _ _ _ _ r b (by omega) bb idx hidx]
    exact hfirst

/-- The inverse butterfly on the factor table of `r * 4 ^ b` (`r` 4 or 8) changes no
entry of any array from index `r * 4 ^ b` on. -/
theorem butterfly_inverse_frame_pow4 {R : Type} [Field R] (r b : ℕ) (hr : r = 4 ∨ r = 8)
    (hb : b + 1 ≤ 21) (buf : Nat → Int) (TW_81 : R) (mem : Mem R)
    (tw : Nat → ne10_fft_cpx_float32_t R) (bb : Buf) (idx : ℕ) (hidx : r * 4 ^ b ≤ idx) :
    ne10_mixed_radix_butterfly_inverse_float32_c TW_81 mem
        (ne10_factor_body ((r : ℤ) * 4 ^ b) buf NE10_FACTOR_EIGHT_FIRST_STAGE).2 tw bb idx
      = mem bb idx := by
  have hr' : (r : ℤ) = 4 ∨ (r : ℤ) = 8 := by
    rcases hr with hr | hr <;> rw [hr] <;> simp
  obtain ⟨e0, e1, eu, er⟩ := ne10_factor_body_pow4 (r : ℤ) hr' b hb buf
  rw [show 2 * (1 + b) = 2 * (b + 1) by ring] at er
  have hfirst : (if r = 8 then first_stage_radix8 (radix8_butterfly_inverse TW_81) (4 ^ b) mem
      else first_stage_radix4 radix4_butterfly_inverse (4 ^ b) mem) bb idx = mem bb idx := by
    rcases hr with hr | hr
    · subst hr
      rw [if_neg (by norm_num)]
      exact first_stage_radix4_frame _ _ _ _ _ (by omega)
    · subst hr
      rw [if_pos rfl]
      exact first_stage_radix8_frame _ _ _ _ _ (by omega)
  by_cases hb0 : b = 0
  · subst hb0
    rw [pow_zero, mul_one] at hidx
    generalize (ne10_factor_body ((r : ℤ) * 4 ^ 0) buf NE10_FACTOR_EIGHT_FIRST_STAGE).2 = fb
      at e0 e1 er
    have hidx2 : (2 * (((0 + 1 : ℕ) : ℤ))).toNat = 2 * (0 + 1) := by omega
    simp only [ne10_mixed_radix_butterfly_inverse_float32_c, e0, hidx2, er]
    have hscale : ∀ (c : R) (count : ℕ) (m : Mem R), count ≤ idx →
        scale_first_stage c count m bb idx = m bb idx := by
      intro c count m hc
      by_cases hbb : bb = Buf.out
      · subst hbb
        exact (scale_first_stage_closed c count m).2.2 idx hc
      · rw [(scale_first_stage_closed c count m).1 bb hbb]
    rcases hr with hr | hr
    · subst hr
      rw [if_neg (by norm_num), if_pos (by norm_num)]
      simp only [Nat.cast_ofNat, zero_add, Nat.cast_one, sub_self, if_true,
        butterfly_stages_zero]
      rw [hscale _ 4 _ (by omega)]
      exact first_stage_radix4_frame _ _ _ _ _ (by rw [e1]; simp; omega)
    · subst hr
      rw [if_pos (by norm_num)]
      simp only [Nat.cast_ofNat, zero_add, Nat.cast_one, sub_self, if_true,
        butterfly_stages_zero]
      rw [hscale _ 8 _ (by omega)]
      exact first_stage_radix8_frame _ _ _ _ _ (by rw [e1]; simp; omega)
  · have hlast := (eu (b - 1) (by omega)).2
    rw [show 2 * (1 + (b - 1)) + 1 = 2 * (b + 1) - 1 by omega,
      show b - 1 - (b - 1) = 0 by omega, pow_zero, mul_one] at hlast
    rw [butterfly_inverse_stages_eq _ r b hr (by omega) e0 (by rw [e1]; push_cast; rfl) er,
      hlast, Int.toNat_natCast, butterfly_stages_frame _ _ _ _ r b (by omega) bb idx hidx]
    exact hfirst

/-- Under the plan of a power of two `ncfft = 2 ^ k` the forward butterfly changes no
entry of any array from index `ncfft` on. -/
theorem butterfly_forward_frame {R : Type} [Field R] (pi : R) (cos sin : R → R) (k : ℕ)
    (st cfg : ne10_fft_r2c_state_float32_t R)
    (halloc : ne10_fft_alloc_r2c_float32 pi cos sin (some st) (2 * 2 ^ k) = some cfg)
    (TW_81 : R) (mem : Mem R) (bb : Buf) (idx : ℕ) (hidx : 2 ^ k ≤ idx) :
    ne10_mixed_radix_butterfly_float32_c TW_81 mem cfg.factors cfg.twiddles bb idx
      = mem bb idx := by
  obtain ⟨_, hS, hcfg⟩ := alloc_eq_some _ _ _ _ _ _ halloc
  have hhalf : (2 * 2 ^ k : ℤ) / 2 = 2 ^ k := by
    rw [Int.mul_ediv_cancel_left _ (by norm_num)]
  rw [hhalf] at hS hcfg
  subst hcfg
  simp only
  by_cases hk0 : k = 0
  · subst hk0
    obtain ⟨e0, _, e2⟩ := ne10_factor_body_one st.factors
    simp only [pow_zero] at e0 e2 hidx ⊢
    simp only [ne10_mixed_radix_butterfly_float32_c, e0, e2, Mem.write_apply]
    rw [show (2 * (1 : ℤ)).toNat = 2 from rfl, e2, if_neg (by decide), if_neg (by decide),
      if_neg (by decide), Mem.write_apply, if_neg (fun h => absurd h.2 (by omega))]
  · by_cases hk1 : k = 1
    · subst hk1
      obtain ⟨e0, e1, e2⟩ := ne10_factor_body_two st.factors
      simp only [pow_one] at e0 e1 e2 hidx ⊢
      simp only [ne10_mixed_radix_butterfly_float32_c, e0]
      rw [show (2 * (1 : ℤ)).toNat = 2 from rfl, e2, if_neg (by decide), if_neg (by decide),
        if_pos rfl, Mem.write_apply, Mem.write_apply, if_neg (fun h => absurd h.2 (by omega)),
        if_neg (fun h => absurd h.2 (by omega))]
    · obtain ⟨r, b, hr, hrb⟩ := pow_two_cases k (by omega)
      have hrbZ : (2 : ℤ) ^ k = (r : ℤ) * 4 ^ b := by exact_mod_cast hrb
      have hr' : (r : ℤ) = 4 ∨ (r : ℤ) = 8 := by
        rcases hr with hr | hr <;> rw [hr] <;> simp
      rw [hrbZ] at hS ⊢
      rw [ne10_factor_stage_pow4 (r : ℤ) hr' b] at hS
      rw [hrb] at hidx
      exact butterfly_forward_frame_pow4 r b hr (by omega) st.factors TW_81 mem _ bb idx hidx

/-- Under the plan of a power of two `ncfft = 2 ^ k` the inverse butterfly changes no
entry of any array from index `ncfft` on. -/
theorem butterfly_inverse_frame {R : Type} [Field R] (pi : R) (cos sin : R → R) (k : ℕ)
    (st cfg : ne10_fft_r2c_state_float32_t R)
    (halloc : ne10_fft_alloc_r2c_float32 pi cos sin (some st) (2 * 2 ^ k) = some cfg)
    (TW_81 : R) (mem : Mem R) (bb : Buf) (idx : ℕ) (hidx : 2 ^ k ≤ idx) :
    ne10_mixed_radix_butterfly_inverse_float32_c TW_81 mem cfg.factors cfg.twiddles bb idx
      = mem bb idx := by
  obtain ⟨_, hS, hcfg⟩ := alloc_eq_some _ _ _ _ _ _ halloc
  have hhalf : (2 * 2 ^ k : ℤ) / 2 = 2 ^ k := by
    rw [Int.mul_ediv_cancel_left _ (by norm_num)]
  rw [hhalf] at hS hcfg
  subst hcfg
  simp only
  by_cases hk0 : k = 0
  · subst hk0
    obtain ⟨e0, _, e2⟩ := ne10_factor_body_one st.factors
    simp only [pow_zero] at e0 e2 hidx ⊢
    simp only [ne10_mixed_radix_butterfly_inverse_float32_c, e0]
    rw [show (2 * (1 : ℤ)).toNat = 2 from rfl, e2, if_neg (by decide), if_neg (by decide),
      if_neg (by decide), Mem.write_apply, if_neg (fun h => absurd h.2 (by omega))]
  · by_cases hk1 : k = 1
    · subst hk1
      obtain ⟨e0, e1, e2⟩ := ne10_factor_body_two st.factors
      simp only [pow_one] at e0 e1 e2 hidx ⊢
      simp only [ne10_mixed_radix_butterfly_inverse_float32_c, e0]
      rw [show (2 * (1 : ℤ)).toNat = 2 from rfl, e2, if_neg (by decide), if_neg (by decide),
        if_pos rfl, Mem.write_apply, Mem.write_apply, if_neg (fun h => absurd h.2 (by omega)),
        if_neg (fun h => absurd h.2 (by omega))]
    · obtain ⟨r, b, hr, hrb⟩ := pow_two_cases k (by omega)
      have hrbZ : (2 : ℤ) ^ k = (r : ℤ) * 4 ^ b := by exact_mod_cast hrb
      have hr' : (r : ℤ) = 4 ∨ (r : ℤ) = 8 := by
        rcases hr with hr | hr <;> rw [hr] <;> simp
      rw [hrbZ] at hS ⊢
      rw [ne10_factor_stage_pow4 (r : ℤ) hr' b] at hS
      rw [hrb] at hidx
      exact butterfly_inverse_frame_pow4 r b hr (by omega) st.factors TW_81 mem _ bb idx hidx


/-! ## The local spectrum array of the adapter -/

/-- A loop that stores one value per index. -/
theorem update_fold {β : Type} (v : ℕ → β) (a : ℕ) (c0 : ℕ → β) (t : ℕ) (j : ℕ) :
    (List.range' a t).foldl (fun (c : ℕ → β) (idx : ℕ) => Function.update c idx (v idx)) c0 j
      = if a ≤ j ∧ j < a + t then v j else c0 j := by
  induction t with
  | zero =>
    rw [if_neg (by omega)]
    rfl
  | succ t ih =>
    rw [List.range'_concat, List.foldl_append, List.foldl_cons, List.foldl_nil]
    by_cases h1 : j = a + 1 * t
    · rw [h1, Function.update_same, if_pos (by omega)]
    · rw [Function.update_noteq h1, ih]
      have e : (a ≤ j ∧ j < a + (t + 1)) ↔ (a ≤ j ∧ j < a + t) := by omega
      simp only [e]

/-- A loop that loads a real and an imaginary part per index through a moving pointer. -/
theorem pair_load_fold {R : Type} (x : ℕ → R) (a p : ℕ) (c0 : ℕ → ne10_fft_cpx_float32_t R)
    (t : ℕ) :
    ((List.range' a t).foldl
        (fun (s : (Nat → ne10_fft_cpx_float32_t R) × Nat) (idx : Nat) =>
          (Function.update s.1 idx ⟨x s.2, x (s.2 + 1)⟩, s.2 + 2))
        (c0, p)).2 = p + 2 * t ∧
    ∀ j, ((List.range' a t).foldl
        (fun (s : (Nat → ne10_fft_cpx_float32_t R) × Nat) (idx : Nat) =>
          (Function.update s.1 idx ⟨x s.2, x (s.2 + 1)⟩, s.2 + 2))
        (c0, p)).1 j
      = if a ≤ j ∧ j < a + t then ⟨x (p + 2 * (j - a)), x (p + 2 * (j - a) + 1)⟩ else c0 j := by
  induction t with
  | zero =>
    refine ⟨rfl, fun j => ?_⟩
    rw [if_neg (by omega)]
    rfl
  | succ t ih =>
    obtain ⟨hp, hv⟩ := ih
    rw [List.range'_concat, List.foldl_append, List.foldl_cons, List.foldl_nil]
    refine ⟨?_, fun j => ?_⟩
    · show _ + 2 = _
      rw [hp]; ring
    · show Function.update _ _ _ j = _
      rw [hp]
      by_cases h1 : j = a + 1 * t
      · rw [h1, Function.update_same, if_pos (by omega)]
        have e : a + 1 * t - a = t := by omega
        rw [e]
      · rw [Function.update_noteq h1, hv j]
        have e : (a ≤ j ∧ j < a + (t + 1)) ↔ (a ≤ j ∧ j < a + t) := by omega
        simp only [e]

/-- What the `kHalfComplexInPlace` case of `Do_ifftr` leaves in the local array, for
`fft_len / 2 = h >= 1`: the bins `0 .. h` from `data_in`, the rest as it was. -/
theorem Do_ifftr_half_complex_closed {R : Type} [Field R]
    (cx_in : ℕ → ne10_fft_cpx_float32_t R) (x : ℕ → R) (fft_len : Int) (h : ℕ)
    (hh : (Int.tdiv fft_len 2).toNat = h) (h1 : 1 ≤ h) (j : ℕ) :
    Do_ifftr_half_complex cx_in x fft_len j
      = if j = 0 then ⟨x 0, 0⟩
        else if j = h then ⟨x h, 0⟩
        else if j < h then ⟨x j, x (h - j)⟩
        else cx_in j := by
  simp only [Do_ifftr_half_complex, hh]
  rw [update_fold (fun idx => (⟨x idx, x (h - idx)⟩ : ne10_fft_cpx_float32_t R)) 1 _ (h - 1) j]
  by_cases c0 : j = 0
  · subst c0
    rw [if_neg (by omega), if_pos rfl, Function.update_noteq (by omega), Function.update_same]
  · rw [if_neg c0]
    by_cases c1 : j = h
    · subst c1
      rw [if_neg (by omega), if_pos rfl, Function.update_same]
    · rw [if_neg c1]
      by_cases c2 : j < h
      · rw [if_pos (by omega), if_pos c2]
      · rw [if_neg (by omega), if_neg c2, Function.update_noteq c1, Function.update_noteq c0]

/-- What the `kIntelPerm` case of `Do_ifftr` leaves in the local array, for
`fft_len / 2 = h >= 1`. -/
theorem Do_ifftr_perm_closed {R : Type} [Field R]
    (cx_in : ℕ → ne10_fft_cpx_float32_t R) (x : ℕ → R) (fft_len : Int) (h : ℕ)
    (hh : (Int.tdiv fft_len 2).toNat = h) (h1 : 1 ≤ h) (j : ℕ) :
    Do_ifftr_perm cx_in x fft_len j
      = if j = 0 then ⟨x 0, 0⟩
        else if j = h then ⟨x 1, 0⟩
        else if j < h then ⟨x (2 * j), x (2 * j + 1)⟩
        else cx_in j := by
  simp only [Do_ifftr_perm, hh]
  rw [(pair_load_fold x 1 2 _ (h - 1)).2 j]
  by_cases c0 : j = 0
  · subst c0
    rw [if_neg (by omega), if_pos rfl, Function.update_noteq (by omega), Function.update_same]
  · rw [if_neg c0]
    by_cases c1 : j = h
    · subst c1
      rw [if_neg (by omega), if_pos rfl, Function.update_same]
    · rw [if_neg c1]
      by_cases c2 : j < h
      · rw [if_pos (by omega), if_pos c2, show 2 + 2 * (j - 1) = 2 * j by omega]
      · rw [if_neg (by omega), if_neg c2, Function.update_noteq c1, Function.update_noteq c0]

/-- What the `kIntelCCS` case of `Do_ifftr` leaves in the local array, for
`fft_len / 2 = h >= 1`. -/
theorem Do_ifftr_ccs_closed {R : Type} [Field R]
    (cx_in : ℕ → ne10_fft_cpx_float32_t R) (x : ℕ → R) (fft_len : Int) (h : ℕ)
    (hh : (Int.tdiv fft_len 2).toNat = h) (h1 : 1 ≤ h) (j : ℕ) :
    Do_ifftr_ccs cx_in x fft_len j
      = if j = 0 then ⟨x 0, 0⟩
        else if j = h then ⟨x (2 * h), 0⟩
        else if j < h then ⟨x (2 * j), x (2 * j + 1)⟩
        else cx_in j := by
  simp only [Do_ifftr_ccs, hh, List.range_eq_range']
  have hv := (pair_load_fold x 0 0 cx_in (h + 1)).2
  by_cases c1 : j = h
  · rw [c1, Function.update_same, if_neg (by omega), if_pos rfl, hh,
      Function.update_noteq (by omega), hv h, if_pos (by omega)]
    simp
  · rw [Function.update_noteq c1]
    by_cases c0 : j = 0
    · subst c0
      rw [Function.update_same, if_pos rfl, hv 0, if_pos (by omega)]
    · rw [Function.update_noteq c0, if_neg c0, if_neg c1, hv j]
      by_cases c2 : j < h
      · rw [if_pos (by omega), if_pos c2]
        simp
      · rw [if_neg (by omega), if_neg c2]

/-- The r2c split stores only at the indices `0 .. ncfft`. -/
theorem split_r2c_frame {R : Type} [Field R] (dst src twiddles : Nat → ne10_fft_cpx_float32_t R)
    (n idx : ℕ) (hidx : n < idx) :
    ne10_fft_split_r2c_1d_float32 dst src twiddles n idx = dst idx := by
  unfold ne10_fft_split_r2c_1d_float32
  rw [split_r2c_loop_frame src twiddles n _ idx (Or.inr (by omega))]
  simp only [split_r2c_boundary]
  rw [Function.update_noteq (by omega), Function.update_noteq (by omega),
    Function.update_noteq (by omega), Function.update_noteq (by omega)]

/-- Under the plan of a power of two the core's forward transform, which uses `fout` as the
scratch array of the butterfly and as the output of the split, leaves every entry of
`fout` beyond index `ncfft` as it was. -/
theorem r2c_frame {R : Type} [Field R] (pi : R) (cos sin : R → R) (k : ℕ)
    (st cfg : ne10_fft_r2c_state_float32_t R)
    (halloc : ne10_fft_alloc_r2c_float32 pi cos sin (some st) (2 * 2 ^ k) = some cfg)
    (TW_81 : R) (fout : ℕ → ne10_fft_cpx_float32_t R) (x : ℕ → R) (idx : ℕ)
    (hidx : 2 ^ k < idx) :
    (ne10_fft_r2c_1d_float32_c TW_81 fout x cfg).1 idx = fout idx := by
  have hn : cfg.ncfft.toNat = 2 ^ k := by
    rw [(alloc_ncfft pi cos sin (some st) cfg _ halloc).2,
      Int.mul_ediv_cancel_left _ (by norm_num)]
    exact_mod_cast Int.toNat_natCast (2 ^ k)
  simp only [ne10_fft_r2c_1d_float32_c]
  rw [hn, split_r2c_frame _ _ _ _ _ hidx,
    butterfly_forward_frame pi cos sin k st cfg halloc TW_81 _ Buf.buffer idx (by omega)]

/-- The three output layouts of `Do_fftr` read the spectrum only at the bins
`0 .. fft_len / 2`. -/
theorem Do_fftr_formats_congr {R : Type} [Field R] (d : ℕ → R)
    (cx1 cx2 : ℕ → ne10_fft_cpx_float32_t R) (fft_len : Int) (h1 : 1 ≤ (fft_len / 2).toNat)
    (hcx : ∀ j, j ≤ (fft_len / 2).toNat → cx1 j = cx2 j) :
    Do_fftr_half_complex d cx1 fft_len = Do_fftr_half_complex d cx2 fft_len ∧
    Do_fftr_perm d cx1 fft_len = Do_fftr_perm d cx2 fft_len ∧
    Do_fftr_ccs d cx1 fft_len = Do_fftr_ccs d cx2 fft_len := by
  refine ⟨?_, ?_, ?_⟩
  · funext j
    rw [Do_fftr_half_complex_layout d cx1 fft_len _ rfl h1 j,
      Do_fftr_half_complex_layout d cx2 fft_len _ rfl h1 j, hcx 0 (by omega),
      hcx _ (le_refl _)]
    by_cases c : j ≤ (fft_len / 2).toNat
    · rw [hcx j c, hcx ((fft_len / 2).toNat - j) (by omega)]
    · rw [if_neg (by omega), if_neg (by omega), if_pos (by omega), if_neg (by omega),
        if_neg (by omega), if_pos (by omega)]
  · funext j
    rw [Do_fftr_perm_closed d cx1 fft_len _ rfl j, Do_fftr_perm_closed d cx2 fft_len _ rfl j,
      hcx 0 (by omega), hcx _ (le_refl _)]
    by_cases c : j < 2 * (fft_len / 2).toNat
    · rw [hcx (j / 2) (by omega)]
    · rw [if_neg c, if_neg c]
  · funext j
    rw [Do_fftr_ccs_closed d cx1 fft_len _ rfl j, Do_fftr_ccs_closed d cx2 fft_len _ rfl j]
    by_cases c : j < 2 * (fft_len / 2).toNat + 2
    · rw [hcx (j / 2) (by omega)]
    · rw [if_neg c, if_neg c]

/-- The c2r split reads `src` only at the indices `0 .. ncfft`. -/
theorem split_c2r_src_congr {R : Type} [Field R]
    (dst src1 src2 tw : Nat → ne10_fft_cpx_float32_t R) (n : ℕ) (hn : 1 ≤ n)
    (hsrc : ∀ j, j ≤ n → src1 j = src2 j) (idx : ℕ) (hidx : idx < n) :
    ne10_fft_split_c2r_1d_float32 dst src1 tw n idx
      = ne10_fft_split_c2r_1d_float32 dst src2 tw n idx := by
  rw [split_c2r_closed dst src1 tw n hn idx hidx, split_c2r_closed dst src2 tw n hn idx hidx]
  by_cases h0 : idx = 0
  · rw [if_pos h0, if_pos h0, hsrc 0 (by omega), hsrc n (le_refl _)]
  · rw [if_neg h0, if_neg h0]
    by_cases h1 : n - idx ≤ n / 2
    · rw [if_pos h1, if_pos h1]
      simp only [split_c2r_store_nk, hsrc (n - idx) (by omega),
        hsrc (n - (n - idx)) (by omega)]
    · rw [if_neg h1, if_neg h1]
      simp only [split_c2r_store_k, hsrc idx (by omega), hsrc (n - idx) (by omega)]

/-- Under the plan of a power of two the core's inverse transform reads its input
spectrum only at the bins `0 .. ncfft`. -/
theorem c2r_fin_congr (k : ℕ) (st cfg : ne10_fft_r2c_state_float32_t ℝ)
    (halloc : ne10_fft_alloc_r2c_float32 Real.pi Real.cos Real.sin (some st) (2 * 2 ^ k)
      = some cfg) (d : ℕ → ℝ) (fin1 fin2 : ℕ → ne10_fft_cpx_float32_t ℝ)
    (hfin : ∀ j, j ≤ 2 ^ k → fin1 j = fin2 j) :
    (ne10_fft_c2r_1d_float32_c (Real.sqrt 2 / 2) d fin1 cfg).1
      = (ne10_fft_c2r_1d_float32_c (Real.sqrt 2 / 2) d fin2 cfg).1 := by
  have hn : cfg.ncfft.toNat = 2 ^ k := by
    rw [(alloc_ncfft Real.pi Real.cos Real.sin (some st) cfg _ halloc).2,
      Int.mul_ediv_cancel_left _ (by norm_num)]
    exact_mod_cast Int.toNat_natCast (2 ^ k)
  have hout : ∀ j,
      ne10_mixed_radix_butterfly_inverse_float32_c (Real.sqrt 2 / 2)
        (fun b => match b with
          | Buf.input => ne10_fft_split_c2r_1d_float32 cfg.buffer fin1 cfg.super_twiddles
              cfg.ncfft.toNat
          | Buf.out => fun j => ⟨d (2 * j), d (2 * j + 1)⟩
          | Buf.buffer => fun j => ne10_fft_split_c2r_1d_float32 cfg.buffer fin1
              cfg.super_twiddles cfg.ncfft.toNat (cfg.ncfft.toNat + j))
        cfg.factors cfg.twiddles Buf.out j
      = ne10_mixed_radix_butterfly_inverse_float32_c (Real.sqrt 2 / 2)
        (fun b => match b with
          | Buf.input => ne10_fft_split_c2r_1d_float32 cfg.buffer fin2 cfg.super_twiddles
              cfg.ncfft.toNat
          | Buf.out => fun j => ⟨d (2 * j), d (2 * j + 1)⟩
          | Buf.buffer => fun j => ne10_fft_split_c2r_1d_float32 cfg.buffer fin2
              cfg.super_twiddles cfg.ncfft.toNat (cfg.ncfft.toNat + j))
        cfg.factors cfg.twiddles Buf.out j := by
    intro j
    by_cases hj : j < 2 ^ k
    · apply toC_injective
      rw [butterfly_inverse_plan k st cfg halloc _ j hj,
        butterfly_inverse_plan k st cfg halloc _ j hj]
      congr 1
      apply gdft_congr
      intro m hm
      show toC (ne10_fft_split_c2r_1d_float32 cfg.buffer fin1 cfg.super_twiddles
          cfg.ncfft.toNat m)
        = toC (ne10_fft_split_c2r_1d_float32 cfg.buffer fin2 cfg.super_twiddles
          cfg.ncfft.toNat m)
      rw [hn, split_c2r_src_congr cfg.buffer fin1 fin2 cfg.super_twiddles (2 ^ k)
        Nat.one_le_two_pow hfin m hm]
    · rw [butterfly_inverse_frame Real.pi Real.cos Real.sin k st cfg halloc _ _ Buf.out j
          (by omega),
        butterfly_inverse_frame Real.pi Real.cos Real.sin k st cfg halloc _ _ Buf.out j
          (by omega)]
  funext t
  have key : ∀ A B : ne10_fft_cpx_float32_t ℝ, A = B →
      (if t % 2 = 0 then A.r else A.i) = (if t % 2 = 0 then B.r else B.i) := by
    intro A B h
    rw [h]
  exact key _ _ (hout (t / 2))

/-- What `Do_ifftr` returns when the plan exists and the spectrum fits the local array. -/
theorem Do_ifftr_some {R : Type} [Field R] (TW_81 pi : R) (cos sin : R → R)
    (st : Option (ne10_fft_r2c_state_float32_t R)) (cfg : ne10_fft_r2c_state_float32_t R)
    (cx_in : Nat → ne10_fft_cpx_float32_t R) (d x : Nat → R) (fft_len format : Int)
    (halloc : ne10_fft_alloc_r2c_float32 pi cos sin st fft_len = some cfg)
    (hcap : fft_len / 2 ≤ 2048) :
    Do_ifftr TW_81 pi cos sin st cx_in (some d) (some x) fft_len format
      = some (some (ne10_fft_c2r_1d_float32_c TW_81 d
          (if format = kHalfComplexInPlace then Do_ifftr_half_complex cx_in x fft_len
           else if format = kIntelPerm then Do_ifftr_perm cx_in x fft_len
           else if format = kIntelCCS then Do_ifftr_ccs cx_in x fft_len
           else cx_in) cfg).1) := by
  obtain ⟨hlen, hnc⟩ := alloc_ncfft pi cos sin st cfg fft_len halloc
  have ht : Int.tdiv fft_len 2 = fft_len / 2 := Int.tdiv_eq_ediv (by omega) (by norm_num)
  simp only [Do_ifftr, halloc, ht, hnc]
  rw [if_neg (fun h => by omega), if_neg (by omega)]

/-- The quotient `fft_len / 2` of C for a length from 2 on, as an index. -/
theorem tdiv_two_toNat (k : ℕ) : (Int.tdiv (2 * 2 ^ k) 2).toNat = 2 ^ k := by
  rw [Int.tdiv_eq_ediv (by positivity) (by norm_num), Int.mul_ediv_cancel_left _ (by norm_num)]
  exact_mod_cast Int.toNat_natCast (2 ^ k)

/-- C24 as amended: for a power of two `fft_len = 2 * 2 ^ k` with `2 <= fft_len <= 4096`
and its plan, the largest bin index `fft_len / 2` is at most 2048; the core's forward
transform, with the local array of `Do_fftr` as its output and as the scratch array of its
butterfly, leaves every entry beyond index `fft_len / 2` as it was; `Do_fftr` returns
normally and its result does not depend on what the local array held; each of the three
cases of `Do_ifftr` leaves every entry of its local array beyond index `fft_len / 2` as it
was, and with one of the three formats `Do_ifftr` returns normally and its result does
not depend on what the local array held.  For every `fft_len >= 4098` (so for every even
`fft_len > 4096`) the index `fft_len / 2` exceeds 2048, and neither function has a defined
result. -/
theorem Do_fft_capacity (k : ℕ) (hk : k ≤ 11) (st cfg : ne10_fft_r2c_state_float32_t ℝ)
    (halloc : ne10_fft_alloc_r2c_float32 Real.pi Real.cos Real.sin (some st) (2 * 2 ^ k)
      = some cfg) :
    (2 * 2 ^ k : ℤ) / 2 ≤ 2048 ∧
    (∀ (cx_out : ℕ → ne10_fft_cpx_float32_t ℝ) (x : ℕ → ℝ) (idx : ℕ), 2 ^ k < idx →
      (ne10_fft_r2c_1d_float32_c (Real.sqrt 2 / 2) cx_out x cfg).1 idx = cx_out idx) ∧
    (∀ (cx1 cx2 : ℕ → ne10_fft_cpx_float32_t ℝ) (d x : ℕ → ℝ) (format : ℤ),
      (∃ out, Do_fftr (Real.sqrt 2 / 2) Real.pi Real.cos Real.sin (some st) cx1 (some d)
          (some x) (2 * 2 ^ k) format = some (some out)) ∧
      Do_fftr (Real.sqrt 2 / 2) Real.pi Real.cos Real.sin (some st) cx1 (some d) (some x)
          (2 * 2 ^ k) format
        = Do_fftr (Real.sqrt 2 / 2) Real.pi Real.cos Real.sin (some st) cx2 (some d) (some x)
          (2 * 2 ^ k) format) ∧
    (∀ (cx_in : ℕ → ne10_fft_cpx_float32_t ℝ) (x : ℕ → ℝ) (idx : ℕ), 2 ^ k < idx →
      Do_ifftr_half_complex cx_in x (2 * 2 ^ k) idx = cx_in idx ∧
      Do_ifftr_perm cx_in x (2 * 2 ^ k) idx = cx_in idx ∧
      Do_ifftr_ccs cx_in x (2 * 2 ^ k) idx = cx_in idx) ∧
    (∀ (cx1 cx2 : ℕ → ne10_fft_cpx_float32_t ℝ) (d x : ℕ → ℝ) (format : ℤ),
      format = kHalfComplexInPlace ∨ format = kIntelPerm ∨ format = kIntelCCS →
      (∃ out, Do_ifftr (Real.sqrt 2 / 2) Real.pi Real.cos Real.sin (some st) cx1 (some d)
          (some x) (2 * 2 ^ k) format = some (some out)) ∧
      Do_ifftr (Real.sqrt 2 / 2) Real.pi Real.cos Real.sin (some st) cx1 (some d) (some x)
          (2 * 2 ^ k) format
        = Do_ifftr (Real.sqrt 2 / 2) Real.pi Real.cos Real.sin (some st) cx2 (some d) (some x)
          (2 * 2 ^ k) format) ∧
    (∀ (fft_len : ℤ) (stt : Option (ne10_fft_r2c_state_float32_t ℝ))
        (cx : ℕ → ne10_fft_cpx_float32_t ℝ) (d x : ℕ → ℝ) (format : ℤ), 4098 ≤ fft_len →
      2048 < fft_len / 2 ∧
      Do_fftr (Real.sqrt 2 / 2) Real.pi Real.cos Real.sin stt cx (some d) (some x) fft_len
        format = none ∧
      (format = kHalfComplexInPlace ∨ format = kIntelPerm ∨ format = kIntelCCS →
        Do_ifftr (Real.sqrt 2 / 2) Real.pi Real.cos Real.sin stt cx (some d) (some x) fft_len
          format = none)) := by
  have hpow : (2 : ℤ) ^ k ≤ 2048 := by
    have h : (2 : ℕ) ^ k ≤ 2 ^ 11 := Nat.pow_le_pow_right (by norm_num) hk
    have h' : ((2 ^ k : ℕ) : ℤ) ≤ ((2 ^ 11 : ℕ) : ℤ) := by exact_mod_cast h
    push_cast at h'
    omega
  have hhalf : (2 * 2 ^ k : ℤ) / 2 = 2 ^ k := Int.mul_ediv_cancel_left _ (by norm_num)
  have hcap : (2 * 2 ^ k : ℤ) / 2 ≤ 2048 := by rw [hhalf]; exact hpow
  have hn : ((2 * 2 ^ k : ℤ) / 2).toNat = 2 ^ k := by
    rw [hhalf]
    exact_mod_cast Int.toNat_natCast (2 ^ k)
  have hone : 1 ≤ 2 ^ k := Nat.one_le_two_pow
  refine ⟨hcap, ?_, ?_, ?_, ?_, ?_⟩
  · intro cx_out x idx hidx
    exact r2c_frame Real.pi Real.cos Real.sin k st cfg halloc _ cx_out x idx hidx
  · intro cx1 cx2 d x format
    rw [Do_fftr_some _ _ _ _ (some st) cfg cx1 d x _ format halloc hcap,
      Do_fftr_some _ _ _ _ (some st) cfg cx2 d x _ format halloc hcap]
    refine ⟨⟨_, rfl⟩, ?_⟩
    obtain ⟨c1, c2, c3⟩ := Do_fftr_formats_congr d
      (ne10_fft_r2c_1d_float32_c (Real.sqrt 2 / 2) cx1 x cfg).1
      (ne10_fft_r2c_1d_float32_c (Real.sqrt 2 / 2) cx2 x cfg).1 (2 * 2 ^ k)
      (by rw [hn]; exact hone)
      (by
        intro j hj
        rw [hn] at hj
        apply toC_injective
        rw [r2c_plan_dft k st cfg halloc cx1 x j hj, r2c_plan_dft k st cfg halloc cx2 x j hj])
    rw [c1, c2, c3]
  · intro cx_in x idx hidx
    refine ⟨?_, ?_, ?_⟩
    · rw [Do_ifftr_half_complex_closed cx_in x _ _ (tdiv_two_toNat k) hone idx,
        if_neg (by omega), if_neg (by omega), if_neg (by omega)]
    · rw [Do_ifftr_perm_closed cx_in x _ _ (tdiv_two_toNat k) hone idx,
        if_neg (by omega), if_neg (by omega), if_neg (by omega)]
    · rw [Do_ifftr_ccs_closed cx_in x _ _ (tdiv_two_toNat k) hone idx,
        if_neg (by omega), if_neg (by omega), if_neg (by omega)]
  · intro cx1 cx2 d x format hfmt
    rw [Do_ifftr_some _ _ _ _ (some st) cfg cx1 d x _ format halloc hcap,
      Do_ifftr_some _ _ _ _ (some st) cfg cx2 d x _ format halloc hcap]
    refine ⟨⟨_, rfl⟩, ?_⟩
    have hfill : ∀ j, j ≤ 2 ^ k →
        (if format = kHalfComplexInPlace then Do_ifftr_half_complex cx1 x (2 * 2 ^ k)
          else if format = kIntelPerm then Do_ifftr_perm cx1 x (2 * 2 ^ k)
          else if format = kIntelCCS then Do_ifftr_ccs cx1 x (2 * 2 ^ k)
          else cx1) j
        = (if format = kHalfComplexInPlace then Do_ifftr_half_complex cx2 x (2 * 2 ^ k)
          else if format = kIntelPerm then Do_ifftr_perm cx2 x (2 * 2 ^ k)
          else if format = kIntelCCS then Do_ifftr_ccs cx2 x (2 * 2 ^ k)
          else cx2) j := by
      intro j hj
      have e3 : ∀ (a b c : ne10_fft_cpx_float32_t ℝ) (w1 w2 : ne10_fft_cpx_float32_t ℝ),
          (if j = 0 then a else if j = 2 ^ k then b else if j < 2 ^ k then c else w1)
            = (if j = 0 then a else if j = 2 ^ k then b else if j < 2 ^ k then c else w2) := by
        intro a b c w1 w2
        by_cases c0 : j = 0
        · rw [if_pos c0, if_pos c0]
        · by_cases c1 : j = 2 ^ k
          · rw [if_neg c0, if_pos c1, if_neg c0, if_pos c1]
          · rw [if_neg c0, if_neg c1, if_pos (by omega), if_neg c0, if_neg c1,
              if_pos (by omega)]
      rcases hfmt with hf | hf | hf
      · rw [hf, if_pos rfl, if_pos rfl,
          Do_ifftr_half_complex_closed cx1 x _ _ (tdiv_two_toNat k) hone j,
          Do_ifftr_half_complex_closed cx2 x _ _ (tdiv_two_toNat k) hone j]
        exact e3 _ _ _ _ _
      · rw [hf, if_neg (by decide), if_pos rfl, if_neg (by decide), if_pos rfl,
          Do_ifftr_perm_closed cx1 x _ _ (tdiv_two_toNat k) hone j,
          Do_ifftr_perm_closed cx2 x _ _ (tdiv_two_toNat k) hone j]
        exact e3 _ _ _ _ _
      · rw [hf, if_neg (by decide), if_neg (by decide), if_pos rfl, if_neg (by decide),
          if_neg (by decide), if_pos rfl,
          Do_ifftr_ccs_closed cx1 x _ _ (tdiv_two_toNat k) hone j,
          Do_ifftr_ccs_closed cx2 x _ _ (tdiv_two_toNat k) hone j]
        exact e3 _ _ _ _ _
    rw [c2r_fin_congr k st cfg halloc d _ _ hfill]
  · intro fft_len stt cx d x format hlen
    refine ⟨by omega, ?_, ?_⟩
    · simp only [Do_fftr]
      cases hal : ne10_fft_alloc_r2c_float32 Real.pi Real.cos Real.sin stt fft_len with
      | none => rfl
      | some c =>
        simp only []
        rw [if_pos (by omega)]
    · intro hfmt
      have ht : Int.tdiv fft_len 2 = fft_len / 2 := Int.tdiv_eq_ediv (by omega) (by norm_num)
      simp only [Do_ifftr, ht]
      rw [if_pos ⟨hfmt, Or.inr (by omega)⟩]

/-- C24 at a concrete input: the length `2 * 2 ^ 2 = 8` with the allocator's plan. -/
theorem Do_fft_capacity_witness :
    ∃ cfg : ne10_fft_r2c_state_float32_t ℝ,
      ne10_fft_alloc_r2c_float32 Real.pi Real.cos Real.sin (some (zero_block ℝ)) (2 * 2 ^ 2)
        = some cfg ∧
      ((2 * 2 ^ 2 : ℤ) / 2 ≤ 2048 ∧
      (∀ (cx_out : ℕ → ne10_fft_cpx_float32_t ℝ) (x : ℕ → ℝ) (idx : ℕ), 2 ^ 2 < idx →
        (ne10_fft_r2c_1d_float32_c (Real.sqrt 2 / 2) cx_out x cfg).1 idx = cx_out idx) ∧
      (∀ (cx1 cx2 : ℕ → ne10_fft_cpx_float32_t ℝ) (d x : ℕ → ℝ) (format : ℤ),
        (∃ out, Do_fftr (Real.sqrt 2 / 2) Real.pi Real.cos Real.sin (some (zero_block ℝ)) cx1 (some d)
            (some x) (2 * 2 ^ 2) format = some (some out)) ∧
        Do_fftr (Real.sqrt 2 / 2) Real.pi Real.cos Real.sin (some (zero_block ℝ)) cx1 (some d) (some x)
            (2 * 2 ^ 2) format
          = Do_fftr (Real.sqrt 2 / 2) Real.pi Real.cos Real.sin (some (zero_block ℝ)) cx2 (some d) (some x)
            (2 * 2 ^ 2) format) ∧
      (∀ (cx_in : ℕ → ne10_fft_cpx_float32_t ℝ) (x : ℕ → ℝ) (idx : ℕ), 2 ^ 2 < idx →
        Do_ifftr_half_complex cx_in x (2 * 2 ^ 2) idx = cx_in idx ∧
        Do_ifftr_perm cx_in x (2 * 2 ^ 2) idx = cx_in idx ∧
        Do_ifftr_ccs cx_in x (2 * 2 ^ 2) idx = cx_in idx) ∧
      (∀ (cx1 cx2 : ℕ → ne10_fft_cpx_float32_t ℝ) (d x : ℕ → ℝ) (format : ℤ),
        format = kHalfComplexInPlace ∨ format = kIntelPerm ∨ format = kIntelCCS →
        (∃ out, Do_ifftr (Real.sqrt 2 / 2) Real.pi Real.cos Real.sin (some (zero_block ℝ)) cx1 (some d)
            (some x) (2 * 2 ^ 2) format = some (some out)) ∧
        Do_ifftr (Real.sqrt 2 / 2) Real.pi Real.cos Real.sin (some (zero_block ℝ)) cx1 (some d) (some x)
            (2 * 2 ^ 2) format
          = Do_ifftr (Real.sqrt 2 / 2) Real.pi Real.cos Real.sin (some (zero_block ℝ)) cx2 (some d) (some x)
            (2 * 2 ^ 2) format) ∧
      (∀ (fft_len : ℤ) (stt : Option (ne10_fft_r2c_state_float32_t ℝ))
          (cx : ℕ → ne10_fft_cpx_float32_t ℝ) (d x : ℕ → ℝ) (format : ℤ), 4098 ≤ fft_len →
        2048 < fft_len / 2 ∧
        Do_fftr (Real.sqrt 2 / 2) Real.pi Real.cos Real.sin stt cx (some d) (some x) fft_len
          format = none ∧
        (format = kHalfComplexInPlace ∨ format = kIntelPerm ∨ format = kIntelCCS →
          Do_ifftr (Real.sqrt 2 / 2) Real.pi Real.cos Real.sin stt cx (some d) (some x) fft_len
            format = none))) := by
  obtain ⟨cfg, h⟩ := alloc_pow2_some (zero_block ℝ) 2 (by norm_num)
  have e : (2 : ℤ) ^ (2 + 1) = 2 * 2 ^ 2 := by norm_num
  rw [e] at h
  exact ⟨cfg, h, Do_fft_capacity 2 (by norm_num) (zero_block ℝ) cfg h⟩

/-- C24 as stated fails at `fft_len = 4097`: it exceeds 4096, yet `fft_len / 2 = 2048` is
an index of the local array, the allocator returns a plan, and `Do_fftr` returns
normally. -/
theorem Do_fft_capacity_counterexample :
    (4096 : ℤ) < 4097 ∧ (4097 : ℤ) / 2 = 2048 ∧ ¬ (2048 < (4097 : ℤ) / 2) ∧
    ∃ (cfg : ne10_fft_r2c_state_float32_t ℝ) (out : ℕ → ℝ),
      ne10_fft_alloc_r2c_float32 Real.pi Real.cos Real.sin (some (zero_block ℝ)) 4097
        = some cfg ∧
      Do_fftr (Real.sqrt 2 / 2) Real.pi Real.cos Real.sin (some (zero_block ℝ))
        (fun _ => ⟨0, 0⟩) (some (fun _ => 7)) (some (fun _ => 0)) 4097 kIntelCCS
        = some (some out) := by
  refine ⟨by norm_num, by norm_num, by norm_num, ?_⟩
  have h := alloc_some_eq Real.pi Real.cos Real.sin (zero_block ℝ) 4097 (by norm_num)
    (by
      have hb := ne10_factor_loop_stage_le ((4097 : ℤ) / 2) (zero_block ℝ).factors
        NE10_FACTOR_EIGHT_FIRST_STAGE (by norm_num) (by norm_num)
      omega)
  exact ⟨_, _, h, Do_fftr_some _ _ _ _ _ _ _ _ _ _ _ h (by norm_num)⟩


/-! ## The adapter: null arguments, lengths without a plan, packing and unpacking -/

/-- C40: with a null `data_out`, or a null `data_in`, `Do_fftr` and `Do_ifftr` return at
once: the result is the unchanged `data_out` (or none, for a null `data_out`), whatever
the length, the format, the local array and the block that `malloc` would return, so no
plan is made and nothing is stored. -/
theorem Do_fft_null_arguments {R : Type} [Field R] (TW_81 pi : R) (cos sin : R → R)
    (st : Option (ne10_fft_r2c_state_float32_t R)) (cx : Nat → ne10_fft_cpx_float32_t R)
    (d : Nat → R) (x : Option (Nat → R)) (fft_len format : Int) :
    Do_fftr TW_81 pi cos sin st cx none x fft_len format = some none ∧
    Do_fftr TW_81 pi cos sin st cx (some d) none fft_len format = some (some d) ∧
    Do_ifftr TW_81 pi cos sin st cx none x fft_len format = some none ∧
    Do_ifftr TW_81 pi cos sin st cx (some d) none fft_len format = some (some d) := by
  refine ⟨?_, ?_, ?_, ?_⟩
  · simp only [Do_fftr]
  · simp only [Do_fftr]
  · simp only [Do_ifftr]
  · simp only [Do_ifftr]

/-- C38: for `fft_len` 0 or 1 the allocator returns null, and `Do_ifftr`, with non-null
arrays and any format, returns normally with `data_out` as it was. -/
theorem Do_ifftr_unsupported_length {R : Type} [Field R] (TW_81 pi : R) (cos sin : R → R)
    (st : Option (ne10_fft_r2c_state_float32_t R)) (cx : Nat → ne10_fft_cpx_float32_t R)
    (d x : Nat → R) (fft_len format : Int) (hlen : fft_len = 0 ∨ fft_len = 1) :
    ne10_fft_alloc_r2c_float32 pi cos sin st fft_len = none ∧
    Do_ifftr TW_81 pi cos sin st cx (some d) (some x) fft_len format = some (some d) := by
  have hal : ne10_fft_alloc_r2c_float32 pi cos sin st fft_len = none := by
    cases st with
    | none => simp [ne10_fft_alloc_r2c_float32]
    | some s => exact alloc_none_of_le_one pi cos sin s fft_len (by omega)
  refine ⟨hal, ?_⟩
  have ht : Int.tdiv fft_len 2 = 0 := by
    rcases hlen with h | h <;> rw [h] <;> rfl
  simp only [Do_ifftr, hal, ht]
  rw [if_neg (fun h => by
    rcases h.2 with h2 | h2
    · exact absurd h2 (by decide)
    · exact absurd h2 (by decide))]

/-- C38 at a concrete input: `fft_len = 1` with the `kIntelCCS` format. -/
theorem Do_ifftr_unsupported_length_witness :
    ne10_fft_alloc_r2c_float32 Real.pi Real.cos Real.sin (some (zero_block ℝ)) 1 = none ∧
    Do_ifftr (Real.sqrt 2 / 2) Real.pi Real.cos Real.sin (some (zero_block ℝ))
      (fun _ => ⟨0, 0⟩) (some (fun _ => 7)) (some (fun t => (t : ℝ))) 1 kIntelCCS
      = some (some (fun _ => 7)) :=
  Do_ifftr_unsupported_length (Real.sqrt 2 / 2) Real.pi Real.cos Real.sin
    (some (zero_block ℝ)) (fun _ => ⟨0, 0⟩) (fun _ => 7) (fun t => (t : ℝ)) 1 kIntelCCS
    (Or.inr rfl)

/-- The fill loops of `Do_ifftr` undo the packing loops of `Do_fftr`: for every even
`n >= 2` and every spectrum `X` with `Im X[0] = Im X[n/2] = 0`, the `kIntelPerm` case of
`Do_ifftr`, run on the array that the `kIntelPerm` case of `Do_fftr` packs from `X`, leaves
`X[j]` in bin `j` for every `j <= n/2`; and the same for the two `kIntelCCS` cases.  Arrays
are total maps here; whether the bins fit the local arrays is a separate matter. -/
theorem Do_fft_pack_unpack_loops {R : Type} [Field R] (n : Int) (hn : 2 ≤ n) (heven : n % 2 = 0)
    (X : Nat → ne10_fft_cpx_float32_t R) (hX0 : (X 0).i = 0) (hXn : (X (n / 2).toNat).i = 0)
    (d : Nat → R) (cx_in : Nat → ne10_fft_cpx_float32_t R) (j : Nat)
    (hj : j ≤ (n / 2).toNat) :
    Do_ifftr_perm cx_in (Do_fftr_perm d X n) n j = X j ∧
    Do_ifftr_ccs cx_in (Do_fftr_ccs d X n) n j = X j := by
  have ht : Int.tdiv n 2 = n / 2 := Int.tdiv_eq_ediv (by omega) (by norm_num)
  have h1 : 1 ≤ (n / 2).toNat := by omega
  generalize hh : (n / 2).toNat = h at hXn hj h1
  have hth : (Int.tdiv n 2).toNat = h := by rw [ht, hh]
  have e0 : X 0 = ⟨(X 0).r, 0⟩ := by
    ext
    · rfl
    · exact hX0
  have eh : X h = ⟨(X h).r, 0⟩ := by
    ext
    · rfl
    · exact hXn
  constructor
  · rw [Do_ifftr_perm_closed cx_in _ n h hth h1 j]
    by_cases c0 : j = 0
    · rw [if_pos c0, c0, Do_fftr_perm_closed d X n h hh 0, if_pos rfl]
      exact e0.symm
    · rw [if_neg c0]
      by_cases c1 : j = h
      · rw [if_pos c1, c1, Do_fftr_perm_closed d X n h hh 1, if_neg (by omega), if_pos rfl]
        exact eh.symm
      · rw [if_neg c1, if_pos (by omega), Do_fftr_perm_closed d X n h hh (2 * j),
          Do_fftr_perm_closed d X n h hh (2 * j + 1)]
        rw [if_neg (by omega), if_neg (by omega), if_pos (by omega), if_pos (by omega),
          if_neg (by omega), if_neg (by omega), if_pos (by omega), if_neg (by omega)]
        rw [show 2 * j / 2 = j by omega, show (2 * j + 1) / 2 = j by omega]
  · rw [Do_ifftr_ccs_closed cx_in _ n h hth h1 j]
    by_cases c0 : j = 0
    · rw [if_pos c0, c0, Do_fftr_ccs_closed d X n h hh 0, if_pos (by omega), if_pos rfl]
      exact e0.symm
    · rw [if_neg c0]
      by_cases c1 : j = h
      · rw [if_pos c1, c1, Do_fftr_ccs_closed d X n h hh (2 * h), if_pos (by omega),
          if_pos (by omega), show 2 * h / 2 = h by omega]
        exact eh.symm
      · rw [if_neg c1, if_pos (by omega), Do_fftr_ccs_closed d X n h hh (2 * j),
          Do_fftr_ccs_closed d X n h hh (2 * j + 1)]
        rw [if_pos (by omega), if_pos (by omega), if_pos (by omega), if_neg (by omega)]
        rw [show 2 * j / 2 = j by omega, show (2 * j + 1) / 2 = j by omega]

/-- C37 as amended: for every even `n` with `2 <= n <= 4096` (the lengths whose
`n/2 + 1` bins fit the local arrays of 2049 bins) and every spectrum `X` with
`Im X[0] = Im X[n/2] = 0`: `Do_ifftr` with `kIntelPerm`, run on the array that the
`kIntelPerm` case of `Do_fftr` packs from `X`, has a defined result, and its fill loop
leaves `X[j]` in bin `j` of its local array for every `j <= n/2`; and the same for
`kIntelCCS`. -/
theorem Do_fft_pack_unpack {R : Type} [Field R] (TW_81 pi : R) (cos sin : R → R)
    (st : Option (ne10_fft_r2c_state_float32_t R)) (n : Int) (hn : 2 ≤ n) (hcap : n ≤ 4096)
    (heven : n % 2 = 0) (X : Nat → ne10_fft_cpx_float32_t R) (hX0 : (X 0).i = 0)
    (hXn : (X (n / 2).toNat).i = 0) (d dout : Nat → R)
    (cx_in : Nat → ne10_fft_cpx_float32_t R) :
    Do_ifftr TW_81 pi cos sin st cx_in (some dout) (some (Do_fftr_perm d X n)) n kIntelPerm
      ≠ none ∧
    Do_ifftr TW_81 pi cos sin st cx_in (some dout) (some (Do_fftr_ccs d X n)) n kIntelCCS
      ≠ none ∧
    ∀ j, j ≤ (n / 2).toNat →
      Do_ifftr_perm cx_in (Do_fftr_perm d X n) n j = X j ∧
      Do_ifftr_ccs cx_in (Do_fftr_ccs d X n) n j = X j := by
  have hdef : ∀ (x : Nat → R) (format : Int),
      Do_ifftr TW_81 pi cos sin st cx_in (some dout) (some x) n format ≠ none := by
    intro x format
    cases hal : ne10_fft_alloc_r2c_float32 pi cos sin st n with
    | none =>
      have ht : Int.tdiv n 2 = n / 2 := Int.tdiv_eq_ediv (by omega) (by norm_num)
      simp only [Do_ifftr, hal, ht]
      rw [if_neg (fun h => by omega)]
      exact Option.some_ne_none _
    | some cfg =>
      rw [Do_ifftr_some TW_81 pi cos sin st cfg cx_in dout x n format hal (by omega)]
      exact Option.some_ne_none _
  exact ⟨hdef _ _, hdef _ _, fun j hj =>
    Do_fft_pack_unpack_loops n hn heven X hX0 hXn d cx_in j hj⟩

/-- C37 at a concrete input: `n = 8`, the spectrum with `X[j] = (j, j (4 - j))`, bin 3. -/
theorem Do_fft_pack_unpack_witness :
    Do_ifftr_perm (fun _ => ⟨0, 0⟩)
        (Do_fftr_perm (fun _ => 7)
          (fun j => (⟨(j : ℚ), (j : ℚ) * (4 - (j : ℚ))⟩ : ne10_fft_cpx_float32_t ℚ)) 8) 8 3
      = (fun j => (⟨(j : ℚ), (j : ℚ) * (4 - (j : ℚ))⟩ : ne10_fft_cpx_float32_t ℚ)) 3 ∧
    Do_ifftr_ccs (fun _ => ⟨0, 0⟩)
        (Do_fftr_ccs (fun _ => 7)
          (fun j => (⟨(j : ℚ), (j : ℚ) * (4 - (j : ℚ))⟩ : ne10_fft_cpx_float32_t ℚ)) 8) 8 3
      = (fun j => (⟨(j : ℚ), (j : ℚ) * (4 - (j : ℚ))⟩ : ne10_fft_cpx_float32_t ℚ)) 3 :=
  (Do_fft_pack_unpack (1 : ℚ) 3 (fun t => t) (fun t => t) none 8 (by decide) (by decide)
    (by decide)
    (fun j => (⟨(j : ℚ), (j : ℚ) * (4 - (j : ℚ))⟩ : ne10_fft_cpx_float32_t ℚ))
    (by norm_num)
    (by
      show (((4 : ℕ) : ℚ)) * (4 - ((4 : ℕ) : ℚ)) = 0
      norm_num)
    (fun _ => 7) (fun _ => 0) (fun _ => ⟨0, 0⟩)).2.2 3 (by decide)

/-- C37 as stated fails at `n = 4098`, which is even and at least 2: bin `n/2 = 2049` is
outside the local array of `4096/2 + 1` bins (indices 0 to 2048), so `Do_ifftr`, run on
the array packed from the spectrum `X[j] = (j, 0)`, stores out of bounds and has no
defined result, with either format. -/
theorem Do_fft_pack_unpack_counterexample :
    (2 : ℤ) ≤ 4098 ∧ (4098 : ℤ) % 2 = 0 ∧ (4096 : ℤ) / 2 + 1 ≤ Int.tdiv 4098 2 ∧
    Do_ifftr (Real.sqrt 2 / 2) Real.pi Real.cos Real.sin (some (zero_block ℝ))
        (fun _ => ⟨0, 0⟩) (some (fun _ => 7))
        (some (Do_fftr_perm (fun _ => 7) (fun j => ⟨(j : ℝ), 0⟩) 4098)) 4098 kIntelPerm
      = none ∧
    Do_ifftr (Real.sqrt 2 / 2) Real.pi Real.cos Real.sin (some (zero_block ℝ))
        (fun _ => ⟨0, 0⟩) (some (fun _ => 7))
        (some (Do_fftr_ccs (fun _ => 7) (fun j => ⟨(j : ℝ), 0⟩) 4098)) 4098 kIntelCCS
      = none := by
  have hcap : (4096 : ℤ) / 2 + 1 ≤ Int.tdiv 4098 2 := by decide
  refine ⟨by norm_num, by norm_num, hcap, ?_, ?_⟩
  · unfold Do_ifftr
    exact if_pos ⟨Or.inr (Or.inl rfl), Or.inr hcap⟩
  · unfold Do_ifftr
    exact if_pos ⟨Or.inr (Or.inr rfl), Or.inr hcap⟩

/-! ## What the inverse transform does not read -/

/-- The c2r split reads bin 0 and bin `ncfft` of `src` only in their real parts. -/
theorem split_c2r_boundary_imag_free {R : Type} [Field R]
    (dst src src' twiddles : Nat → ne10_fft_cpx_float32_t R) (n : ℕ)
    (hr0 : (src 0).r = (src' 0).r) (hrn : (src n).r = (src' n).r)
    (hrest : ∀ j, j ≠ 0 → j ≠ n → src j = src' j) :
    ne10_fft_split_c2r_1d_float32 dst src twiddles n
      = ne10_fft_split_c2r_1d_float32 dst src' twiddles n := by
  unfold ne10_fft_split_c2r_1d_float32
  rw [hr0, hrn]
  apply List.foldl_ext
  intro d k hk
  rw [List.mem_range'_1] at hk
  simp only [split_c2r_body, split_c2r_store_k, split_c2r_store_nk,
    hrest k (by omega) (by omega), hrest (n - k) (by omega) (by omega)]

/-- C36: for every plan (indeed for every value of `cfg`) and any two spectra `fin`,
`fin'` that have the same real parts in bin 0 and in bin `ncfft` and agree in every other
bin, `ne10_fft_c2r_1d_float32_c` leaves the same real output and the same scratch buffer:
the imaginary parts of bin 0 and of bin `ncfft` are never read. -/
theorem ne10_fft_c2r_boundary_imag_ignored {R : Type} [Field R] (TW_81 : R) (fout : Nat → R)
    (fin fin' : Nat → ne10_fft_cpx_float32_t R) (cfg : ne10_fft_r2c_state_float32_t R)
    (hr0 : (fin 0).r = (fin' 0).r)
    (hrn : (fin cfg.ncfft.toNat).r = (fin' cfg.ncfft.toNat).r)
    (hrest : ∀ j, j ≠ 0 → j ≠ cfg.ncfft.toNat → fin j = fin' j) :
    ne10_fft_c2r_1d_float32_c TW_81 fout fin cfg
      = ne10_fft_c2r_1d_float32_c TW_81 fout fin' cfg := by
  simp only [ne10_fft_c2r_1d_float32_c]
  rw [split_c2r_boundary_imag_free cfg.buffer fin fin' cfg.super_twiddles cfg.ncfft.toNat
    hr0 hrn hrest]

/-- C36 at a concrete input: the plan of the length 8, and two spectra that differ only
in the imaginary parts of bin 0 and of bin 4. -/
theorem ne10_fft_c2r_boundary_imag_ignored_witness :
    ∃ cfg : ne10_fft_r2c_state_float32_t ℝ,
      ne10_fft_alloc_r2c_float32 Real.pi Real.cos Real.sin (some (zero_block ℝ)) (2 ^ (2 + 1))
        = some cfg ∧
      ne10_fft_c2r_1d_float32_c (Real.sqrt 2 / 2) (fun _ => 0)
          (fun j => ⟨(j : ℝ), if j = 0 ∨ j = cfg.ncfft.toNat then 5 else 1⟩) cfg
        = ne10_fft_c2r_1d_float32_c (Real.sqrt 2 / 2) (fun _ => 0)
          (fun j => ⟨(j : ℝ), if j = 0 ∨ j = cfg.ncfft.toNat then 9 else 1⟩) cfg :=
  Exists.elim (alloc_pow2_some (zero_block ℝ) 2 (by norm_num)) (fun cfg h =>
    ⟨cfg, h, ne10_fft_c2r_boundary_imag_ignored (Real.sqrt 2 / 2) (fun _ => 0)
      (fun j => ⟨(j : ℝ), if j = 0 ∨ j = cfg.ncfft.toNat then 5 else 1⟩)
      (fun j => ⟨(j : ℝ), if j = 0 ∨ j = cfg.ncfft.toNat then 9 else 1⟩) cfg rfl rfl
      (fun j h0 hn => by simp [h0, hn])⟩)


/-! ## The factor loop: where it stores and why it stops -/

/-- The factor loop stores only below `2 * i`, for the final value of `i`. -/
theorem ne10_factor_loop_frame (flags : Int) (s0 : FactorState) :
    s0.i ≤ (ne10_factor_loop flags s0).i ∧
    ∀ k, 2 * (ne10_factor_loop flags s0).i ≤ k →
      (ne10_factor_loop flags s0).facbuf k = s0.facbuf k := by
  have h := (ne10_factor_loop_rule flags
    (fun t => s0.i ≤ t.i ∧ ∀ k, 2 * t.i ≤ k → t.facbuf k = s0.facbuf k)
    (by
      intro t ht _
      refine ⟨?_, ?_⟩
      · show s0.i ≤ t.i + 1
        omega
      · intro k hk
        have hk' : 2 * (t.i + 1) ≤ k := hk
        simp only [ne10_factor_step]
        rw [Function.update_noteq (by omega), Function.update_noteq (by omega)]
        exact ht.2 k (by omega))
    s0
    (by
      refine ⟨?_, ?_⟩
      · show s0.i ≤ s0.i + 1
        omega
      · intro k hk
        have hk' : 2 * (s0.i + 1) ≤ k := hk
        simp only [ne10_factor_step]
        rw [Function.update_noteq (by omega), Function.update_noteq (by omega)])).1
  exact h

/-- C35: for `0 < n < 2^31`, every flag value and every buffer, `ne10_factor` succeeds,
its stage count `facbuf[0]` is at most 20, so `2 * stage_count + 2 <= 44 <
2 * NE10_MAXFACTORS = 64`, and every entry of the buffer above index
`2 * stage_count + 2` is left as it was. -/
theorem ne10_factor_buffer_bounds (n : Int) (buf : Nat → Int) (flags : Int) (hn : 0 < n)
    (h31 : n < 2 ^ 31) :
    ∃ (fb : Nat → Int) (sc : ℕ),
      ne10_factor n (some buf) flags = (NE10_OK, some fb) ∧ fb 0 = (sc : Int) ∧
      2 * sc + 2 ≤ 44 ∧ (44 : Int) < 2 * NE10_MAXFACTORS ∧
      ∀ k, 2 * sc + 2 < k → fb k = buf k := by
  have h20 := ne10_factor_loop_stage_le n buf flags hn h31
  have hS : ¬ (ne10_factor_loop flags (ne10_factor_init n buf)).stage_num > 21 := by omega
  obtain ⟨e0, _⟩ := ne10_factor_body_entries n buf flags hn hS
  have hi := (ne10_factor_loop_inv n buf flags hn).1.2.1
  obtain ⟨_, hfr⟩ := ne10_factor_loop_frame flags (ne10_factor_init n buf)
  rw [ne10_factor_some n buf flags hn]
  refine ⟨_, (ne10_factor_loop flags (ne10_factor_init n buf)).stage_num, ?_, e0, by omega,
    by decide, ?_⟩
  · rw [ne10_factor_body_fst, if_neg hS]
  · intro k hk
    rw [ne10_factor_body_snd n buf flags hS, Function.update_noteq (by rw [hi]; omega),
      Function.update_noteq (by omega), Function.update_noteq (by omega),
      hfr k (by rw [hi]; omega)]
    rfl

/-- C35 at a concrete input: `n = 2^31 - 1` with the radix-8-first-stage flag, in a
buffer holding 7. -/
theorem ne10_factor_buffer_bounds_witness :
    ∃ (fb : Nat → Int) (sc : ℕ),
      ne10_factor 2147483647 (some (fun _ => 7)) NE10_FACTOR_EIGHT_FIRST_STAGE
        = (NE10_OK, some fb) ∧ fb 0 = (sc : Int) ∧
      2 * sc + 2 ≤ 44 ∧ (44 : Int) < 2 * NE10_MAXFACTORS ∧
      ∀ k, 2 * sc + 2 < k → fb k = (fun _ => (7 : Int)) k :=
  ne10_factor_buffer_bounds 2147483647 (fun _ => 7) NE10_FACTOR_EIGHT_FIRST_STAGE
    (by norm_num) (by norm_num)

/-- The do-while loop is a finite number of passes: at least one, each earlier pass
leaves a remaining length above 1, and the last leaves 1. -/
theorem ne10_factor_loop_passes (flags : Int) (s : FactorState) (hs : 0 < s.n) :
    ∃ passes : ℕ, 1 ≤ passes ∧
      ne10_factor_loop flags s = (ne10_factor_step flags)^[passes] s ∧
      (∀ j, 1 ≤ j → j < passes → 1 < ((ne10_factor_step flags)^[j] s).n) ∧
      ((ne10_factor_step flags)^[passes] s).n = 1 := by
  induction s using ne10_factor_loop.induct flags with
  | case1 s h ih =>
    obtain ⟨p, hp, hloop, hmid, hlast⟩ := ih (by omega)
    refine ⟨p + 1, by omega, ?_, ?_, ?_⟩
    · rw [ne10_factor_loop, if_pos h, hloop, Function.iterate_succ_apply]
    · intro j hj1 hj2
      obtain ⟨j, rfl⟩ : ∃ j', j = j' + 1 := ⟨j - 1, by omega⟩
      rw [Function.iterate_succ_apply]
      rcases Nat.eq_zero_or_pos j with rfl | hj
      · exact h
      · exact hmid j hj (by omega)
    · rw [Function.iterate_succ_apply]
      exact hlast
  | case2 s h =>
    have hpos := ne10_factor_step_pos flags s hs
    refine ⟨1, le_refl 1, ?_, ?_, ?_⟩
    · rw [ne10_factor_loop, if_neg h]
      rfl
    · intro j hj1 hj2
      omega
    · show (ne10_factor_step flags s).n = 1
      omega

/-- C34: the do-while loop of `ne10_factor` terminates for every `n > 0` and every flag
value.  Whenever the remaining length `m` exceeds 1 the chosen radix `p` satisfies
`p >= 2` and divides `m`, so the quotient `m / p` is positive and strictly smaller; the
loop is a finite number of passes of its body (each earlier pass leaves a quotient
above 1, the last leaves 1); and for `n = 1` the loop is exactly one pass, which records
radix 1 and sets the flag `NE10_FFT_ALG_ANY`. -/
theorem ne10_factor_terminates (n flags : Int) (buf : Nat → Int) (hn : 0 < n) :
    (∀ m a : Int, 1 < m →
      2 ≤ (ne10_factor_radix m flags a).1 ∧ (ne10_factor_radix m flags a).1 ∣ m ∧
      0 < m / (ne10_factor_radix m flags a).1 ∧ m / (ne10_factor_radix m flags a).1 < m) ∧
    (∃ passes : ℕ, 1 ≤ passes ∧
      ne10_factor_loop flags (ne10_factor_init n buf)
        = (ne10_factor_step flags)^[passes] (ne10_factor_init n buf) ∧
      (∀ j, 1 ≤ j → j < passes →
        1 < ((ne10_factor_step flags)^[j] (ne10_factor_init n buf)).n) ∧
      ((ne10_factor_step flags)^[passes] (ne10_factor_init n buf)).n = 1) ∧
    (ne10_factor_loop flags (ne10_factor_init 1 buf)
        = ne10_factor_step flags (ne10_factor_init 1 buf) ∧
      (ne10_factor_loop flags (ne10_factor_init 1 buf)).p = 1 ∧
      (ne10_factor_loop flags (ne10_factor_init 1 buf)).facbuf 2 = 1 ∧
      (ne10_factor_loop flags (ne10_factor_init 1 buf)).alg_flag = NE10_FFT_ALG_ANY ∧
      (ne10_factor_loop flags (ne10_factor_init 1 buf)).stage_num = 1) := by
  refine ⟨?_, ne10_factor_loop_passes flags (ne10_factor_init n buf) hn, ?_⟩
  · intro m a hm
    obtain ⟨hmul, hc⟩ := ne10_factor_radix_cases m flags a (by omega)
    have h2 : 2 ≤ (ne10_factor_radix m flags a).1 := by omega
    have hq : 0 < m / (ne10_factor_radix m flags a).1 := by
      by_contra hq
      have : (ne10_factor_radix m flags a).1 * (m / (ne10_factor_radix m flags a).1) ≤ 0 :=
        mul_nonpos_of_nonneg_of_nonpos (by omega) (by omega)
      omega
    refine ⟨h2, ⟨_, hmul.symm⟩, hq, ?_⟩
    nlinarith
  · have hr : ne10_factor_radix 1 flags NE10_FFT_ALG_DEFAULT = (1, NE10_FFT_ALG_ANY) := by
      simp only [ne10_factor_radix]
      split_ifs <;> first | rfl | omega
    have hstep : (ne10_factor_step flags (ne10_factor_init 1 buf)).n = 1 := by
      show (1 : Int) / (ne10_factor_radix 1 flags NE10_FFT_ALG_DEFAULT).1 = 1
      rw [hr]
      rfl
    have hloop : ne10_factor_loop flags (ne10_factor_init 1 buf)
        = ne10_factor_step flags (ne10_factor_init 1 buf) := by
      rw [ne10_factor_loop, if_neg (by rw [hstep]; decide)]
    rw [hloop]
    refine ⟨rfl, ?_, ?_, ?_, rfl⟩
    · show (ne10_factor_radix 1 flags NE10_FFT_ALG_DEFAULT).1 = 1
      rw [hr]
    · show Function.update (Function.update buf (2 * 1)
        (ne10_factor_radix 1 flags NE10_FFT_ALG_DEFAULT).1) (2 * 1 + 1)
        ((1 : Int) / (ne10_factor_radix 1 flags NE10_FFT_ALG_DEFAULT).1) 2 = 1
      rw [hr, Function.update_noteq (by decide), Function.update_same]
    · show (ne10_factor_radix 1 flags NE10_FFT_ALG_DEFAULT).2 = NE10_FFT_ALG_ANY
      rw [hr]

/-- C34 at a concrete input: `n = 360` under the radix-8 flag. -/
theorem ne10_factor_terminates_witness :
    (∀ m a : Int, 1 < m →
      2 ≤ (ne10_factor_radix m NE10_FACTOR_EIGHT a).1 ∧
      (ne10_factor_radix m NE10_FACTOR_EIGHT a).1 ∣ m ∧
      0 < m / (ne10_factor_radix m NE10_FACTOR_EIGHT a).1 ∧
      m / (ne10_factor_radix m NE10_FACTOR_EIGHT a).1 < m) ∧
    (∃ passes : ℕ, 1 ≤ passes ∧
      ne10_factor_loop NE10_FACTOR_EIGHT (ne10_factor_init 360 (fun _ => 0))
        = (ne10_factor_step NE10_FACTOR_EIGHT)^[passes] (ne10_factor_init 360 (fun _ => 0)) ∧
      (∀ j, 1 ≤ j → j < passes →
        1 < ((ne10_factor_step NE10_FACTOR_EIGHT)^[j] (ne10_factor_init 360 (fun _ => 0))).n) ∧
      ((ne10_factor_step NE10_FACTOR_EIGHT)^[passes] (ne10_factor_init 360 (fun _ => 0))).n = 1) ∧
    (ne10_factor_loop NE10_FACTOR_EIGHT (ne10_factor_init 1 (fun _ => 0))
        = ne10_factor_step NE10_FACTOR_EIGHT (ne10_factor_init 1 (fun _ => 0)) ∧
      (ne10_factor_loop NE10_FACTOR_EIGHT (ne10_factor_init 1 (fun _ => 0))).p = 1 ∧
      (ne10_factor_loop NE10_FACTOR_EIGHT (ne10_factor_init 1 (fun _ => 0))).facbuf 2 = 1 ∧
      (ne10_factor_loop NE10_FACTOR_EIGHT (ne10_factor_init 1 (fun _ => 0))).alg_flag
        = NE10_FFT_ALG_ANY ∧
      (ne10_factor_loop NE10_FACTOR_EIGHT (ne10_factor_init 1 (fun _ => 0))).stage_num = 1) :=
  ne10_factor_terminates 360 NE10_FACTOR_EIGHT (fun _ => 0) (by norm_num)


/-! ## Plans whose first radix is not 8, 4 or 2 -/

/-- The factor table of the lengths 3, 6 and 12 under the allocator's flag: stage count,
first radix (the last recorded) and algorithm flag. -/
theorem ne10_factor_body_three_six_twelve (buf : Nat → Int) (n : Int)
    (hn : n = 3 ∨ n = 6 ∨ n = 12) :
    (ne10_factor_body n buf NE10_FACTOR_EIGHT_FIRST_STAGE).1 = NE10_OK ∧
    (ne10_factor_body n buf NE10_FACTOR_EIGHT_FIRST_STAGE).2
      (2 * (ne10_factor_body n buf NE10_FACTOR_EIGHT_FIRST_STAGE).2 0).toNat = 3 ∧
    (ne10_factor_body n buf NE10_FACTOR_EIGHT_FIRST_STAGE).2
      (2 * ((ne10_factor_body n buf NE10_FACTOR_EIGHT_FIRST_STAGE).2 0).toNat + 2)
      = NE10_FFT_ALG_ANY := by
  rcases hn with rfl | rfl | rfl
  · simp [ne10_factor_body, ne10_factor_loop, ne10_factor_init, ne10_factor_step,
      ne10_factor_radix, NE10_FACTOR_EIGHT_FIRST_STAGE, NE10_FACTOR_EIGHT, Function.update,
      NE10_OK, NE10_FFT_ALG_ANY]
  · simp [ne10_factor_body, ne10_factor_loop, ne10_factor_init, ne10_factor_step,
      ne10_factor_radix, NE10_FACTOR_EIGHT_FIRST_STAGE, NE10_FACTOR_EIGHT, Function.update,
      NE10_OK, NE10_FFT_ALG_ANY]
  · simp [ne10_factor_body, ne10_factor_loop, ne10_factor_init, ne10_factor_step,
      ne10_factor_radix, NE10_FACTOR_EIGHT_FIRST_STAGE, NE10_FACTOR_EIGHT, Function.update,
      NE10_OK, NE10_FFT_ALG_ANY]

/-- The allocator succeeds on the real lengths 6, 12 and 24 (`ncfft = 3, 6, 12`); the first
radix of the plan is 3 and its algorithm flag is `NE10_FFT_ALG_ANY`. -/
theorem alloc_three_six_twelve {R : Type} [Field R] (pi : R) (cos sin : R → R)
    (st : ne10_fft_r2c_state_float32_t R) (nfft : Int)
    (hn : nfft = 6 ∨ nfft = 12 ∨ nfft = 24) :
    ∃ cfg : ne10_fft_r2c_state_float32_t R,
      ne10_fft_alloc_r2c_float32 pi cos sin (some st) nfft = some cfg ∧
      cfg.ncfft = nfft / 2 ∧ cfg.factors (2 * cfg.factors 0).toNat = 3 ∧
      cfg.factors (2 * (cfg.factors 0).toNat + 2) = NE10_FFT_ALG_ANY := by
  have h2 : 2 ≤ nfft := by omega
  have hb := ne10_factor_loop_stage_le (nfft / 2) st.factors
    NE10_FACTOR_EIGHT_FIRST_STAGE (by omega) (by norm_num; omega)
  have h := alloc_some_eq pi cos sin st nfft h2 (by omega)
  obtain ⟨_, e1, e2⟩ := ne10_factor_body_three_six_twelve st.factors (nfft / 2) (by omega)
  exact ⟨_, h, rfl, e1, e2⟩

/-- C39: on a plan with `ncfft > 1` whose first-stage radix is none of 8, 4, 2, the
forward and the inverse butterfly store `in[0]` into `out[0]` and nothing else: every
other entry of the output, and the input and scratch arrays, are as before; and the
result does not change when the algorithm-flag entry `factors[2 * (stage_count + 1)]`
is replaced by any value `a`.  Such plans exist: the allocator succeeds for
`ncfft = 3, 6, 12` (real lengths 6, 12, 24) with first radix 3 and flag
`NE10_FFT_ALG_ANY`. -/
theorem butterfly_non_pow2_plan {R : Type} [Field R] (pi : R) (cos sin : R → R)
    (st : ne10_fft_r2c_state_float32_t R) (TW_81 : R) (mem : Mem R) (a : Int) :
    (∀ (nfft : Int) (cfg : ne10_fft_r2c_state_float32_t R),
      ne10_fft_alloc_r2c_float32 pi cos sin (some st) nfft = some cfg →
      1 < cfg.ncfft →
      cfg.factors (2 * cfg.factors 0).toNat ≠ 8 →
      cfg.factors (2 * cfg.factors 0).toNat ≠ 4 →
      cfg.factors (2 * cfg.factors 0).toNat ≠ 2 →
      ne10_mixed_radix_butterfly_float32_c TW_81 mem cfg.factors cfg.twiddles
        = mem.write Buf.out 0 (mem Buf.input 0) ∧
      ne10_mixed_radix_butterfly_inverse_float32_c TW_81 mem cfg.factors cfg.twiddles
        = mem.write Buf.out 0 (mem Buf.input 0) ∧
      ne10_mixed_radix_butterfly_float32_c TW_81 mem
          (Function.update cfg.factors (2 * (cfg.factors 0).toNat + 2) a) cfg.twiddles
        = ne10_mixed_radix_butterfly_float32_c TW_81 mem cfg.factors cfg.twiddles ∧
      ne10_mixed_radix_butterfly_inverse_float32_c TW_81 mem
          (Function.update cfg.factors (2 * (cfg.factors 0).toNat + 2) a) cfg.twiddles
        = ne10_mixed_radix_butterfly_inverse_float32_c TW_81 mem cfg.factors cfg.twiddles ∧
      (∀ (b : Buf) (idx : Nat), ¬ (b = Buf.out ∧ idx = 0) →
        ne10_mixed_radix_butterfly_float32_c TW_81 mem cfg.factors cfg.twiddles b idx
          = mem b idx ∧
        ne10_mixed_radix_butterfly_inverse_float32_c TW_81 mem cfg.factors cfg.twiddles b idx
          = mem b idx)) ∧
    (∀ nfft : Int, nfft = 6 ∨ nfft = 12 ∨ nfft = 24 →
      ∃ cfg : ne10_fft_r2c_state_float32_t R,
        ne10_fft_alloc_r2c_float32 pi cos sin (some st) nfft = some cfg ∧
        cfg.ncfft = nfft / 2 ∧ cfg.factors (2 * cfg.factors 0).toNat = 3 ∧
        cfg.factors (2 * (cfg.factors 0).toNat + 2) = NE10_FFT_ALG_ANY) := by
  refine ⟨?_, alloc_three_six_twelve pi cos sin st⟩
  intro nfft cfg _ _ h8 h4 h2
  have hf := butterfly_forward_other_radix TW_81 mem cfg.factors cfg.twiddles h8 h4 h2
  have hi := butterfly_inverse_other_radix TW_81 mem cfg.factors cfg.twiddles h8 h4 h2
  have h0 : Function.update cfg.factors (2 * (cfg.factors 0).toNat + 2) a 0 = cfg.factors 0 :=
    Function.update_noteq (by omega) _ _
  have hr : Function.update cfg.factors (2 * (cfg.factors 0).toNat + 2) a
      (2 * Function.update cfg.factors (2 * (cfg.factors 0).toNat + 2) a 0).toNat
      = cfg.factors (2 * cfg.factors 0).toNat := by
    rw [h0]
    exact Function.update_noteq (by omega) _ _
  refine ⟨hf, hi, ?_, ?_, ?_⟩
  · rw [hf]
    exact butterfly_forward_other_radix TW_81 mem _ cfg.twiddles (by rw [hr]; exact h8)
      (by rw [hr]; exact h4) (by rw [hr]; exact h2)
  · rw [hi]
    exact butterfly_inverse_other_radix TW_81 mem _ cfg.twiddles (by rw [hr]; exact h8)
      (by rw [hr]; exact h4) (by rw [hr]; exact h2)
  · intro b idx hb
    rw [hf, hi, Mem.write_apply, if_neg hb]
    exact ⟨rfl, rfl⟩

/-- C39 at a concrete input: the plan of the real length 12 (`ncfft = 6`, radices 3
and 2) on the zero block. -/
theorem butterfly_non_pow2_plan_witness :
    ∃ cfg : ne10_fft_r2c_state_float32_t ℝ,
      ne10_fft_alloc_r2c_float32 Real.pi Real.cos Real.sin (some (zero_block ℝ)) 12
        = some cfg ∧
      ne10_mixed_radix_butterfly_float32_c (Real.sqrt 2 / 2)
          (fun _ j => ⟨(j : ℝ), 1⟩) cfg.factors cfg.twiddles
        = Mem.write (fun _ j => ⟨(j : ℝ), 1⟩) Buf.out 0 ⟨((0 : ℕ) : ℝ), 1⟩ :=
  Exists.elim
    ((butterfly_non_pow2_plan Real.pi Real.cos Real.sin (zero_block ℝ) (Real.sqrt 2 / 2)
      (fun _ j => ⟨(j : ℝ), 1⟩) 0).2 12 (by norm_num))
    (fun cfg h => ⟨cfg, h.1,
      ((butterfly_non_pow2_plan Real.pi Real.cos Real.sin (zero_block ℝ) (Real.sqrt 2 / 2)
        (fun _ j => ⟨(j : ℝ), 1⟩) 0).1 12 cfg h.1 (by rw [h.2.1]; norm_num)
        (by rw [h.2.2.1]; decide) (by rw [h.2.2.1]; decide) (by rw [h.2.2.1]; decide)).1⟩)


/-! ## The size of the twiddle table -/

/-- The pointer of the twiddle generation after the stages `sc, ..., 1`. -/
theorem twiddle_gen_pointer {R : Type} [Field R] (pi : R) (cos sin : R → R) (ncfft : Int)
    (factors : Nat → Int) (sc : ℕ) :
    ∀ s : TwiddleGenState R,
      (twiddle_gen pi cos sin ncfft factors sc s).twiddles
        = s.twiddles + twiddle_offset factors sc 0 := by
  induction sc with
  | zero =>
    intro s
    rfl
  | succ c ih =>
    intro s
    rw [twiddle_gen, ih, (twiddle_gen_stage_closed pi cos sin ncfft factors (c + 1) s).1]
    have hoff : twiddle_offset factors (c + 1) 0
        = (factors (2 * (c + 1) + 1)).toNat * ((factors (2 * (c + 1))).toNat - 1)
          + twiddle_offset factors c 0 := by
      simp [twiddle_offset]
    rw [hoff]
    omega

/-- Every index of a block of `M * (r - 1)` entries is `M * (k - 1) + j` for one column
`j < M` and one row `1 <= k < r`. -/
theorem twiddle_block_index (M r p idx : ℕ) (h1 : p ≤ idx) (h2 : idx < p + M * (r - 1)) :
    ∃ j k, j < M ∧ 1 ≤ k ∧ k < r ∧ idx = p + (M * (k - 1) + j) := by
  obtain ⟨d, rfl⟩ : ∃ d, idx = p + d := ⟨idx - p, by omega⟩
  have hd : d < M * (r - 1) := by omega
  have hM : 0 < M := by
    rcases Nat.eq_zero_or_pos M with h | h
    · rw [h, Nat.zero_mul] at hd
      omega
    · exact h
  have hq : d / M < r - 1 := Nat.div_lt_of_lt_mul hd
  have hsplit : M * (d / M) + d % M = d := Nat.div_add_mod d M
  generalize d / M = q at hq hsplit
  refine ⟨d % M, q + 1, Nat.mod_lt _ hM, by omega, by omega, ?_⟩
  rw [Nat.add_sub_cancel, hsplit]

/-- The sub-tables of the stages `1 .. s` of a factored length `n` take `n - mstride_s`
entries together. -/
theorem twiddle_offset_telescope (fb : Nat → Int) (n : Int) (sn : ℕ)
    (hpos : ∀ j, j < sn → 0 < fb (2 * (j + 1)))
    (hsz : ∀ j, j < sn → 0 < fb (2 * (j + 1) + 1))
    (hpair : ∀ j, j < sn →
      fb (2 * (j + 1)) * fb (2 * (j + 1) + 1) = if j = 0 then n else fb (2 * j + 1)) :
    ∀ s, 1 ≤ s → s ≤ sn → ((twiddle_offset fb s 0 : ℕ) : Int) = n - fb (2 * s + 1) := by
  intro s
  induction s with
  | zero =>
    intro h
    omega
  | succ s ih =>
    intro _ hs
    have hoff : twiddle_offset fb (s + 1) 0
        = (fb (2 * (s + 1) + 1)).toNat * ((fb (2 * (s + 1))).toNat - 1)
          + twiddle_offset fb s 0 := by
      simp [twiddle_offset]
    have hr := hpos s (by omega)
    have hm := hsz s (by omega)
    have hp := hpair s (by omega)
    have hcast : (((fb (2 * (s + 1) + 1)).toNat * ((fb (2 * (s + 1))).toNat - 1) : ℕ) : Int)
        = fb (2 * (s + 1) + 1) * (fb (2 * (s + 1)) - 1) := by
      rw [Nat.cast_mul, Nat.cast_sub (by omega), Int.toNat_of_nonneg (by omega),
        Int.toNat_of_nonneg (by omega)]
      rfl
    rw [hoff, Nat.cast_add, hcast]
    by_cases hs0 : s = 0
    · subst hs0
      rw [if_pos rfl] at hp
      have h0 : twiddle_offset fb 0 0 = 0 := rfl
      rw [h0]
      push_cast
      linarith
    · rw [if_neg hs0] at hp
      rw [ih (by omega) (by omega)]
      linarith

/-- The total size of the sub-tables of a successful plan: the length minus the radix
recorded last, which is the first-stage radix. -/
theorem twiddle_offset_plan (n : Int) (buf : Nat → Int) (flags : Int) (hn : 0 < n)
    (hS : ¬ (ne10_factor_loop flags (ne10_factor_init n buf)).stage_num > 21) :
    ∃ sn : ℕ, 1 ≤ sn ∧ (ne10_factor_body n buf flags).2 0 = (sn : Int) ∧
      0 < (ne10_factor_body n buf flags).2 (2 * sn) ∧
      ((twiddle_offset (ne10_factor_body n buf flags).2 (sn - 1) 0 : ℕ) : Int)
        = n - (ne10_factor_body n buf flags).2 (2 * sn) := by
  obtain ⟨sn, hsn, e0, _, hpos, hpair, hprod⟩ := ne10_factor_plan_facts n buf flags hn hS
  generalize (ne10_factor_body n buf flags).2 = fb at e0 hpos hpair hprod ⊢
  have hsz : ∀ j, j < sn → 0 < fb (2 * (j + 1) + 1) := by
    intro j hj
    have hA := factor_prefix_size fb n sn hpair (j + 1) (by omega) (by omega)
    have hP : 0 < ∏ t in Finset.range (j + 1), fb (2 * (t + 1)) :=
      Finset.prod_pos (fun t ht => hpos t (by have := Finset.mem_range.mp ht; omega))
    by_contra hc
    have : (∏ t in Finset.range (j + 1), fb (2 * (t + 1))) * fb (2 * (j + 1) + 1) ≤ 0 :=
      mul_nonpos_of_nonneg_of_nonpos (le_of_lt hP) (by omega)
    omega
  have hlast : fb (2 * sn + 1) = 1 := by
    have hA := factor_prefix_size fb n sn hpair sn hsn (le_refl sn)
    rw [hprod] at hA
    have hA' : n * fb (2 * sn + 1) = n * 1 := by rw [hA, mul_one]
    exact mul_left_cancel₀ (by omega) hA'
  have hsn' : sn - 1 + 1 = sn := by omega
  have hr : 0 < fb (2 * sn) := by
    have := hpos (sn - 1) (by omega)
    rw [hsn'] at this
    exact this
  refine ⟨sn, hsn, e0, hr, ?_⟩
  have hp := hpair (sn - 1) (by omega)
  rw [hsn', hlast, mul_one] at hp
  by_cases h1 : sn - 1 = 0
  · rw [if_pos h1] at hp
    rw [h1, hp]
    show ((0 : ℕ) : Int) = n - n
    simp
  · rw [if_neg h1] at hp
    rw [twiddle_offset_telescope fb n sn hpos hsz hpair (sn - 1) (by omega) (by omega), hp]

/-- C31: for every plan that the allocator returns (it has at least one stage): the
generation of a non-first stage `u` (`1 <= u < stage_count`, radix `r = factors[2u]`,
section size `M = factors[2u+1]`) advances the table pointer by `M * (r - 1)`, keeps every
entry outside these `M * (r - 1)` places, and stores into every one of them (each is
`M * (k - 1) + j` for one `j < M`, `1 <= k < r`); the pointer after the whole generation,
started at 0, is `ncfft - first radix`, which lies between 0 and `ncfft`; every entry from
there on is what the block held, and every entry below does not depend on what the block
held. -/
theorem ne10_fft_alloc_twiddle_size {R : Type} [Field R] (pi : R) (cos sin : R → R)
    (st cfg : ne10_fft_r2c_state_float32_t R) (nfft : Int)
    (halloc : ne10_fft_alloc_r2c_float32 pi cos sin (some st) nfft = some cfg) :
    1 ≤ cfg.factors 0 ∧
    (∀ (u : ℕ) (s : TwiddleGenState R), 1 ≤ u → (u : Int) < cfg.factors 0 →
      (twiddle_gen_stage pi cos sin cfg.ncfft cfg.factors u s).twiddles
        = s.twiddles + (cfg.factors (2 * u + 1)).toNat * ((cfg.factors (2 * u)).toNat - 1) ∧
      (∀ idx, idx < s.twiddles
          ∨ s.twiddles + (cfg.factors (2 * u + 1)).toNat * ((cfg.factors (2 * u)).toNat - 1)
            ≤ idx →
        (twiddle_gen_stage pi cos sin cfg.ncfft cfg.factors u s).table idx = s.table idx) ∧
      (∀ idx, s.twiddles ≤ idx →
        idx < s.twiddles
          + (cfg.factors (2 * u + 1)).toNat * ((cfg.factors (2 * u)).toNat - 1) →
        ∃ j k, j < (cfg.factors (2 * u + 1)).toNat ∧ 1 ≤ k ∧ k < (cfg.factors (2 * u)).toNat ∧
          idx = s.twiddles + ((cfg.factors (2 * u + 1)).toNat * (k - 1) + j) ∧
          (twiddle_gen_stage pi cos sin cfg.ncfft cfg.factors u s).table idx
            = ⟨cos (-2 * pi * ((s.fstride / (cfg.factors (2 * u)).toNat : ℕ) : R) * (k : R)
                  * (j : R) / (cfg.ncfft : R)),
               sin (-2 * pi * ((s.fstride / (cfg.factors (2 * u)).toNat : ℕ) : R) * (k : R)
                  * (j : R) / (cfg.ncfft : R))⟩)) ∧
    cfg.twiddles = (twiddle_gen pi cos sin cfg.ncfft cfg.factors (cfg.factors 0 - 1).toNat
      { table := st.twiddles, twiddles := 0, fstride := (cfg.factors 1).toNat }).table ∧
    (((twiddle_gen pi cos sin cfg.ncfft cfg.factors (cfg.factors 0 - 1).toNat
      { table := st.twiddles, twiddles := 0, fstride := (cfg.factors 1).toNat }).twiddles : ℕ)
        : Int) = cfg.ncfft - cfg.factors (2 * cfg.factors 0).toNat ∧
    0 ≤ cfg.ncfft - cfg.factors (2 * cfg.factors 0).toNat ∧
    cfg.ncfft - cfg.factors (2 * cfg.factors 0).toNat ≤ cfg.ncfft ∧
    (∀ idx : ℕ, cfg.ncfft - cfg.factors (2 * cfg.factors 0).toNat ≤ (idx : Int) →
      cfg.twiddles idx = st.twiddles idx) ∧
    (∀ (tbl : Nat → ne10_fft_cpx_float32_t R) (idx : ℕ),
      (idx : Int) < cfg.ncfft - cfg.factors (2 * cfg.factors 0).toNat →
      (twiddle_gen pi cos sin cfg.ncfft cfg.factors (cfg.factors 0 - 1).toNat
        { table := tbl, twiddles := 0, fstride := (cfg.factors 1).toNat }).table idx
        = cfg.twiddles idx) := by
  obtain ⟨h2, hS, hcfg⟩ := alloc_eq_some _ _ _ _ _ _ halloc
  have hn : 0 < nfft / 2 := by omega
  subst hcfg
  simp only
  obtain ⟨sn, hsn, e0, hr, hT⟩ := twiddle_offset_plan (nfft / 2) st.factors
    NE10_FACTOR_EIGHT_FIRST_STAGE hn hS
  generalize (ne10_factor_body (nfft / 2) st.factors NE10_FACTOR_EIGHT_FIRST_STAGE).2 = fb
    at e0 hr hT ⊢
  have hsc : (fb 0 - 1).toNat = sn - 1 := by omega
  have h2sn : (2 * fb 0).toNat = 2 * sn := by omega
  rw [hsc, h2sn]
  have hptr := fun tbl : Nat → ne10_fft_cpx_float32_t R =>
    twiddle_gen_pointer pi cos sin (nfft / 2) fb (sn - 1)
      { table := tbl, twiddles := 0, fstride := (fb 1).toNat }
  simp only [Nat.zero_add] at hptr
  refine ⟨by omega, ?_, trivial, ?_, ?_, by omega, ?_, ?_⟩
  · intro u s _ _
    obtain ⟨c1, _, c3, c4, c5⟩ := twiddle_gen_stage_closed pi cos sin (nfft / 2) fb u s
    refine ⟨c1, ?_, ?_⟩
    · intro idx hidx
      rcases hidx with h | h
      · exact c3 idx h
      · exact c4 idx h
    · intro idx h1 h3
      obtain ⟨j, k, hj, hk1, hk2, rfl⟩ := twiddle_block_index _ _ _ idx h1 h3
      exact ⟨j, k, hj, hk1, hk2, rfl, c5 j k hj hk1 hk2⟩
  · rw [hptr, hT]
  · rw [← hT]
    exact Int.natCast_nonneg _
  · intro idx hidx
    rw [← hT] at hidx
    exact (twiddle_gen_closed pi cos sin (nfft / 2) fb (sn - 1)
      { table := st.twiddles, twiddles := 0, fstride := (fb 1).toNat }).2.1 idx
      (by
        show 0 + twiddle_offset fb (sn - 1) 0 ≤ idx
        omega)
  · intro tbl idx hidx
    rw [← hT] at hidx
    exact twiddle_gen_table_free pi cos sin (nfft / 2) fb (sn - 1)
      { table := tbl, twiddles := 0, fstride := (fb 1).toNat }
      { table := st.twiddles, twiddles := 0, fstride := (fb 1).toNat } rfl rfl idx
      (Or.inl ⟨Nat.zero_le _, by
        show idx < 0 + twiddle_offset fb (sn - 1) 0
        omega⟩)

/-- C31 at a concrete input: the plan of the real length 24 (`ncfft = 12`, stages of
radix 4 and 3) on the zero block; the generation ends at `12 - 3`, and the table is
untouched from there on. -/
theorem ne10_fft_alloc_twiddle_size_witness :
    ∃ cfg : ne10_fft_r2c_state_float32_t ℝ,
      ne10_fft_alloc_r2c_float32 Real.pi Real.cos Real.sin (some (zero_block ℝ)) 24
        = some cfg ∧
      cfg.ncfft = 24 / 2 ∧ cfg.factors (2 * cfg.factors 0).toNat = 3 ∧
      (((twiddle_gen Real.pi Real.cos Real.sin cfg.ncfft cfg.factors (cfg.factors 0 - 1).toNat
        { table := (zero_block ℝ).twiddles, twiddles := 0,
          fstride := (cfg.factors 1).toNat }).twiddles : ℕ) : Int)
          = cfg.ncfft - cfg.factors (2 * cfg.factors 0).toNat ∧
      (∀ idx : ℕ, cfg.ncfft - cfg.factors (2 * cfg.factors 0).toNat ≤ (idx : Int) →
        cfg.twiddles idx = (zero_block ℝ).twiddles idx) :=
  Exists.elim (alloc_three_six_twelve Real.pi Real.cos Real.sin (zero_block ℝ) 24
      (Or.inr (Or.inr rfl)))
    (fun cfg h => ⟨cfg, h.1, h.2.1, h.2.2.1,
      (ne10_fft_alloc_twiddle_size Real.pi Real.cos Real.sin (zero_block ℝ) cfg 24 h.1).2.2.2.1,
      (ne10_fft_alloc_twiddle_size Real.pi Real.cos Real.sin (zero_block ℝ) cfg 24
        h.1).2.2.2.2.2.2.1⟩)


/-! ## Relations that the stages carry from their inputs to their outputs -/

section StageRel

variable {R : Type}

/-- Every index below `F * (M * 4)` is `f * (M * 4) + m + M * q` for one section
`f < F`, one butterfly `m < M` and one output `q < 4`. -/
theorem stage_index_split (F M idx : ℕ) (h : idx < F * (M * 4)) :
    ∃ f m q, f < F ∧ m < M ∧ q < 4 ∧ idx = f * (M * 4) + m + M * q := by
  have hM : 0 < M := by
    rcases Nat.eq_zero_or_pos M with h0 | h0
    · rw [h0, Nat.zero_mul, Nat.mul_zero] at h
      omega
    · exact h0
  have hf : idx / (M * 4) < F := Nat.div_lt_of_lt_mul (by rw [Nat.mul_comm]; exact h)
  have hrem : idx % (M * 4) < M * 4 := Nat.mod_lt _ (by omega)
  have hq : idx % (M * 4) / M < 4 := Nat.div_lt_of_lt_mul hrem
  have hm : idx % (M * 4) % M < M := Nat.mod_lt _ hM
  have e1 : M * 4 * (idx / (M * 4)) + idx % (M * 4) = idx := Nat.div_add_mod idx (M * 4)
  have e2 : M * (idx % (M * 4) / M) + idx % (M * 4) % M = idx % (M * 4) :=
    Nat.div_add_mod (idx % (M * 4)) M
  refine ⟨idx / (M * 4), idx % (M * 4) % M, idx % (M * 4) / M, hf, hm, hq, ?_⟩
  rw [Nat.mul_comm (idx / (M * 4)) (M * 4)]
  omega

/-- The loads of butterfly `m` of section `f` are below `F * M * 4`. -/
theorem stage_src_lt (F M f m j : ℕ) (hf : f < F) (hm : m < M) (hj : j < 4) :
    f * M + m + F * M * j < F * M * 4 := by
  have h1 : (f + 1) * M ≤ F * M := Nat.mul_le_mul_right M hf
  have h2 : F * M * j ≤ F * M * 3 := Nat.mul_le_mul_left _ (by omega)
  rw [Nat.add_mul, Nat.one_mul] at h1
  omega

/-- The radix-8 first stage carries a relation from the first `8 * fstride` inputs to the
first `8 * fstride` outputs, if its butterfly does. -/
theorem first_stage_radix8_rel
    (ρ ρout : ne10_fft_cpx_float32_t R → ne10_fft_cpx_float32_t R → Prop)
    (bf bf' : ne10_fft_cpx_float32_t R → ne10_fft_cpx_float32_t R → ne10_fft_cpx_float32_t R →
      ne10_fft_cpx_float32_t R → ne10_fft_cpx_float32_t R → ne10_fft_cpx_float32_t R →
      ne10_fft_cpx_float32_t R → ne10_fft_cpx_float32_t R → Nat → ne10_fft_cpx_float32_t R)
    (F : ℕ) (mem mem' : Mem R)
    (hbf : ∀ a0 a1 a2 a3 a4 a5 a6 a7 c0 c1 c2 c3 c4 c5 c6 c7, ρ a0 c0 → ρ a1 c1 → ρ a2 c2 →
      ρ a3 c3 → ρ a4 c4 → ρ a5 c5 → ρ a6 c6 → ρ a7 c7 → ∀ q, q < 8 →
      ρout (bf a0 a1 a2 a3 a4 a5 a6 a7 q) (bf' c0 c1 c2 c3 c4 c5 c6 c7 q))
    (hin : ∀ idx, idx < F * 8 → ρ (mem Buf.input idx) (mem' Buf.input idx))
    (idx : ℕ) (hidx : idx < F * 8) :
    ρout (first_stage_radix8 bf F mem Buf.out idx) (first_stage_radix8 bf' F mem' Buf.out idx) := by
  obtain ⟨f, q, hf, hq, rfl⟩ : ∃ f q, f < F ∧ q < 8 ∧ idx = f * 8 + q :=
    ⟨idx / 8, idx % 8, by omega, by omega, by omega⟩
  rw [(first_stage_radix8_closed bf F mem).2 f q hf hq,
    (first_stage_radix8_closed bf' F mem').2 f q hf hq]
  exact hbf _ _ _ _ _ _ _ _ _ _ _ _ _ _ _ _ (hin _ (by omega)) (hin _ (by omega))
    (hin _ (by omega)) (hin _ (by omega)) (hin _ (by omega)) (hin _ (by omega))
    (hin _ (by omega)) (hin _ (by omega)) q hq

/-- The radix-4 first stage carries a relation from the first `4 * fstride` inputs to the
first `4 * fstride` outputs, if its butterfly does. -/
theorem first_stage_radix4_rel
    (ρ ρout : ne10_fft_cpx_float32_t R → ne10_fft_cpx_float32_t R → Prop)
    (bf bf' : ne10_fft_cpx_float32_t R → ne10_fft_cpx_float32_t R → ne10_fft_cpx_float32_t R →
      ne10_fft_cpx_float32_t R → Nat → ne10_fft_cpx_float32_t R)
    (F : ℕ) (mem mem' : Mem R)
    (hbf : ∀ a0 a1 a2 a3 c0 c1 c2 c3, ρ a0 c0 → ρ a1 c1 → ρ a2 c2 → ρ a3 c3 → ∀ q, q < 4 →
      ρout (bf a0 a1 a2 a3 q) (bf' c0 c1 c2 c3 q))
    (hin : ∀ idx, idx < F * 4 → ρ (mem Buf.input idx) (mem' Buf.input idx))
    (idx : ℕ) (hidx : idx < F * 4) :
    ρout (first_stage_radix4 bf F mem Buf.out idx) (first_stage_radix4 bf' F mem' Buf.out idx) := by
  obtain ⟨f, q, hf, hq, rfl⟩ : ∃ f q, f < F ∧ q < 4 ∧ idx = f * 4 + q :=
    ⟨idx / 4, idx % 4, by omega, by omega, by omega⟩
  rw [(first_stage_radix4_closed bf F mem).2 f q hf hq,
    (first_stage_radix4_closed bf' F mem').2 f q hf hq]
  exact hbf _ _ _ _ _ _ _ _ (hin _ (by omega)) (hin _ (by omega))
    (hin _ (by omega)) (hin _ (by omega)) q hq

/-- A middle stage carries a relation from the first `fstride * mstride * 4` entries of
its source array to the same entries of its destination array, if its butterfly does under
the two twiddle tables. -/
theorem middle_stage_rel
    (ρ : ne10_fft_cpx_float32_t R → ne10_fft_cpx_float32_t R → Prop)
    (bf bf' : ne10_fft_cpx_float32_t R → ne10_fft_cpx_float32_t R → ne10_fft_cpx_float32_t R →
      ne10_fft_cpx_float32_t R → ne10_fft_cpx_float32_t R → ne10_fft_cpx_float32_t R →
      ne10_fft_cpx_float32_t R → Nat → ne10_fft_cpx_float32_t R)
    (tw tw' : Nat → ne10_fft_cpx_float32_t R) (n T : ℕ) (in_ptr out_ptr : Buf)
    (hne : in_ptr ≠ out_ptr) (F M step : ℕ) (hstep : F * M = step) (hT : T + M * 3 ≤ n)
    (mem mem' : Mem R) (hbf : KernelRel n ρ ρ bf bf' tw tw')
    (hin : ∀ idx, idx < F * M * 4 → ρ (mem in_ptr idx) (mem' in_ptr idx))
    (idx : ℕ) (hidx : idx < F * (M * 4)) :
    ρ (middle_stage bf tw T in_ptr out_ptr F M step mem out_ptr idx)
      (middle_stage bf' tw' T in_ptr out_ptr F M step mem' out_ptr idx) := by
  subst hstep
  obtain ⟨f, m, q, hf, hm, hq, rfl⟩ := stage_index_split F M idx hidx
  rw [(middle_stage_closed bf tw T in_ptr out_ptr hne F M (F * M) mem).2 f m q hf hm hq,
    (middle_stage_closed bf' tw' T in_ptr out_ptr hne F M (F * M) mem').2 f m q hf hm hq]
  have s0 := stage_src_lt F M f m 0 hf hm (by omega)
  have s1 := stage_src_lt F M f m 1 hf hm (by omega)
  have s2 := stage_src_lt F M f m 2 hf hm (by omega)
  have s3 := stage_src_lt F M f m 3 hf hm (by omega)
  rw [Nat.mul_zero, Nat.add_zero] at s0
  exact hbf _ _ _ (by omega) (by omega) (by omega) _ _ _ _ _ _ _ _ (hin _ s0) (hin _ s1)
    (hin _ s2) (hin _ s3) q hq

/-- The last stage of one section carries a relation from the first `mstride * 4` entries
of its source array to the first `mstride * 4` entries of `out`, if its butterfly does
under the two twiddle tables. -/
theorem last_stage_rel
    (ρ ρout : ne10_fft_cpx_float32_t R → ne10_fft_cpx_float32_t R → Prop)
    (bf bf' : ne10_fft_cpx_float32_t R → ne10_fft_cpx_float32_t R → ne10_fft_cpx_float32_t R →
      ne10_fft_cpx_float32_t R → ne10_fft_cpx_float32_t R → ne10_fft_cpx_float32_t R →
      ne10_fft_cpx_float32_t R → Nat → ne10_fft_cpx_float32_t R)
    (tw tw' : Nat → ne10_fft_cpx_float32_t R) (n T : ℕ) (in_ptr : Buf) (M : ℕ)
    (hT : T + M * 3 ≤ n) (mem mem' : Mem R)
    (hbf : KernelRel n ρ ρout bf bf' tw tw')
    (hin : ∀ idx, idx < M * 4 → ρ (mem in_ptr idx) (mem' in_ptr idx))
    (idx : ℕ) (hidx : idx < M * 4) :
    ρout (last_stage bf tw T in_ptr 1 M M mem Buf.out idx)
      (last_stage bf' tw' T in_ptr 1 M M mem' Buf.out idx) := by
  have hM : 0 < M := by omega
  have hq : idx / M < 4 := Nat.div_lt_of_lt_mul hidx
  have hm : idx % M < M := Nat.mod_lt _ hM
  have e : M * (idx / M) + idx % M = idx := Nat.div_add_mod idx M
  generalize idx / M = q at hq e
  generalize idx % M = m at hm e
  subst e
  rw [Nat.add_comm (M * q) m,
    (last_stage_closed bf tw T in_ptr M M (le_refl _) mem).2 m q hm hq,
    (last_stage_closed bf' tw' T in_ptr M M (le_refl _) mem').2 m q hm hq]
  exact hbf _ _ _ (by omega) (by omega) (by omega) _ _ _ _ _ _ _ _ (hin _ (by omega))
    (hin _ (by omega)) (hin _ (by omega)) (hin _ (by omega)) q hq

/-- The loop over the middle stages carries a relation `ρ` on the first `n = 4 * step`
entries of the current source array, and a weaker relation `ρ'` on those of the current
destination array, through any number of passes; the two runs keep the same loop
variables. -/
theorem middle_stages_rel
    (ρ ρ' : ne10_fft_cpx_float32_t R → ne10_fft_cpx_float32_t R → Prop)
    (hw : ∀ a c, ρ a c → ρ' a c)
    (bf bf' : ne10_fft_cpx_float32_t R → ne10_fft_cpx_float32_t R → ne10_fft_cpx_float32_t R →
      ne10_fft_cpx_float32_t R → ne10_fft_cpx_float32_t R → ne10_fft_cpx_float32_t R →
      ne10_fft_cpx_float32_t R → Nat → ne10_fft_cpx_float32_t R)
    (tw tw' : Nat → ne10_fft_cpx_float32_t R) (n step r : ℕ) (hn : n = step * 4)
    (hbf : KernelRel n ρ ρ bf bf' tw tw') (passes : ℕ) :
    ∀ (s : ButterflyState R) (mem' : Mem R),
      s.fstride * s.mstride = step → s.twiddles + r = s.mstride → 4 ^ passes ∣ s.fstride →
      0 < s.fstride → s.in_ptr ≠ s.out_ptr →
      (∀ idx, idx < n → ρ (s.mem s.in_ptr idx) (mem' s.in_ptr idx)) →
      (∀ idx, idx < n → ρ' (s.mem s.out_ptr idx) (mem' s.out_ptr idx)) →
      (middle_stages bf' tw' step passes { s with mem := mem' }).in_ptr
          = (middle_stages bf tw step passes s).in_ptr ∧
      (middle_stages bf' tw' step passes { s with mem := mem' }).twiddles
          = (middle_stages bf tw step passes s).twiddles ∧
      (middle_stages bf' tw' step passes { s with mem := mem' }).mstride
          = (middle_stages bf tw step passes s).mstride ∧
      (middle_stages bf' tw' step passes { s with mem := mem' }).fstride
          = (middle_stages bf tw step passes s).fstride ∧
      (middle_stages bf' tw' step passes { s with mem := mem' }).stage_count
          = (middle_stages bf tw step passes s).stage_count ∧
      (middle_stages bf tw step passes s).twiddles + r
          = (middle_stages bf tw step passes s).mstride ∧
      (((middle_stages bf tw step passes s).in_ptr = s.in_ptr ∧
          (middle_stages bf tw step passes s).out_ptr = s.out_ptr) ∨
        ((middle_stages bf tw step passes s).in_ptr = s.out_ptr ∧
          (middle_stages bf tw step passes s).out_ptr = s.in_ptr)) ∧
      (∀ idx, idx < n →
        ρ ((middle_stages bf tw step passes s).mem (middle_stages bf tw step passes s).in_ptr idx)
          ((middle_stages bf' tw' step passes { s with mem := mem' }).mem
            (middle_stages bf tw step passes s).in_ptr idx)) ∧
      (∀ idx, idx < n →
        ρ' ((middle_stages bf tw step passes s).mem
            (middle_stages bf tw step passes s).out_ptr idx)
          ((middle_stages bf' tw' step passes { s with mem := mem' }).mem
            (middle_stages bf tw step passes s).out_ptr idx)) := by
  induction passes with
  | zero =>
    intro s mem' _ hT _ _ _ hin hout
    exact ⟨rfl, rfl, rfl, rfl, rfl, hT, Or.inl ⟨rfl, rfl⟩, hin, hout⟩
  | succ p ih =>
    intro s mem' hstep hT hdvd hpos hne hin hout
    obtain ⟨c, hc⟩ := hdvd
    have hF4 : s.fstride / 4 = 4 ^ p * c := by
      rw [hc, pow_succ, Nat.mul_assoc, Nat.mul_comm (4 ^ p) (4 * c), Nat.mul_assoc,
        Nat.mul_div_cancel_left _ (by norm_num), Nat.mul_comm]
    have hF : s.fstride = 4 * (s.fstride / 4) := by
      rw [hF4, hc, pow_succ]
      ring
    have hFM : s.fstride / 4 * (s.mstride * 4) = step := by
      rw [← hstep]
      conv_rhs => rw [hF]
      ring
    have hle : s.mstride * 4 ≤ n := by
      rw [hn, ← hstep]
      have : 1 * s.mstride ≤ s.fstride * s.mstride := Nat.mul_le_mul_right _ hpos
      omega
    have hnF : n = s.fstride * s.mstride * 4 := by rw [hn, hstep]
    have h := ih
      { mem := middle_stage bf tw s.twiddles s.in_ptr s.out_ptr s.fstride s.mstride step s.mem
        in_ptr := s.out_ptr
        out_ptr := s.in_ptr
        twiddles := s.twiddles + s.mstride * 3
        mstride := s.mstride * 4
        fstride := s.fstride / 4
        stage_count := s.stage_count - 1 }
      (middle_stage bf' tw' s.twiddles s.in_ptr s.out_ptr s.fstride s.mstride step mem')
      hFM
      (show s.twiddles + s.mstride * 3 + r = s.mstride * 4 by omega)
      ⟨c, hF4⟩
      (show 0 < s.fstride / 4 by omega)
      (fun e => hne e.symm)
      (by
        intro idx hidx
        exact middle_stage_rel ρ bf bf' tw tw' n s.twiddles s.in_ptr s.out_ptr hne s.fstride
          s.mstride step hstep (by omega) s.mem mem' hbf
          (fun j hj => hin j (by omega)) idx
          (by rw [← Nat.mul_assoc, ← hnF]; exact hidx))
      (by
        intro idx hidx
        show ρ' (middle_stage bf tw s.twiddles s.in_ptr s.out_ptr s.fstride s.mstride step
            s.mem s.in_ptr idx)
          (middle_stage bf' tw' s.twiddles s.in_ptr s.out_ptr s.fstride s.mstride step
            mem' s.in_ptr idx)
        rw [(middle_stage_closed bf tw s.twiddles s.in_ptr s.out_ptr hne s.fstride s.mstride
            step s.mem).1 s.in_ptr hne,
          (middle_stage_closed bf' tw' s.twiddles s.in_ptr s.out_ptr hne s.fstride s.mstride
            step mem').1 s.in_ptr hne]
        exact hw _ _ (hin idx hidx))
    obtain ⟨h1, h2, h3, h4, h5, h6, h7, h8, h9⟩ := h
    refine ⟨h1, h2, h3, h4, h5, h6, ?_, h8, h9⟩
    rcases h7 with h7 | h7
    · exact Or.inr h7
    · exact Or.inl h7

/-- The stages after the first one, on a plan `r * 4 ^ b` with `b >= 1`: a relation `ρ`
on the first `r * 4 ^ b` entries of `out` (which the first stage has produced) becomes
`ρout` on the same entries of `out`, and a weaker relation `ρ'` that also holds on the
scratch array still holds on it. -/
theorem butterfly_stages_rel
    (ρ ρ' ρout : ne10_fft_cpx_float32_t R → ne10_fft_cpx_float32_t R → Prop)
    (hw : ∀ a c, ρ a c → ρ' a c)
    (bf_mid bf_mid' bf_last bf_last' : ne10_fft_cpx_float32_t R → ne10_fft_cpx_float32_t R →
      ne10_fft_cpx_float32_t R → ne10_fft_cpx_float32_t R → ne10_fft_cpx_float32_t R →
      ne10_fft_cpx_float32_t R → ne10_fft_cpx_float32_t R → Nat → ne10_fft_cpx_float32_t R)
    (tw tw' : Nat → ne10_fft_cpx_float32_t R) (r b : ℕ) (hb : 1 ≤ b) (mem mem' : Mem R)
    (hmid : KernelRel (r * 4 ^ b) ρ ρ bf_mid bf_mid' tw tw')
    (hlast : KernelRel (r * 4 ^ b) ρ ρout bf_last bf_last' tw tw')
    (hout : ∀ idx, idx < r * 4 ^ b → ρ (mem Buf.out idx) (mem' Buf.out idx))
    (hbuf : ∀ idx, idx < r * 4 ^ b → ρ' (mem Buf.buffer idx) (mem' Buf.buffer idx)) :
    (∀ idx, idx < r * 4 ^ b →
      ρout (butterfly_stages bf_mid bf_last tw mem (b : ℤ) (4 ^ (b - 1)) r (r * 4 ^ (b - 1))
          Buf.out idx)
        (butterfly_stages bf_mid' bf_last' tw' mem' (b : ℤ) (4 ^ (b - 1)) r (r * 4 ^ (b - 1))
          Buf.out idx)) ∧
    (∀ idx, idx < r * 4 ^ b →
      ρ' (butterfly_stages bf_mid bf_last tw mem (b : ℤ) (4 ^ (b - 1)) r (r * 4 ^ (b - 1))
          Buf.buffer idx)
        (butterfly_stages bf_mid' bf_last' tw' mem' (b : ℤ) (4 ^ (b - 1)) r (r * 4 ^ (b - 1))
          Buf.buffer idx)) := by
  have hn : r * 4 ^ b = r * 4 ^ (b - 1) * 4 := by
    conv_lhs => rw [show b = (b - 1) + 1 by omega, pow_succ]
    ring
  rw [butterfly_stages_last bf_mid bf_last tw mem b (4 ^ (b - 1)) r (r * 4 ^ (b - 1)) r hb
      (by simp) (by simp),
    butterfly_stages_last bf_mid' bf_last' tw' mem' b (4 ^ (b - 1)) r (r * 4 ^ (b - 1)) r hb
      (by simp) (by simp)]
  obtain ⟨v1, v2, _⟩ := middle_stages_vars bf_mid tw (r * 4 ^ (b - 1)) r b (b - 1) 0
    { mem := mem, in_ptr := Buf.out, out_ptr := Buf.buffer, twiddles := 0,
      mstride := r, fstride := 4 ^ (b - 1), stage_count := (b : ℤ) }
    (by omega) (by simp) (by simp)
  have hrel : _ ∧ _ ∧ _ ∧ _ ∧ _ ∧ _ ∧ _ ∧ _ ∧ _ :=
    middle_stages_rel ρ ρ' hw bf_mid bf_mid' tw tw' (r * 4 ^ b) (r * 4 ^ (b - 1)) r hn hmid
      (b - 1)
      { mem := mem, in_ptr := Buf.out, out_ptr := Buf.buffer, twiddles := 0,
        mstride := r, fstride := 4 ^ (b - 1), stage_count := (b : ℤ) } mem'
      (Nat.mul_comm _ _) (Nat.zero_add r) (dvd_refl _) (pow_pos (by norm_num) _)
      (show Buf.out ≠ Buf.buffer by decide) hout hbuf
  obtain ⟨h1, h2, h3, h4, _, h6, h7, h8, h9⟩ := hrel
  dsimp only at h1 h2 h3 h4 h6 h7 h8 h9
  rw [Nat.zero_add] at v1 v2
  rw [Nat.sub_self, pow_zero] at v2
  generalize middle_stages bf_mid tw (r * 4 ^ (b - 1)) (b - 1)
    { mem := mem, in_ptr := Buf.out, out_ptr := Buf.buffer, twiddles := 0,
      mstride := r, fstride := 4 ^ (b - 1), stage_count := (b : ℤ) } = S
    at v1 v2 h1 h2 h3 h4 h6 h7 h8 h9 ⊢
  generalize middle_stages bf_mid' tw' (r * 4 ^ (b - 1)) (b - 1)
    { mem := mem', in_ptr := Buf.out, out_ptr := Buf.buffer, twiddles := 0,
      mstride := r, fstride := 4 ^ (b - 1), stage_count := (b : ℤ) } = S'
    at h1 h2 h3 h4 h8 h9 ⊢
  rw [h1, h2, h3, h4, v1, v2]
  rw [v1] at h6
  refine ⟨?_, ?_⟩
  · intro idx hidx
    exact last_stage_rel ρ ρout bf_last bf_last' tw tw' (r * 4 ^ b) S.twiddles S.in_ptr
      (r * 4 ^ (b - 1)) (by omega) S.mem S'.mem hlast
      (fun j hj => h8 j (by omega)) idx (by omega)
  · intro idx hidx
    rw [(last_stage_closed bf_last tw S.twiddles S.in_ptr (r * 4 ^ (b - 1)) (r * 4 ^ (b - 1))
        (le_refl _) S.mem).1 Buf.buffer (by decide),
      (last_stage_closed bf_last' tw' S.twiddles S.in_ptr (r * 4 ^ (b - 1)) (r * 4 ^ (b - 1))
        (le_refl _) S'.mem).1 Buf.buffer (by decide)]
    rcases h7 with ⟨_, h7⟩ | ⟨h7, _⟩
    · have := h9 idx hidx
      rw [h7] at this
      exact this
    · have := h8 idx hidx
      rw [h7] at this
      exact hw _ _ this

/-- A first stage of radix 4 or 8 followed by the stage loop, on a plan `r * 4 ^ b` with
`b >= 1`: a relation `ρin` on the first `r * 4 ^ b` inputs becomes `ρout` on the first
`r * 4 ^ b` entries of `out`, and a relation `ρ'` on the scratch array is kept, provided the
first-stage butterflies carry `ρin` to `ρ`, the middle butterflies carry `ρ` to `ρ`, the
last ones `ρ` to `ρout`, and `ρ` implies `ρ'`. -/
theorem butterfly_pow4_rel
    (ρin ρ ρ' ρout : ne10_fft_cpx_float32_t R → ne10_fft_cpx_float32_t R → Prop)
    (hw : ∀ a c, ρ a c → ρ' a c)
    (k8 k8' : ne10_fft_cpx_float32_t R → ne10_fft_cpx_float32_t R → ne10_fft_cpx_float32_t R →
      ne10_fft_cpx_float32_t R → ne10_fft_cpx_float32_t R → ne10_fft_cpx_float32_t R →
      ne10_fft_cpx_float32_t R → ne10_fft_cpx_float32_t R → Nat → ne10_fft_cpx_float32_t R)
    (k4 k4' : ne10_fft_cpx_float32_t R → ne10_fft_cpx_float32_t R → ne10_fft_cpx_float32_t R →
      ne10_fft_cpx_float32_t R → Nat → ne10_fft_cpx_float32_t R)
    (bf_mid bf_mid' bf_last bf_last' : ne10_fft_cpx_float32_t R → ne10_fft_cpx_float32_t R →
      ne10_fft_cpx_float32_t R → ne10_fft_cpx_float32_t R → ne10_fft_cpx_float32_t R →
      ne10_fft_cpx_float32_t R → ne10_fft_cpx_float32_t R → Nat → ne10_fft_cpx_float32_t R)
    (tw tw' : Nat → ne10_fft_cpx_float32_t R) (r b : ℕ) (hr : r = 4 ∨ r = 8) (hb : 1 ≤ b)
    (mem mem' : Mem R)
    (h8 : ∀ a0 a1 a2 a3 a4 a5 a6 a7 c0 c1 c2 c3 c4 c5 c6 c7, ρin a0 c0 → ρin a1 c1 →
      ρin a2 c2 → ρin a3 c3 → ρin a4 c4 → ρin a5 c5 → ρin a6 c6 → ρin a7 c7 → ∀ q, q < 8 →
      ρ (k8 a0 a1 a2 a3 a4 a5 a6 a7 q) (k8' c0 c1 c2 c3 c4 c5 c6 c7 q))
    (h4 : ∀ a0 a1 a2 a3 c0 c1 c2 c3, ρin a0 c0 → ρin a1 c1 → ρin a2 c2 → ρin a3 c3 →
      ∀ q, q < 4 → ρ (k4 a0 a1 a2 a3 q) (k4' c0 c1 c2 c3 q))
    (hmid : KernelRel (r * 4 ^ b) ρ ρ bf_mid bf_mid' tw tw')
    (hlast : KernelRel (r * 4 ^ b) ρ ρout bf_last bf_last' tw tw')
    (hin : ∀ idx, idx < r * 4 ^ b → ρin (mem Buf.input idx) (mem' Buf.input idx))
    (hbuf : ∀ idx, idx < r * 4 ^ b → ρ' (mem Buf.buffer idx) (mem' Buf.buffer idx)) :
    (∀ idx, idx < r * 4 ^ b →
      ρout (butterfly_stages bf_mid bf_last tw
          (if r = 8 then first_stage_radix8 k8 (4 ^ b) mem
           else first_stage_radix4 k4 (4 ^ b) mem)
          (b : ℤ) (4 ^ b / 4) r (r * 4 ^ b / 4) Buf.out idx)
        (butterfly_stages bf_mid' bf_last' tw'
          (if r = 8 then first_stage_radix8 k8' (4 ^ b) mem'
           else first_stage_radix4 k4' (4 ^ b) mem')
          (b : ℤ) (4 ^ b / 4) r (r * 4 ^ b / 4) Buf.out idx)) ∧
    (∀ idx, idx < r * 4 ^ b →
      ρ' (butterfly_stages bf_mid bf_last tw
          (if r = 8 then first_stage_radix8 k8 (4 ^ b) mem
           else first_stage_radix4 k4 (4 ^ b) mem)
          (b : ℤ) (4 ^ b / 4) r (r * 4 ^ b / 4) Buf.buffer idx)
        (butterfly_stages bf_mid' bf_last' tw'
          (if r = 8 then first_stage_radix8 k8' (4 ^ b) mem'
           else first_stage_radix4 k4' (4 ^ b) mem')
          (b : ℤ) (4 ^ b / 4) r (r * 4 ^ b / 4) Buf.buffer idx)) := by
  have hdiv : 4 ^ b / 4 = 4 ^ (b - 1) := by
    conv_lhs => rw [show b = (b - 1) + 1 by omega, pow_succ]
    exact Nat.mul_div_cancel _ (by norm_num)
  have hstep : r * 4 ^ b / 4 = r * 4 ^ (b - 1) := by
    conv_lhs => rw [show b = (b - 1) + 1 by omega, pow_succ, ← Nat.mul_assoc]
    exact Nat.mul_div_cancel _ (by norm_num)
  rw [hdiv, hstep]
  apply butterfly_stages_rel ρ ρ' ρout hw bf_mid bf_mid' bf_last bf_last' tw tw' r b hb _ _
    hmid hlast
  · intro idx hidx
    rcases hr with hr | hr
    · subst hr
      rw [if_neg (by norm_num), if_neg (by norm_num)]
      exact first_stage_radix4_rel ρin ρ k4 k4' (4 ^ b) mem mem' h4
        (fun j hj => hin j (by omega)) idx (by omega)
    · subst hr
      rw [if_pos rfl, if_pos rfl]
      exact first_stage_radix8_rel ρin ρ k8 k8' (4 ^ b) mem mem' h8
        (fun j hj => hin j (by omega)) idx (by omega)
  · intro idx hidx
    rcases hr with hr | hr
    · subst hr
      rw [if_neg (by norm_num), if_neg (by norm_num),
        (first_stage_radix4_closed k4 (4 ^ b) mem).1 Buf.buffer (by decide),
        (first_stage_radix4_closed k4' (4 ^ b) mem').1 Buf.buffer (by decide)]
      exact hbuf idx hidx
    · subst hr
      rw [if_pos rfl, if_pos rfl,
        (first_stage_radix8_closed k8 (4 ^ b) mem).1 Buf.buffer (by decide),
        (first_stage_radix8_closed k8' (4 ^ b) mem').1 Buf.buffer (by decide)]
      exact hbuf idx hidx

end StageRel


/-! ## What the butterflies and the splits read -/

/-- A butterfly with twiddles gives equal outputs on equal inputs under two twiddle tables
that agree below `n`. -/
theorem KernelRel_eq {R : Type} (n : ℕ)
    (bf : ne10_fft_cpx_float32_t R → ne10_fft_cpx_float32_t R → ne10_fft_cpx_float32_t R →
      ne10_fft_cpx_float32_t R → ne10_fft_cpx_float32_t R → ne10_fft_cpx_float32_t R →
      ne10_fft_cpx_float32_t R → Nat → ne10_fft_cpx_float32_t R)
    (tw tw' : Nat → ne10_fft_cpx_float32_t R) (htw : ∀ i, i < n → tw i = tw' i) :
    KernelRel n (fun a c => a = c) (fun a c => a = c) bf bf tw tw' := by
  intro i0 i1 i2 h0 h1 h2 a0 a1 a2 a3 c0 c1 c2 c3 e0 e1 e2 e3 q _
  rw [htw i0 h0, htw i1 h1, htw i2 h2, e0, e1, e2, e3]

/-- The forward butterfly on the factor table of `r * 4 ^ b` (`r` 4 or 8): the first
`r * 4 ^ b` entries of `out` depend only on the first `r * 4 ^ b` inputs and twiddles,
and those of the scratch array only on these and on what the scratch array held there. -/
theorem butterfly_forward_reads_pow4 {R : Type} [Field R] (r b : ℕ) (hr : r = 4 ∨ r = 8)
    (hb : b + 1 ≤ 21) (buf : Nat → Int) (TW_81 : R) (mem mem' : Mem R)
    (tw tw' : Nat → ne10_fft_cpx_float32_t R)
    (hin : ∀ idx, idx < r * 4 ^ b → mem Buf.input idx = mem' Buf.input idx)
    (hbuf : ∀ idx, idx < r * 4 ^ b → mem Buf.buffer idx = mem' Buf.buffer idx)
    (htw : ∀ i, i < r * 4 ^ b → tw i = tw' i) (idx : ℕ) (hidx : idx < r * 4 ^ b) :
    ne10_mixed_radix_butterfly_float32_c TW_81 mem
        (ne10_factor_body ((r : ℤ) * 4 ^ b) buf NE10_FACTOR_EIGHT_FIRST_STAGE).2 tw Buf.out idx
      = ne10_mixed_radix_butterfly_float32_c TW_81 mem'
        (ne10_factor_body ((r : ℤ) * 4 ^ b) buf NE10_FACTOR_EIGHT_FIRST_STAGE).2 tw' Buf.out idx
    ∧
    ne10_mixed_radix_butterfly_float32_c TW_81 mem
        (ne10_factor_body ((r : ℤ) * 4 ^ b) buf NE10_FACTOR_EIGHT_FIRST_STAGE).2 tw
        Buf.buffer idx
      = ne10_mixed_radix_butterfly_float32_c TW_81 mem'
        (ne10_factor_body ((r : ℤ) * 4 ^ b) buf NE10_FACTOR_EIGHT_FIRST_STAGE).2 tw'
        Buf.buffer idx := by
  have hr' : (r : ℤ) = 4 ∨ (r : ℤ) = 8 := by
    rcases hr with hr | hr <;> rw [hr] <;> simp
  obtain ⟨e0, e1, eu, er⟩ := ne10_factor_body_pow4 (r : ℤ) hr' b hb buf
  rw [show 2 * (1 + b) = 2 * (b + 1) by ring] at er
  rw [butterfly_forward_stages_eq _ r b hr e0 (by rw [e1]; push_cast; rfl) er,
    butterfly_forward_stages_eq _ r b hr e0 (by rw [e1]; push_cast; rfl) er]
  have h8 : ∀ a0 a1 a2 a3 a4 a5 a6 a7 c0 c1 c2 c3 c4 c5 c6 c7 : ne10_fft_cpx_float32_t R,
      a0 = c0 → a1 = c1 → a2 = c2 → a3 = c3 → a4 = c4 → a5 = c5 → a6 = c6 → a7 = c7 →
      ∀ q, q < 8 → radix8_butterfly_forward TW_81 a0 a1 a2 a3 a4 a5 a6 a7 q
        = radix8_butterfly_forward TW_81 c0 c1 c2 c3 c4 c5 c6 c7 q := by
    intro a0 a1 a2 a3 a4 a5 a6 a7 c0 c1 c2 c3 c4 c5 c6 c7 e0 e1 e2 e3 e4 e5 e6 e7 q _
    rw [e0, e1, e2, e3, e4, e5, e6, e7]
  have h4 : ∀ a0 a1 a2 a3 c0 c1 c2 c3 : ne10_fft_cpx_float32_t R,
      a0 = c0 → a1 = c1 → a2 = c2 → a3 = c3 →
      ∀ q, q < 4 → radix4_butterfly_forward a0 a1 a2 a3 q
        = radix4_butterfly_forward c0 c1 c2 c3 q := by
    intro a0 a1 a2 a3 c0 c1 c2 c3 e0 e1 e2 e3 q _
    rw [e0, e1, e2, e3]
  by_cases hb0 : b = 0
  · subst hb0
    rw [Nat.cast_zero, butterfly_stages_zero, butterfly_stages_zero]
    rw [pow_zero, Nat.mul_one] at hidx hbuf hin
    rcases hr with hr | hr
    · subst hr
      rw [if_neg (by norm_num), if_neg (by norm_num),
        (first_stage_radix4_closed _ _ mem).1 Buf.buffer (by decide),
        (first_stage_radix4_closed _ _ mem').1 Buf.buffer (by decide)]
      exact ⟨first_stage_radix4_rel (fun a c => a = c) (fun a c => a = c) _ _ _ mem mem' h4
        (fun j hj => hin j (by rw [pow_zero] at hj; omega)) idx (by rw [pow_zero]; omega),
        hbuf idx hidx⟩
    · subst hr
      rw [if_pos rfl, if_pos rfl,
        (first_stage_radix8_closed _ _ mem).1 Buf.buffer (by decide),
        (first_stage_radix8_closed _ _ mem').1 Buf.buffer (by decide)]
      exact ⟨first_stage_radix8_rel (fun a c => a = c) (fun a c => a = c) _ _ _ mem mem' h8
        (fun j hj => hin j (by rw [pow_zero] at hj; omega)) idx (by rw [pow_zero]; omega),
        hbuf idx hidx⟩
  · have hlast := (eu (b - 1) (by omega)).2
    rw [show 2 * (1 + (b - 1)) + 1 = 2 * (b + 1) - 1 by omega,
      show b - 1 - (b - 1) = 0 by omega, pow_zero, mul_one] at hlast
    rw [hlast, Int.toNat_natCast]
    obtain ⟨g1, g2⟩ := butterfly_pow4_rel (fun a c => a = c) (fun a c => a = c)
      (fun a c => a = c) (fun a c => a = c) (fun _ _ h => h)
      (radix8_butterfly_forward TW_81) (radix8_butterfly_forward TW_81)
      radix4_butterfly_forward radix4_butterfly_forward
      radix4_twiddle_butterfly_forward radix4_twiddle_butterfly_forward
      radix4_twiddle_butterfly_forward radix4_twiddle_butterfly_forward tw tw' r b hr
      (by omega) mem mem' h8 h4 (KernelRel_eq _ _ tw tw' htw) (KernelRel_eq _ _ tw tw' htw)
      hin hbuf
    exact ⟨g1 idx hidx, g2 idx hidx⟩

/-- The inverse butterfly on a factor table that records one stage of radix `r` (4 or
8): the first stage, then the scaling loop. -/
theorem butterfly_inverse_single_eq {R : Type} [Field R] (fb : Nat → Int) (r : ℕ)
    (hr : r = 4 ∨ r = 8) (e0 : fb 0 = ((0 + 1 : ℕ) : ℤ)) (e1 : fb 1 = ((4 ^ 0 : ℕ) : ℤ))
    (er : fb (2 * (0 + 1)) = (r : ℤ)) (TW_81 : R) (mem : Mem R)
    (tw : Nat → ne10_fft_cpx_float32_t R) :
    ne10_mixed_radix_butterfly_inverse_float32_c TW_81 mem fb tw
      = scale_first_stage (1 / ((((4 ^ 0 : ℕ) : ℤ) * (r : ℤ) : ℤ) : R)) r
          (if r = 8 then first_stage_radix8 (radix8_butterfly_inverse TW_81) (4 ^ 0) mem
           else first_stage_radix4 radix4_butterfly_inverse (4 ^ 0) mem) := by
  have hidx2 : (2 * (((0 + 1 : ℕ) : ℤ))).toNat = 2 * (0 + 1) := by omega
  simp only [ne10_mixed_radix_butterfly_inverse_float32_c, e0, e1, hidx2, er,
    Int.toNat_natCast]
  have hz : ((0 + 1 : ℕ) : ℤ) - 1 = 0 := by norm_num
  rcases hr with hr | hr
  · subst hr
    simp only [hz, if_true, butterfly_stages_zero]
    rw [if_neg (by norm_num), if_pos (by norm_num), if_neg (by norm_num)]
  · subst hr
    simp only [hz, if_true, butterfly_stages_zero]
    rw [if_pos (by norm_num)]

/-- The inverse butterfly on the factor table of `r * 4 ^ b` (`r` 4 or 8): the first
`r * 4 ^ b` entries of `out` depend only on the first `r * 4 ^ b` inputs and twiddles,
and those of the scratch array only on these and on what the scratch array held there. -/
theorem butterfly_inverse_reads_pow4 {R : Type} [Field R] (r b : ℕ) (hr : r = 4 ∨ r = 8)
    (hb : b + 1 ≤ 21) (buf : Nat → Int) (TW_81 : R) (mem mem' : Mem R)
    (tw tw' : Nat → ne10_fft_cpx_float32_t R)
    (hin : ∀ idx, idx < r * 4 ^ b → mem Buf.input idx = mem' Buf.input idx)
    (hbuf : ∀ idx, idx < r * 4 ^ b → mem Buf.buffer idx = mem' Buf.buffer idx)
    (htw : ∀ i, i < r * 4 ^ b → tw i = tw' i) (idx : ℕ) (hidx : idx < r * 4 ^ b) :
    ne10_mixed_radix_butterfly_inverse_float32_c TW_81 mem
        (ne10_factor_body ((r : ℤ) * 4 ^ b) buf NE10_FACTOR_EIGHT_FIRST_STAGE).2 tw Buf.out idx
      = ne10_mixed_radix_butterfly_inverse_float32_c TW_81 mem'
        (ne10_factor_body ((r : ℤ) * 4 ^ b) buf NE10_FACTOR_EIGHT_FIRST_STAGE).2 tw' Buf.out idx
    ∧
    ne10_mixed_radix_butterfly_inverse_float32_c TW_81 mem
        (ne10_factor_body ((r : ℤ) * 4 ^ b) buf NE10_FACTOR_EIGHT_FIRST_STAGE).2 tw
        Buf.buffer idx
      = ne10_mixed_radix_butterfly_inverse_float32_c TW_81 mem'
        (ne10_factor_body ((r : ℤ) * 4 ^ b) buf NE10_FACTOR_EIGHT_FIRST_STAGE).2 tw'
        Buf.buffer idx := by
  have hr' : (r : ℤ) = 4 ∨ (r : ℤ) = 8 := by
    rcases hr with hr | hr <;> rw [hr] <;> simp
  obtain ⟨e0, e1, eu, er⟩ := ne10_factor_body_pow4 (r : ℤ) hr' b hb buf
  rw [show 2 * (1 + b) = 2 * (b + 1) by ring] at er
  have h8 : ∀ a0 a1 a2 a3 a4 a5 a6 a7 c0 c1 c2 c3 c4 c5 c6 c7 : ne10_fft_cpx_float32_t R,
      a0 = c0 → a1 = c1 → a2 = c2 → a3 = c3 → a4 = c4 → a5 = c5 → a6 = c6 → a7 = c7 →
      ∀ q, q < 8 → radix8_butterfly_inverse TW_81 a0 a1 a2 a3 a4 a5 a6 a7 q
        = radix8_butterfly_inverse TW_81 c0 c1 c2 c3 c4 c5 c6 c7 q := by
    intro a0 a1 a2 a3 a4 a5 a6 a7 c0 c1 c2 c3 c4 c5 c6 c7 e0 e1 e2 e3 e4 e5 e6 e7 q _
    rw [e0, e1, e2, e3, e4, e5, e6, e7]
  have h4 : ∀ a0 a1 a2 a3 c0 c1 c2 c3 : ne10_fft_cpx_float32_t R,
      a0 = c0 → a1 = c1 → a2 = c2 → a3 = c3 →
      ∀ q, q < 4 → radix4_butterfly_inverse a0 a1 a2 a3 q
        = radix4_butterfly_inverse c0 c1 c2 c3 q := by
    intro a0 a1 a2 a3 c0 c1 c2 c3 e0 e1 e2 e3 q _
    rw [e0, e1, e2, e3]
  by_cases hb0 : b = 0
  · subst hb0
    rw [butterfly_inverse_single_eq _ r hr e0 (by rw [e1]; norm_num) er,
      butterfly_inverse_single_eq _ r hr e0 (by rw [e1]; norm_num) er]
    rw [pow_zero, Nat.mul_one] at hidx hbuf hin
    rw [(scale_first_stage_closed _ r _).2.1 idx hidx,
      (scale_first_stage_closed _ r _).2.1 idx hidx,
      (scale_first_stage_closed _ r _).1 Buf.buffer (by decide),
      (scale_first_stage_closed _ r _).1 Buf.buffer (by decide)]
    rcases hr with hr | hr
    · subst hr
      rw [if_neg (by norm_num), if_neg (by norm_num),
        (first_stage_radix4_closed _ _ mem).1 Buf.buffer (by decide),
        (first_stage_radix4_closed _ _ mem').1 Buf.buffer (by decide),
        first_stage_radix4_rel (fun a c => a = c) (fun a c => a = c) _ _ _ mem mem' h4
          (fun j hj => hin j (by rw [pow_zero] at hj; omega)) idx (by rw [pow_zero]; omega)]
      exact ⟨rfl, hbuf idx hidx⟩
    · subst hr
      rw [if_pos rfl, if_pos rfl,
        (first_stage_radix8_closed _ _ mem).1 Buf.buffer (by decide),
        (first_stage_radix8_closed _ _ mem').1 Buf.buffer (by decide),
        first_stage_radix8_rel (fun a c => a = c) (fun a c => a = c) _ _ _ mem mem' h8
          (fun j hj => hin j (by rw [pow_zero] at hj; omega)) idx (by rw [pow_zero]; omega)]
      exact ⟨rfl, hbuf idx hidx⟩
  · have hlast := (eu (b - 1) (by omega)).2
    rw [show 2 * (1 + (b - 1)) + 1 = 2 * (b + 1) - 1 by omega,
      show b - 1 - (b - 1) = 0 by omega, pow_zero, mul_one] at hlast
    rw [butterfly_inverse_stages_eq _ r b hr (by omega) e0 (by rw [e1]; push_cast; rfl) er,
      butterfly_inverse_stages_eq _ r b hr (by omega) e0 (by rw [e1]; push_cast; rfl) er,
      hlast, Int.toNat_natCast]
    obtain ⟨g1, g2⟩ := butterfly_pow4_rel (fun a c => a = c) (fun a c => a = c)
      (fun a c => a = c) (fun a c => a = c) (fun _ _ h => h)
      (radix8_butterfly_inverse TW_81) (radix8_butterfly_inverse TW_81)
      radix4_butterfly_inverse radix4_butterfly_inverse
      radix4_twiddle_butterfly_inverse radix4_twiddle_butterfly_inverse
      (radix4_twiddle_butterfly_inverse_scaled (1 / ((((4 ^ b : ℕ) : ℤ) * (r : ℤ) : ℤ) : R)))
      (radix4_twiddle_butterfly_inverse_scaled (1 / ((((4 ^ b : ℕ) : ℤ) * (r : ℤ) : ℤ) : R)))
      tw tw' r b hr (by omega) mem mem' h8 h4 (KernelRel_eq _ _ tw tw' htw)
      (KernelRel_eq _ _ tw tw' htw) hin hbuf
    exact ⟨g1 idx hidx, g2 idx hidx⟩

/-- Under the plan of a power of two `ncfft = 2 ^ k`, the first `ncfft` entries that the
two butterflies leave in `out` and in the scratch array depend only on the first `ncfft`
inputs, the first `ncfft` twiddles and the first `ncfft` entries the scratch array held. -/
theorem butterfly_reads {R : Type} [Field R] (pi : R) (cos sin : R → R) (k : ℕ)
    (st cfg : ne10_fft_r2c_state_float32_t R)
    (halloc : ne10_fft_alloc_r2c_float32 pi cos sin (some st) (2 * 2 ^ k) = some cfg)
    (TW_81 : R) (mem mem' : Mem R) (tw' : Nat → ne10_fft_cpx_float32_t R)
    (hin : ∀ idx, idx < 2 ^ k → mem Buf.input idx = mem' Buf.input idx)
    (hbuf : ∀ idx, idx < 2 ^ k → mem Buf.buffer idx = mem' Buf.buffer idx)
    (htw : ∀ i, i < 2 ^ k → cfg.twiddles i = tw' i) (idx : ℕ) (hidx : idx < 2 ^ k) :
    (ne10_mixed_radix_butterfly_float32_c TW_81 mem cfg.factors cfg.twiddles Buf.out idx
      = ne10_mixed_radix_butterfly_float32_c TW_81 mem' cfg.factors tw' Buf.out idx ∧
    ne10_mixed_radix_butterfly_float32_c TW_81 mem cfg.factors cfg.twiddles Buf.buffer idx
      = ne10_mixed_radix_butterfly_float32_c TW_81 mem' cfg.factors tw' Buf.buffer idx) ∧
    (ne10_mixed_radix_butterfly_inverse_float32_c TW_81 mem cfg.factors cfg.twiddles Buf.out idx
      = ne10_mixed_radix_butterfly_inverse_float32_c TW_81 mem' cfg.factors tw' Buf.out idx ∧
    ne10_mixed_radix_butterfly_inverse_float32_c TW_81 mem cfg.factors cfg.twiddles
        Buf.buffer idx
      = ne10_mixed_radix_butterfly_inverse_float32_c TW_81 mem' cfg.factors tw'
        Buf.buffer idx) := by
  obtain ⟨_, hS, hcfg⟩ := alloc_eq_some _ _ _ _ _ _ halloc
  have hhalf : (2 * 2 ^ k : ℤ) / 2 = 2 ^ k := by
    rw [Int.mul_ediv_cancel_left _ (by norm_num)]
  rw [hhalf] at hS hcfg
  subst hcfg
  simp only at htw ⊢
  generalize (twiddle_gen pi cos sin (2 ^ k)
    (ne10_factor_body (2 ^ k) st.factors NE10_FACTOR_EIGHT_FIRST_STAGE).2
    ((ne10_factor_body (2 ^ k) st.factors NE10_FACTOR_EIGHT_FIRST_STAGE).2 0 - 1).toNat
    { table := st.twiddles, twiddles := 0,
      fstride := ((ne10_factor_body (2 ^ k) st.factors
        NE10_FACTOR_EIGHT_FIRST_STAGE).2 1).toNat }).table = tw at htw ⊢
  by_cases hk0 : k = 0
  · subst hk0
    obtain ⟨e0, _, e2⟩ := ne10_factor_body_one st.factors
    simp only [pow_zero] at e0 e2 hidx hin hbuf ⊢
    have hr : (ne10_factor_body 1 st.factors NE10_FACTOR_EIGHT_FIRST_STAGE).2
        (2 * (ne10_factor_body 1 st.factors NE10_FACTOR_EIGHT_FIRST_STAGE).2 0).toNat = 1 := by
      rw [e0]
      exact e2
    rw [butterfly_forward_other_radix _ mem _ _ (by rw [hr]; decide) (by rw [hr]; decide)
        (by rw [hr]; decide),
      butterfly_forward_other_radix _ mem' _ _ (by rw [hr]; decide) (by rw [hr]; decide)
        (by rw [hr]; decide),
      butterfly_inverse_other_radix _ mem _ _ (by rw [hr]; decide) (by rw [hr]; decide)
        (by rw [hr]; decide),
      butterfly_inverse_other_radix _ mem' _ _ (by rw [hr]; decide) (by rw [hr]; decide)
        (by rw [hr]; decide)]
    have hi0 : idx = 0 := by omega
    subst hi0
    rw [Mem.write_apply, Mem.write_apply, Mem.write_apply, Mem.write_apply,
      if_pos ⟨rfl, rfl⟩, if_pos ⟨rfl, rfl⟩, if_neg (fun h => absurd h.1 (by decide)),
      if_neg (fun h => absurd h.1 (by decide))]
    exact ⟨⟨hin 0 (by omega), hbuf 0 (by omega)⟩, hin 0 (by omega), hbuf 0 (by omega)⟩
  · by_cases hk1 : k = 1
    · subst hk1
      obtain ⟨e0, e1, e2⟩ := ne10_factor_body_two st.factors
      simp only [pow_one] at e0 e1 e2 hidx hin hbuf ⊢
      simp only [ne10_mixed_radix_butterfly_float32_c,
        ne10_mixed_radix_butterfly_inverse_float32_c, e0]
      rw [show (2 * (1 : ℤ)).toNat = 2 from rfl, e2]
      simp only [show ¬ ((2 : ℤ) = 8) by decide, show ¬ ((2 : ℤ) = 4) by decide, if_false,
        if_true, Mem.write_apply, hin 0 (by omega), hin 1 (by omega)]
      have hb := hbuf idx hidx
      have hi : idx = 0 ∨ idx = 1 := by omega
      rcases hi with hi | hi
      · subst hi
        simp [hb]
      · subst hi
        simp [hb]
    · obtain ⟨r, b, hr, hrb⟩ := pow_two_cases k (by omega)
      have hrbZ : (2 : ℤ) ^ k = (r : ℤ) * 4 ^ b := by exact_mod_cast hrb
      have hr' : (r : ℤ) = 4 ∨ (r : ℤ) = 8 := by
        rcases hr with hr | hr <;> rw [hr] <;> simp
      rw [hrbZ] at hS ⊢
      rw [ne10_factor_stage_pow4 (r : ℤ) hr' b] at hS
      rw [hrb] at hidx hin hbuf htw
      exact ⟨butterfly_forward_reads_pow4 r b hr (by omega) st.factors TW_81 mem mem' tw tw'
          hin hbuf htw idx hidx,
        butterfly_inverse_reads_pow4 r b hr (by omega) st.factors TW_81 mem mem' tw tw'
          hin hbuf htw idx hidx⟩

/-- The r2c split reads the super-twiddle table only below `ncfft / 2`. -/
theorem split_r2c_tw_congr {R : Type} [Field R]
    (dst src tw1 tw2 : Nat → ne10_fft_cpx_float32_t R) (n : ℕ)
    (htw : ∀ j, j < n / 2 → tw1 j = tw2 j) :
    ne10_fft_split_r2c_1d_float32 dst src tw1 n = ne10_fft_split_r2c_1d_float32 dst src tw2 n := by
  unfold ne10_fft_split_r2c_1d_float32 split_r2c_loop
  apply List.foldl_ext
  intro d j hj
  rw [List.mem_range'_1] at hj
  simp only [split_r2c_body, split_r2c_store_k, split_r2c_store_nk, htw (j - 1) (by omega)]

/-- The c2r split reads the super-twiddle table only below `ncfft / 2`. -/
theorem split_c2r_tw_congr {R : Type} [Field R]
    (dst src tw1 tw2 : Nat → ne10_fft_cpx_float32_t R) (n : ℕ)
    (htw : ∀ j, j < n / 2 → tw1 j = tw2 j) :
    ne10_fft_split_c2r_1d_float32 dst src tw1 n = ne10_fft_split_c2r_1d_float32 dst src tw2 n := by
  unfold ne10_fft_split_c2r_1d_float32
  apply List.foldl_ext
  intro d j hj
  rw [List.mem_range'_1] at hj
  simp only [split_c2r_body, split_c2r_store_k, split_c2r_store_nk, htw (j - 1) (by omega)]

/-- The c2r split stores only at the indices `0 .. ncfft - 1`. -/
theorem split_c2r_frame {R : Type} [Field R] (dst src twiddles : Nat → ne10_fft_cpx_float32_t R)
    (n idx : ℕ) (hn : 1 ≤ n) (hidx : n ≤ idx) :
    ne10_fft_split_c2r_1d_float32 dst src twiddles n idx = dst idx := by
  unfold ne10_fft_split_c2r_1d_float32
  rw [foldl_frame (split_c2r_body src twiddles n) _ idx
    (by
      intro d j hj
      rw [List.mem_range'_1] at hj
      simp only [split_c2r_body]
      rw [Function.update_noteq (by omega), Function.update_noteq (by omega)]),
    Function.update_noteq (by omega)]

/-- C32: under the plan of a power of two `ncfft = 2 ^ k >= 1`: (writes) the forward and
the inverse butterfly leave every entry of every array from index `ncfft` on as it was;
(reads) what they leave below `ncfft` in `out` and in the scratch array does not change
when the input from index `ncfft` on, the twiddle table from index `ncfft` on, the
scratch array from index `ncfft` on and all of `out` are replaced by anything; the r2c
and the c2r split give the same result under any super-twiddle table that agrees with the
plan's below `ncfft / 2`; the r2c split leaves every entry beyond index `ncfft` as it
was, and the c2r split every entry from index `ncfft` on. -/
theorem ne10_fft_buffer_bounds {R : Type} [Field R] (pi : R) (cos sin : R → R) (k : ℕ)
    (st cfg : ne10_fft_r2c_state_float32_t R)
    (halloc : ne10_fft_alloc_r2c_float32 pi cos sin (some st) (2 * 2 ^ k) = some cfg)
    (TW_81 : R) (mem : Mem R) :
    cfg.ncfft = 2 ^ k ∧
    (∀ (b : Buf) (idx : ℕ), 2 ^ k ≤ idx →
      ne10_mixed_radix_butterfly_float32_c TW_81 mem cfg.factors cfg.twiddles b idx
        = mem b idx ∧
      ne10_mixed_radix_butterfly_inverse_float32_c TW_81 mem cfg.factors cfg.twiddles b idx
        = mem b idx) ∧
    (∀ (mem' : Mem R) (tw' : Nat → ne10_fft_cpx_float32_t R),
      (∀ idx, idx < 2 ^ k → mem Buf.input idx = mem' Buf.input idx) →
      (∀ idx, idx < 2 ^ k → mem Buf.buffer idx = mem' Buf.buffer idx) →
      (∀ i, i < 2 ^ k → cfg.twiddles i = tw' i) →
      ∀ idx, idx < 2 ^ k →
        (ne10_mixed_radix_butterfly_float32_c TW_81 mem cfg.factors cfg.twiddles Buf.out idx
          = ne10_mixed_radix_butterfly_float32_c TW_81 mem' cfg.factors tw' Buf.out idx ∧
        ne10_mixed_radix_butterfly_float32_c TW_81 mem cfg.factors cfg.twiddles Buf.buffer idx
          = ne10_mixed_radix_butterfly_float32_c TW_81 mem' cfg.factors tw' Buf.buffer idx) ∧
        (ne10_mixed_radix_butterfly_inverse_float32_c TW_81 mem cfg.factors cfg.twiddles
            Buf.out idx
          = ne10_mixed_radix_butterfly_inverse_float32_c TW_81 mem' cfg.factors tw'
            Buf.out idx ∧
        ne10_mixed_radix_butterfly_inverse_float32_c TW_81 mem cfg.factors cfg.twiddles
            Buf.buffer idx
          = ne10_mixed_radix_butterfly_inverse_float32_c TW_81 mem' cfg.factors tw'
            Buf.buffer idx)) ∧
    (∀ (dst src tw' : Nat → ne10_fft_cpx_float32_t R),
      (∀ j, j < cfg.ncfft.toNat / 2 → cfg.super_twiddles j = tw' j) →
      ne10_fft_split_r2c_1d_float32 dst src cfg.super_twiddles cfg.ncfft.toNat
        = ne10_fft_split_r2c_1d_float32 dst src tw' cfg.ncfft.toNat ∧
      ne10_fft_split_c2r_1d_float32 dst src cfg.super_twiddles cfg.ncfft.toNat
        = ne10_fft_split_c2r_1d_float32 dst src tw' cfg.ncfft.toNat) ∧
    (∀ (dst src : Nat → ne10_fft_cpx_float32_t R) (idx : ℕ),
      (cfg.ncfft.toNat < idx →
        ne10_fft_split_r2c_1d_float32 dst src cfg.super_twiddles cfg.ncfft.toNat idx
          = dst idx) ∧
      (cfg.ncfft.toNat ≤ idx →
        ne10_fft_split_c2r_1d_float32 dst src cfg.super_twiddles cfg.ncfft.toNat idx
          = dst idx)) := by
  have hnc : cfg.ncfft = 2 ^ k := by
    rw [(alloc_ncfft pi cos sin (some st) cfg _ halloc).2,
      Int.mul_ediv_cancel_left _ (by norm_num)]
  have hn : cfg.ncfft.toNat = 2 ^ k := by
    rw [hnc]
    exact_mod_cast Int.toNat_natCast (2 ^ k)
  have hpos : 1 ≤ 2 ^ k := Nat.one_le_two_pow
  refine ⟨hnc, ?_, ?_, ?_, ?_⟩
  · intro b idx hidx
    exact ⟨butterfly_forward_frame pi cos sin k st cfg halloc TW_81 mem b idx hidx,
      butterfly_inverse_frame pi cos sin k st cfg halloc TW_81 mem b idx hidx⟩
  · intro mem' tw' hin hbuf htw idx hidx
    exact butterfly_reads pi cos sin k st cfg halloc TW_81 mem mem' tw' hin hbuf htw idx hidx
  · intro dst src tw' htw
    exact ⟨split_r2c_tw_congr dst src _ tw' _ htw, split_c2r_tw_congr dst src _ tw' _ htw⟩
  · intro dst src idx
    rw [hn]
    exact ⟨fun h => split_r2c_frame dst src _ _ idx h,
      fun h => split_c2r_frame dst src _ _ idx hpos h⟩

/-- C32 at a concrete input: the plan of the real length 8 (`ncfft = 4`) on the zero
block, on arrays holding `(j, 1)` at index `j`. -/
theorem ne10_fft_buffer_bounds_witness :
    ∃ cfg : ne10_fft_r2c_state_float32_t ℝ,
      ne10_fft_alloc_r2c_float32 Real.pi Real.cos Real.sin (some (zero_block ℝ)) (2 * 2 ^ 2)
        = some cfg ∧
      cfg.ncfft = 2 ^ 2 ∧
      (∀ (b : Buf) (idx : ℕ), 2 ^ 2 ≤ idx →
        ne10_mixed_radix_butterfly_float32_c (Real.sqrt 2 / 2) (fun _ j => ⟨(j : ℝ), 1⟩)
            cfg.factors cfg.twiddles b idx
          = (fun (_ : Buf) (j : ℕ) => (⟨(j : ℝ), 1⟩ : ne10_fft_cpx_float32_t ℝ)) b idx ∧
        ne10_mixed_radix_butterfly_inverse_float32_c (Real.sqrt 2 / 2)
            (fun _ j => ⟨(j : ℝ), 1⟩) cfg.factors cfg.twiddles b idx
          = (fun (_ : Buf) (j : ℕ) => (⟨(j : ℝ), 1⟩ : ne10_fft_cpx_float32_t ℝ)) b idx) := by
  obtain ⟨cfg, h⟩ := alloc_pow2_some (zero_block ℝ) 2 (by norm_num)
  have e : (2 : ℤ) ^ (2 + 1) = 2 * 2 ^ 2 := by norm_num
  rw [e] at h
  exact ⟨cfg, h,
    (ne10_fft_buffer_bounds Real.pi Real.cos Real.sin 2 (zero_block ℝ) cfg h
      (Real.sqrt 2 / 2) (fun _ j => ⟨(j : ℝ), 1⟩)).1,
    (ne10_fft_buffer_bounds Real.pi Real.cos Real.sin 2 (zero_block ℝ) cfg h
      (Real.sqrt 2 / 2) (fun _ j => ⟨(j : ℝ), 1⟩)).2.1⟩


/-! ## The inverse butterfly is the conjugate of the forward butterfly -/

section ConjKernels

variable {R : Type} [CommRing R]

/-- The inverse radix-4 butterfly is the conjugate of the forward one on conjugate
inputs. -/
theorem radix4_butterfly_conj (a0 a1 a2 a3 c0 c1 c2 c3 : ne10_fft_cpx_float32_t R)
    (h0 : ConjRel a0 c0) (h1 : ConjRel a1 c1) (h2 : ConjRel a2 c2) (h3 : ConjRel a3 c3)
    (q : ℕ) (hq : q < 4) :
    ConjRel (radix4_butterfly_inverse a0 a1 a2 a3 q) (radix4_butterfly_forward c0 c1 c2 c3 q) := by
  obtain ⟨h0r, h0i⟩ := h0
  obtain ⟨h1r, h1i⟩ := h1
  obtain ⟨h2r, h2i⟩ := h2
  obtain ⟨h3r, h3i⟩ := h3
  interval_cases q <;> refine ⟨?_, ?_⟩ <;>
    simp only [radix4_butterfly_inverse, radix4_butterfly_forward, h0r, h0i, h1r, h1i, h2r,
      h2i, h3r, h3i] <;> ring

/-- The inverse radix-8 butterfly is the conjugate of the forward one on conjugate
inputs, whatever the constant `TW_81`. -/
theorem radix8_butterfly_conj (TW_81 : R)
    (a0 a1 a2 a3 a4 a5 a6 a7 c0 c1 c2 c3 c4 c5 c6 c7 : ne10_fft_cpx_float32_t R)
    (h0 : ConjRel a0 c0) (h1 : ConjRel a1 c1) (h2 : ConjRel a2 c2) (h3 : ConjRel a3 c3)
    (h4 : ConjRel a4 c4) (h5 : ConjRel a5 c5) (h6 : ConjRel a6 c6) (h7 : ConjRel a7 c7)
    (q : ℕ) (hq : q < 8) :
    ConjRel (radix8_butterfly_inverse TW_81 a0 a1 a2 a3 a4 a5 a6 a7 q)
      (radix8_butterfly_forward TW_81 c0 c1 c2 c3 c4 c5 c6 c7 q) := by
  obtain ⟨h0r, h0i⟩ := h0
  obtain ⟨h1r, h1i⟩ := h1
  obtain ⟨h2r, h2i⟩ := h2
  obtain ⟨h3r, h3i⟩ := h3
  obtain ⟨h4r, h4i⟩ := h4
  obtain ⟨h5r, h5i⟩ := h5
  obtain ⟨h6r, h6i⟩ := h6
  obtain ⟨h7r, h7i⟩ := h7
  interval_cases q <;> refine ⟨?_, ?_⟩ <;>
    simp only [radix8_butterfly_inverse, radix8_butterfly_forward, h0r, h0i, h1r, h1i, h2r,
      h2i, h3r, h3i, h4r, h4i, h5r, h5i, h6r, h6i, h7r, h7i] <;> ring

/-- The inverse radix-4 butterfly with twiddles is the conjugate of the forward one on
conjugate inputs, under the same twiddles. -/
theorem radix4_twiddle_butterfly_conj (n : ℕ) (tw : Nat → ne10_fft_cpx_float32_t R) :
    KernelRel n ConjRel ConjRel radix4_twiddle_butterfly_inverse
      radix4_twiddle_butterfly_forward tw tw := by
  intro i0 i1 i2 _ _ _ a0 a1 a2 a3 c0 c1 c2 c3 h0 h1 h2 h3 q hq
  obtain ⟨h0r, h0i⟩ := h0
  obtain ⟨h1r, h1i⟩ := h1
  obtain ⟨h2r, h2i⟩ := h2
  obtain ⟨h3r, h3i⟩ := h3
  interval_cases q <;> refine ⟨?_, ?_⟩ <;>
    simp only [radix4_twiddle_butterfly_inverse, radix4_twiddle_butterfly_forward, h0r, h0i,
      h1r, h1i, h2r, h2i, h3r, h3i] <;> ring

/-- The scaled inverse radix-4 butterfly with twiddles of the last stage is the scaled
conjugate of the forward one on conjugate inputs. -/
theorem radix4_twiddle_butterfly_scaled_conj (n : ℕ) (s : R)
    (tw : Nat → ne10_fft_cpx_float32_t R) :
    KernelRel n ConjRel (ScaledConjRel s) (radix4_twiddle_butterfly_inverse_scaled s)
      radix4_twiddle_butterfly_forward tw tw := by
  intro i0 i1 i2 _ _ _ a0 a1 a2 a3 c0 c1 c2 c3 h0 h1 h2 h3 q hq
  obtain ⟨h0r, h0i⟩ := h0
  obtain ⟨h1r, h1i⟩ := h1
  obtain ⟨h2r, h2i⟩ := h2
  obtain ⟨h3r, h3i⟩ := h3
  interval_cases q <;> refine ⟨?_, ?_⟩ <;>
    simp only [radix4_twiddle_butterfly_inverse_scaled, radix4_twiddle_butterfly_forward,
      h0r, h0i, h1r, h1i, h2r, h2i, h3r, h3i] <;> ring

end ConjKernels

/-- On the factor table of `r * 4 ^ b` (`r` 4 or 8), with any twiddle table and any
`TW_81`: on conjugate inputs, each of the first `r * 4 ^ b` outputs of the inverse
butterfly is the conjugate of the forward butterfly's, scaled by `one_by_nfft`. -/
theorem butterfly_conj_pow4 {R : Type} [Field R] (r b : ℕ) (hr : r = 4 ∨ r = 8)
    (hb : b + 1 ≤ 21) (buf : Nat → Int) (TW_81 : R) (mem mem' : Mem R)
    (tw : Nat → ne10_fft_cpx_float32_t R)
    (hin : ∀ idx, idx < r * 4 ^ b → ConjRel (mem Buf.input idx) (mem' Buf.input idx))
    (idx : ℕ) (hidx : idx < r * 4 ^ b) :
    ScaledConjRel (1 / ((((4 ^ b : ℕ) : ℤ) * (r : ℤ) : ℤ) : R))
      (ne10_mixed_radix_butterfly_inverse_float32_c TW_81 mem
        (ne10_factor_body ((r : ℤ) * 4 ^ b) buf NE10_FACTOR_EIGHT_FIRST_STAGE).2 tw Buf.out idx)
      (ne10_mixed_radix_butterfly_float32_c TW_81 mem'
        (ne10_factor_body ((r : ℤ) * 4 ^ b) buf NE10_FACTOR_EIGHT_FIRST_STAGE).2 tw
        Buf.out idx) := by
  have hr' : (r : ℤ) = 4 ∨ (r : ℤ) = 8 := by
    rcases hr with hr | hr <;> rw [hr] <;> simp
  obtain ⟨e0, e1, eu, er⟩ := ne10_factor_body_pow4 (r : ℤ) hr' b hb buf
  rw [show 2 * (1 + b) = 2 * (b + 1) by ring] at er
  rw [butterfly_forward_stages_eq _ r b hr e0 (by rw [e1]; push_cast; rfl) er]
  by_cases hb0 : b = 0
  · subst hb0
    rw [butterfly_inverse_single_eq _ r hr e0 (by rw [e1]; norm_num) er, Nat.cast_zero,
      butterfly_stages_zero]
    rw [pow_zero, Nat.mul_one] at hidx hin
    rw [(scale_first_stage_closed _ r _).2.1 idx hidx]
    have hfirst : ConjRel
        ((if r = 8 then first_stage_radix8 (radix8_butterfly_inverse TW_81) (4 ^ 0) mem
          else first_stage_radix4 radix4_butterfly_inverse (4 ^ 0) mem) Buf.out idx)
        ((if r = 8 then first_stage_radix8 (radix8_butterfly_forward TW_81) (4 ^ 0) mem'
          else first_stage_radix4 radix4_butterfly_forward (4 ^ 0) mem') Buf.out idx) := by
      rcases hr with hr | hr
      · subst hr
        rw [if_neg (by norm_num), if_neg (by norm_num)]
        exact first_stage_radix4_rel ConjRel ConjRel _ _ _ mem mem' radix4_butterfly_conj
          (fun j hj => hin j (by rw [pow_zero] at hj; omega)) idx (by rw [pow_zero]; omega)
      · subst hr
        rw [if_pos rfl, if_pos rfl]
        exact first_stage_radix8_rel ConjRel ConjRel _ _ _ mem mem'
          (radix8_butterfly_conj TW_81)
          (fun j hj => hin j (by rw [pow_zero] at hj; omega)) idx (by rw [pow_zero]; omega)
    obtain ⟨h1, h2⟩ := hfirst
    exact ⟨by rw [h1], by rw [h2, neg_neg]⟩
  · have hlast := (eu (b - 1) (by omega)).2
    rw [show 2 * (1 + (b - 1)) + 1 = 2 * (b + 1) - 1 by omega,
      show b - 1 - (b - 1) = 0 by omega, pow_zero, mul_one] at hlast
    rw [butterfly_inverse_stages_eq _ r b hr (by omega) e0 (by rw [e1]; push_cast; rfl) er,
      hlast, Int.toNat_natCast]
    exact (butterfly_pow4_rel ConjRel ConjRel (fun _ _ => True)
      (ScaledConjRel (1 / ((((4 ^ b : ℕ) : ℤ) * (r : ℤ) : ℤ) : R))) (fun _ _ _ => trivial)
      (radix8_butterfly_inverse TW_81) (radix8_butterfly_forward TW_81)
      radix4_butterfly_inverse radix4_butterfly_forward
      radix4_twiddle_butterfly_inverse radix4_twiddle_butterfly_forward
      (radix4_twiddle_butterfly_inverse_scaled (1 / ((((4 ^ b : ℕ) : ℤ) * (r : ℤ) : ℤ) : R)))
      radix4_twiddle_butterfly_forward tw tw r b hr (by omega) mem mem'
      (radix8_butterfly_conj TW_81) radix4_butterfly_conj
      (radix4_twiddle_butterfly_conj _ tw) (radix4_twiddle_butterfly_scaled_conj _ _ tw)
      hin (fun _ _ => trivial)).1 idx hidx

/-- Under the plan of a power of two `ncfft = 2 ^ k`, with any twiddle table and any
`TW_81`: on conjugate inputs, each of the first `ncfft` outputs of the inverse butterfly
is the conjugate of the forward butterfly's, scaled by `1 / ncfft`. -/
theorem butterfly_conj_plan {R : Type} [Field R] (pi : R) (cos sin : R → R) (k : ℕ)
    (st cfg : ne10_fft_r2c_state_float32_t R)
    (halloc : ne10_fft_alloc_r2c_float32 pi cos sin (some st) (2 * 2 ^ k) = some cfg)
    (TW_81 : R) (mem mem' : Mem R) (tw : Nat → ne10_fft_cpx_float32_t R)
    (hin : ∀ idx, idx < 2 ^ k → ConjRel (mem Buf.input idx) (mem' Buf.input idx))
    (idx : ℕ) (hidx : idx < 2 ^ k) :
    ScaledConjRel (1 / (((2 ^ k : ℕ) : R)))
      (ne10_mixed_radix_butterfly_inverse_float32_c TW_81 mem cfg.factors tw Buf.out idx)
      (ne10_mixed_radix_butterfly_float32_c TW_81 mem' cfg.factors tw Buf.out idx) := by
  obtain ⟨_, hS, hcfg⟩ := alloc_eq_some _ _ _ _ _ _ halloc
  have hhalf : (2 * 2 ^ k : ℤ) / 2 = 2 ^ k := by
    rw [Int.mul_ediv_cancel_left _ (by norm_num)]
  rw [hhalf] at hS hcfg
  subst hcfg
  simp only
  by_cases hk0 : k = 0
  · subst hk0
    obtain ⟨e0, _, e2⟩ := ne10_factor_body_one st.factors
    simp only [pow_zero] at e0 e2 hidx hin ⊢
    have hr : (ne10_factor_body 1 st.factors NE10_FACTOR_EIGHT_FIRST_STAGE).2
        (2 * (ne10_factor_body 1 st.factors NE10_FACTOR_EIGHT_FIRST_STAGE).2 0).toNat = 1 := by
      rw [e0]
      exact e2
    rw [butterfly_forward_other_radix _ mem' _ _ (by rw [hr]; decide) (by rw [hr]; decide)
        (by rw [hr]; decide),
      butterfly_inverse_other_radix _ mem _ _ (by rw [hr]; decide) (by rw [hr]; decide)
        (by rw [hr]; decide)]
    have hi0 : idx = 0 := by omega
    subst hi0
    rw [Mem.write_apply, Mem.write_apply, if_pos ⟨rfl, rfl⟩, if_pos ⟨rfl, rfl⟩]
    obtain ⟨h1, h2⟩ := hin 0 (by omega)
    exact ⟨by rw [h1]; simp, by rw [h2]; simp⟩
  · by_cases hk1 : k = 1
    · subst hk1
      obtain ⟨e0, e1, e2⟩ := ne10_factor_body_two st.factors
      simp only [pow_one] at e0 e1 e2 hidx hin ⊢
      obtain ⟨h0r, h0i⟩ := hin 0 (by omega)
      obtain ⟨h1r, h1i⟩ := hin 1 (by omega)
      simp only [ne10_mixed_radix_butterfly_float32_c,
        ne10_mixed_radix_butterfly_inverse_float32_c, e0, e1]
      rw [show (2 * (1 : ℤ)).toNat = 2 from rfl, e2]
      simp only [show ¬ ((2 : ℤ) = 8) by decide, show ¬ ((2 : ℤ) = 4) by decide, if_false,
        if_true, Mem.write_apply, h0r, h0i, h1r, h1i]
      have hc : (((((1 : ℤ).toNat : ℕ) : ℤ) * 2 : ℤ) : R) = ((2 : ℕ) : R) := by norm_num
      have hi : idx = 0 ∨ idx = 1 := by omega
      rcases hi with hi | hi
      · subst hi
        simp only [ScaledConjRel, true_and, and_self, and_true, if_true, if_false,
          show ¬ ((0 : ℕ) = 1) by decide, and_false, hc]
        ring
      · subst hi
        simp only [ScaledConjRel, true_and, and_self, and_true, if_true, if_false,
          show ¬ ((0 : ℕ) = 1) by decide, and_false, hc]
        ring
    · obtain ⟨r, b, hr, hrb⟩ := pow_two_cases k (by omega)
      have hrbZ : (2 : ℤ) ^ k = (r : ℤ) * 4 ^ b := by exact_mod_cast hrb
      have hr' : (r : ℤ) = 4 ∨ (r : ℤ) = 8 := by
        rcases hr with hr | hr <;> rw [hr] <;> simp
      rw [hrbZ] at hS ⊢
      rw [ne10_factor_stage_pow4 (r : ℤ) hr' b] at hS
      rw [hrb] at hidx hin
      have hc : (1 : R) / (((2 ^ k : ℕ) : R)) = 1 / ((((4 ^ b : ℕ) : ℤ) * (r : ℤ) : ℤ) : R) := by
        rw [hrb]
        push_cast
        ring
      rw [hc]
      exact butterfly_conj_pow4 r b hr (by omega) st.factors TW_81 mem mem' tw hin idx hidx

/-- C33: under the plan of a power of two `n = 2 ^ k`, for every twiddle table (in
particular the plan's), every real `TW_81` and every complex input `x`: if the forward
butterfly is run on the conjugated input, `in'[j] = conj (in[j])` for `j < n`, then for
every `idx < n` the output of the inverse butterfly at `idx` is
`(1 / n) * conj (forward(conj x)[idx])`. -/
theorem ne10_butterfly_conj_duality (pi : ℝ) (cos sin : ℝ → ℝ) (k : ℕ)
    (st cfg : ne10_fft_r2c_state_float32_t ℝ)
    (halloc : ne10_fft_alloc_r2c_float32 pi cos sin (some st) (2 * 2 ^ k) = some cfg)
    (TW_81 : ℝ) (tw : Nat → ne10_fft_cpx_float32_t ℝ) (mem mem' : Mem ℝ)
    (hconj : ∀ j, j < 2 ^ k →
      toC (mem' Buf.input j) = (starRingEnd ℂ) (toC (mem Buf.input j)))
    (idx : ℕ) (hidx : idx < 2 ^ k) :
    toC (ne10_mixed_radix_butterfly_inverse_float32_c TW_81 mem cfg.factors tw Buf.out idx)
      = (1 / ((2 ^ k : ℕ) : ℂ))
        * (starRingEnd ℂ)
            (toC (ne10_mixed_radix_butterfly_float32_c TW_81 mem' cfg.factors tw Buf.out idx)) := by
  have hin : ∀ j, j < 2 ^ k → ConjRel (mem Buf.input j) (mem' Buf.input j) := by
    intro j hj
    have h := hconj j hj
    have hre := congrArg Complex.re h
    have him := congrArg Complex.im h
    simp only [toC, Complex.conj_re, Complex.conj_im] at hre him
    exact ⟨hre, him⟩
  obtain ⟨h1, h2⟩ := butterfly_conj_plan pi cos sin k st cfg halloc TW_81 mem mem' tw hin
    idx hidx
  have hc : (1 / ((2 ^ k : ℕ) : ℂ)) = (((1 / ((2 ^ k : ℕ) : ℝ)) : ℝ) : ℂ) := by
    push_cast
    rfl
  rw [hc]
  apply Complex.ext
  · rw [Complex.re_ofReal_mul, Complex.conj_re]
    simp only [toC]
    rw [h1]
    ring
  · rw [Complex.im_ofReal_mul, Complex.conj_im]
    simp only [toC]
    rw [h2]
    ring

/-- C33 at a concrete input: the plan of the real length 8 (`n = 4`) on the zero block,
the plan's twiddle table, the input `(j, 1)` and its conjugate `(j, -1)`, output 3. -/
theorem ne10_butterfly_conj_duality_witness :
    ∃ cfg : ne10_fft_r2c_state_float32_t ℝ,
      ne10_fft_alloc_r2c_float32 Real.pi Real.cos Real.sin (some (zero_block ℝ)) (2 * 2 ^ 2)
        = some cfg ∧
      toC (ne10_mixed_radix_butterfly_inverse_float32_c (Real.sqrt 2 / 2)
          (fun _ j => ⟨(j : ℝ), 1⟩) cfg.factors cfg.twiddles Buf.out 3)
        = (1 / ((2 ^ 2 : ℕ) : ℂ))
          * (starRingEnd ℂ)
              (toC (ne10_mixed_radix_butterfly_float32_c (Real.sqrt 2 / 2)
                (fun _ j => ⟨(j : ℝ), -1⟩) cfg.factors cfg.twiddles Buf.out 3)) := by
  obtain ⟨cfg, h⟩ := alloc_pow2_some (zero_block ℝ) 2 (by norm_num)
  have e : (2 : ℤ) ^ (2 + 1) = 2 * 2 ^ 2 := by norm_num
  rw [e] at h
  exact ⟨cfg, h, ne10_butterfly_conj_duality Real.pi Real.cos Real.sin 2 (zero_block ℝ) cfg h
    (Real.sqrt 2 / 2) cfg.twiddles (fun _ j => ⟨(j : ℝ), 1⟩) (fun _ j => ⟨(j : ℝ), -1⟩)
    (fun j _ => Complex.ext (by simp [toC]) (by simp [toC])) 3 (by norm_num)⟩

end NE10
